import Mathlib

/-!
Bitcask-go: a shallow embedding of the storage engine.

The definitions below follow the Go sources (`data/log_record.go`,
`data/data_file.go`, `index/btree.go`, `db.go`, `batch.go`).  A file is the
list of its bytes, a file handle carries the bytes of the file it is opened on,
`[]byte` is `List UInt8`, `int64` quantities are `Int`, `uint32` file ids are
`Nat` (wrap-around after `2^32` file rotations is not modelled), `float32` is
the type `Float32` below, and a function
that can fail returns `Except Error _`.  Run-time panics of the Go program are
the error value `Error.Panic`.
-/

namespace Bitcask

/-- A byte string (`[]byte`). -/
abbrev Bytes := List UInt8

/-- Error values of the engine (`error.go`, `data_file.go`), `io.EOF`, an
operating-system I/O error, an error of `strconv`, the errors of
`checkOptions`, and a run-time panic.  `OutOfFuel` is not a value of the Go
program: it marks a loop of this embedding that used up its fuel.  `NilIndex` is
not one either: it stands for the engine `OpenDB` returns for the index type
`BPLusTree`, whose index is the nil interface value (every call on it is a
run-time panic) and which is not a value of the type `DB` of this embedding. -/
inductive Error where
  | ErrKeyisEmpty
  | ErrIndexUpdataFailed
  | ErrKeyNotFound
  | ErrDataFileNotFound
  | ErrDatatDirectoryCorrupted
  | ErrExceedMaxBatchNum
  | ErrMergeIsProcess
  | ErrDatabaseIsUsing
  | ErrMergeRatioUnreached
  | ErrNoEnoughSpaceForMerge
  | ErrInvalidCRC
  | EOF
  | ErrOS
  | ErrParse
  | ErrInvalidOptions
  | Panic
  | OutOfFuel
  | NilIndex
  deriving DecidableEq, Repr

deriving instance DecidableEq for Except

/-! ## `encoding/binary` of the Go standard library -/

def MaxVarintLen32 : Nat := 5

def MaxVarintLen64 : Nat := 10

/-- Loop of `binary.PutUvarint`: seven bits per byte, least significant group
first, the top bit set on every byte but the last.  A `uint64` needs at most ten
bytes, so nine continuation steps are enough fuel. -/
def putUvarintLoop : Nat → Nat → Bytes
  | 0, x => [UInt8.ofNat x]
  | fuel + 1, x =>
    if x < 0x80 then [UInt8.ofNat x]
    else UInt8.ofNat (x % 0x80 + 0x80) :: putUvarintLoop fuel (x / 0x80)

/-- The bytes `binary.PutUvarint` writes for the `uint64` value `x`. -/
def PutUvarint (x : Nat) : Bytes := putUvarintLoop 9 x

/-- Loop of `binary.Uvarint` over the remaining bytes: `i` is the index of the
next byte, `x` the value accumulated so far and `s` the current shift. -/
def uvarintLoop : Bytes → Nat → Nat → Nat → Nat × Int
  | [], _, _, _ => (0, 0)
  | b :: rest, i, x, s =>
    if i = MaxVarintLen64 then (0, -((i : Int) + 1))
    else if b.toNat < 0x80 then
      if i = MaxVarintLen64 - 1 ∧ b.toNat > 1 then (0, -((i : Int) + 1))
      else ((x + b.toNat * 2 ^ s) % 2 ^ 64, (i : Int) + 1)
    else uvarintLoop rest (i + 1) ((x + (b.toNat % 0x80) * 2 ^ s) % 2 ^ 64) (s + 7)

/-- Function `binary.Uvarint`: the decoded `uint64` and the number of bytes read
(`0` when the buffer is too small, negative on overflow). -/
def Uvarint (buf : Bytes) : Nat × Int := uvarintLoop buf 0 0 0

/-- The bytes `binary.PutVarint` writes for the `int64` value `x` (zig-zag
encoding followed by `PutUvarint`). -/
def PutVarint (x : Int) : Bytes :=
  PutUvarint (if x < 0 then (2 * (-x) - 1).toNat else (2 * x).toNat)

/-- Function `binary.Varint`: the decoded `int64` and the number of bytes read. -/
def Varint (buf : Bytes) : Int × Int :=
  let r := Uvarint buf
  (if r.1 % 2 = 1 then -((r.1 / 2 : Nat) : Int) - 1 else ((r.1 / 2 : Nat) : Int), r.2)

/-- Conversion `uint32(x)` of an `int64`. -/
def toUint32 (x : Int) : Nat := (x % 2 ^ 32).toNat

/-- Function `binary.LittleEndian.PutUint32`. -/
def putUint32LE (v : Nat) : Bytes :=
  [UInt8.ofNat (v % 256), UInt8.ofNat (v / 2 ^ 8 % 256), UInt8.ofNat (v / 2 ^ 16 % 256),
    UInt8.ofNat (v / 2 ^ 24 % 256)]

/-- Function `binary.LittleEndian.Uint32` on a four-byte slice. -/
def uint32LE (b : Bytes) : Nat :=
  (b.getD 0 0).toNat + (b.getD 1 0).toNat * 2 ^ 8 + (b.getD 2 0).toNat * 2 ^ 16 +
    (b.getD 3 0).toNat * 2 ^ 24

/-! ## `hash/crc32` of the Go standard library (IEEE polynomial) -/

/-- The reversed IEEE polynomial `crc32.IEEE`. -/
def IEEE : Nat := 0xedb88320

/-- One bit step of `simplePopulateTable`. -/
def crcBit (crc : Nat) : Nat :=
  if crc % 2 = 1 then (crc / 2) ^^^ IEEE else crc / 2

/-- Entry `i` of `crc32.IEEETable`. -/
def IEEETable (i : Nat) : Nat :=
  crcBit (crcBit (crcBit (crcBit (crcBit (crcBit (crcBit (crcBit i)))))))

/-- One byte step of `simpleUpdate`: `crc = tab[byte(crc)^v] ^ (crc >> 8)`. -/
def crcStep (crc : Nat) (v : UInt8) : Nat :=
  IEEETable ((crc % 256) ^^^ v.toNat) ^^^ (crc / 256)

/-- Function `crc32.Update` with the IEEE table. -/
def crc32Update (crc : Nat) (p : Bytes) : Nat :=
  (p.foldl crcStep (crc ^^^ 0xffffffff)) ^^^ 0xffffffff

/-- Function `crc32.ChecksumIEEE`. -/
def ChecksumIEEE (data : Bytes) : Nat := crc32Update 0 data

/-! ## `data/log_record.go` -/

abbrev LogRecordType := UInt8

def LogRecordNormal : LogRecordType := 0

def LogRecordDeleted : LogRecordType := 1

def LogRecordTxnFinished : LogRecordType := 2

def maxLogRecordHeaderSize : Nat := MaxVarintLen32 * 2 + 5

/-- A record of the log. -/
structure LogRecord where
  Key : Bytes
  Value : Bytes
  Typ : LogRecordType
  deriving DecidableEq, Repr

/-- The decoded header of a record. -/
structure LogRecordHeader where
  crc : Nat
  recordType : LogRecordType
  keySize : Nat
  valueSize : Nat
  deriving DecidableEq, Repr

/-- The place of a record on disk. -/
structure LogRecordPos where
  Fid : Nat
  Offset : Int
  Size : Nat
  deriving DecidableEq, Repr

/-- A record buffered during replay together with its place. -/
structure TransactionReocrd where
  Record : LogRecord
  Pos : LogRecordPos
  deriving DecidableEq, Repr

/-- Function `EncodeLogRecord`: the encoded bytes and their number.  The two
length varints are written into the 15-byte header scratch; writing past its
end is a run-time panic. -/
def EncodeLogRecord (logRecord : LogRecord) : Except Error (Bytes × Int) :=
  let ks := PutVarint (logRecord.Key.length : Int)
  let vs := PutVarint (logRecord.Value.length : Int)
  if 5 + ks.length + vs.length > maxLogRecordHeaderSize then .error .Panic
  else
    let body := logRecord.Typ :: (ks ++ vs ++ logRecord.Key ++ logRecord.Value)
    let enc := putUint32LE (ChecksumIEEE body) ++ body
    .ok (enc, (enc.length : Int))

/-- Function `EncodeLogRecordPos`: three signed varints. -/
def EncodeLogRecordPos (pos : LogRecordPos) : Bytes :=
  PutVarint (pos.Fid : Int) ++ PutVarint pos.Offset ++ PutVarint (pos.Size : Int)

/-- Go slice expression `buf[index:]`; out of range is a run-time panic. -/
def sliceFrom (buf : Bytes) (index : Int) : Except Error Bytes :=
  if index < 0 ∨ (buf.length : Int) < index then .error .Panic
  else .ok (buf.drop index.toNat)

/-- Go slice expression `buf[lo:hi]`; out of range is a run-time panic. -/
def slice (buf : Bytes) (lo hi : Int) : Except Error Bytes :=
  if lo < 0 ∨ hi < lo ∨ (buf.length : Int) < hi then .error .Panic
  else .ok ((buf.take hi.toNat).drop lo.toNat)

/-- Function `DecodeLogRecordPos`. -/
def DecodeLogRecordPos (buf : Bytes) : Except Error LogRecordPos :=
  let r1 := Varint buf
  match sliceFrom buf r1.2 with
  | .error e => .error e
  | .ok buf2 =>
    let r2 := Varint buf2
    match sliceFrom buf (r1.2 + r2.2) with
    | .error e => .error e
    | .ok buf3 =>
      let r3 := Varint buf3
      .ok { Fid := toUint32 r1.1, Offset := r2.1, Size := toUint32 r3.1 }

/-- Function `decodeLogRecordHeader`: `none` is the nil header returned for a
buffer of at most four bytes. -/
def decodeLogRecordHeader (buf : Bytes) : Except Error (Option LogRecordHeader × Int) :=
  if buf.length ≤ 4 then .ok (none, 0)
  else
    let crc := uint32LE (buf.take 4)
    let recordType := buf.getD 4 0
    let r1 := Varint (buf.drop 5)
    let index : Int := 5 + r1.2
    match sliceFrom buf index with
    | .error e => .error e
    | .ok rest =>
      let r2 := Varint rest
      .ok (some { crc := crc, recordType := recordType, keySize := toUint32 r1.1,
                  valueSize := toUint32 r2.1 }, index + r2.2)

/-- Function `getLogRecordCRC` (its record argument is never nil here). -/
def getLogRecordCRC (lr : LogRecord) (header : Bytes) : Nat :=
  crc32Update (crc32Update (ChecksumIEEE header) lr.Key) lr.Value

/-! ## `data/data_file.go` -/

/-- A data file handle.  `IoManager` is the content of the file the handle is
opened on; `Write` appends to it. -/
structure DataFile where
  FileId : Nat
  WriteOff : Int
  IoManager : Bytes
  deriving DecidableEq, Repr

/-- Method `readNBytes`: `make([]byte, n)` followed by `ReadAt`, which reports
`io.EOF` when fewer than `n` bytes are available. -/
def DataFile.readNBytes (df : DataFile) (n : Int) (offset : Int) : Except Error Bytes :=
  if n < 0 then .error .Panic
  else if offset < 0 then .error .ErrOS
  else
    let b := (df.IoManager.drop offset.toNat).take n.toNat
    if b.length < n.toNat then .error .EOF else .ok b

/-- Method `ReadLogRecord`: the record at `offset` and its encoded size. -/
def DataFile.ReadLogRecord (df : DataFile) (offset : Int) : Except Error (LogRecord × Int) :=
  let fileSize : Int := df.IoManager.length
  let headerBytes : Int :=
    if (maxLogRecordHeaderSize : Int) + offset > fileSize then fileSize - offset
    else maxLogRecordHeaderSize
  match df.readNBytes headerBytes offset with
  | .error e => .error e
  | .ok headerBuf =>
    match decodeLogRecordHeader headerBuf with
    | .error e => .error e
    | .ok (none, _) => .error .EOF
    | .ok (some header, headerSize) =>
      if header.crc = 0 ∧ header.keySize = 0 ∧ header.valueSize = 0 then .error .EOF
      else
        let keySize : Int := header.keySize
        let valueSize : Int := header.valueSize
        let recordSize := headerSize + keySize + valueSize
        let kv : Except Error (Bytes × Bytes) :=
          if keySize > 0 ∨ valueSize > 0 then
            match df.readNBytes (keySize + valueSize) (offset + headerSize) with
            | .error e => .error e
            | .ok kvBuf => .ok (kvBuf.take header.keySize, kvBuf.drop header.keySize)
          else .ok ([], [])
        match kv with
        | .error e => .error e
        | .ok (key, value) =>
          let logRecord : LogRecord := { Key := key, Value := value, Typ := header.recordType }
          match slice headerBuf 4 headerSize with
          | .error e => .error e
          | .ok hdr =>
            if getLogRecordCRC logRecord hdr ≠ header.crc then .error .ErrInvalidCRC
            else .ok (logRecord, recordSize)

/-- What `ReadLogRecord` finds at the place where the encoding of `r` was
written: the lengths pass through `uint32`, the end-of-file test and the CRC test
are applied to what was decoded. -/
def readBack (r : LogRecord) : Except Error (LogRecord × Int) :=
  let ks := PutVarint (r.Key.length : Int)
  let vs := PutVarint (r.Value.length : Int)
  let ksz := r.Key.length % 2 ^ 32
  let vsz := r.Value.length % 2 ^ 32
  let crc := ChecksumIEEE (r.Typ :: (ks ++ vs ++ r.Key ++ r.Value))
  let kvBuf := (r.Key ++ r.Value).take (ksz + vsz)
  if crc = 0 ∧ ksz = 0 ∧ vsz = 0 then .error .EOF
  else if ChecksumIEEE ((r.Typ :: (ks ++ vs)) ++ kvBuf.take ksz ++ kvBuf.drop ksz) ≠ crc then
    .error .ErrInvalidCRC
  else .ok ({ Key := kvBuf.take ksz, Value := kvBuf.drop ksz, Typ := r.Typ },
            ((5 + ks.length + vs.length + ksz + vsz : Nat) : Int))

/-- Method `Write`: append to the file and advance the write offset. -/
def DataFile.Write (df : DataFile) (buf : Bytes) : DataFile :=
  { df with IoManager := df.IoManager ++ buf, WriteOff := df.WriteOff + buf.length }

/-! ## Go maps -/

/-- Lookup `m[k]` in a map kept as a list of entries with distinct keys. -/
def mapGet {κ α : Type} [DecidableEq κ] : List (κ × α) → κ → Option α
  | [], _ => none
  | (k', v) :: m, k => if k' = k then some v else mapGet m k

/-- Removal `delete(m, k)`. -/
def mapDelete {κ α : Type} [DecidableEq κ] (m : List (κ × α)) (k : κ) : List (κ × α) :=
  m.filter (fun e => decide (e.1 ≠ k))

/-- Assignment `m[k] = v`. -/
def mapSet {κ α : Type} [DecidableEq κ] (m : List (κ × α)) (k : κ) (v : α) : List (κ × α) :=
  (k, v) :: mapDelete m k

/-! ## `index/btree.go` -/

/-- Function `bytes.Compare`. -/
def bytesCompare : Bytes → Bytes → Ordering
  | [], [] => .eq
  | [], _ :: _ => .lt
  | _ :: _, [] => .gt
  | a :: as, b :: bs =>
    if a.toNat < b.toNat then .lt
    else if b.toNat < a.toNat then .gt
    else bytesCompare as bs

/-- An item of the ordered tree: a key and the place of its record. -/
structure Item where
  key : Bytes
  pos : LogRecordPos
  deriving DecidableEq, Repr

/-- Method `Item.Less`: `bytes.Compare(ai.key, bi.key) == -1`. -/
def Item.Less (ai bi : Item) : Bool := decide (bytesCompare ai.key bi.key = .lt)

/-- The `google/btree` tree, kept as the list of its items in ascending order:
`ReplaceOrInsert` on that list. -/
def treeReplaceOrInsert (it : Item) : List Item → List Item × Option Item
  | [] => ([it], none)
  | x :: xs =>
    if it.Less x then (it :: x :: xs, none)
    else if x.Less it then
      let r := treeReplaceOrInsert it xs
      (x :: r.1, r.2)
    else (it :: xs, some x)

/-- Search `Get` of the tree. -/
def treeGet (it : Item) : List Item → Option Item
  | [] => none
  | x :: xs =>
    if it.Less x then none
    else if x.Less it then treeGet it xs
    else some x

/-- Removal `Delete` of the tree. -/
def treeDelete (it : Item) : List Item → List Item × Option Item
  | [] => ([], none)
  | x :: xs =>
    if it.Less x then (x :: xs, none)
    else if x.Less it then
      let r := treeDelete it xs
      (x :: r.1, r.2)
    else (xs, some x)

/-- The ordered-tree index. -/
structure BTree where
  tree : List Item
  deriving DecidableEq, Repr

def NewTree : BTree := { tree := [] }

/-- Method `BTree.Put`: the new index and the place stored before, if any. -/
def BTree.Put (bt : BTree) (key : Bytes) (pos : LogRecordPos) : BTree × Option LogRecordPos :=
  let r := treeReplaceOrInsert { key := key, pos := pos } bt.tree
  ({ tree := r.1 }, r.2.map (fun oldItem => oldItem.pos))

/-- Method `BTree.Get`.  The position of the probe item is not looked at. -/
def BTree.Get (bt : BTree) (key : Bytes) : Option LogRecordPos :=
  (treeGet { key := key, pos := { Fid := 0, Offset := 0, Size := 0 } } bt.tree).map
    (fun btreeItem => btreeItem.pos)

/-- Method `BTree.Delete`: the new index, the place stored before, and whether
an item was removed. -/
def BTree.Delete (bt : BTree) (key : Bytes) : BTree × Option LogRecordPos × Bool :=
  let r := treeDelete { key := key, pos := { Fid := 0, Offset := 0, Size := 0 } } bt.tree
  match r.2 with
  | none => ({ tree := r.1 }, none, false)
  | some oldItem => ({ tree := r.1 }, some oldItem.pos, true)

def BTree.Size (bt : BTree) : Nat := bt.tree.length

/-! ## The type `float32` -/

/-- A value of the Go type `float32`: not a number, an infinity, or the finite
number `(-1) ^ negative * m * 2 ^ e` (a zero has `m = 0` and keeps its sign).
The exponent range of finite values is not limited: the values computed here are
conversions of `int64` values and their quotients, which lie in the range of
normal numbers. -/
inductive Float32 where
  | NaN
  | Inf (negative : Bool)
  | Finite (negative : Bool) (m : Nat) (e : Int)
  deriving DecidableEq, Repr

/-- The integer nearest to `n / d`; of two nearest ones the even one
(rounding to nearest, ties to even). -/
def divRoundEven (n d : Nat) : Nat :=
  let q := n / d
  let r := n % d
  if 2 * r < d then q
  else if d < 2 * r then q + 1
  else if q % 2 = 0 then q
  else q + 1

/-- Loop of `floorLog2`: the number of halvings that take `n` below 2. -/
def floorLog2Loop : Nat → Nat → Nat
  | 0, _ => 0
  | fuel + 1, n => if n < 2 then 0 else floorLog2Loop fuel (n / 2) + 1

/-- The position of the leading bit of `n`: the largest `k` with `2 ^ k ≤ n`
(and 0 for `n = 0`). -/
def floorLog2 (n : Nat) : Nat := floorLog2Loop n n

/-- The `float32` nearest to the natural number `n`: numbers below `2 ^ 24` are
kept; of a longer number the 24 leading bits are kept, rounded to nearest, ties
to even. -/
def roundNat (n : Nat) : Nat × Int :=
  if n < 2 ^ 24 then (n, 0)
  else
    let s := floorLog2 n - 23
    (divRoundEven n (2 ^ s), (s : Int))

/-- Conversion `float32(x)` of an `int64`. -/
def Float32.ofInt (x : Int) : Float32 :=
  .Finite (decide (x < 0)) (roundNat x.natAbs).1 (roundNat x.natAbs).2

/-- The `float32` nearest to the quotient `n / d` of two positive numbers, as
mantissa and exponent: the exponent `k` is chosen with
`2 ^ 23 ≤ (n / d) / 2 ^ k < 2 ^ 24` and the mantissa is rounded to nearest, ties
to even. -/
def roundQuotient (n d : Nat) : Nat × Int :=
  let a : Int := floorLog2 n
  let b : Int := floorLog2 d
  let l : Int := if d * 2 ^ floorLog2 n ≤ n * 2 ^ floorLog2 d then a - b else a - b - 1
  let k : Int := l - 23
  (divRoundEven (n * 2 ^ (-k).toNat) (d * 2 ^ k.toNat), k)

/-- Operation `x / y` on `float32`. -/
def Float32.div : Float32 → Float32 → Float32
  | .NaN, _ => .NaN
  | _, .NaN => .NaN
  | .Inf _, .Inf _ => .NaN
  | .Inf s1, .Finite s2 _ _ => .Inf (s1 != s2)
  | .Finite s1 _ _, .Inf s2 => .Finite (s1 != s2) 0 0
  | .Finite s1 m1 e1, .Finite s2 m2 e2 =>
    if m2 = 0 then (if m1 = 0 then .NaN else .Inf (s1 != s2))
    else if m1 = 0 then .Finite (s1 != s2) 0 0
    else .Finite (s1 != s2) (roundQuotient m1 m2).1 ((roundQuotient m1 m2).2 + e1 - e2)

/-- The number a finite `float32` stands for, scaled by `2 ^ (-e0)` for an
exponent `e0` not above its own. -/
def scaled (negative : Bool) (m : Nat) (e e0 : Int) : Int :=
  (if negative then -(m : Int) else (m : Int)) * 2 ^ (e - e0).toNat

/-- Comparison `x < y` on `float32`: false when one side is not a number. -/
def Float32.lt : Float32 → Float32 → Bool
  | .NaN, _ => false
  | _, .NaN => false
  | .Inf s1, .Inf s2 => s1 && !s2
  | .Inf s1, .Finite _ _ _ => s1
  | .Finite _ _ _, .Inf s2 => !s2
  | .Finite s1 m1 e1, .Finite s2 m2 e2 =>
    decide (scaled s1 m1 e1 (min e1 e2) < scaled s2 m2 e2 (min e1 e2))

/-! ## `option.go` -/

abbrev IndexerType := Nat

def IndexerType.BTree : IndexerType := 1

def IndexerType.ART : IndexerType := 2

def IndexerType.BPLusTree : IndexerType := 3

/-- Engine options. -/
structure Options where
  DirPath : String
  DataFileSize : Int
  SyncWrites : Bool
  BytesPerSync : Nat
  IndexType : IndexerType
  MMapAtStartup : Bool
  DataFileMergeRatio : Float32
  deriving DecidableEq, Repr

structure WriteBatchOptions where
  MaxBatchNum : Nat
  SyncWrites : Bool
  deriving DecidableEq, Repr

/-! ## `index/art.go`, `index/index.go` -/

/-- The radix-tree index of `index/art.go`.  The tree of the library
`go-adaptive-radix-tree` is kept as the list of its entries in key order. -/
structure AdaptiveRadixTree where
  tree : List Item
  deriving DecidableEq, Repr

/-- Function `NewART`. -/
def NewART : AdaptiveRadixTree := { tree := [] }

/-- Method `AdaptiveRadixTree.Put`: `Insert` of the library returns the value
stored before, if any. -/
def AdaptiveRadixTree.Put (art : AdaptiveRadixTree) (key : Bytes) (pos : LogRecordPos) :
    AdaptiveRadixTree × Option LogRecordPos :=
  let r := treeReplaceOrInsert { key := key, pos := pos } art.tree
  ({ tree := r.1 }, r.2.map (fun oldItem => oldItem.pos))

/-- Method `AdaptiveRadixTree.Get`: `Search` of the library. -/
def AdaptiveRadixTree.Get (art : AdaptiveRadixTree) (key : Bytes) : Option LogRecordPos :=
  (treeGet { key := key, pos := { Fid := 0, Offset := 0, Size := 0 } } art.tree).map
    (fun item => item.pos)

/-- Method `AdaptiveRadixTree.Delete`: `Delete` of the library returns the value
removed, if any. -/
def AdaptiveRadixTree.Delete (art : AdaptiveRadixTree) (key : Bytes) :
    AdaptiveRadixTree × Option LogRecordPos × Bool :=
  let r := treeDelete { key := key, pos := { Fid := 0, Offset := 0, Size := 0 } } art.tree
  match r.2 with
  | none => ({ tree := r.1 }, none, false)
  | some oldItem => ({ tree := r.1 }, some oldItem.pos, true)

def AdaptiveRadixTree.Size (art : AdaptiveRadixTree) : Nat := art.tree.length

/-- The values of the interface `Indexer` that `NewIndexer` builds. -/
inductive Indexer where
  | btree (bt : BTree)
  | art (t : AdaptiveRadixTree)
  deriving DecidableEq, Repr

/-- Function `NewIndexer`: `none` is the nil interface value, which the case
`BPTree` returns; another type is a panic. -/
def NewIndexer (typ : IndexerType) : Except Error (Option Indexer) :=
  if typ = IndexerType.BTree then .ok (some (.btree NewTree))
  else if typ = IndexerType.ART then .ok (some (.art NewART))
  else if typ = IndexerType.BPLusTree then .ok none
  else .error .Panic

/-- The items of an in-memory index in ascending key order, the form in which
the engine of this embedding holds its index.  The ordered tree and the radix
tree are both kept as this list, and their methods `Put`, `Get`, `Delete` and
`Size` are the same functions of it. -/
def Indexer.items : Indexer → BTree
  | .btree bt => bt
  | .art t => { tree := t.tree }

/-! ## The data directory -/

/-- The files of a data directory: the `NNNNNNNNN.data` files by file id, and
the files `hint-index`, `merge-finished` and `seq-no` when they exist.
`present` tells whether the directory exists, `locked` whether an engine holds
its `flock`. -/
structure Directory where
  dataFiles : List (Nat × Bytes)
  hintIndex : Option Bytes
  mergeFinished : Option Bytes
  seqNo : Option Bytes
  present : Bool
  locked : Bool
  deriving DecidableEq, Repr

/-- A directory without files. -/
def Directory.empty : Directory :=
  { dataFiles := [], hintIndex := none, mergeFinished := none, seqNo := none,
    present := true, locked := false }

/-! ## `db.go` -/

/-- The bytes of the string `seq.no`. -/
def seqNoKey : Bytes := [115, 101, 113, 46, 110, 111]

def nonTransactionSeqNo : Nat := 0

/-- The bytes of the string `txn-fin`. -/
def txnFinKey : Bytes := [116, 120, 110, 45, 102, 105, 110]

/-- The engine.  The three `Option Bytes` fields are the files `hint-index`,
`merge-finished` and `seq-no` of the data directory, which the engine reaches
through `options.DirPath`; the data files are reached through their handles.
The field `index` is the in-memory index (`Indexer.items`), whether it was built
as an ordered tree or as a radix tree. -/
structure DB where
  options : Options
  fileIds : List Nat
  activeFile : Option DataFile
  olderFile : List (Nat × DataFile)
  index : BTree
  seqNo : Nat
  isMerging : Bool
  seqNoFileExists : Bool
  isInitial : Bool
  bytesWrite : Nat
  reclaimSize : Int
  hintIndexFile : Option Bytes
  mergeFinishedFile : Option Bytes
  seqNoFile : Option Bytes
  deriving DecidableEq, Repr

/-- Function `logRecordKeyWithSeq`: the unsigned varint of the sequence number
followed by the key. -/
def logRecordKeyWithSeq (key : Bytes) (seqNo : Nat) : Bytes := PutUvarint seqNo ++ key

/-- Function `parseLogRecordKey`: the user key and the sequence number. -/
def parseLogRecordKey (key : Bytes) : Except Error (Bytes × Nat) :=
  let r := Uvarint key
  match sliceFrom key r.2 with
  | .error e => .error e
  | .ok realKey => .ok (realKey, r.1)

/-- The data files on disk as the engine's handles show them. -/
def DB.dataFiles (db : DB) : List (Nat × Bytes) :=
  (match db.activeFile with
    | none => []
    | some f => [(f.FileId, f.IoManager)]) ++
  db.olderFile.map (fun e => (e.2.FileId, e.2.IoManager))

/-- Function `OpenDataFile`: the file is created empty when it does not
exist; the write offset of a fresh handle is 0. -/
def OpenDataFile (files : List (Nat × Bytes)) (fileId : Nat) : DataFile :=
  { FileId := fileId, WriteOff := 0, IoManager := (mapGet files fileId).getD [] }

/-- Method `setActiveDataFile`.  The file id is a `uint32` in the Go code; the
addition is taken on `Nat`, which is the Go value for every id below
`2 ^ 32 - 1` (an engine gets there only after `2 ^ 32 - 1` rotations). -/
def DB.setActiveDataFile (db : DB) : DB :=
  let initialFileId : Nat :=
    match db.activeFile with
    | none => 0
    | some f => f.FileId + 1
  { db with activeFile := some (OpenDataFile db.dataFiles initialFileId) }

/-- Method `appendLogRecord`: the result and the engine afterwards.  Writes
and syncs of the standard file IO succeed.  The returned position carries the
file id and the offset; its `Size` is left at the zero value. -/
def DB.appendLogRecord (db : DB) (logRecord : LogRecord) : Except Error LogRecordPos × DB :=
  let db1 := match db.activeFile with
    | none => db.setActiveDataFile
    | some _ => db
  match EncodeLogRecord logRecord with
  | .error e => (.error e, db1)
  | .ok (encRecord, size) =>
    match db1.activeFile with
    | none => (.error .Panic, db1)
    | some active1 =>
      let db2 :=
        if active1.WriteOff + size > db1.options.DataFileSize then
          ({ db1 with olderFile := mapSet db1.olderFile active1.FileId active1 }).setActiveDataFile
        else db1
      match db2.activeFile with
      | none => (.error .Panic, db2)
      | some active2 =>
        let writeOff := active2.WriteOff
        let active3 := active2.Write encRecord
        let bytesWrite := db2.bytesWrite + size.toNat
        let needSync := db2.options.SyncWrites ||
          (decide (db2.options.BytesPerSync > 0) && decide (bytesWrite ≥ db2.options.BytesPerSync))
        let db3 := { db2 with activeFile := some active3,
                              bytesWrite := if needSync then 0 else bytesWrite }
        (.ok { Fid := active3.FileId, Offset := writeOff, Size := 0 }, db3)

/-- Method `appendLogRecordWithLock`. -/
def DB.appendLogRecordWithLock (db : DB) (logRecord : LogRecord) :
    Except Error LogRecordPos × DB :=
  db.appendLogRecord logRecord

/-- Method `DB.Put`: the error, if any, and the engine afterwards. -/
def DB.Put (db : DB) (key : Bytes) (value : Bytes) : Except Error Unit × DB :=
  if key.length = 0 then (.error .ErrKeyisEmpty, db)
  else
    let logRecord : LogRecord :=
      { Key := logRecordKeyWithSeq key nonTransactionSeqNo, Value := value, Typ := LogRecordNormal }
    match db.appendLogRecordWithLock logRecord with
    | (.error e, db1) => (.error e, db1)
    | (.ok pos, db1) =>
      let r := db1.index.Put key pos
      match r.2 with
      | some oldPos => (.ok (), { db1 with index := r.1, reclaimSize := db1.reclaimSize + oldPos.Size })
      | none => (.ok (), { db1 with index := r.1 })

/-- Method `DB.Delete`: the error, if any, and the engine afterwards. -/
def DB.Delete (db : DB) (key : Bytes) : Except Error Unit × DB :=
  if key.length = 0 then (.error .ErrKeyisEmpty, db)
  else
    match db.index.Get key with
    | none => (.error .ErrKeyNotFound, db)
    | some _ =>
      let logRecord : LogRecord :=
        { Key := logRecordKeyWithSeq key nonTransactionSeqNo, Value := [], Typ := LogRecordDeleted }
      match db.appendLogRecordWithLock logRecord with
      | (.error e, db1) => (.error e, db1)
      | (.ok pos, db1) =>
        let db2 := { db1 with reclaimSize := db1.reclaimSize + pos.Size }
        let r := db2.index.Delete key
        let db3 := { db2 with index := r.1 }
        if !r.2.2 then (.error .ErrIndexUpdataFailed, db3)
        else
          match r.2.1 with
          | some oldPos => (.ok (), { db3 with reclaimSize := db3.reclaimSize + oldPos.Size })
          | none => (.ok (), db3)

/-- Method `getValueByPosition`.  Reading `db.activeFile.FileId` without an
active file is a nil dereference. -/
def DB.getValueByPosition (db : DB) (logRecordPos : LogRecordPos) : Except Error Bytes :=
  match db.activeFile with
  | none => .error .Panic
  | some active =>
    let dataFile : Option DataFile :=
      if logRecordPos.Fid = active.FileId then some active
      else mapGet db.olderFile logRecordPos.Fid
    match dataFile with
    | none => .error .ErrDataFileNotFound
    | some df =>
      match df.ReadLogRecord logRecordPos.Offset with
      | .error e => .error e
      | .ok (logRecord, _) =>
        if logRecord.Typ = LogRecordDeleted then .error .ErrKeyNotFound
        else .ok logRecord.Value

/-- Method `DB.Get`. -/
def DB.Get (db : DB) (key : Bytes) : Except Error Bytes :=
  if key.length = 0 then .error .ErrKeyisEmpty
  else
    match db.index.Get key with
    | none => .error .ErrKeyNotFound
    | some logRecordPos => db.getValueByPosition logRecordPos

/-! ## `batch.go` -/

/-- A write batch: its options, the engine it writes to, and the staged
records by user key (`pendingWrites`). -/
structure WriteBatch where
  options : WriteBatchOptions
  db : DB
  pendingWrites : List (Bytes × LogRecord)
  deriving DecidableEq, Repr

/-- Method `NewWrietBatch`. -/
def DB.NewWrietBatch (db : DB) (opts : WriteBatchOptions) : Except Error WriteBatch :=
  if db.options.IndexType = IndexerType.BPLusTree ∧ ¬ db.seqNoFileExists ∧ ¬ db.isInitial then
    .error .Panic
  else .ok { options := opts, db := db, pendingWrites := [] }

/-- Method `WriteBatch.Put`. -/
def WriteBatch.Put (wb : WriteBatch) (key : Bytes) (value : Bytes) : Except Error Unit × WriteBatch :=
  if key.length = 0 then (.error .ErrKeyisEmpty, wb)
  else
    let logRecord : LogRecord := { Key := key, Value := value, Typ := LogRecordNormal }
    (.ok (), { wb with pendingWrites := mapSet wb.pendingWrites key logRecord })

/-- Method `WriteBatch.Delete`. -/
def WriteBatch.Delete (wb : WriteBatch) (key : Bytes) : Except Error Unit × WriteBatch :=
  if key.length = 0 then (.error .ErrKeyisEmpty, wb)
  else
    match wb.db.index.Get key with
    | none =>
      match mapGet wb.pendingWrites key with
      | some _ => (.ok (), { wb with pendingWrites := mapDelete wb.pendingWrites key })
      | none => (.ok (), wb)
    | some _ =>
      let logRecord : LogRecord := { Key := key, Value := [], Typ := LogRecordDeleted }
      (.ok (), { wb with pendingWrites := mapSet wb.pendingWrites key logRecord })

/-- First loop of `Commit`: append every staged record under the sequence
number and remember its position. -/
def commitAppend (seqNo : Nat) :
    List (Bytes × LogRecord) → DB → List (Bytes × LogRecordPos) →
      Except Error (List (Bytes × LogRecordPos)) × DB
  | [], db, positions => (.ok positions, db)
  | (_, record) :: rest, db, positions =>
    match db.appendLogRecord
        { Key := logRecordKeyWithSeq record.Key seqNo, Value := record.Value, Typ := record.Typ } with
    | (.error e, db1) => (.error e, db1)
    | (.ok logRecordPos, db1) =>
      commitAppend seqNo rest db1 (mapSet positions record.Key logRecordPos)

/-- Second loop of `Commit`: update the index from the staged records.  Every
staged key has a position, both loops range over the same map. -/
def commitIndex (positions : List (Bytes × LogRecordPos)) :
    List (Bytes × LogRecord) → DB → Except Error Unit × DB
  | [], db => (.ok (), db)
  | (_, record) :: rest, db =>
    match mapGet positions record.Key with
    | none => (.error .Panic, db)
    | some pos =>
      let r : BTree × Option LogRecordPos :=
        if record.Typ = LogRecordNormal then db.index.Put record.Key pos
        else if record.Typ = LogRecordDeleted then
          ((db.index.Delete record.Key).1, (db.index.Delete record.Key).2.1)
        else (db.index, none)
      let db1 := match r.2 with
        | some oldPos => { db with index := r.1, reclaimSize := db.reclaimSize + oldPos.Size }
        | none => { db with index := r.1 }
      commitIndex positions rest db1

/-- Method `WriteBatch.Commit`.  A Go map is ranged over in an unspecified
order: `order1` is the order of the first `range wb.pendingWrites` loop and
`order2` the order of the second, both arrangements of the staged entries. -/
def WriteBatch.Commit (wb : WriteBatch) (order1 order2 : List (Bytes × LogRecord)) :
    Except Error Unit × WriteBatch :=
  if wb.pendingWrites.length = 0 then (.ok (), wb)
  else if wb.pendingWrites.length > wb.options.MaxBatchNum then (.error .ErrExceedMaxBatchNum, wb)
  else
    let seqNo := (wb.db.seqNo + 1) % 2 ^ 64
    let db0 := { wb.db with seqNo := seqNo }
    match commitAppend seqNo order1 db0 [] with
    | (.error e, db1) => (.error e, { wb with db := db1 })
    | (.ok positions, db1) =>
      let finishedRecord : LogRecord :=
        { Key := logRecordKeyWithSeq txnFinKey seqNo, Value := [], Typ := LogRecordTxnFinished }
      match db1.appendLogRecord finishedRecord with
      | (.error e, db2) => (.error e, { wb with db := db2 })
      | (.ok _, db2) =>
        match commitIndex positions order2 db2 with
        | (.error e, db3) => (.error e, { wb with db := db3 })
        | (.ok _, db3) => (.ok (), { wb with db := db3, pendingWrites := [] })

/-! ## Close and Open -/

/-- Function `strconv.FormatUint(n, 10)` as bytes. -/
def formatUint (n : Nat) : Bytes := (Nat.toDigits 10 n).map (fun c => UInt8.ofNat c.toNat)

/-- The value of a non-empty run of decimal digits; `none` for any other
text. -/
def parseDigits (b : Bytes) : Option Nat :=
  if b = [] ∨ ¬ b.all (fun c => decide (48 ≤ c.toNat ∧ c.toNat ≤ 57)) then none
  else some (b.foldl (fun acc c => acc * 10 + (c.toNat - 48)) 0)

/-- Function `strconv.Atoi` (the type `int` has 64 bits): an optional sign
followed by decimal digits, with a value in the range of `int64`; for any other
text the result is an error of `strconv`. -/
def atoi (b : Bytes) : Except Error Int :=
  let digits := if b.head? = some 45 ∨ b.head? = some 43 then b.tail else b
  match parseDigits digits with
  | none => .error .ErrParse
  | some n =>
    if b.head? = some 45 then
      if n ≤ 2 ^ 63 then .ok (-(n : Int)) else .error .ErrParse
    else if n < 2 ^ 63 then .ok (n : Int)
    else .error .ErrParse

/-- The directory as the engine's handles and its other files show it. -/
def DB.directory (db : DB) : Directory :=
  { dataFiles := db.dataFiles, hintIndex := db.hintIndexFile,
    mergeFinished := db.mergeFinishedFile, seqNo := db.seqNoFile,
    present := true, locked := true }

/-- Method `DB.Close`: the error, if any, and the data directory left behind.
The lock is released on every path; with an active file the sequence number
record is appended to the file `seq-no`. -/
def DB.Close (db : DB) : Except Error Unit × Directory :=
  match db.activeFile with
  | none => (.ok (), { db.directory with locked := false })
  | some _ =>
    match EncodeLogRecord { Key := seqNoKey, Value := formatUint db.seqNo, Typ := 0 } with
    | .error e => (.error e, { db.directory with locked := false })
    | .ok (encRecord, _) =>
      (.ok (), { db.directory with seqNo := some (db.seqNoFile.getD [] ++ encRecord),
                                   locked := false })

/-- Function `checkOptions`. -/
def checkOptions (options : Options) : Except Error Unit :=
  if options.DirPath = "" then .error .ErrInvalidOptions
  else if options.DataFileSize ≤ 0 then .error .ErrInvalidOptions
  else if (options.DataFileMergeRatio.lt (Float32.ofInt 0) ||
      (Float32.ofInt 1).lt options.DataFileMergeRatio) = true then .error .ErrInvalidOptions
  else .ok ()

/-- Method `getNonMergeFileId` on the content of a `merge-finished` file. -/
def getNonMergeFileId (mergeFinishedFile : Bytes) : Except Error Nat :=
  match DataFile.ReadLogRecord { FileId := 0, WriteOff := 0, IoManager := mergeFinishedFile } 0 with
  | .error e => .error e
  | .ok (record, _) =>
    match atoi record.Value with
    | .error e => .error e
    | .ok nonMergeFileId => .ok (toUint32 nonMergeFileId)

/-- Method `loadMergeFile`: what the data directory holds after a merge
directory, if there is one, has been taken in.  Without the `merge-finished`
marker the merge directory is thrown away; with it the data files below the
recorded id are removed and every file of the merge directory but `seq-no` and
`flock` is moved into the data directory. -/
def loadMergeFile (dir : Directory) (mergeDir : Option Directory) : Except Error Directory :=
  match mergeDir with
  | none => .ok dir
  | some m =>
    match m.mergeFinished with
    | none => .ok dir
    | some fin =>
      match getNonMergeFileId fin with
      | .error e => .error e
      | .ok nonMergeFileId =>
        let kept := dir.dataFiles.filter (fun e => decide (¬ e.1 < nonMergeFileId))
        let moved := m.dataFiles.foldl (fun acc e => mapSet acc e.1 e.2) kept
        .ok { dir with dataFiles := moved,
                       hintIndex := match m.hintIndex with
                         | some h => some h
                         | none => dir.hintIndex,
                       mergeFinished := some fin }

/-- Method `loadDataFile`: the ids in ascending order, the file of the highest
id as active file, the others as older files. -/
def DB.loadDataFile (db : DB) (dir : Directory) : DB :=
  let fileIds := (dir.dataFiles.map (fun e => e.1)).insertionSort (· ≤ ·)
  let handles := fileIds.map (fun fid => OpenDataFile dir.dataFiles fid)
  match handles.getLast? with
  | none => { db with fileIds := fileIds }
  | some active =>
    { db with fileIds := fileIds, activeFile := some active,
              olderFile := handles.dropLast.foldl (fun acc f => mapSet acc f.FileId f) db.olderFile }

/-- Method `loadIndexFromHint`.  When the file `hint-index` exists its own path
is handed to `OpenHintFile` as the directory, so the file opened is
`hint-index/hint-index`, which cannot be created below a regular file. -/
def DB.loadIndexFromHint (db : DB) : Except Error DB :=
  match db.hintIndexFile with
  | none => .ok db
  | some _ => .error .ErrOS

/-- Closure `updateIndex` of `loadIndexerFromDataFile`.  For a deleted record
the size of the removed position is read before it is tested for nil. -/
def DB.updateIndex (db : DB) (key : Bytes) (typ : LogRecordType) (pos : LogRecordPos) :
    Except Error DB :=
  if typ = LogRecordDeleted then
    let r := db.index.Delete key
    match r.2.1 with
    | none => .error .Panic
    | some oldPos =>
      .ok { db with index := r.1, reclaimSize := db.reclaimSize + oldPos.Size + oldPos.Size }
  else
    let r := db.index.Put key pos
    match r.2 with
    | none => .ok { db with index := r.1 }
    | some oldPos => .ok { db with index := r.1, reclaimSize := db.reclaimSize + oldPos.Size }

/-- The state of the replay: the engine, the buffered transaction records by
sequence number, and the largest sequence number seen. -/
structure Replay where
  db : DB
  transactionRecords : List (Nat × List TransactionReocrd)
  currentSeqNo : Nat
  deriving DecidableEq, Repr

/-- Loop over the buffered records of a finished transaction. -/
def updateIndexAll : List TransactionReocrd → DB → Except Error DB
  | [], db => .ok db
  | txnRecord :: rest, db =>
    match db.updateIndex txnRecord.Record.Key txnRecord.Record.Typ txnRecord.Pos with
    | .error e => .error e
    | .ok db1 => updateIndexAll rest db1

/-- One record of the replay loop. -/
def replayRecord (st : Replay) (fileId : Nat) (offset : Int) (logRecord : LogRecord) (size : Int) :
    Except Error Replay :=
  let logRecordPos : LogRecordPos := { Fid := fileId, Offset := offset, Size := toUint32 size }
  match parseLogRecordKey logRecord.Key with
  | .error e => .error e
  | .ok (realKey, seqNo) =>
    let r : Except Error Replay :=
      if seqNo = nonTransactionSeqNo then
        match st.db.updateIndex realKey LogRecordNormal logRecordPos with
        | .error e => .error e
        | .ok db1 => .ok { st with db := db1 }
      else if logRecord.Typ = LogRecordTxnFinished then
        match updateIndexAll ((mapGet st.transactionRecords seqNo).getD []) st.db with
        | .error e => .error e
        | .ok db1 =>
          .ok { st with db := db1, transactionRecords := mapDelete st.transactionRecords seqNo }
      else
        let buffered := (mapGet st.transactionRecords seqNo).getD [] ++
          [{ Record := { logRecord with Key := realKey }, Pos := logRecordPos }]
        .ok { st with transactionRecords := mapSet st.transactionRecords seqNo buffered }
    match r with
    | .error e => .error e
    | .ok st1 =>
      .ok (if seqNo > st1.currentSeqNo then { st1 with currentSeqNo := seqNo } else st1)

/-- The loop over the records of one data file, from `offset` on; the result
is the replay state and the offset just past the last record.  Every record
read takes at least five bytes, so `fuel` above the length of the file is never
used up. -/
def replayFile (dataFile : DataFile) (fileId : Nat) :
    Nat → Int → Replay → Except Error (Replay × Int)
  | 0, _, _ => .error .OutOfFuel
  | fuel + 1, offset, st =>
    match dataFile.ReadLogRecord offset with
    | .error .EOF => .ok (st, offset)
    | .error e => .error e
    | .ok (logRecord, size) =>
      match replayRecord st fileId offset logRecord size with
      | .error e => .error e
      | .ok st1 => replayFile dataFile fileId fuel (offset + size) st1

/-- One round of the loop over the file ids of `loadIndexerFromDataFile`: the
records of the file are replayed; `isLast` holds for the last id, whose final
offset becomes the write offset of the active file. -/
def replayOne (fileId : Nat) (isLast : Bool) (st : Replay) : Except Error Replay :=
  match st.db.activeFile with
  | none => .error .Panic
  | some active =>
    let dataFile : Option DataFile :=
      if fileId = active.FileId then some active else mapGet st.db.olderFile fileId
    match dataFile with
    | none => .error .Panic
    | some df =>
      match replayFile df fileId (df.IoManager.length + 1) 0 st with
      | .error e => .error e
      | .ok (st1, offset) =>
        if isLast then
          .ok { st1 with db := { st1.db with
            activeFile := st1.db.activeFile.map (fun a => { a with WriteOff := offset }) } }
        else .ok st1

/-- The loop over the file ids of `loadIndexerFromDataFile`; files below the
id recorded by a finished merge are skipped. -/
def replayFiles (hasMerge : Bool) (nonMergeFileId : Nat) :
    List Nat → Replay → Except Error Replay
  | [], st => .ok st
  | fileId :: rest, st =>
    if hasMerge ∧ fileId < nonMergeFileId then replayFiles hasMerge nonMergeFileId rest st
    else
      match replayOne fileId (decide (rest = [])) st with
      | .error e => .error e
      | .ok st2 => replayFiles hasMerge nonMergeFileId rest st2

/-- Method `loadIndexerFromDataFile`. -/
def DB.loadIndexerFromDataFile (db : DB) : Except Error DB :=
  if db.fileIds.length = 0 then .ok db
  else
    let merge : Except Error (Bool × Nat) :=
      match db.mergeFinishedFile with
      | none => .ok (false, 0)
      | some fin =>
        match getNonMergeFileId fin with
        | .error e => .error e
        | .ok fid => .ok (true, fid)
    match merge with
    | .error e => .error e
    | .ok (hasMerge, nonMergeFileId) =>
      match replayFiles hasMerge nonMergeFileId db.fileIds
          { db := db, transactionRecords := [], currentSeqNo := nonTransactionSeqNo } with
      | .error e => .error e
      | .ok st => .ok { st.db with seqNo := st.currentSeqNo }

/-- Function `OpenDB`: `dir` is the data directory and `mergeDir` the merge
directory, if one exists.  Reading through the startup memory map returns the
same bytes as the standard file IO.  For the index type `BPLusTree` the Go
function returns an engine whose index is nil; that engine is not a value of
`DB`, and the result here is the marker `Error.NilIndex`. -/
def OpenDB (options : Options) (dir : Directory) (mergeDir : Option Directory) :
    Except Error DB :=
  match checkOptions options with
  | .error e => .error e
  | .ok _ =>
    if dir.locked then .error .ErrDatabaseIsUsing
    else
      match NewIndexer options.IndexType with
      | .error e => .error e
      | .ok none => .error .NilIndex
      | .ok (some index) =>
        match loadMergeFile dir mergeDir with
        | .error e => .error e
        | .ok dir1 =>
          let db : DB :=
            { options := options, fileIds := [], activeFile := none, olderFile := [],
              index := index.items, seqNo := 0, isMerging := false, seqNoFileExists := false,
              isInitial := !dir.present, bytesWrite := 0, reclaimSize := 0,
              hintIndexFile := dir1.hintIndex, mergeFinishedFile := dir1.mergeFinished,
              seqNoFile := dir1.seqNo }
          let db1 := db.loadDataFile dir1
          match db1.loadIndexFromHint with
          | .error e => .error e
          | .ok db2 => db2.loadIndexerFromDataFile

/-! ## Invariants of the engine -/

/-- The items are in strictly ascending key order. -/
def TreeSorted (l : List Item) : Prop := l.Pairwise (fun x y => x.Less y = true)

/-- The index invariant: its items are in strictly ascending key order. -/
def BTree.Sorted (bt : BTree) : Prop := TreeSorted bt.tree

/-- The data file a file id resolves to in `getValueByPosition`. -/
def DB.fileOf (db : DB) (fid : Nat) : Option DataFile :=
  match db.activeFile with
  | none => none
  | some active => if fid = active.FileId then some active else mapGet db.olderFile fid

/-- The file the next record goes to before rotation is considered: the active
file, or the fresh file 0 of an engine that has none. -/
def DB.writeFile (db : DB) : DataFile :=
  db.activeFile.getD { FileId := 0, WriteOff := 0, IoManager := [] }

/-- The counter `bytesWrite` after an append of `size` bytes. -/
def DB.nextBytesWrite (db : DB) (size : Int) : Nat :=
  if (db.options.SyncWrites ||
      (decide (db.options.BytesPerSync > 0) &&
        decide (db.bytesWrite + size.toNat ≥ db.options.BytesPerSync))) = true then 0
  else db.bytesWrite + size.toNat

/-- The bytes of `df` from `offset` on start with the encoding of `r`. -/
def HoldsAt (df : DataFile) (offset : Int) (r : LogRecord) : Prop :=
  ∃ (enc : Bytes) (n : Int) (pre post : Bytes),
    EncodeLogRecord r = .ok (enc, n) ∧ df.IoManager = pre ++ enc ++ post ∧
      offset = (pre.length : Int)

/-- What `getValueByPosition` makes of the result of `ReadLogRecord`. -/
def resolve (x : Except Error (LogRecord × Int)) : Except Error Bytes :=
  match x with
  | .error e => .error e
  | .ok (logRecord, _) =>
    if logRecord.Typ = LogRecordDeleted then .error .ErrKeyNotFound else .ok logRecord.Value

/-- The invariant of the engine's files: the write offset of the active file
is its length, and every older file is filed under its own id, which is below
the id of the active file. -/
structure DB.FilesInv (db : DB) : Prop where
  writeOff : ∀ a, db.activeFile = some a → a.WriteOff = (a.IoManager.length : Int)
  older : ∀ id f, (id, f) ∈ db.olderFile →
    f.FileId = id ∧ ∃ a, db.activeFile = some a ∧ id < a.FileId

/-- What a successful append of `r` that returned `pos` leaves behind: only the
files and the byte counter change, the files keep their invariant, `pos` is
where the encoding of `r` now starts in the active file, and every file that
could be read before can still be read and has only grown at its end. -/
structure Appended (db db2 : DB) (r : LogRecord) (pos : LogRecordPos) : Prop where
  index_eq : db2.index = db.index
  options_eq : db2.options = db.options
  seqNo_eq : db2.seqNo = db.seqNo
  reclaimSize_eq : db2.reclaimSize = db.reclaimSize
  hintIndexFile_eq : db2.hintIndexFile = db.hintIndexFile
  mergeFinishedFile_eq : db2.mergeFinishedFile = db.mergeFinishedFile
  seqNoFile_eq : db2.seqNoFile = db.seqNoFile
  files : db2.FilesInv
  size_zero : pos.Size = 0
  offset_nonneg : 0 ≤ pos.Offset
  active : ∃ a, db2.activeFile = some a ∧ pos.Fid = a.FileId ∧ HoldsAt a pos.Offset r
  grows : ∀ fid df, db.fileOf fid = some df →
    ∃ df2 extra, db2.fileOf fid = some df2 ∧ df2.IoManager = df.IoManager ++ extra

/-- The engine `db2` has the index of `db`, and every file that could be read
in `db` can be read in `db2` and has only grown at its end. -/
structure Grows (db db2 : DB) : Prop where
  index_eq : db2.index = db.index
  options_eq : db2.options = db.options
  files : db2.FilesInv
  grows : ∀ fid df, db.fileOf fid = some df →
    ∃ df2 extra, db2.fileOf fid = some df2 ∧ df2.IoManager = df.IoManager ++ extra

/-- The invariant of the engine: the index is in order, and every indexed
position is the first byte of an encoded record in a file the engine holds. -/
structure DB.Inv (db : DB) : Prop where
  sorted : db.index.Sorted
  files : db.FilesInv
  holds : ∀ key pos, db.index.Get key = some pos →
    ∃ df r, db.fileOf pos.Fid = some df ∧ HoldsAt df pos.Offset r

/-- The engine `OpenDB` returns on an empty directory. -/
def emptyDB (options : Options) : DB :=
  { options := options, fileIds := [], activeFile := none, olderFile := [], index := NewTree,
    seqNo := 0, isMerging := false, seqNoFileExists := false, isInitial := false,
    bytesWrite := 0, reclaimSize := 0, hintIndexFile := none, mergeFinishedFile := none,
    seqNoFile := none }

/-- A call of the write interface: `Put(key, value)` or `Delete(key)`. -/
inductive Op where
  | put (key value : Bytes)
  | delete (key : Bytes)
  deriving DecidableEq, Repr

/-- One call on the engine. -/
def DB.step (db : DB) : Op → Except Error Unit × DB
  | .put key value => db.Put key value
  | .delete key => db.Delete key

/-- A sequence of calls that all return no error, and the engine after the last
one; `none` when some call returns an error. -/
def DB.run : List Op → DB → Option DB
  | [], db => some db
  | op :: ops, db =>
    match db.step op with
    | (.ok _, db1) => DB.run ops db1
    | (.error _, _) => none

/-- The bytes of a data file that holds the encodings of `rs` one after the
other. -/
def encodeAll : List LogRecord → Bytes
  | [] => []
  | r :: rs =>
    (match EncodeLogRecord r with
      | .ok (enc, _) => enc
      | .error _ => []) ++ encodeAll rs

/-- The handle of the data file `e.1` that holds the records `e.2`. -/
def handleOf (e : Nat × List LogRecord) : DataFile :=
  { FileId := e.1, WriteOff := ((encodeAll e.2).length : Int), IoManager := encodeAll e.2 }

/-- The handle `OpenDataFile` returns for the data file `e.1` that holds the
records `e.2`. -/
def openedHandle (e : Nat × List LogRecord) : DataFile :=
  { FileId := e.1, WriteOff := 0, IoManager := encodeAll e.2 }

/-- A record as `Put` and `Delete` write it (sequence prefix 0) whose stored key
and value fit the 32-bit length fields. -/
def PlainRecord (r : LogRecord) : Prop :=
  ∃ k, r.Key = 0 :: k ∧ k.length + 1 < 2 ^ 32 ∧ r.Value.length < 2 ^ 32

/-- The index replay builds from the records `rs` of file `fid`, the first of
them at `offset`: every record files its user key under its place. -/
def indexRecords (fid : Nat) : List LogRecord → Int → BTree → BTree
  | [], _, t => t
  | r :: rs, offset, t =>
    indexRecords fid rs (offset + ((encodeAll [r]).length : Int))
      (t.Put (r.Key.drop 1)
        { Fid := fid, Offset := offset, Size := toUint32 ((encodeAll [r]).length : Int) }).1

/-- The index replay builds from data files given newest first, each with its
records: the older files are replayed before the newer ones. -/
def replayIndex : List (Nat × List LogRecord) → BTree
  | [] => NewTree
  | e :: older => indexRecords e.1 e.2 0 (replayIndex older)

/-- The files of the engine are the data files `R` (newest first, each with the
records it holds): ids descend, the newest is the active file, the others are
the older files, and all records are plain. -/
structure Layout (db : DB) (R : List (Nat × List LogRecord)) : Prop where
  ids : (R.map (fun e => e.1)).Pairwise (fun a b => a > b)
  active : db.activeFile = R.head?.map handleOf
  older : db.olderFile = R.tail.map (fun e => (e.1, handleOf e))
  plain : ∀ e ∈ R, ∀ r ∈ e.2, PlainRecord r

/-- The index of the engine against the index replay builds from its files:
where replay has no entry the engine has none; where replay has one, it points
at a plain record of the key, and either that record is a tombstone and the engine has no
entry, or the engine's entry is the same place. -/
structure Agrees (db : DB) (R : List (Nat × List LogRecord)) : Prop where
  sorted : (replayIndex R).Sorted
  none_of_none : ∀ key, (replayIndex R).Get key = none → db.index.Get key = none
  of_some : ∀ key p2, (replayIndex R).Get key = some p2 →
    ∃ df r, db.fileOf p2.Fid = some df ∧ HoldsAt df p2.Offset r ∧ PlainRecord r ∧
      r.Key = 0 :: key ∧
      ((r.Typ = LogRecordDeleted ∧ db.index.Get key = none) ∨
        (∃ p, db.index.Get key = some p ∧ p.Fid = p2.Fid ∧ p.Offset = p2.Offset))

/-- Options used for the worked examples: a file-size ceiling of 64 bytes and a
merge ratio of 0, which every reclaim size reaches. -/
def exampleOptions : Options :=
  { DirPath := "/tmp/bitcask", DataFileSize := 64, SyncWrites := false, BytesPerSync := 0,
    IndexType := IndexerType.BTree, MMapAtStartup := false,
    DataFileMergeRatio := Float32.ofInt 0 }

/-- The options of the worked examples with the radix-tree index. -/
def exampleOptionsART : Options := { exampleOptions with IndexType := IndexerType.ART }

/-- The engine after `Put("a", "1")` on an empty directory. -/
def exampleDB1 : DB := ((emptyDB exampleOptions).Put [97] [49]).2

/-- The engine after `Put("a", "1"); Put("b", "2")` on an empty directory. -/
def exampleDB2 : DB := (exampleDB1.Put [98] [50]).2

/-- The engine after `Put("a", "1"); Put("b", "2"); Delete("a")` on an empty
directory, with the radix-tree index. -/
def exampleART : DB :=
  ((((emptyDB exampleOptionsART).Put [97] [49]).2.Put [98] [50]).2.Delete [97]).2

/-- The engine after `Put("b", "2"); Put("a", "1")` on an empty directory, with
the radix-tree index. -/
def exampleTwoPutsART : DB := (((emptyDB exampleOptionsART).Put [98] [50]).2.Put [97] [49]).2

/-- A fresh batch on the engine that holds `"a"`. -/
def exampleBatch : WriteBatch :=
  { options := { MaxBatchNum := 10, SyncWrites := false }, db := exampleDB1, pendingWrites := [] }

/-- The batch `Put("x", "1")`, `Delete("a")` staged on the engine that holds `"a"`. -/
def exampleStaged : WriteBatch := ((exampleBatch.Put [120] [49]).2.Delete [97]).2

/-- A batch with `Delete("a")` staged on the engine that holds `"a"`. -/
def exampleDeleteBatch : WriteBatch := (exampleBatch.Delete [97]).2

/-- The commit of a first batch that staged `Delete("a")`. -/
def exampleFirstCommit : Except Error Unit × WriteBatch :=
  exampleDeleteBatch.Commit exampleDeleteBatch.pendingWrites exampleDeleteBatch.pendingWrites

/-- The commit of a second batch that staged `Delete("a")` while `"a"` was still
indexed, on the engine the first commit left. -/
def exampleSecondCommit : Except Error Unit × WriteBatch :=
  ({ exampleDeleteBatch with db := exampleFirstCommit.2.db } : WriteBatch).Commit
    exampleDeleteBatch.pendingWrites exampleDeleteBatch.pendingWrites

/-- The batches reached from `wb0` by staging calls (`WriteBatch.Put` and
`WriteBatch.Delete`, whatever they return). -/
inductive StagedFrom (wb0 : WriteBatch) : WriteBatch → Prop where
  | start : StagedFrom wb0 wb0
  | put (wb : WriteBatch) (key value : Bytes) :
      StagedFrom wb0 wb → StagedFrom wb0 (wb.Put key value).2
  | delete (wb : WriteBatch) (key : Bytes) :
      StagedFrom wb0 wb → StagedFrom wb0 (wb.Delete key).2

/-- The engine states reached from an empty directory by successful `Put` and
`Delete` calls. -/
inductive ReachablePD : DB → Prop where
  | opened (options : Options) (db : DB) :
      OpenDB options Directory.empty none = .ok db → ReachablePD db
  | put (db : DB) (key value : Bytes) (db2 : DB) :
      ReachablePD db → db.Put key value = (.ok (), db2) → ReachablePD db2
  | delete (db : DB) (key : Bytes) (db2 : DB) :
      ReachablePD db → db.Delete key = (.ok (), db2) → ReachablePD db2

/-- A staging map as `WriteBatch.Put` and `WriteBatch.Delete` build it: the keys
are distinct and non-empty, every entry is filed under the key of its record,
and a record is a put or a delete without value. -/
structure WriteBatch.WF (wb : WriteBatch) : Prop where
  nodup : (wb.pendingWrites.map (fun e => e.1)).Nodup
  entry : ∀ e ∈ wb.pendingWrites, e.2.Key = e.1 ∧ e.1 ≠ [] ∧
    (e.2.Typ = LogRecordNormal ∨ (e.2.Typ = LogRecordDeleted ∧ e.2.Value = []))

/-- The engine states reached from an empty directory by successful `Put`,
`Delete` and `Commit` calls. -/
inductive Reachable : DB → Prop where
  | opened (options : Options) (db : DB) :
      OpenDB options Directory.empty none = .ok db → Reachable db
  | put (db : DB) (key value : Bytes) (db2 : DB) :
      Reachable db → db.Put key value = (.ok (), db2) → Reachable db2
  | delete (db : DB) (key : Bytes) (db2 : DB) :
      Reachable db → db.Delete key = (.ok (), db2) → Reachable db2
  | commit (wb : WriteBatch) (order1 order2 : List (Bytes × LogRecord)) (wb2 : WriteBatch) :
      Reachable wb.db → wb.WF → order1.Perm wb.pendingWrites → order2.Perm wb.pendingWrites →
      wb.Commit order1 order2 = (.ok (), wb2) → Reachable wb2.db

end Bitcask

namespace Bitcask

/-! ## `sort.Search` of the Go standard library -/

/-- The loop `for i < j` of `sort.Search`: `h` is the middle of the interval,
which shrinks in every round, so fuel equal to its length is never used up. -/
def sortSearchLoop (f : Nat → Bool) : Nat → Nat → Nat → Nat
  | 0, i, _ => i
  | fuel + 1, i, j =>
    if i < j then
      let h := (i + j) / 2
      if !f h then sortSearchLoop f fuel (h + 1) j
      else sortSearchLoop f fuel i h
    else i

/-- Function `sort.Search`: binary search on `[0, n)`. -/
def sortSearch (n : Nat) (f : Nat → Bool) : Nat := sortSearchLoop f n 0 n

/-! ## The iterator of `index/btree.go` -/

/-- The index iterator: the items of the tree copied into `values` in
ascending (`tree.Ascend`) or descending (`tree.Descend`) order, and the index of
the current one. -/
structure btreeIterator where
  currIndex : Nat
  reverse : Bool
  values : List Item
  deriving DecidableEq, Repr

/-- Function `NewBTreeIterator`. -/
def NewBTreeIterator (tree : List Item) (reverse : Bool) : btreeIterator :=
  { currIndex := 0, reverse := reverse, values := if reverse then tree.reverse else tree }

/-- Method `BTree.Iterator`. -/
def BTree.Iterator (bt : BTree) (reverse : Bool) : btreeIterator :=
  NewBTreeIterator bt.tree reverse

/-- Method `btreeIterator.Rewind`. -/
def btreeIterator.Rewind (bti : btreeIterator) : btreeIterator := { bti with currIndex := 0 }

/-- Method `btreeIterator.Seek`.  The closure handed to `sort.Search` reads
`values[i]`, and `sort.Search` calls it only with `i` below the length. -/
def btreeIterator.Seek (bti : btreeIterator) (key : Bytes) : btreeIterator :=
  if bti.reverse then
    { bti with currIndex := sortSearch bti.values.length (fun i =>
        match bti.values[i]? with
        | some it => decide (bytesCompare it.key key ≠ .gt)
        | none => false) }
  else
    { bti with currIndex := sortSearch bti.values.length (fun i =>
        match bti.values[i]? with
        | some it => decide (bytesCompare it.key key ≠ .lt)
        | none => false) }

/-- Method `btreeIterator.Next`. -/
def btreeIterator.Next (bti : btreeIterator) : btreeIterator :=
  { bti with currIndex := bti.currIndex + 1 }

/-- Method `btreeIterator.Valid`. -/
def btreeIterator.Valid (bti : btreeIterator) : Bool := decide (bti.currIndex < bti.values.length)

/-- Method `btreeIterator.Key`; an index out of range is a run-time panic. -/
def btreeIterator.Key (bti : btreeIterator) : Except Error Bytes :=
  match bti.values[bti.currIndex]? with
  | some it => .ok it.key
  | none => .error .Panic

/-- Method `btreeIterator.Value`; an index out of range is a run-time panic. -/
def btreeIterator.Value (bti : btreeIterator) : Except Error LogRecordPos :=
  match bti.values[bti.currIndex]? with
  | some it => .ok it.pos
  | none => .error .Panic

/-- Method `btreeIterator.Close`. -/
def btreeIterator.Close (bti : btreeIterator) : btreeIterator := { bti with values := [] }

/-- The loop `for ; it.Valid(); it.Next()` over the index iterator, collecting
`it.Key()`; `fuel` above the number of items is never used up. -/
def btreeIterator.collect : Nat → btreeIterator → Except Error (List Bytes)
  | 0, _ => .error .OutOfFuel
  | fuel + 1, bti =>
    if bti.Valid then
      match bti.Key with
      | .error e => .error e
      | .ok key =>
        match btreeIterator.collect fuel bti.Next with
        | .error e => .error e
        | .ok keys => .ok (key :: keys)
    else .ok []

/-- The keys the loop `for ; it.Valid(); it.Next()` visits from the current
position on. -/
def btreeIterator.visitedFromHere (bti : btreeIterator) : Except Error (List Bytes) :=
  bti.collect (bti.values.length + 1)

/-! ## `iterator.go` -/

/-- The options of an iterator (`option.go`). -/
structure IteratorOptions where
  Prefix : Bytes
  Reverse : Bool
  deriving DecidableEq, Repr

/-- The iterator of the engine. -/
structure Iterator where
  indexIter : btreeIterator
  db : DB
  options : IteratorOptions
  deriving DecidableEq, Repr

/-- Method `DB.NewIterator`. -/
def DB.NewIterator (db : DB) (opts : IteratorOptions) : Iterator :=
  { indexIter := db.index.Iterator opts.Reverse, db := db, options := opts }

/-- The loop of `skipToNext`: advance the index iterator until it is invalid or
its key starts with `pfx`; `fuel` above the number of items is never used
up. -/
def skipLoop (pfx : Bytes) : Nat → btreeIterator → Except Error btreeIterator
  | 0, _ => .error .OutOfFuel
  | fuel + 1, bti =>
    if bti.Valid then
      match bti.Key with
      | .error e => .error e
      | .ok key =>
        if pfx.length ≤ key.length ∧ bytesCompare pfx (key.take pfx.length) = .eq then .ok bti
        else skipLoop pfx fuel bti.Next
    else .ok bti

/-- Method `Iterator.skipToNext`. -/
def Iterator.skipToNext (it : Iterator) : Except Error Iterator :=
  if it.options.Prefix.length = 0 then .ok it
  else
    match skipLoop it.options.Prefix (it.indexIter.values.length + 1) it.indexIter with
    | .error e => .error e
    | .ok bti => .ok { it with indexIter := bti }

/-- Method `Iterator.Rewind`. -/
def Iterator.Rewind (it : Iterator) : Except Error Iterator :=
  ({ it with indexIter := it.indexIter.Rewind } : Iterator).skipToNext

/-- Method `Iterator.Seek`. -/
def Iterator.Seek (it : Iterator) (key : Bytes) : Except Error Iterator :=
  ({ it with indexIter := it.indexIter.Seek key } : Iterator).skipToNext

/-- Method `Iterator.Next`. -/
def Iterator.Next (it : Iterator) : Except Error Iterator :=
  ({ it with indexIter := it.indexIter.Next } : Iterator).skipToNext

/-- Method `Iterator.Valid`. -/
def Iterator.Valid (it : Iterator) : Bool := it.indexIter.Valid

/-- Method `Iterator.Key`. -/
def Iterator.Key (it : Iterator) : Except Error Bytes := it.indexIter.Key

/-- Method `Iterator.Value`. -/
def Iterator.Value (it : Iterator) : Except Error Bytes :=
  match it.indexIter.Value with
  | .error e => .error e
  | .ok logRecordPos => it.db.getValueByPosition logRecordPos

/-- Method `Iterator.Close`. -/
def Iterator.Close (it : Iterator) : Iterator := { it with indexIter := it.indexIter.Close }

/-- The loop `for ; it.Valid(); it.Next()` over the engine iterator, collecting
`it.Key()`; `fuel` above the number of items is never used up. -/
def Iterator.collect : Nat → Iterator → Except Error (List Bytes)
  | 0, _ => .error .OutOfFuel
  | fuel + 1, it =>
    if it.Valid then
      match it.Key with
      | .error e => .error e
      | .ok key =>
        match it.Next with
        | .error e => .error e
        | .ok it2 =>
          match Iterator.collect fuel it2 with
          | .error e => .error e
          | .ok keys => .ok (key :: keys)
    else .ok []

/-- The keys visited by the loop `for it.Rewind(); it.Valid(); it.Next()`. -/
def Iterator.visited (it : Iterator) : Except Error (List Bytes) :=
  match it.Rewind with
  | .error e => .error e
  | .ok it1 => it1.collect (it1.indexIter.values.length + 1)

/-! ## Definitions used to state the properties of the index and of the files -/

/-- The index after the given puts, made in the order of the list on an empty
index. -/
def indexOfPuts (puts : List (Bytes × LogRecordPos)) : BTree :=
  puts.foldl (fun bt e => (bt.Put e.1 e.2).1) NewTree

/-- The finite map of the specification: entries with pairwise different
keys. -/
structure SpecIndex where
  entries : List (Bytes × LogRecordPos)
  deriving DecidableEq, Repr

/-- The empty finite map. -/
def SpecIndex.empty : SpecIndex := { entries := [] }

/-- Lookup in the finite map of the specification. -/
def SpecIndex.Get (m : SpecIndex) (key : Bytes) : Option LogRecordPos :=
  (m.entries.find? (fun e => decide (e.1 = key))).map (fun e => e.2)

/-- Overwrite in the finite map of the specification: the new map and the
position stored before, if any. -/
def SpecIndex.Put (m : SpecIndex) (key : Bytes) (pos : LogRecordPos) :
    SpecIndex × Option LogRecordPos :=
  ({ entries := (key, pos) :: m.entries.filter (fun e => decide (e.1 ≠ key)) }, m.Get key)

/-- Removal in the finite map of the specification: the new map, the position
stored before, if any, and whether the key was present. -/
def SpecIndex.Delete (m : SpecIndex) (key : Bytes) : SpecIndex × Option LogRecordPos × Bool :=
  ({ entries := m.entries.filter (fun e => decide (e.1 ≠ key)) }, m.Get key, (m.Get key).isSome)

/-- The number of keys of the finite map of the specification. -/
def SpecIndex.Size (m : SpecIndex) : Nat := m.entries.length

/-- The ordered-tree index `bt` holds the finite map `m`: both are well formed
(the tree in ascending key order, the entries of the map with pairwise
different keys), every key is looked up alike, and the sizes agree. -/
structure Refines (bt : BTree) (m : SpecIndex) : Prop where
  sorted : bt.Sorted
  nodup : (m.entries.map (fun e => e.1)).Nodup
  get : ∀ key, bt.Get key = m.Get key
  size : bt.Size = m.Size

/-- The encoded length of a record in bytes (0 for a record that cannot be
encoded). -/
def encodedSize (r : LogRecord) : Nat :=
  match EncodeLogRecord r with
  | .ok (enc, _) => enc.length
  | .error _ => 0

/-- The record `Put(key, value)` appends. -/
def putRecord (e : Bytes × Bytes) : LogRecord :=
  { Key := logRecordKeyWithSeq e.1 nonTransactionSeqNo, Value := e.2, Typ := LogRecordNormal }

/-- A sequence of `Put` calls that all return no error, and the engine after
the last one; `none` when some call returns an error. -/
def DB.putAll : List (Bytes × Bytes) → DB → Option DB
  | [], db => some db
  | e :: rest, db =>
    match db.Put e.1 e.2 with
    | (.ok _, db1) => DB.putAll rest db1
    | (.error _, _) => none

/-- The number of data files: the older files and the active file (field
`DataFileNum` of `DB.Stat`). -/
def DB.DataFileNum (db : DB) : Nat :=
  db.olderFile.length + (if db.activeFile.isSome then 1 else 0)

/-- An index with the keys `ab-1`, `bc-1`, `bc-2`, `cd-1`, put in another
order. -/
def exampleIndex : BTree :=
  indexOfPuts
    [([99, 100, 45, 49], { Fid := 0, Offset := 0, Size := 0 }),
     ([98, 99, 45, 50], { Fid := 0, Offset := 10, Size := 0 }),
     ([97, 98, 45, 49], { Fid := 0, Offset := 20, Size := 0 }),
     ([98, 99, 45, 49], { Fid := 0, Offset := 30, Size := 0 })]

/-! ## Counting data files -/

/-- The ceiling of `B / F` for natural numbers. -/
def ceilDiv (B F : Nat) : Nat := (B + F - 1) / F

/-- The total length in bytes of the records a sequence of puts appends. -/
def totalBytes (puts : List (Bytes × Bytes)) : Nat :=
  (puts.map (fun e => encodedSize (putRecord e))).sum

/-- One append in terms of the number of data files and the length of the
active one: without any file a first, empty file is opened; a record of `s`
bytes that would make the active file longer than `F` starts a new file, and
otherwise it is added to the active file; no record is split. -/
def packStep (F : Int) (st : Nat × Int) (s : Nat) : Nat × Int :=
  let n := if st.1 = 0 then 1 else st.1
  let w := if st.1 = 0 then 0 else st.2
  if w + s > F then (n + 1, s) else (n, w + s)

/-- The number of data files and the length of the active one after appending
records of the given lengths, in this order, starting without any file. -/
def packFiles (F : Int) (sizes : List Nat) : Nat × Int := sizes.foldl (packStep F) (0, 0)

/-- Three puts of the key `k` with a value of 20 bytes. -/
def exampleThreePuts : List (Bytes × Bytes) :=
  [([107], List.replicate 20 120), ([107], List.replicate 20 121), ([107], List.replicate 20 122)]

/-- Three puts of the key `k` with a value of 33 bytes. -/
def exampleWidePuts : List (Bytes × Bytes) :=
  [([107], List.replicate 33 120), ([107], List.replicate 33 121), ([107], List.replicate 33 122)]

end Bitcask

namespace Bitcask

/-! ## `DB.ListKeys` -/

/-- The loop of `ListKeys`: the key of every item the iterator visits is stored
at `keys[idx]`, and `idx` is handed on as it is; `fuel` above the number of
items is never used up. -/
def listKeysLoop : Nat → btreeIterator → List Bytes → Nat → Except Error (List Bytes)
  | 0, _, _, _ => .error .OutOfFuel
  | fuel + 1, iterator, keys, idx =>
    if iterator.Valid then
      match iterator.Key with
      | .error e => .error e
      | .ok key =>
        if idx < keys.length then listKeysLoop fuel iterator.Next (keys.set idx key) idx
        else .error .Panic
    else .ok keys

/-- Method `DB.ListKeys`.  The slice `make([][]byte, db.index.Size())` holds nil
entries, written `[]`. -/
def DB.ListKeys (db : DB) : Except Error (List Bytes) :=
  let iterator := db.index.Iterator false
  let keys : List Bytes := List.replicate db.index.Size []
  let idx : Nat := 0
  listKeysLoop (iterator.values.length + 1) iterator.Rewind keys idx

/-! ## `DB.Stat` -/

/-- Statistics of the engine. -/
structure Stat where
  KeyNum : Nat
  DataFileNum : Nat
  ReclaimableSize : Int
  DiskSize : Int
  deriving DecidableEq, Repr

/-- Function `utils.DirSize`: the sizes of the files of the directory added up
(the lock file is empty). -/
def DirSize (dir : Directory) : Int :=
  (((dir.dataFiles.map (fun e => e.2.length)).sum + (dir.hintIndex.getD []).length +
    (dir.mergeFinished.getD []).length + (dir.seqNo.getD []).length : Nat) : Int)

/-- Method `DB.Stat`. -/
def DB.Stat (db : DB) : Stat :=
  let dataFiles : Nat := db.olderFile.length
  let dataFiles := if db.activeFile.isSome then dataFiles + 1 else dataFiles
  let dirSize := DirSize db.directory
  { KeyNum := db.index.Size, DataFileNum := dataFiles, ReclaimableSize := db.reclaimSize,
    DiskSize := dirSize }

/-! ## `DB.loadSeqNo` -/

/-- Function `strconv.ParseUint(s, 10, 64)`: decimal digits without a sign, with
a value below `2 ^ 64`. -/
def parseUint64 (b : Bytes) : Except Error Nat :=
  match parseDigits b with
  | none => .error .ErrParse
  | some n => if n < 2 ^ 64 then .ok n else .error .ErrParse

/-- Method `loadSeqNo`.  The error of `ReadLogRecord(0)` is overwritten without
being tested, so after a failed read `record.Value` is read from a nil record. -/
def DB.loadSeqNo (db : DB) : Except Error DB :=
  match db.seqNoFile with
  | none => .ok db
  | some content =>
    match DataFile.ReadLogRecord { FileId := 0, WriteOff := 0, IoManager := content } 0 with
    | .error _ => .error .Panic
    | .ok (record, _) =>
      match parseUint64 record.Value with
      | .error e => .error e
      | .ok seqNo => .ok { db with seqNo := seqNo, seqNoFileExists := true }

/-! ## Calls through the interface `Indexer` -/

/-- Call of the method `Put` on a value of the interface `Indexer`: on the nil
interface value it is a run-time panic. -/
def Indexer.Put (index : Option Indexer) (key : Bytes) (pos : LogRecordPos) :
    Except Error (Option Indexer × Option LogRecordPos) :=
  match index with
  | none => .error .Panic
  | some (.btree bt) => .ok (some (.btree (bt.Put key pos).1), (bt.Put key pos).2)
  | some (.art t) => .ok (some (.art (t.Put key pos).1), (t.Put key pos).2)

/-- Call of the method `Get` on a value of the interface `Indexer`. -/
def Indexer.Get (index : Option Indexer) (key : Bytes) : Except Error (Option LogRecordPos) :=
  match index with
  | none => .error .Panic
  | some (.btree bt) => .ok (bt.Get key)
  | some (.art t) => .ok (t.Get key)

/-! ## `merge.go` -/

/-- The name added to the base name of the data directory. -/
def mergeDirName : String := "_merge"

/-- The bytes of the string `merge.finished`. -/
def mergeFinishedKey : Bytes :=
  [109, 101, 114, 103, 101, 46, 102, 105, 110, 105, 115, 104, 101, 100]

/-- Function `path.Base` of the Go standard library: trailing slashes are
dropped and the last element is returned; `.` for the empty path and `/` for a
path of slashes only. -/
def pathBase (p : String) : String :=
  if p = "" then "."
  else
    let stripped := p.toList.reverse.dropWhile (fun c => c = '/')
    let last := (stripped.takeWhile (fun c => c ≠ '/')).reverse
    if last = [] then "/" else String.mk last

/-- Method `getMergePath`: the base name of the data directory followed by
`_merge`, a path relative to the working directory (`filepath.Join` of this
single element returns it as it is). -/
def DB.getMergePath (db : DB) : String := pathBase db.options.DirPath ++ mergeDirName

/-- What `Merge` asks of its surroundings: the result of
`utils.AvailableDiskSize()`. -/
structure MergeEnv where
  availableDiskSize : Except Error Nat

/-- Method `WriteHintRecord`. -/
def DataFile.WriteHintRecord (df : DataFile) (key : Bytes) (pos : LogRecordPos) :
    Except Error DataFile :=
  match EncodeLogRecord { Key := key, Value := EncodeLogRecordPos pos, Typ := 0 } with
  | .error e => .error e
  | .ok (encRecord, _) => .ok (df.Write encRecord)

/-- The loop of `Merge` over the records of one file, from `offset` on: a
record the index of `db` points to is appended to `mergeDB` with sequence number
0 and its new place is written to the hint file.  The result is the error, if
any, and the merge engine and hint file as they are then.  Every record read
takes at least five bytes, so `fuel` above the length of the file is never used
up. -/
def mergeRecords (db : DB) (dataFile : DataFile) :
    Nat → Int → DB × DataFile → Except Error Unit × (DB × DataFile)
  | 0, _, st => (.error .OutOfFuel, st)
  | fuel + 1, offset, (mergeDB, hintFile) =>
    match dataFile.ReadLogRecord offset with
    | .error .EOF => (.ok (), (mergeDB, hintFile))
    | .error e => (.error e, (mergeDB, hintFile))
    | .ok (logRecord, size) =>
      match parseLogRecordKey logRecord.Key with
      | .error e => (.error e, (mergeDB, hintFile))
      | .ok (realKey, _) =>
        let live : Bool :=
          match db.index.Get realKey with
          | none => false
          | some logRecordPos =>
            decide (logRecordPos.Fid = dataFile.FileId ∧ logRecordPos.Offset = offset)
        if live then
          match mergeDB.appendLogRecord
              { logRecord with Key := logRecordKeyWithSeq realKey nonTransactionSeqNo } with
          | (.error e, mergeDB1) => (.error e, (mergeDB1, hintFile))
          | (.ok pos, mergeDB1) =>
            match hintFile.WriteHintRecord realKey pos with
            | .error e => (.error e, (mergeDB1, hintFile))
            | .ok hintFile1 => mergeRecords db dataFile fuel (offset + size) (mergeDB1, hintFile1)
        else mergeRecords db dataFile fuel (offset + size) (mergeDB, hintFile)

/-- The loop of `Merge` over the files to merge. -/
def mergeDataFiles (db : DB) :
    List DataFile → DB × DataFile → Except Error Unit × (DB × DataFile)
  | [], st => (.ok (), st)
  | dataFile :: rest, st =>
    match mergeRecords db dataFile (dataFile.IoManager.length + 1) 0 st with
    | (.error e, st1) => (.error e, st1)
    | (.ok _, st1) => mergeDataFiles db rest st1

/-- The merge directory as the merge engine, the hint file and the
`merge-finished` file, if written, leave it; the merge engine is never closed
and keeps its lock. -/
def mergeDirectory (mergeDB : DB) (hintFile : DataFile) (mergeFinished : Option Bytes) :
    Directory :=
  { dataFiles := mergeDB.dataFiles, hintIndex := some hintFile.IoManager,
    mergeFinished := mergeFinished, seqNo := none, present := true, locked := true }

/-- Method `DB.Merge`: the error, if any, the engine afterwards, and the merge
directory afterwards (`mergeDir` is the merge directory before the call, if one
exists).  Syncs and the creation of the merge directory succeed. -/
def DB.Merge (db : DB) (env : MergeEnv) (mergeDir : Option Directory) :
    Except Error Unit × DB × Option Directory :=
  match db.activeFile with
  | none => (.ok (), db, mergeDir)
  | some active =>
    if db.isMerging then (.error .ErrMergeIsProcess, db, mergeDir)
    else
      let totalSize := DirSize db.directory
      if ((Float32.ofInt db.reclaimSize).div (Float32.ofInt totalSize)).lt
          db.options.DataFileMergeRatio then
        (.error .ErrMergeRatioUnreached, db, mergeDir)
      else
        match env.availableDiskSize with
        | .error e => (.error e, db, mergeDir)
        | .ok availableDiskSize =>
          if ((totalSize - db.reclaimSize) % 2 ^ 64).toNat ≥ availableDiskSize then
            (.error .ErrNoEnoughSpaceForMerge, db, mergeDir)
          else
            let db1 := ({ db with isMerging := true,
                                  olderFile := mapSet db.olderFile active.FileId active }
                        ).setActiveDataFile
            match db1.activeFile with
            | none => (.error .Panic, { db1 with isMerging := false }, mergeDir)
            | some active1 =>
              let nonMergeFileId := active1.FileId
              let mergeFiles := (db1.olderFile.map (fun e => e.2)).insertionSort
                (fun a b => a.FileId ≤ b.FileId)
              let mergeOptions : Options :=
                { db1.options with DirPath := db1.getMergePath, SyncWrites := false }
              match OpenDB mergeOptions Directory.empty none with
              | .error e => (.error e, { db1 with isMerging := false }, some Directory.empty)
              | .ok mergeDB =>
                let hintFile : DataFile := { FileId := 0, WriteOff := 0, IoManager := [] }
                match mergeDataFiles db1 mergeFiles (mergeDB, hintFile) with
                | (.error e, (mergeDB1, hintFile1)) =>
                  (.error e, { db1 with isMerging := false },
                    some (mergeDirectory mergeDB1 hintFile1 none))
                | (.ok _, (mergeDB1, hintFile1)) =>
                  match EncodeLogRecord
                      { Key := mergeFinishedKey, Value := formatUint nonMergeFileId, Typ := 0 } with
                  | .error e =>
                    (.error e, { db1 with isMerging := false },
                      some (mergeDirectory mergeDB1 hintFile1 (some [])))
                  | .ok (encRecord, _) =>
                    (.ok (), { db1 with isMerging := false },
                      some (mergeDirectory mergeDB1 hintFile1 (some encRecord)))

/-- The surroundings of the worked examples: a terabyte of disk is free. -/
def exampleEnv : MergeEnv :=
  { availableDiskSize := .ok (2 ^ 40) }

/-- The merge ratio one half. -/
def oneHalf : Float32 := .Finite false 1 (-1)

/-- The engine that holds `"a"` (a directory of 10 bytes), with a reclaim
counter of 1 and a merge ratio of one half. -/
def exampleHalfRatio : DB :=
  { exampleDB1 with reclaimSize := 1,
                    options := { exampleOptions with DataFileMergeRatio := oneHalf } }

/-! ## Sequences of calls -/

/-- The appends of the records of a list, one after the other, up to the first
that fails. -/
def DB.appendAll : List LogRecord → DB → Except Error Unit × DB
  | [], db => (.ok (), db)
  | r :: rest, db =>
    match db.appendLogRecord r with
    | (.error e, db1) => (.error e, db1)
    | (.ok _, db1) => DB.appendAll rest db1

/-- The records a commit with sequence number `S` appends for the staged
entries `order`, in this order, followed by the terminator. -/
def batchRecords (S : Nat) (order : List (Bytes × LogRecord)) : List LogRecord :=
  order.map (fun e =>
    { Key := logRecordKeyWithSeq e.2.Key S, Value := e.2.Value, Typ := e.2.Typ }) ++
  [{ Key := logRecordKeyWithSeq txnFinKey S, Value := [], Typ := LogRecordTxnFinished }]

/-- The key of a call. -/
def Op.key : Op → Bytes
  | .put key _ => key
  | .delete key => key

/-- A session: the calls are made one after the other, whatever they return.
The result is the engine after the last call and the calls that returned no
error, in their order. -/
def DB.session : List Op → DB → DB × List Op
  | [], db => (db, [])
  | op :: ops, db =>
    match db.step op with
    | (.ok _, db1) => ((DB.session ops db1).1, op :: (DB.session ops db1).2)
    | (.error _, db1) => DB.session ops db1

/-- Whether the last call on the key `k` among `ops` is a `Put`. -/
def lastIsPut (ops : List Op) (k : Bytes) : Bool :=
  match (ops.filter (fun op => decide (op.key = k))).getLast? with
  | some (.put _ _) => true
  | some (.delete _) => false
  | none => false

/-- The distinct keys whose last call among `ops` is a `Put`. -/
def liveKeys (ops : List Op) : List Bytes :=
  ((ops.map (fun op => op.key)).dedup).filter (fun k => lastIsPut ops k)

/-! ## A torn tail -/

/-- The directory after the last `n` bytes of the data file `fid` have been
removed. -/
def Directory.truncateFile (dir : Directory) (fid n : Nat) : Directory :=
  { dir with dataFiles := dir.dataFiles.map (fun e =>
      if e.1 = fid then (e.1, e.2.take (e.2.length - n)) else e) }

/-! ## Worked examples -/

/-- The engine after `Put("a", "1"); Delete("a")` on an empty directory. -/
def exampleDeleted : DB := (exampleDB1.Delete [97]).2

/-- The engine opened on the directory that `exampleFirstCommit` and `Close`
leave behind (the fresh engine when that fails). -/
def exampleReopened : DB :=
  match OpenDB exampleOptions (exampleFirstCommit.2.db.Close).2 none with
  | .ok db => db
  | .error _ => emptyDB exampleOptions

/-- The commit of a batch with `Put("x", "1")` on the reopened engine. -/
def exampleThirdCommit : Except Error Unit × WriteBatch :=
  (({ options := { MaxBatchNum := 10, SyncWrites := false }, db := exampleReopened,
      pendingWrites := [] } : WriteBatch).Put [120] [49]).2.Commit
    [([120], LogRecord.mk [120] [49] LogRecordNormal)]
    [([120], LogRecord.mk [120] [49] LogRecordNormal)]

/-- The engine after `Put("b", "2"); Put("a", "")` on an empty directory. -/
def exampleEmptyValue : DB := (((emptyDB exampleOptions).Put [98] [50]).2.Put [97] []).2

/-- The engine after `Put("b", "2"); Put("a", "1")` on an empty directory. -/
def exampleTwoPuts : DB := (((emptyDB exampleOptions).Put [98] [50]).2.Put [97] [49]).2

end Bitcask

namespace Bitcask

/-! ## Worked inputs for the record codec -/

/-- Fifteen bytes as `ReadLogRecord` can read them from a damaged data file: a
checksum, the type byte, and ten bytes of a varint whose value does not fit 64
bits (nine continuation bytes followed by the byte 2). -/
def exampleOverflowHeader : Bytes :=
  [1, 2, 3, 4, 0, 128, 128, 128, 128, 128, 128, 128, 128, 128, 2]

/-- A data directory whose only data file holds the bytes of
`exampleOverflowHeader`. -/
def exampleDamagedDirectory : Directory :=
  { Directory.empty with dataFiles := [(0, exampleOverflowHeader)] }

/-! ## The merge directory and the hint file -/

/-- The parent of a path as the specification uses it: the path without its
last element (`/` for an element directly below the root, `.` for a single
relative element). -/
def specParent (p : String) : String :=
  let stripped := p.toList.reverse.dropWhile (fun c => c = '/')
  let above := ((stripped.dropWhile (fun c => c ≠ '/')).dropWhile (fun c => c = '/')).reverse
  if above = [] then (if p.toList.head? = some '/' then "/" else ".") else String.mk above

/-- The merge directory as the specification places it: the sibling of the data
directory, that is the parent of `DirPath` joined with the base name of `DirPath`
followed by `_merge`. -/
def specMergePath (dirPath : String) : String :=
  (if specParent dirPath = "/" then "/" else specParent dirPath ++ "/") ++
    pathBase dirPath ++ mergeDirName

/-- The file a path names for a process whose working directory is `cwd`: an
absolute path names itself, a relative path is taken below `cwd`. -/
def resolvePath (cwd : String) (p : String) : String :=
  if p.toList.head? = some '/' then p else cwd ++ "/" ++ p

/-- The constant `data.HintFileName`. -/
def HintFileName : String := "hint-index"

/-- Function `filepath.Join` for a clean directory path other than the root and
a file name. -/
def joinPath (dir name : String) : String := dir ++ "/" ++ name

/-- The path whose existence `loadIndexFromHint` tests with `os.Stat`. -/
def DB.hintFileTested (db : DB) : String := joinPath db.options.DirPath HintFileName

/-- The path `loadIndexFromHint` opens: it hands the tested path to
`OpenHintFile`, which joins the name of the hint file to its argument. -/
def DB.hintFileOpened (db : DB) : String := joinPath db.hintFileTested HintFileName

/-- The hint file `WriteHintRecord` leaves for the pairs given, written in this
order to an empty file. -/
def hintFileOf : List (Bytes × LogRecordPos) → DataFile → Except Error DataFile
  | [], df => .ok df
  | e :: rest, df =>
    match df.WriteHintRecord e.1 e.2 with
    | .error err => .error err
    | .ok df1 => hintFileOf rest df1

/-- The loop of `loadIndexFromHint` over the records of an opened hint file:
every record puts its key into the index at the position its value decodes
to. -/
def loadHintRecords (hintFile : DataFile) : Nat → Int → BTree → Except Error BTree
  | 0, _, _ => .error .OutOfFuel
  | fuel + 1, offset, index =>
    match hintFile.ReadLogRecord offset with
    | .error .EOF => .ok index
    | .error e => .error e
    | .ok (logRecord, size) =>
      match DecodeLogRecordPos logRecord.Value with
      | .error e => .error e
      | .ok pos => loadHintRecords hintFile fuel (offset + size) (index.Put logRecord.Key pos).1

/-- The hint file of the pairs `("a", (0, 0))`, `("b", (0, 10))`. -/
def exampleHintFile : Except Error DataFile :=
  hintFileOf [([97], { Fid := 0, Offset := 0, Size := 0 }),
              ([98], { Fid := 0, Offset := 10, Size := 0 })]
    { FileId := 0, WriteOff := 0, IoManager := [] }

/-- The engine that holds `"a"`, after the last byte of its data file has been
overwritten on disk. -/
def exampleCorruptDB : DB :=
  { exampleDB1 with
    activeFile := exampleDB1.activeFile.map
      (fun a => { a with IoManager := a.IoManager.dropLast ++ [0] }) }

/-! ## Worked inputs for `Merge` -/

/-- The engine after `Put("a", "1"); Put("a", "2")` on an empty directory: the
record at offset 0 of file 0 is dead, the record at offset 10 is live. -/
def exampleOverwritten : DB := (exampleDB1.Put [97] [50]).2

/-- The fresh merge engine `Merge` opens for the worked examples. -/
def exampleMergeDB : DB :=
  emptyDB { exampleOptions with DirPath := "bitcask_merge", SyncWrites := false }

/-- The empty hint file `Merge` opens. -/
def emptyHintFile : DataFile := { FileId := 0, WriteOff := 0, IoManager := [] }

/-- The merge engine after the live record of `exampleOverwritten` has been
appended to it. -/
def exampleMergeDB1 : DB :=
  (exampleMergeDB.appendLogRecord { Key := [0, 97], Value := [50], Typ := LogRecordNormal }).2

/-- The hint file after the entry for `"a"` at file 0, offset 0 has been written
(the empty file when that fails). -/
def exampleHintFile1 : DataFile :=
  match emptyHintFile.WriteHintRecord [97] { Fid := 0, Offset := 0, Size := 0 } with
  | .ok f => f
  | .error _ => emptyHintFile

/-! ## What replay reads -/

/-- The records `ReadLogRecord` returns from `offset` on, each with the size
reported for it, up to the first read that returns an error (`io.EOF` at the end
of the file). -/
def scanFile (dataFile : DataFile) : Nat → Int → List (LogRecord × Int)
  | 0, _ => []
  | fuel + 1, offset =>
    match dataFile.ReadLogRecord offset with
    | .error _ => []
    | .ok (logRecord, size) => (logRecord, size) :: scanFile dataFile fuel (offset + size)

/-- The records replay reads from the data file `fid` of a directory, each with
its size. -/
def scanData (dir : Directory) (fid : Nat) : List (LogRecord × Int) :=
  scanFile (OpenDataFile dir.dataFiles fid)
    ((OpenDataFile dir.dataFiles fid).IoManager.length + 1) 0

/-- The sequence number a stored key carries: the value `binary.Uvarint` decodes
from its first bytes. -/
def recordSeqNo (r : LogRecord) : Nat := (Uvarint r.Key).1

/-- The largest sequence number carried by the records of a list that is above
`m`, or `m`. -/
def maxSeqNoFrom (m : Nat) (rs : List (LogRecord × Int)) : Nat :=
  rs.foldl (fun acc e => max acc (recordSeqNo e.1)) m

/-- The sum of the sizes of scanned records. -/
def sizesOf (rs : List (LogRecord × Int)) : Int := (rs.map (fun e => e.2)).sum

/-- The directory the first committed batch and `Close` leave behind. -/
def exampleBatchDirectory : Directory := (exampleFirstCommit.2.db.Close).2

/-! ## Sequences of appends -/

/-- The appends of the records of a list, one after the other, all without
error: the engine after the last one and the positions returned, in the order of
the records; `none` when an append returns an error. -/
def DB.appendTrace : List LogRecord → DB → Option (DB × List LogRecordPos)
  | [], db => some (db, [])
  | r :: rest, db =>
    match db.appendLogRecord r with
    | (.error _, _) => none
    | (.ok pos, db1) =>
      match DB.appendTrace rest db1 with
      | none => none
      | some (db2, ps) => some (db2, pos :: ps)

/-- The sum of the encoded sizes of the records of a trace of appends that went
to the file `fid`. -/
def bytesIn (fid : Nat) (t : List (LogRecord × LogRecordPos)) : Nat :=
  ((t.filter (fun e => decide (e.2.Fid = fid))).map (fun e => encodedSize e.1)).sum

/-- The engine against the trace of the appends made so far: without active
file nothing was appended; the write offset of the active file is the number of
bytes appended to it, and no record went to a file with a higher id. -/
structure TraceInv (db : DB) (t : List (LogRecord × LogRecordPos)) : Prop where
  files : db.FilesInv
  none_nil : db.activeFile = none → t = []
  writeOff : ∀ a, db.activeFile = some a → a.WriteOff = (bytesIn a.FileId t : Int)
  below : ∀ a, db.activeFile = some a → ∀ e ∈ t, e.2.Fid ≤ a.FileId

/-- The positions of the records of the original sequence that were selected:
`pairs` holds each original record with the record appended in its place to the
second engine, if any, and `ps` the positions of the originals. -/
def keptPositions (pairs : List (LogRecord × Option LogRecord)) (ps : List LogRecordPos) :
    List LogRecordPos :=
  ((pairs.zip ps).filter (fun e => e.1.2.isSome)).map (fun e => e.2)

/-- The place the next record goes to in `db2` is not after the one in `db`:
the file id is lower, or it is the same and the write offset is not higher. -/
def Behind (db2 db : DB) : Prop :=
  db2.writeFile.FileId < db.writeFile.FileId ∨
    (db2.writeFile.FileId = db.writeFile.FileId ∧ db2.writeFile.WriteOff ≤ db.writeFile.WriteOff)

/-- A record as the engine stores it: the key starts with the unsigned varint of
a sequence number, and key and value fit the 32-bit length fields. -/
def Stored (r : LogRecord) : Prop :=
  ∃ (s : Nat) (k : Bytes), s < 2 ^ 64 ∧ r.Key = PutUvarint s ++ k ∧ r.Key.length < 2 ^ 32 ∧
    r.Value.length < 2 ^ 32

/-- A data file as appends with the file-size ceiling `F` leave it: it holds
the encodings of stored records, and it is at most `F` bytes long or holds a
single record and is not file 0. -/
def FileFits (F : Int) (df : DataFile) : Prop :=
  ∃ recs : List LogRecord, df.IoManager = encodeAll recs ∧ (∀ r ∈ recs, Stored r) ∧
    ((df.IoManager.length : Int) ≤ F ∨ (recs.length ≤ 1 ∧ 1 ≤ df.FileId))

/-- The files of an engine as appends leave them: the invariant of the files,
distinct ids of the older files, and every file fits the file-size ceiling. -/
structure Packed (db : DB) : Prop where
  files : db.FilesInv
  nodup : (db.olderFile.map (fun e => e.1)).Nodup
  size : 0 ≤ db.options.DataFileSize
  fits : FileFits db.options.DataFileSize db.writeFile
  older : ∀ e ∈ db.olderFile, FileFits db.options.DataFileSize e.2

/-- Three records of 29 bytes each, as `Put` writes them for the key `k` and a
value of 20 bytes. -/
def exampleRecords : List LogRecord := exampleThreePuts.map putRecord

/-- The engine after the appends of `exampleRecords` on an empty directory. -/
def exampleAppended : DB := (DB.appendAll exampleRecords (emptyDB exampleOptions)).2

/-- The positions the appends of `exampleRecords` return. -/
def examplePositions : List LogRecordPos :=
  [{ Fid := 0, Offset := 0, Size := 0 }, { Fid := 0, Offset := 29, Size := 0 },
   { Fid := 1, Offset := 0, Size := 0 }]

/-- The records of `exampleRecords`, the second and the third of them selected
and kept as they are. -/
def examplePairs : List (LogRecord × Option LogRecord) :=
  exampleRecords.enum.map (fun e => (e.2, if e.1 = 0 then none else some e.2))

/-- The engine after the three puts of `exampleThreePuts` on an empty directory
(the fresh engine if a put fails): its files are those of `exampleAppended`, and
its index points to the third record. -/
def examplePacked : DB :=
  (DB.putAll exampleThreePuts (emptyDB exampleOptions)).getD (emptyDB exampleOptions)

/-- A second fresh engine with the file-size ceiling of `exampleOptions`, and
what the appends of the selected records of `examplePairs` leave of it. -/
def exampleSecond : DB :=
  (DB.appendAll (examplePairs.filterMap (fun e => e.2)) exampleMergeDB).2

/-- The merge directory a merge of `examplePacked` leaves (the empty directory
if there is none). -/
def exampleMergeDir : Directory :=
  ((examplePacked.Merge exampleEnv none).2.2).getD Directory.empty

end Bitcask

namespace Bitcask

/-! ## An engine opened over a torn tail -/

/-- The directory `Put("b", "2"); Put("a", "1"); Close` leave behind, after the
last 4 bytes of its data file have been removed: the file holds the 10 bytes of
the first record and 6 bytes of the second. -/
def exampleTornDirectory : Directory := (exampleTwoPuts.Close).2.truncateFile 0 4

/-- The engine `OpenDB` returns on `exampleTornDirectory` (the fresh engine if
it returns none). -/
def exampleTornDB : DB :=
  match OpenDB exampleOptions exampleTornDirectory none with
  | .ok db => db
  | .error _ => emptyDB exampleOptions

/-- The engine after `Put("c", "0")` on `exampleTornDB`. -/
def exampleTornPut : DB := (exampleTornDB.Put [99] [48]).2

/-- The batch `Put("x", "1")` staged on `exampleTornDB`. -/
def exampleTornBatch : WriteBatch :=
  (({ options := { MaxBatchNum := 10, SyncWrites := false }, db := exampleTornDB,
      pendingWrites := [] } : WriteBatch).Put [120] [49]).2

/-! ## The largest sequence number -/

/-- A directory whose data file holds a committed batch `Put("a", "1")` with the
sequence number `2 ^ 64 - 1`. -/
def exampleMaxSeqDirectory : Directory :=
  { Directory.empty with
    dataFiles := [(0, encodeAll (batchRecords (2 ^ 64 - 1)
      [([97], LogRecord.mk [97] [49] LogRecordNormal)]))] }

/-- The engine `OpenDB` returns on `exampleMaxSeqDirectory` (the fresh engine if
it returns none). -/
def exampleMaxSeqDB : DB :=
  match OpenDB exampleOptions exampleMaxSeqDirectory none with
  | .ok db => db
  | .error _ => emptyDB exampleOptions

/-- The batch `Put("x", "1")` staged on `exampleMaxSeqDB`. -/
def exampleMaxSeqBatch : WriteBatch :=
  (({ options := { MaxBatchNum := 10, SyncWrites := false }, db := exampleMaxSeqDB,
      pendingWrites := [] } : WriteBatch).Put [120] [49]).2

/-! ## The merge ratio in `float32` -/

/-- An engine whose only file, the active file, is 67108864 bytes long, with a
reclaim counter of 33554431 and a merge ratio of one half. -/
def exampleRounding : DB :=
  { exampleDB1 with
    activeFile := some (DataFile.mk 0 67108864 (List.replicate 67108864 0)),
    reclaimSize := 33554431,
    options := { exampleOptions with DataFileMergeRatio := oneHalf } }

/-- The `float32` nearest to one tenth, `13421773 / 2 ^ 27`, a little above one
tenth. -/
def oneTenth : Float32 := .Finite false 13421773 (-27)

/-- The engine that holds `"a"` (a directory of 10 bytes), with a reclaim
counter of 1 and the merge ratio `oneTenth`. -/
def exampleTenthRatio : DB :=
  { exampleDB1 with reclaimSize := 1,
                    options := { exampleOptions with DataFileMergeRatio := oneTenth } }

/-! ## The walk of `Merge` as the specification describes it -/

/-- The reads of a walk over a data file from `offset` on: every record
`ReadLogRecord` returns, with the offset it was read at.  The walk goes on at
the offset plus the size reported for the record, and it ends at the first read
that returns an error (`io.EOF` at the end of the file). -/
def walkFile (dataFile : DataFile) : Nat → Int → List (LogRecord × Int)
  | 0, _ => []
  | fuel + 1, offset =>
    match dataFile.ReadLogRecord offset with
    | .error _ => []
    | .ok (logRecord, size) => (logRecord, offset) :: walkFile dataFile fuel (offset + size)

/-- The offset at which the walk over a data file ends. -/
def walkEnd (dataFile : DataFile) : Nat → Int → Int
  | 0, offset => offset
  | fuel + 1, offset =>
    match dataFile.ReadLogRecord offset with
    | .error _ => offset
    | .ok (_, size) => walkEnd dataFile fuel (offset + size)

/-- The liveness rule of the specification for the record `e.1` read at offset
`e.2` of the file `fid`: the record is live when the index maps its user key to
a position with that file id and that offset.  For a live record the result is
the user key and the record as it is appended again, with the key
`encode_seq(0, user key)` and its own value and type; for any other record it is
`none`. -/
def liveRecord (index : BTree) (fid : Nat) (e : LogRecord × Int) : Option (Bytes × LogRecord) :=
  match parseLogRecordKey e.1.Key with
  | .error _ => none
  | .ok (realKey, _) =>
    match index.Get realKey with
    | none => none
    | some logRecordPos =>
      if logRecordPos.Fid = fid ∧ logRecordPos.Offset = e.2 then
        some (realKey, { Key := logRecordKeyWithSeq realKey nonTransactionSeqNo,
                         Value := e.1.Value, Typ := e.1.Typ })
      else none

/-- The live records of a data file in the order of the walk, each with its
user key. -/
def liveRecords (index : BTree) (dataFile : DataFile) : List (Bytes × LogRecord) :=
  (walkFile dataFile (dataFile.IoManager.length + 1) 0).filterMap
    (liveRecord index dataFile.FileId)

/-- The files `Merge` walks on an engine with the active file `active`: the
older files and `active`, in ascending order of their ids. -/
def DB.mergeFiles (db : DB) (active : DataFile) : List DataFile :=
  ((mapSet db.olderFile active.FileId active).map (fun e => e.2)).insertionSort
    (fun a b => a.FileId ≤ b.FileId)

/-- Records laid out one after the other from `offset` on: each record with
the offset of its first byte, the next one behind its encoding. -/
def layoutFrom (offset : Int) : List LogRecord → List (LogRecord × Int)
  | [] => []
  | r :: rs => (r, offset) :: layoutFrom (offset + (encodedSize r : Int)) rs

/-- The options of the merge engine. -/
def DB.mergeOptions (db : DB) : Options :=
  { db.options with DirPath := db.getMergePath, SyncWrites := false }

/-- The engine after the batch `Put("x", "1")`, `Delete("a")` has been committed
on the engine that holds `"a"`: its file holds the record of `"a"`, the two
records of the batch with the sequence number 1, and the terminator. -/
def exampleCommitted : DB :=
  (exampleStaged.Commit exampleStaged.pendingWrites exampleStaged.pendingWrites).2.db

end Bitcask

namespace Bitcask

/-! ## Varints -/

theorem toNat_ofNat_lt (n : Nat) (h : n < 256) : (UInt8.ofNat n).toNat = n := by
  show n % 256 = n
  omega

theorem putUvarintLoop_length_pos (fuel y : Nat) : 1 ≤ (putUvarintLoop fuel y).length := by
  cases fuel with
  | zero => simp [putUvarintLoop]
  | succ f =>
    unfold putUvarintLoop
    split <;> simp

theorem putUvarintLoop_length_le (fuel y : Nat) : (putUvarintLoop fuel y).length ≤ fuel + 1 := by
  induction fuel generalizing y with
  | zero => simp [putUvarintLoop]
  | succ f ih =>
    unfold putUvarintLoop
    split
    · simp
    · have := ih (y / 0x80)
      simp only [List.length_cons]
      omega

theorem putUvarintLoop_length_le_of_lt (k fuel y : Nat) (hy : y < 128 ^ (k + 1)) :
    (putUvarintLoop fuel y).length ≤ k + 1 := by
  induction fuel generalizing y k with
  | zero => simp [putUvarintLoop]
  | succ f ih =>
    unfold putUvarintLoop
    split
    · simp
    · rename_i h
      cases k with
      | zero => simp at hy; omega
      | succ k =>
        have h2 : y / 0x80 < 128 ^ (k + 1) := by
          rw [Nat.div_lt_iff_lt_mul (by norm_num)]
          calc y < 128 ^ (k + 1 + 1) := hy
            _ = 128 ^ (k + 1) * 128 := by ring
        have := ih k (y / 0x80) h2
        simp only [List.length_cons]
        omega

theorem PutUvarint_length_pos (x : Nat) : 1 ≤ (PutUvarint x).length :=
  putUvarintLoop_length_pos _ _

theorem PutUvarint_length_le (x : Nat) : (PutUvarint x).length ≤ 10 :=
  putUvarintLoop_length_le _ _

/-- Decoding undoes the encoding loop, whatever follows the encoded bytes. -/
theorem uvarintLoop_putUvarintLoop (fuel : Nat) :
    ∀ (y i acc : Nat) (rest : Bytes), i + fuel = 9 → acc < 2 ^ (7 * i) →
      acc + y * 2 ^ (7 * i) < 2 ^ 64 →
      uvarintLoop (putUvarintLoop fuel y ++ rest) i acc (7 * i) =
        (acc + y * 2 ^ (7 * i), ((i + (putUvarintLoop fuel y).length : Nat) : Int)) := by
  induction fuel with
  | zero =>
    intro y i acc rest hi hacc hlt
    have hi9 : i = 9 := by omega
    subst hi9
    have hy : y ≤ 1 := by
      by_contra hc
      have : 2 * 2 ^ (7 * 9) ≤ y * 2 ^ (7 * 9) := Nat.mul_le_mul_right _ (by omega)
      norm_num at this hlt
      omega
    have hb : (UInt8.ofNat y).toNat = y := toNat_ofNat_lt y (by omega)
    simp only [putUvarintLoop, List.singleton_append, uvarintLoop, hb, MaxVarintLen64]
    rw [Nat.mod_eq_of_lt hlt]
    have h2 : ¬ (1 < y) := by omega
    have h3 : y < 128 := by omega
    simp [h2, h3]
  | succ f ih =>
    intro y i acc rest hi hacc hlt
    unfold putUvarintLoop
    by_cases hy : y < 0x80
    · have hb : (UInt8.ofNat y).toNat = y := toNat_ofNat_lt y (by omega)
      simp only [hy, if_true, List.singleton_append, uvarintLoop, hb, MaxVarintLen64]
      rw [Nat.mod_eq_of_lt hlt]
      have h1 : ¬ (i = 10) := by omega
      have h2 : ¬ (i = 10 - 1 ∧ y > 1) := by omega
      simp [h1, h2]
    · have hb : (UInt8.ofNat (y % 0x80 + 0x80)).toNat = y % 0x80 + 0x80 :=
        toNat_ofNat_lt _ (by omega)
      have h1 : ¬ (i = 10) := by omega
      have h3 : ¬ (y % 0x80 + 0x80 < 0x80) := by omega
      have h4 : (y % 0x80 + 0x80) % 0x80 = y % 0x80 := by omega
      simp only [hy, if_false, List.cons_append, uvarintLoop, hb, MaxVarintLen64, h1, h3, h4]
      have hpow : 2 ^ (7 * (i + 1)) = 128 * 2 ^ (7 * i) := by
        rw [show 7 * (i + 1) = 7 * i + 7 by ring, pow_add]; norm_num; ring
      have hsplit : y * 2 ^ (7 * i) = (y % 128) * 2 ^ (7 * i) + (y / 128) * (128 * 2 ^ (7 * i)) := by
        conv_lhs => rw [← Nat.div_add_mod y 128]
        ring
      have hacc2 : acc + (y % 128) * 2 ^ (7 * i) < 2 ^ (7 * (i + 1)) := by
        rw [hpow]
        have : (y % 128) * 2 ^ (7 * i) ≤ 127 * 2 ^ (7 * i) :=
          Nat.mul_le_mul_right _ (by omega)
        omega
      have hlt0 : acc + (y % 128) * 2 ^ (7 * i) < 2 ^ 64 := by
        rw [hsplit] at hlt
        omega
      rw [Nat.mod_eq_of_lt hlt0]
      have hs : 7 * i + 7 = 7 * (i + 1) := by ring
      rw [hs]
      have hlt2 : acc + y % 128 * 2 ^ (7 * i) + y / 128 * 2 ^ (7 * (i + 1)) < 2 ^ 64 := by
        rw [hpow]
        rw [hsplit] at hlt
        omega
      rw [ih (y / 128) (i + 1) _ rest (by omega) hacc2 hlt2]
      congr 1
      · rw [hpow, hsplit]; omega
      · simp only [List.length_cons]; push_cast; omega

theorem Uvarint_PutUvarint (x : Nat) (rest : Bytes) (hx : x < 2 ^ 64) :
    Uvarint (PutUvarint x ++ rest) = (x, ((PutUvarint x).length : Int)) := by
  unfold Uvarint PutUvarint
  have h := uvarintLoop_putUvarintLoop 9 x 0 0 rest (by omega) (by norm_num)
    (by simpa using hx)
  simpa using h

/-- An encoding shorter than the fuel only arises from a small value. -/
theorem putUvarintLoop_lt_of_length_le (fuel : Nat) :
    ∀ (k y : Nat), k ≤ fuel → (putUvarintLoop fuel y).length ≤ k → y < 128 ^ k := by
  induction fuel with
  | zero =>
    intro k y hk hlen
    simp [putUvarintLoop] at hlen
    omega
  | succ f ih =>
    intro k y hk hlen
    unfold putUvarintLoop at hlen
    by_cases hy : y < 0x80
    · simp only [hy, if_true, List.length_singleton] at hlen
      calc y < 128 := hy
        _ = 128 ^ 1 := by norm_num
        _ ≤ 128 ^ k := Nat.pow_le_pow_right (by norm_num) hlen
    · simp only [hy, if_false, List.length_cons] at hlen
      cases k with
      | zero => omega
      | succ k =>
        have := ih k (y / 0x80) (by omega) (by omega)
        rw [Nat.div_lt_iff_lt_mul (by norm_num)] at this
        calc y < 128 ^ k * 128 := this
          _ = 128 ^ (k + 1) := by ring

/-- Decoding a signed varint undoes `PutVarint` on the `int64` range. -/
theorem Varint_PutVarint (x : Int) (rest : Bytes) (h1 : -(2 ^ 63) ≤ x) (h2 : x < 2 ^ 63) :
    Varint (PutVarint x ++ rest) = (x, ((PutVarint x).length : Int)) := by
  unfold Varint PutVarint
  by_cases hx : x < 0
  · simp only [hx, if_true]
    have hlt : (2 * (-x) - 1).toNat < 2 ^ 64 := by omega
    rw [Uvarint_PutUvarint _ _ hlt]
    have hodd : (2 * (-x) - 1).toNat % 2 = 1 := by omega
    simp only [hodd, if_true]
    congr 1
    omega
  · simp only [hx, if_false]
    have hlt : (2 * x).toNat < 2 ^ 64 := by omega
    rw [Uvarint_PutUvarint _ _ hlt]
    have hev : ¬ ((2 * x).toNat % 2 = 1) := by omega
    simp only [hev, if_false]
    congr 1
    omega

theorem PutVarint_length_pos (x : Int) : 1 ≤ (PutVarint x).length :=
  PutUvarint_length_pos _

theorem PutVarint_length_le (x : Int) : (PutVarint x).length ≤ 10 :=
  PutUvarint_length_le _

/-- A length below `2^34` takes at most five varint bytes. -/
theorem PutVarint_length_le_five (n : Nat) (h : n < 2 ^ 34) :
    (PutVarint (n : Int)).length ≤ 5 := by
  unfold PutVarint PutUvarint
  apply putUvarintLoop_length_le_of_lt 4
  have : ¬ ((n : Int) < 0) := by omega
  simp only [this, if_false]
  have h3 : (2 * (n : Int)).toNat = 2 * n := by omega
  rw [h3]
  norm_num at h ⊢
  omega

/-- A non-negative length whose varint takes at most nine bytes is below `2^62`. -/
theorem lt_of_PutVarint_length_le (n : Nat) (h : (PutVarint (n : Int)).length ≤ 9) :
    n < 2 ^ 62 := by
  unfold PutVarint PutUvarint at h
  have h0 : ¬ ((n : Int) < 0) := by omega
  simp only [h0, if_false] at h
  have h3 : (2 * (n : Int)).toNat = 2 * n := by omega
  rw [h3] at h
  have := putUvarintLoop_lt_of_length_le 9 9 (2 * n) (by omega) h
  norm_num at this ⊢
  omega

end Bitcask

namespace Bitcask

/-! ## CRC-32 -/

theorem crcBit_lt (c : Nat) (h : c < 2 ^ 32) : crcBit c < 2 ^ 32 := by
  unfold crcBit
  split
  · exact Nat.xor_lt_two_pow (by omega) (by norm_num [IEEE])
  · omega

theorem IEEETable_lt (i : Nat) (h : i < 2 ^ 32) : IEEETable i < 2 ^ 32 := by
  unfold IEEETable
  repeat apply crcBit_lt
  exact h

theorem crcStep_lt (c : Nat) (v : UInt8) (h : c < 2 ^ 32) : crcStep c v < 2 ^ 32 := by
  unfold crcStep
  apply Nat.xor_lt_two_pow
  · apply IEEETable_lt
    have h1 : c % 256 < 2 ^ 8 := by omega
    have h2 : v.toNat < 2 ^ 8 := v.toNat_lt
    have := Nat.xor_lt_two_pow h1 h2
    omega
  · omega

theorem foldl_crcStep_lt (p : Bytes) : ∀ (c : Nat), c < 2 ^ 32 → p.foldl crcStep c < 2 ^ 32 := by
  induction p with
  | nil => intro c h; simpa using h
  | cons v p ih => intro c h; exact ih _ (crcStep_lt c v h)

theorem crc32Update_lt (c : Nat) (p : Bytes) (h : c < 2 ^ 32) : crc32Update c p < 2 ^ 32 := by
  unfold crc32Update
  apply Nat.xor_lt_two_pow _ (by norm_num)
  apply foldl_crcStep_lt
  exact Nat.xor_lt_two_pow h (by norm_num)

theorem ChecksumIEEE_lt (p : Bytes) : ChecksumIEEE p < 2 ^ 32 :=
  crc32Update_lt 0 p (by norm_num)

theorem crc32Update_append (c : Nat) (a b : Bytes) :
    crc32Update (crc32Update c a) b = crc32Update c (a ++ b) := by
  unfold crc32Update
  rw [Nat.xor_cancel_right, List.foldl_append]

theorem getLogRecordCRC_eq (lr : LogRecord) (header : Bytes) :
    getLogRecordCRC lr header = ChecksumIEEE (header ++ lr.Key ++ lr.Value) := by
  unfold getLogRecordCRC ChecksumIEEE
  rw [crc32Update_append, crc32Update_append, List.append_assoc]

/-! ## Little-endian words -/

theorem putUint32LE_length (v : Nat) : (putUint32LE v).length = 4 := rfl

theorem uint32LE_putUint32LE (v : Nat) (h : v < 2 ^ 32) : uint32LE (putUint32LE v) = v := by
  unfold uint32LE putUint32LE
  simp only [List.getD_cons_zero, List.getD_cons_succ]
  rw [toNat_ofNat_lt _ (Nat.mod_lt _ (by norm_num)), toNat_ofNat_lt _ (Nat.mod_lt _ (by norm_num)),
    toNat_ofNat_lt _ (Nat.mod_lt _ (by norm_num)), toNat_ofNat_lt _ (Nat.mod_lt _ (by norm_num))]
  norm_num at h ⊢
  omega

/-! ## Header decoding on encoded bytes -/

theorem toUint32_natCast (n : Nat) : toUint32 (n : Int) = n % 2 ^ 32 := by
  unfold toUint32
  omega

theorem decodeLogRecordHeader_encoded (crc4 : Bytes) (typ : UInt8) (a b : Nat) (tail : Bytes)
    (h4 : crc4.length = 4) (ha : a < 2 ^ 62) (hb : b < 2 ^ 62) :
    decodeLogRecordHeader (crc4 ++ typ :: (PutVarint a ++ (PutVarint b ++ tail))) =
      .ok (some { crc := uint32LE crc4, recordType := typ, keySize := a % 2 ^ 32,
                  valueSize := b % 2 ^ 32 },
           ((5 + (PutVarint a).length + (PutVarint b).length : Nat) : Int)) := by
  unfold decodeLogRecordHeader
  have hlen : ¬ ((crc4 ++ typ :: (PutVarint a ++ (PutVarint b ++ tail))).length ≤ 4) := by
    simp [h4]
  simp only [hlen, if_false]
  have htake : (crc4 ++ typ :: (PutVarint a ++ (PutVarint b ++ tail))).take 4 = crc4 :=
    List.take_left' h4
  have hget : (crc4 ++ typ :: (PutVarint a ++ (PutVarint b ++ tail))).getD 4 0 = typ := by
    rw [List.getD_eq_getElem?_getD, List.getElem?_append_right (by omega)]
    simp [h4]
  have hdrop : (crc4 ++ typ :: (PutVarint a ++ (PutVarint b ++ tail))).drop 5 =
      PutVarint a ++ (PutVarint b ++ tail) := by
    rw [show (5 : Nat) = crc4.length + 1 by omega, List.drop_append]
    rfl
  rw [htake, hget, hdrop, Varint_PutVarint a _ (by omega) (by omega)]
  have hsl : sliceFrom (crc4 ++ typ :: (PutVarint a ++ (PutVarint b ++ tail)))
      (5 + ((PutVarint a).length : Int)) = .ok (PutVarint b ++ tail) := by
    unfold sliceFrom
    have hc : ¬ ((5 + ((PutVarint a).length : Int) < 0) ∨
        (((crc4 ++ typ :: (PutVarint a ++ (PutVarint b ++ tail))).length : Nat) : Int) <
          5 + ((PutVarint a).length : Int)) := by
      simp only [List.length_append, List.length_cons, h4]
      push_cast
      omega
    simp only [hc, if_false]
    have ht : (5 + ((PutVarint a).length : Int)).toNat = crc4.length + (1 + (PutVarint a).length) := by
      omega
    rw [ht, List.drop_append]
    rw [show typ :: (PutVarint a ++ (PutVarint b ++ tail)) =
      (typ :: PutVarint a) ++ (PutVarint b ++ tail) by rfl]
    rw [List.drop_left' (by simp; omega)]
  simp only [hsl]
  rw [Varint_PutVarint b _ (by omega) (by omega)]
  simp only [toUint32_natCast]
  congr 2

end Bitcask

namespace Bitcask

/-! ## Reading back an encoded record -/

theorem readNBytes_ok (df : DataFile) (pre x post : Bytes) (n off : Int)
    (hio : df.IoManager = pre ++ x ++ post) (hn : n = x.length) (ho : off = pre.length) :
    df.readNBytes n off = .ok x := by
  unfold DataFile.readNBytes
  have h1 : ¬ (n < 0) := by omega
  have h2 : ¬ (off < 0) := by omega
  have h3 : off.toNat = pre.length := by omega
  have h4 : n.toNat = x.length := by omega
  simp only [h1, h2, if_false, h3, h4, hio, List.append_assoc, List.drop_left, List.take_left,
    lt_self_iff_false]

theorem EncodeLogRecord_ok_iff (r : LogRecord) (enc : Bytes) (n : Int) :
    EncodeLogRecord r = .ok (enc, n) ↔
      (5 + (PutVarint (r.Key.length : Int)).length + (PutVarint (r.Value.length : Int)).length ≤ 15 ∧
       enc = putUint32LE (ChecksumIEEE (r.Typ :: (PutVarint (r.Key.length : Int) ++
          PutVarint (r.Value.length : Int) ++ r.Key ++ r.Value))) ++
          (r.Typ :: (PutVarint (r.Key.length : Int) ++
          PutVarint (r.Value.length : Int) ++ r.Key ++ r.Value)) ∧
       n = enc.length) := by
  unfold EncodeLogRecord
  simp only [maxLogRecordHeaderSize, MaxVarintLen32]
  by_cases h : 5 + (PutVarint (r.Key.length : Int)).length +
      (PutVarint (r.Value.length : Int)).length > 5 * 2 + 5
  · simp only [h, if_true]
    constructor
    · intro hc; cases hc
    · intro hc; omega
  · simp only [h, if_false, Except.ok.injEq, Prod.mk.injEq]
    constructor
    · rintro ⟨h1, h2⟩
      subst h1
      exact ⟨by omega, rfl, h2.symm⟩
    · rintro ⟨_, h1, h2⟩
      subst h1
      exact ⟨rfl, h2.symm⟩

theorem EncodeLogRecord_ok_bounds (r : LogRecord) (enc : Bytes) (n : Int)
    (h : EncodeLogRecord r = .ok (enc, n)) :
    r.Key.length < 2 ^ 62 ∧ r.Value.length < 2 ^ 62 := by
  rw [EncodeLogRecord_ok_iff] at h
  have h1 := PutVarint_length_pos (r.Key.length : Int)
  have h2 := PutVarint_length_pos (r.Value.length : Int)
  exact ⟨lt_of_PutVarint_length_le _ (by omega), lt_of_PutVarint_length_le _ (by omega)⟩

/-- Locality of reads: wherever the encoding of `r` sits in a file, and whatever
precedes and follows it, `ReadLogRecord` at its first byte returns `readBack r`. -/
theorem ReadLogRecord_encoded (r : LogRecord) (enc : Bytes) (n : Int)
    (henc : EncodeLogRecord r = .ok (enc, n)) (df : DataFile) (pre post : Bytes)
    (hio : df.IoManager = pre ++ enc ++ post) :
    df.ReadLogRecord (pre.length : Int) = readBack r := by
  obtain ⟨hk, hv⟩ := EncodeLogRecord_ok_bounds r enc n henc
  rw [EncodeLogRecord_ok_iff] at henc
  obtain ⟨hH, henc, -⟩ := henc
  unfold DataFile.ReadLogRecord readBack
  have hdec := fun tail => decodeLogRecordHeader_encoded
    (putUint32LE (ChecksumIEEE (r.Typ :: (PutVarint (r.Key.length : Int) ++
          PutVarint (r.Value.length : Int) ++ r.Key ++ r.Value)))) r.Typ _ _ tail
    (putUint32LE_length _) hk hv
  generalize hks : PutVarint (r.Key.length : Int) = ks at hH henc hdec ⊢
  generalize hvs : PutVarint (r.Value.length : Int) = vs at hH henc hdec ⊢
  generalize hcrc : ChecksumIEEE (r.Typ :: (ks ++ vs ++ r.Key ++ r.Value)) = crc at henc hdec ⊢
  have hcrclt : crc < 2 ^ 32 := hcrc ▸ ChecksumIEEE_lt _
  have hksz : r.Key.length % 2 ^ 32 ≤ r.Key.length := Nat.mod_le _ _
  have hvsz : r.Value.length % 2 ^ 32 ≤ r.Value.length := Nat.mod_le _ _
  generalize hkszd : r.Key.length % 2 ^ 32 = ksz at hksz hdec ⊢
  generalize hvszd : r.Value.length % 2 ^ 32 = vsz at hvsz hdec ⊢
  -- the header bytes that are read
  have hrest : enc ++ post = (putUint32LE crc ++ r.Typ :: (ks ++ vs)) ++ (r.Key ++ r.Value ++ post) := by
    rw [henc]; simp
  have hHlen : (putUint32LE crc ++ r.Typ :: (ks ++ vs)).length = 5 + ks.length + vs.length := by
    simp [putUint32LE_length]; omega
  have hbuf : (enc ++ post).take 15 = putUint32LE crc ++ r.Typ :: (ks ++ (vs ++
      (r.Key ++ r.Value ++ post).take (15 - (5 + ks.length + vs.length)))) := by
    have h15 : (putUint32LE crc ++ r.Typ :: (ks ++ vs)).length +
        (15 - (5 + ks.length + vs.length)) = 15 := by omega
    have ht := @List.take_append _ (putUint32LE crc ++ r.Typ :: (ks ++ vs))
      (r.Key ++ r.Value ++ post) (15 - (5 + ks.length + vs.length))
    rw [h15] at ht
    rw [hrest, ht]
    simp
  have hread1 : df.readNBytes
      (if (maxLogRecordHeaderSize : Int) + (pre.length : Int) > (df.IoManager.length : Int)
        then (df.IoManager.length : Int) - (pre.length : Int) else (maxLogRecordHeaderSize : Int))
      (pre.length : Int) = .ok ((enc ++ post).take 15) := by
    apply readNBytes_ok df pre ((enc ++ post).take 15) ((enc ++ post).drop 15)
    · rw [hio]; simp
    · rw [hio]
      simp only [maxLogRecordHeaderSize, MaxVarintLen32, List.length_append, List.length_take]
      split <;> push_cast <;> omega
    · rfl
  simp only [hread1, hbuf, hdec, uint32LE_putUint32LE crc hcrclt, hcrc]
  by_cases heof : crc = 0 ∧ ksz = 0 ∧ vsz = 0
  · simp only [heof, and_self, if_true]
  · simp only [heof, if_false]
    have hslice : slice (putUint32LE crc ++ r.Typ :: (ks ++ (vs ++
        (r.Key ++ r.Value ++ post).take (15 - (5 + ks.length + vs.length))))) 4
        ((5 + ks.length + vs.length : Nat) : Int) = .ok (r.Typ :: (ks ++ vs)) := by
      unfold slice
      have hc : ¬ ((4 : Int) < 0 ∨ ((5 + ks.length + vs.length : Nat) : Int) < 4 ∨
          (((putUint32LE crc ++ r.Typ :: (ks ++ (vs ++
            (r.Key ++ r.Value ++ post).take (15 - (5 + ks.length + vs.length))))).length : Nat) : Int)
            < ((5 + ks.length + vs.length : Nat) : Int)) := by
        simp only [List.length_append, List.length_cons, putUint32LE_length]
        omega
      simp only [hc, if_false]
      have e1 : putUint32LE crc ++ r.Typ :: (ks ++ (vs ++
          (r.Key ++ r.Value ++ post).take (15 - (5 + ks.length + vs.length)))) =
          (putUint32LE crc ++ r.Typ :: (ks ++ vs)) ++
          (r.Key ++ r.Value ++ post).take (15 - (5 + ks.length + vs.length)) := by simp
      rw [e1, Int.toNat_ofNat, List.take_left' hHlen]
      rw [show ((4 : Int).toNat) = (putUint32LE crc).length by rfl, List.drop_left]
    -- the key and value bytes that are read
    by_cases hz : (ksz : Int) > 0 ∨ (vsz : Int) > 0
    · have hrd := readNBytes_ok df (pre ++ (putUint32LE crc ++ r.Typ :: (ks ++ vs)))
        ((r.Key ++ r.Value).take (ksz + vsz))
        ((r.Key ++ r.Value).drop (ksz + vsz) ++ post)
        ((ksz : Int) + (vsz : Int))
        ((pre.length : Int) + ((5 + ks.length + vs.length : Nat) : Int))
        (by
          rw [hio, henc]
          have e2 : ∀ p : Bytes, (r.Key ++ r.Value).take (ksz + vsz) ++
              ((r.Key ++ r.Value).drop (ksz + vsz) ++ p) = r.Key ++ (r.Value ++ p) := by
            intro p
            rw [← List.append_assoc, List.take_append_drop, List.append_assoc]
          simp only [List.append_assoc, List.cons_append, e2])
        (by simp only [List.length_take, List.length_append]; omega)
        (by simp only [List.length_append, hHlen]; push_cast; ring)
      simp only [hz, if_true, hrd, hslice, getLogRecordCRC_eq]
      push_cast
      rfl
    · simp only [hz, if_false, hslice, getLogRecordCRC_eq]
      have h1 : ksz = 0 := by omega
      have h2 : vsz = 0 := by omega
      subst h1 h2
      simp

end Bitcask

namespace Bitcask

/-! ## Byte order -/

theorem bytesCompare_eq_iff (a b : Bytes) : bytesCompare a b = .eq ↔ a = b := by
  induction a generalizing b with
  | nil => cases b <;> simp [bytesCompare]
  | cons x xs ih =>
    cases b with
    | nil => simp [bytesCompare]
    | cons y ys =>
      unfold bytesCompare
      by_cases h1 : x.toNat < y.toNat
      · simp only [h1, if_true]
        constructor
        · intro h; cases h
        · intro h; injection h with h2 _; subst h2; omega
      · by_cases h2 : y.toNat < x.toNat
        · simp only [h1, h2, if_true, if_false]
          constructor
          · intro h; cases h
          · intro h; injection h with h3 _; subst h3; omega
        · simp only [h1, h2, if_false]
          have hxy : x = y := UInt8.ext (by omega)
          rw [ih ys]
          constructor
          · intro h; rw [hxy, h]
          · intro h; injection h

theorem bytesCompare_lt_asymm (a b : Bytes) : bytesCompare a b = .lt → bytesCompare b a ≠ .lt := by
  induction a generalizing b with
  | nil => cases b <;> simp [bytesCompare]
  | cons x xs ih =>
    cases b with
    | nil => simp [bytesCompare]
    | cons y ys =>
      unfold bytesCompare
      by_cases h1 : x.toNat < y.toNat
      · have h2 : ¬ y.toNat < x.toNat := by omega
        simp [h1, h2]
      · by_cases h2 : y.toNat < x.toNat
        · simp [h1, h2]
        · simp only [h1, h2, if_false]
          exact ih ys

theorem bytesCompare_lt_trans (a b c : Bytes) :
    bytesCompare a b = .lt → bytesCompare b c = .lt → bytesCompare a c = .lt := by
  induction a generalizing b c with
  | nil =>
    cases b with
    | nil => simp [bytesCompare]
    | cons y ys => cases c <;> simp [bytesCompare]
  | cons x xs ih =>
    cases b with
    | nil => simp [bytesCompare]
    | cons y ys =>
      cases c with
      | nil => simp [bytesCompare]
      | cons z zs =>
        unfold bytesCompare
        by_cases h1 : x.toNat < y.toNat
        · by_cases h2 : y.toNat < z.toNat
          · have : x.toNat < z.toNat := by omega
            simp [h1, h2, this]
          · by_cases h3 : z.toNat < y.toNat
            · simp [h1, h2, h3]
            · have : x.toNat < z.toNat := by omega
              simp [h1, h2, h3, this]
        · by_cases h2 : y.toNat < x.toNat
          · simp [h1, h2]
          · simp only [h1, h2, if_false]
            by_cases h3 : y.toNat < z.toNat
            · have : x.toNat < z.toNat := by omega
              simp [h3, this]
            · by_cases h4 : z.toNat < y.toNat
              · simp [h3, h4]
              · have h5 : ¬ x.toNat < z.toNat := by omega
                have h6 : ¬ z.toNat < x.toNat := by omega
                simp only [h3, h4, h5, h6, if_false]
                exact ih ys zs

theorem bytesCompare_total (a b : Bytes) :
    bytesCompare a b ≠ .lt → bytesCompare b a ≠ .lt → a = b := by
  induction a generalizing b with
  | nil => cases b <;> simp [bytesCompare]
  | cons x xs ih =>
    cases b with
    | nil => simp [bytesCompare]
    | cons y ys =>
      unfold bytesCompare
      by_cases h1 : x.toNat < y.toNat
      · simp [h1]
      · by_cases h2 : y.toNat < x.toNat
        · simp [h1, h2]
        · simp only [h1, h2, if_false]
          intro h3 h4
          have hxy : x = y := UInt8.ext (by omega)
          rw [hxy, ih ys h3 h4]

theorem Less_irrefl (a : Item) : a.Less a = false := by
  unfold Item.Less
  have := (bytesCompare_eq_iff a.key a.key).2 rfl
  simp [this]

theorem Less_asymm (a b : Item) (h : a.Less b = true) : b.Less a = false := by
  unfold Item.Less at *
  have h1 : bytesCompare a.key b.key = .lt := by simpa using h
  have := bytesCompare_lt_asymm _ _ h1
  simpa using this

theorem Less_trans (a b c : Item) (h1 : a.Less b = true) (h2 : b.Less c = true) :
    a.Less c = true := by
  unfold Item.Less at *
  have h3 : bytesCompare a.key b.key = .lt := by simpa using h1
  have h4 : bytesCompare b.key c.key = .lt := by simpa using h2
  simpa using bytesCompare_lt_trans _ _ _ h3 h4

theorem key_eq_of_not_Less (a b : Item) (h1 : a.Less b = false) (h2 : b.Less a = false) :
    a.key = b.key := by
  unfold Item.Less at *
  exact bytesCompare_total _ _ (by simpa using h1) (by simpa using h2)

theorem Less_congr_left (a a2 b : Item) (h : a.key = a2.key) : a.Less b = a2.Less b := by
  unfold Item.Less; rw [h]

theorem Less_congr_right (a b b2 : Item) (h : b.key = b2.key) : a.Less b = a.Less b2 := by
  unfold Item.Less; rw [h]

/-! ## The ordered tree as a finite map -/

theorem treeGet_congr (a b : Item) (h : a.key = b.key) (l : List Item) :
    treeGet a l = treeGet b l := by
  induction l with
  | nil => rfl
  | cons x xs ih =>
    unfold treeGet
    rw [Less_congr_left a b x h, Less_congr_right x a b h, ih]

theorem treeGet_cons (a y : Item) (ys : List Item) :
    treeGet a (y :: ys) =
      if a.Less y = true then none else if y.Less a = true then treeGet a ys else some y := rfl

theorem treeReplaceOrInsert_cons (it y : Item) (ys : List Item) :
    treeReplaceOrInsert it (y :: ys) =
      if it.Less y = true then (it :: y :: ys, none)
      else if y.Less it = true then
        (y :: (treeReplaceOrInsert it ys).1, (treeReplaceOrInsert it ys).2)
      else (it :: ys, some y) := rfl

theorem treeDelete_cons (it y : Item) (ys : List Item) :
    treeDelete it (y :: ys) =
      if it.Less y = true then (y :: ys, none)
      else if y.Less it = true then (y :: (treeDelete it ys).1, (treeDelete it ys).2)
      else (ys, some y) := rfl

theorem treeGet_key (a : Item) (l : List Item) (x : Item) (h : treeGet a l = some x) :
    x.key = a.key := by
  induction l with
  | nil => simp [treeGet] at h
  | cons y ys ih =>
    rw [treeGet_cons] at h
    cases h1 : a.Less y
    · cases h2 : y.Less a
      · simp only [h1, h2, Bool.false_eq_true, if_false, Option.some.injEq] at h
        rw [← h]
        exact (key_eq_of_not_Less a y h1 h2).symm
      · simp only [h1, h2, Bool.false_eq_true, if_false, if_true] at h
        exact ih h
    · simp [h1] at h

theorem treeGet_mem (a : Item) (l : List Item) (x : Item) (h : treeGet a l = some x) : x ∈ l := by
  induction l with
  | nil => simp [treeGet] at h
  | cons y ys ih =>
    rw [treeGet_cons] at h
    cases h1 : a.Less y
    · cases h2 : y.Less a
      · simp only [h1, h2, Bool.false_eq_true, if_false, Option.some.injEq] at h
        rw [← h]
        exact List.mem_cons_self _ _
      · simp only [h1, h2, Bool.false_eq_true, if_false, if_true] at h
        exact List.mem_cons_of_mem _ (ih h)
    · simp [h1] at h

theorem treeGet_eq_none_of_forall_Less (a : Item) (l : List Item)
    (h : ∀ x ∈ l, a.Less x = true) : treeGet a l = none := by
  cases l with
  | nil => rfl
  | cons y ys =>
    rw [treeGet_cons]
    simp [h y (List.mem_cons_self _ _)]

theorem treeReplaceOrInsert_mem (it : Item) (l : List Item) (x : Item)
    (h : x ∈ (treeReplaceOrInsert it l).1) : x = it ∨ x ∈ l := by
  induction l with
  | nil => simp [treeReplaceOrInsert] at h; exact Or.inl h
  | cons y ys ih =>
    rw [treeReplaceOrInsert_cons] at h
    cases h1 : it.Less y
    · cases h2 : y.Less it
      · simp only [h1, h2, Bool.false_eq_true, if_false, List.mem_cons] at h
        rcases h with h3 | h3
        · exact Or.inl h3
        · exact Or.inr (List.mem_cons.2 (Or.inr h3))
      · simp only [h1, h2, Bool.false_eq_true, if_false, if_true, List.mem_cons] at h
        rcases h with h3 | h3
        · exact Or.inr (List.mem_cons.2 (Or.inl h3))
        · rcases ih h3 with h4 | h4
          · exact Or.inl h4
          · exact Or.inr (List.mem_cons.2 (Or.inr h4))
    · simp only [h1, if_true, List.mem_cons] at h
      rcases h with h3 | h3 | h3
      · exact Or.inl h3
      · exact Or.inr (List.mem_cons.2 (Or.inl h3))
      · exact Or.inr (List.mem_cons.2 (Or.inr h3))

theorem treeReplaceOrInsert_sorted (it : Item) (l : List Item) (hs : TreeSorted l) :
    TreeSorted (treeReplaceOrInsert it l).1 := by
  induction l with
  | nil => simp [treeReplaceOrInsert, TreeSorted]
  | cons y ys ih =>
    unfold TreeSorted at hs
    rw [List.pairwise_cons] at hs
    obtain ⟨hy, hys⟩ := hs
    rw [treeReplaceOrInsert_cons]
    cases h1 : it.Less y
    · cases h2 : y.Less it
      · simp only [h1, h2, Bool.false_eq_true, if_false]
        show List.Pairwise _ (it :: ys)
        rw [List.pairwise_cons]
        refine ⟨?_, hys⟩
        intro z hz
        have hk := key_eq_of_not_Less it y h1 h2
        rw [Less_congr_left it y z hk]
        exact hy z hz
      · simp only [h1, h2, Bool.false_eq_true, if_false, if_true]
        show List.Pairwise _ (y :: (treeReplaceOrInsert it ys).1)
        rw [List.pairwise_cons]
        refine ⟨?_, ih hys⟩
        intro z hz
        rcases treeReplaceOrInsert_mem it ys z hz with hz | hz
        · rw [hz]; exact h2
        · exact hy z hz
    · simp only [h1, if_true]
      show List.Pairwise _ (it :: y :: ys)
      rw [List.pairwise_cons, List.pairwise_cons]
      refine ⟨?_, hy, hys⟩
      intro z hz
      rcases List.mem_cons.1 hz with hz | hz
      · rw [hz]; exact h1
      · exact Less_trans _ _ _ h1 (hy z hz)

theorem treeReplaceOrInsert_old (it : Item) (l : List Item) :
    (treeReplaceOrInsert it l).2 = treeGet it l := by
  induction l with
  | nil => rfl
  | cons y ys ih =>
    rw [treeReplaceOrInsert_cons, treeGet_cons]
    cases h1 : it.Less y
    · cases h2 : y.Less it
      · simp [h1, h2]
      · simp only [h1, h2, Bool.false_eq_true, if_false, if_true]
        exact ih
    · simp [h1]

theorem treeGet_replaceOrInsert_self (it : Item) (l : List Item) :
    treeGet it (treeReplaceOrInsert it l).1 = some it := by
  induction l with
  | nil => simp [treeReplaceOrInsert, treeGet, Less_irrefl]
  | cons y ys ih =>
    rw [treeReplaceOrInsert_cons]
    cases h1 : it.Less y
    · cases h2 : y.Less it
      · simp [h1, h2, treeGet_cons, Less_irrefl]
      · simp only [h1, h2, Bool.false_eq_true, if_false, if_true, treeGet_cons]
        exact ih
    · simp [h1, treeGet_cons, Less_irrefl]

theorem treeGet_replaceOrInsert_other (it a : Item) (l : List Item) (hs : TreeSorted l)
    (hne : a.key ≠ it.key) :
    treeGet a (treeReplaceOrInsert it l).1 = treeGet a l := by
  induction l with
  | nil =>
    simp only [treeReplaceOrInsert, treeGet]
    cases h1 : a.Less it
    · cases h2 : it.Less a
      · exact absurd (key_eq_of_not_Less a it h1 h2) hne
      · simp
    · simp
  | cons y ys ih =>
    unfold TreeSorted at hs
    rw [List.pairwise_cons] at hs
    obtain ⟨hy, hys⟩ := hs
    rw [treeReplaceOrInsert_cons]
    cases h1 : it.Less y
    · cases h2 : y.Less it
      · simp only [h1, h2, Bool.false_eq_true, if_false, treeGet_cons]
        have hk := key_eq_of_not_Less it y h1 h2
        rw [Less_congr_right a it y hk, Less_congr_left it y a hk]
        cases h3 : a.Less y
        · cases h4 : y.Less a
          · exact absurd ((key_eq_of_not_Less a y h3 h4).trans hk.symm) hne
          · simp
        · simp
      · simp only [h1, h2, Bool.false_eq_true, if_false, if_true, treeGet_cons]
        rw [ih hys]
    · simp only [h1, if_true]
      rw [treeGet_cons]
      cases h3 : a.Less it
      · cases h4 : it.Less a
        · exact absurd (key_eq_of_not_Less a it h3 h4) hne
        · simp
      · have : a.Less y = true := Less_trans _ _ _ h3 h1
        simp [treeGet_cons, this]

theorem treeDelete_mem (it : Item) (l : List Item) (x : Item)
    (h : x ∈ (treeDelete it l).1) : x ∈ l := by
  induction l with
  | nil => simp [treeDelete] at h
  | cons y ys ih =>
    rw [treeDelete_cons] at h
    cases h1 : it.Less y
    · cases h2 : y.Less it
      · simp only [h1, h2, Bool.false_eq_true, if_false] at h
        exact List.mem_cons_of_mem _ h
      · simp only [h1, h2, Bool.false_eq_true, if_false, if_true, List.mem_cons] at h
        rcases h with h3 | h3
        · exact List.mem_cons.2 (Or.inl h3)
        · exact List.mem_cons_of_mem _ (ih h3)
    · simpa [h1] using h

theorem treeDelete_sorted (it : Item) (l : List Item) (hs : TreeSorted l) :
    TreeSorted (treeDelete it l).1 := by
  induction l with
  | nil => simp [treeDelete, TreeSorted]
  | cons y ys ih =>
    have hs0 := hs
    unfold TreeSorted at hs
    rw [List.pairwise_cons] at hs
    obtain ⟨hy, hys⟩ := hs
    rw [treeDelete_cons]
    cases h1 : it.Less y
    · cases h2 : y.Less it
      · simpa [h1, h2] using hys
      · simp only [h1, h2, Bool.false_eq_true, if_false, if_true]
        show List.Pairwise _ (y :: (treeDelete it ys).1)
        rw [List.pairwise_cons]
        exact ⟨fun z hz => hy z (treeDelete_mem it ys z hz), ih hys⟩
    · simpa [h1] using hs0

theorem treeDelete_old (it : Item) (l : List Item) :
    (treeDelete it l).2 = treeGet it l := by
  induction l with
  | nil => rfl
  | cons y ys ih =>
    rw [treeDelete_cons, treeGet_cons]
    cases h1 : it.Less y
    · cases h2 : y.Less it
      · simp [h1, h2]
      · simp only [h1, h2, Bool.false_eq_true, if_false, if_true]
        exact ih
    · simp [h1]

theorem treeGet_delete_self (it : Item) (l : List Item) (hs : TreeSorted l) :
    treeGet it (treeDelete it l).1 = none := by
  induction l with
  | nil => rfl
  | cons y ys ih =>
    unfold TreeSorted at hs
    rw [List.pairwise_cons] at hs
    obtain ⟨hy, hys⟩ := hs
    rw [treeDelete_cons]
    cases h1 : it.Less y
    · cases h2 : y.Less it
      · simp only [h1, h2, Bool.false_eq_true, if_false]
        apply treeGet_eq_none_of_forall_Less
        intro z hz
        have hk := key_eq_of_not_Less it y h1 h2
        rw [Less_congr_left it y z hk]
        exact hy z hz
      · simp only [h1, h2, Bool.false_eq_true, if_false, if_true, treeGet_cons]
        exact ih hys
    · simp [h1, treeGet_cons]

theorem treeGet_delete_other (it a : Item) (l : List Item) (hs : TreeSorted l)
    (hne : a.key ≠ it.key) :
    treeGet a (treeDelete it l).1 = treeGet a l := by
  induction l with
  | nil => rfl
  | cons y ys ih =>
    unfold TreeSorted at hs
    rw [List.pairwise_cons] at hs
    obtain ⟨hy, hys⟩ := hs
    rw [treeDelete_cons]
    cases h1 : it.Less y
    · cases h2 : y.Less it
      · simp only [h1, h2, Bool.false_eq_true, if_false]
        have hk := key_eq_of_not_Less it y h1 h2
        rw [treeGet_cons]
        cases h3 : a.Less y
        · cases h4 : y.Less a
          · exact absurd ((key_eq_of_not_Less a y h3 h4).trans hk.symm) hne
          · simp
        · simp only [if_true]
          apply treeGet_eq_none_of_forall_Less
          intro z hz
          exact Less_trans _ _ _ h3 (hy z hz)
      · simp only [h1, h2, Bool.false_eq_true, if_false, if_true, treeGet_cons]
        rw [ih hys]
    · simp [h1]

/-! ### The index -/

theorem NewTree_Sorted : NewTree.Sorted := by
  simp [NewTree, BTree.Sorted, TreeSorted]

theorem BTree.Put_Sorted (bt : BTree) (key : Bytes) (pos : LogRecordPos) (hs : bt.Sorted) :
    (bt.Put key pos).1.Sorted :=
  treeReplaceOrInsert_sorted _ _ hs

theorem BTree.Get_Put_self (bt : BTree) (key : Bytes) (pos : LogRecordPos) :
    (bt.Put key pos).1.Get key = some pos := by
  unfold BTree.Get BTree.Put
  simp only
  rw [treeGet_congr { key := key, pos := { Fid := 0, Offset := 0, Size := 0 } }
    { key := key, pos := pos } rfl, treeGet_replaceOrInsert_self]
  rfl

theorem BTree.Get_Put_other (bt : BTree) (key key2 : Bytes) (pos : LogRecordPos) (hs : bt.Sorted)
    (hne : key2 ≠ key) : (bt.Put key pos).1.Get key2 = bt.Get key2 := by
  unfold BTree.Get BTree.Put
  simp only
  rw [treeGet_replaceOrInsert_other _ _ _ hs (by simpa using hne)]

theorem BTree.Put_old (bt : BTree) (key : Bytes) (pos : LogRecordPos) :
    (bt.Put key pos).2 = bt.Get key := by
  unfold BTree.Get BTree.Put
  simp only
  rw [treeReplaceOrInsert_old, treeGet_congr { key := key, pos := pos }
    { key := key, pos := { Fid := 0, Offset := 0, Size := 0 } } rfl]

theorem BTree.Delete_Sorted (bt : BTree) (key : Bytes) (hs : bt.Sorted) :
    (bt.Delete key).1.Sorted := by
  unfold BTree.Delete
  simp only
  split <;> exact treeDelete_sorted _ _ hs

theorem BTree.Delete_tree (bt : BTree) (key : Bytes) :
    (bt.Delete key).1.tree =
      (treeDelete { key := key, pos := { Fid := 0, Offset := 0, Size := 0 } } bt.tree).1 := by
  unfold BTree.Delete
  simp only
  split <;> rfl

theorem BTree.Get_Delete_self (bt : BTree) (key : Bytes) (hs : bt.Sorted) :
    (bt.Delete key).1.Get key = none := by
  unfold BTree.Get
  rw [BTree.Delete_tree, treeGet_delete_self _ _ hs]
  rfl

theorem BTree.Get_Delete_other (bt : BTree) (key key2 : Bytes) (hs : bt.Sorted)
    (hne : key2 ≠ key) : (bt.Delete key).1.Get key2 = bt.Get key2 := by
  unfold BTree.Get
  rw [BTree.Delete_tree, treeGet_delete_other _ _ _ hs (by simpa using hne)]

theorem BTree.Delete_old (bt : BTree) (key : Bytes) :
    (bt.Delete key).2.1 = bt.Get key ∧ (bt.Delete key).2.2 = (bt.Get key).isSome := by
  unfold BTree.Delete BTree.Get
  simp only
  rw [treeDelete_old]
  split <;> rename_i h <;> simp [h]

end Bitcask

namespace Bitcask

/-! ## Go maps -/

section maps

variable {κ α : Type} [DecidableEq κ]

theorem mapGet_cons (k k2 : κ) (v : α) (m : List (κ × α)) :
    mapGet ((k2, v) :: m) k = if k2 = k then some v else mapGet m k := rfl

theorem mapGet_eq_none (m : List (κ × α)) (k : κ) (h : ∀ e ∈ m, e.1 ≠ k) : mapGet m k = none := by
  induction m with
  | nil => rfl
  | cons e m ih =>
    obtain ⟨k2, v⟩ := e
    rw [mapGet_cons]
    have h1 : k2 ≠ k := h (k2, v) (List.mem_cons_self _ _)
    simp only [h1, if_false]
    exact ih (fun e he => h e (List.mem_cons_of_mem _ he))

theorem mem_of_mapGet (m : List (κ × α)) (k : κ) (v : α) (h : mapGet m k = some v) :
    (k, v) ∈ m := by
  induction m with
  | nil => simp [mapGet] at h
  | cons e m ih =>
    obtain ⟨k2, v2⟩ := e
    rw [mapGet_cons] at h
    by_cases h1 : k2 = k
    · simp only [h1, if_true, Option.some.injEq] at h
      rw [h1, h]
      exact List.mem_cons_self _ _
    · simp only [h1, if_false] at h
      exact List.mem_cons_of_mem _ (ih h)

theorem mapGet_mapDelete_self (m : List (κ × α)) (k : κ) : mapGet (mapDelete m k) k = none := by
  apply mapGet_eq_none
  intro e he
  unfold mapDelete at he
  simpa using (List.mem_filter.1 he).2

theorem mapGet_mapDelete_ne (m : List (κ × α)) (k k2 : κ) (h : k2 ≠ k) :
    mapGet (mapDelete m k) k2 = mapGet m k2 := by
  induction m with
  | nil => rfl
  | cons e m ih =>
    obtain ⟨k3, v⟩ := e
    unfold mapDelete at ih ⊢
    by_cases h1 : k3 = k
    · have h2 : ¬ k3 = k2 := by rw [h1]; exact fun hc => h hc.symm
      simp only [List.filter_cons, h1, ne_eq, not_true_eq_false, decide_False, Bool.false_eq_true,
        if_false, mapGet_cons]
      rw [h1] at h2
      simp only [h2, if_false]
      exact ih
    · simp only [List.filter_cons, h1, ne_eq, not_false_eq_true, decide_True, if_true, mapGet_cons]
      rw [ih]

theorem mapGet_mapSet_self (m : List (κ × α)) (k : κ) (v : α) : mapGet (mapSet m k v) k = some v := by
  simp [mapSet, mapGet_cons]

theorem mapGet_mapSet_ne (m : List (κ × α)) (k k2 : κ) (v : α) (h : k2 ≠ k) :
    mapGet (mapSet m k v) k2 = mapGet m k2 := by
  unfold mapSet
  rw [mapGet_cons]
  have h1 : ¬ k = k2 := fun hc => h hc.symm
  simp only [h1, if_false]
  exact mapGet_mapDelete_ne m k k2 h

theorem mem_mapDelete (m : List (κ × α)) (k : κ) (e : κ × α) (h : e ∈ mapDelete m k) :
    e ∈ m ∧ e.1 ≠ k := by
  unfold mapDelete at h
  have := List.mem_filter.1 h
  exact ⟨this.1, by simpa using this.2⟩

theorem mem_mapSet (m : List (κ × α)) (k : κ) (v : α) (e : κ × α) (h : e ∈ mapSet m k v) :
    e = (k, v) ∨ (e ∈ m ∧ e.1 ≠ k) := by
  unfold mapSet at h
  rcases List.mem_cons.1 h with h1 | h1
  · exact Or.inl h1
  · exact Or.inr (mem_mapDelete m k e h1)

end maps

/-! ## Appending a record -/

theorem HoldsAt_read (df : DataFile) (offset : Int) (r : LogRecord) (h : HoldsAt df offset r) :
    df.ReadLogRecord offset = readBack r := by
  obtain ⟨enc, n, pre, post, henc, hio, ho⟩ := h
  rw [ho]
  exact ReadLogRecord_encoded r enc n henc df pre post hio

theorem HoldsAt_extend (df df2 : DataFile) (offset : Int) (r : LogRecord) (extra : Bytes)
    (h : HoldsAt df offset r) (hio : df2.IoManager = df.IoManager ++ extra) :
    HoldsAt df2 offset r := by
  obtain ⟨enc, n, pre, post, henc, hio1, ho⟩ := h
  exact ⟨enc, n, pre, post ++ extra, henc, by rw [hio, hio1]; simp, ho⟩

theorem FilesInv.older_nil (db : DB) (hf : db.FilesInv) (h : db.activeFile = none) :
    db.olderFile = [] := by
  cases hol : db.olderFile with
  | nil => rfl
  | cons e m =>
    obtain ⟨id, f⟩ := e
    have := (hf.older id f (by rw [hol]; exact List.mem_cons_self _ _)).2
    obtain ⟨a, ha, _⟩ := this
    rw [h] at ha
    cases ha

theorem FilesInv.writeFile_writeOff (db : DB) (hf : db.FilesInv) :
    db.writeFile.WriteOff = (db.writeFile.IoManager.length : Int) := by
  unfold DB.writeFile
  cases h : db.activeFile with
  | none => simp
  | some a => simpa using hf.writeOff a h

/-- The effect of a successful append, spelled out: the record goes to the end
of the current file, or to the start of a fresh file with the next id when the
current file would grow past `DataFileSize`. -/
theorem appendLogRecord_eq (db : DB) (hf : db.FilesInv) (r : LogRecord) (enc : Bytes) (n : Int)
    (henc : EncodeLogRecord r = .ok (enc, n)) :
      db.appendLogRecord r =
        if db.writeFile.WriteOff + n > db.options.DataFileSize then
          (.ok { Fid := db.writeFile.FileId + 1, Offset := 0, Size := 0 },
            { db with
              activeFile := some { FileId := db.writeFile.FileId + 1, WriteOff := enc.length,
                                   IoManager := enc },
              olderFile := mapSet db.olderFile db.writeFile.FileId db.writeFile,
              bytesWrite := db.nextBytesWrite n })
        else
          (.ok { Fid := db.writeFile.FileId, Offset := db.writeFile.WriteOff, Size := 0 },
            { db with
              activeFile := some (db.writeFile.Write enc),
              bytesWrite := db.nextBytesWrite n }) := by
  have hfresh : ∀ (a : DataFile) (older : List (Nat × DataFile)),
      (∀ id f, (id, f) ∈ older → f.FileId = id ∧ id < a.FileId) →
      OpenDataFile ([(a.FileId, a.IoManager)] ++
        (mapSet older a.FileId a).map (fun e => (e.2.FileId, e.2.IoManager))) (a.FileId + 1) =
        { FileId := a.FileId + 1, WriteOff := 0, IoManager := [] } := by
    intro a older hold
    unfold OpenDataFile
    rw [mapGet_eq_none]
    · rfl
    · intro e he
      rcases List.mem_append.1 he with h1 | h1
      · simp at h1
        rw [h1]
        simp
      · obtain ⟨e2, he2, rfl⟩ := List.mem_map.1 h1
        rcases mem_mapSet _ _ _ _ he2 with h2 | h2
        · rw [h2]; simp
        · have := hold e2.1 e2.2 h2.1
          simp only
          omega
  unfold DB.appendLogRecord
  cases hact : db.activeFile with
  | none =>
    have hol := FilesInv.older_nil db hf hact
    have hset : db.setActiveDataFile =
        { db with activeFile := some { FileId := 0, WriteOff := 0, IoManager := [] } } := by
      unfold DB.setActiveDataFile DB.dataFiles OpenDataFile
      simp [hact, hol, mapGet]
    simp only [hset, henc, DB.writeFile, hact, Option.getD_none]
    by_cases hrot : (0 : Int) + n > db.options.DataFileSize
    · simp only [hrot, if_true]
      unfold DB.setActiveDataFile DB.dataFiles
      simp only [hol]
      have := hfresh { FileId := 0, WriteOff := 0, IoManager := [] } [] (by simp)
      simp only at this
      rw [this]
      simp only [DataFile.Write, List.nil_append, zero_add]
      have hn : n = enc.length := ((EncodeLogRecord_ok_iff r enc n).1 henc).2.2
      rw [hn]
      rfl
    · simp only [hrot, if_false]
      rfl
  | some a =>
    simp only [henc, DB.writeFile, hact, Option.getD_some]
    by_cases hrot : a.WriteOff + n > db.options.DataFileSize
    · simp only [hrot, if_true]
      unfold DB.setActiveDataFile DB.dataFiles
      simp only
      have := hfresh a db.olderFile (by
        intro id f hm
        obtain ⟨h1, a2, h2, h3⟩ := hf.older id f hm
        rw [hact] at h2
        injection h2 with h2
        subst h2
        exact ⟨h1, h3⟩)
      rw [this]
      simp only [DataFile.Write, List.nil_append, zero_add]
      have hn : n = enc.length := ((EncodeLogRecord_ok_iff r enc n).1 henc).2.2
      rw [hn]
      rfl
    · simp only [hrot, if_false, hact]
      rfl

end Bitcask

namespace Bitcask

/-! ## What an append leaves behind -/

theorem fileOf_active (db : DB) (a : DataFile) (h : db.activeFile = some a) :
    db.fileOf a.FileId = some a := by
  unfold DB.fileOf
  simp [h]

theorem fileOf_congr (db db2 : DB) (h1 : db2.activeFile = db.activeFile)
    (h2 : db2.olderFile = db.olderFile) (fid : Nat) : db2.fileOf fid = db.fileOf fid := by
  unfold DB.fileOf
  rw [h1, h2]

theorem FilesInv_congr (db db2 : DB) (h1 : db2.activeFile = db.activeFile)
    (h2 : db2.olderFile = db.olderFile) (hf : db.FilesInv) : db2.FilesInv :=
  ⟨fun a ha => hf.writeOff a (h1 ▸ ha), fun id f hm => by
    have := hf.older id f (h2 ▸ hm)
    rw [h1]
    exact this⟩

theorem appendLogRecord_ok_of_encode (db : DB) (hf : db.FilesInv) (r : LogRecord) (enc : Bytes)
    (n : Int) (henc : EncodeLogRecord r = .ok (enc, n)) :
    ∃ pos db2, db.appendLogRecord r = (.ok pos, db2) := by
  rw [appendLogRecord_eq db hf r enc n henc]
  split <;> exact ⟨_, _, rfl⟩

theorem encode_ok_of_appendLogRecord (db : DB) (r : LogRecord) (pos : LogRecordPos) (db2 : DB)
    (h : db.appendLogRecord r = (.ok pos, db2)) :
    ∃ enc n, EncodeLogRecord r = .ok (enc, n) := by
  cases henc : EncodeLogRecord r with
  | error e =>
    unfold DB.appendLogRecord at h
    simp only [henc] at h
    injection h with h1 _
    cases h1
  | ok v => exact ⟨v.1, v.2, rfl⟩

theorem Appended_of_appendLogRecord (db : DB) (hf : db.FilesInv) (r : LogRecord)
    (pos : LogRecordPos) (db2 : DB) (h : db.appendLogRecord r = (.ok pos, db2)) :
    Appended db db2 r pos := by
  obtain ⟨enc, n, henc⟩ := encode_ok_of_appendLogRecord db r pos db2 h
  have hn : n = enc.length := ((EncodeLogRecord_ok_iff r enc n).1 henc).2.2
  have hw := FilesInv.writeFile_writeOff db hf
  rw [appendLogRecord_eq db hf r enc n henc] at h
  by_cases hrot : db.writeFile.WriteOff + n > db.options.DataFileSize
  · simp only [hrot, if_true, Prod.mk.injEq, Except.ok.injEq] at h
    obtain ⟨hpos, hdb⟩ := h
    subst hpos hdb
    refine ⟨rfl, rfl, rfl, rfl, rfl, rfl, rfl, ⟨?_, ?_⟩, rfl, le_refl _, ⟨_, rfl, rfl, ?_⟩, ?_⟩
    · intro a ha
      simp only [Option.some.injEq] at ha
      subst ha
      rfl
    · intro id f hm
      simp only at hm
      rcases mem_mapSet _ _ _ _ hm with h1 | h1
      · injection h1 with h2 h3
        subst h2 h3
        exact ⟨rfl, _, rfl, by simp⟩
      · obtain ⟨h2, a, h3, h4⟩ := hf.older id f h1.1
        refine ⟨h2, _, rfl, ?_⟩
        simp only [DB.writeFile, h3, Option.getD_some]
        omega
    · exact ⟨enc, n, [], [], henc, by simp, by simp⟩
    · intro fid df hfile
      unfold DB.fileOf at hfile ⊢
      simp only
      cases hact : db.activeFile with
      | none => simp [hact] at hfile
      | some a =>
        simp only [hact] at hfile
        simp only [DB.writeFile, hact, Option.getD_some]
        by_cases h1 : fid = a.FileId
        · simp only [h1, if_true, Option.some.injEq] at hfile
          subst hfile
          have h2 : ¬ (fid = a.FileId + 1) := by omega
          simp only [h2, if_false]
          rw [h1, mapGet_mapSet_self]
          exact ⟨a, [], rfl, by simp⟩
        · simp only [h1, if_false] at hfile
          have hlt := (hf.older fid df (mem_of_mapGet _ _ _ hfile)).2
          obtain ⟨a2, ha2, hlt⟩ := hlt
          rw [hact] at ha2
          injection ha2 with ha2
          rw [← ha2] at hlt
          have h2 : ¬ (fid = a.FileId + 1) := by omega
          simp only [h2, if_false]
          rw [mapGet_mapSet_ne _ _ _ _ h1, hfile]
          exact ⟨df, [], rfl, by simp⟩
  · simp only [hrot, if_false, Prod.mk.injEq, Except.ok.injEq] at h
    obtain ⟨hpos, hdb⟩ := h
    subst hpos hdb
    refine ⟨rfl, rfl, rfl, rfl, rfl, rfl, rfl, ⟨?_, ?_⟩, rfl, ?_, ⟨_, rfl, rfl, ?_⟩, ?_⟩
    · intro a ha
      simp only [Option.some.injEq] at ha
      subst ha
      simp only [DataFile.Write, List.length_append]
      rw [hw]
      push_cast
      ring
    · intro id f hm
      simp only at hm
      obtain ⟨h2, a, h3, h4⟩ := hf.older id f hm
      refine ⟨h2, _, rfl, ?_⟩
      simp only [DB.writeFile, h3, Option.getD_some, DataFile.Write]
      exact h4
    · simp only
      rw [hw]
      omega
    · exact ⟨enc, n, db.writeFile.IoManager, [], henc, by simp [DataFile.Write], by
        simp only; rw [hw]⟩
    · intro fid df hfile
      unfold DB.fileOf at hfile ⊢
      simp only
      cases hact : db.activeFile with
      | none => simp [hact] at hfile
      | some a =>
        simp only [hact] at hfile
        simp only [DB.writeFile, hact, Option.getD_some, DataFile.Write]
        by_cases h1 : fid = a.FileId
        · simp only [h1, if_true, Option.some.injEq] at hfile
          subst hfile
          simp only [h1, if_true]
          exact ⟨_, enc, rfl, rfl⟩
        · simp only [h1, if_false] at hfile ⊢
          rw [hfile]
          exact ⟨df, [], rfl, by simp⟩

/-! ## The invariant -/

theorem Inv_of_Appended (db db2 : DB) (r : LogRecord) (pos : LogRecordPos) (hinv : db.Inv)
    (h : Appended db db2 r pos) : db2.Inv := by
  refine ⟨by rw [h.index_eq]; exact hinv.sorted, h.files, ?_⟩
  intro key p hget
  rw [h.index_eq] at hget
  obtain ⟨df, r2, hfile, hholds⟩ := hinv.holds key p hget
  obtain ⟨df2, extra, hfile2, hio⟩ := h.grows _ _ hfile
  exact ⟨df2, r2, hfile2, HoldsAt_extend df df2 _ r2 extra hholds hio⟩

theorem Inv_put (db : DB) (key : Bytes) (pos : LogRecordPos) (reclaim : Int) (hinv : db.Inv)
    (hpos : ∃ df r, db.fileOf pos.Fid = some df ∧ HoldsAt df pos.Offset r) :
    ({ db with index := (db.index.Put key pos).1, reclaimSize := reclaim } : DB).Inv := by
  refine ⟨BTree.Put_Sorted _ _ _ hinv.sorted, FilesInv_congr db _ rfl rfl hinv.files, ?_⟩
  intro k p hget
  simp only at hget
  rw [fileOf_congr db { db with index := (db.index.Put key pos).1, reclaimSize := reclaim } rfl rfl]
  by_cases hk : k = key
  · subst hk
    rw [BTree.Get_Put_self] at hget
    injection hget with hget
    subst hget
    exact hpos
  · rw [BTree.Get_Put_other _ _ _ _ hinv.sorted hk] at hget
    exact hinv.holds k p hget

theorem Inv_delete (db : DB) (key : Bytes) (reclaim : Int) (hinv : db.Inv) :
    ({ db with index := (db.index.Delete key).1, reclaimSize := reclaim } : DB).Inv := by
  refine ⟨BTree.Delete_Sorted _ _ hinv.sorted, FilesInv_congr db _ rfl rfl hinv.files, ?_⟩
  intro k p hget
  simp only at hget
  rw [fileOf_congr db { db with index := (db.index.Delete key).1, reclaimSize := reclaim } rfl rfl]
  by_cases hk : k = key
  · subst hk
    rw [BTree.Get_Delete_self _ _ hinv.sorted] at hget
    cases hget
  · rw [BTree.Get_Delete_other _ _ _ hinv.sorted hk] at hget
    exact hinv.holds k p hget

/-! ## Reading through the index -/

theorem getValueByPosition_of_holds (db : DB) (pos : LogRecordPos) (df : DataFile) (r : LogRecord)
    (hfile : db.fileOf pos.Fid = some df) (hholds : HoldsAt df pos.Offset r) :
    db.getValueByPosition pos = resolve (readBack r) := by
  unfold DB.getValueByPosition
  unfold DB.fileOf at hfile
  cases hact : db.activeFile with
  | none => simp [hact] at hfile
  | some a =>
    simp only [hact] at hfile ⊢
    rw [hfile]
    simp only
    rw [HoldsAt_read df _ r hholds]
    unfold resolve
    cases readBack r with
    | error e => rfl
    | ok v => rfl

theorem Get_of_holds (db : DB) (key : Bytes) (pos : LogRecordPos) (df : DataFile) (r : LogRecord)
    (hkey : key ≠ []) (hget : db.index.Get key = some pos)
    (hfile : db.fileOf pos.Fid = some df) (hholds : HoldsAt df pos.Offset r) :
    db.Get key = resolve (readBack r) := by
  unfold DB.Get
  have : ¬ key.length = 0 := by
    intro h; exact hkey (List.length_eq_zero.1 h)
  simp only [this, if_false, hget]
  exact getValueByPosition_of_holds db pos df r hfile hholds

theorem Get_of_not_indexed (db : DB) (key : Bytes) (hkey : key ≠ [])
    (hget : db.index.Get key = none) : db.Get key = .error .ErrKeyNotFound := by
  unfold DB.Get
  have : ¬ key.length = 0 := by
    intro h; exact hkey (List.length_eq_zero.1 h)
  simp only [this, if_false, hget]

/-- Reads through the index are unchanged by an append: an indexed position is
read from the same bytes before and after. -/
theorem getValueByPosition_Appended (db db2 : DB) (r : LogRecord) (pos p : LogRecordPos)
    (df : DataFile) (r2 : LogRecord) (h : Appended db db2 r pos)
    (hfile : db.fileOf p.Fid = some df) (hholds : HoldsAt df p.Offset r2) :
    db2.getValueByPosition p = db.getValueByPosition p := by
  obtain ⟨df2, extra, hfile2, hio⟩ := h.grows _ _ hfile
  rw [getValueByPosition_of_holds db p df r2 hfile hholds,
    getValueByPosition_of_holds db2 p df2 r2 hfile2 (HoldsAt_extend df df2 _ r2 extra hholds hio)]

end Bitcask

namespace Bitcask

/-! ## Records within the 32-bit length fields -/

theorem readBack_ok (r : LogRecord) (hne : r.Key ≠ []) (hk : r.Key.length < 2 ^ 32)
    (hv : r.Value.length < 2 ^ 32) :
    readBack r = .ok (r, ((5 + (PutVarint (r.Key.length : Int)).length +
      (PutVarint (r.Value.length : Int)).length + r.Key.length + r.Value.length : Nat) : Int)) := by
  unfold readBack
  simp only [Nat.mod_eq_of_lt hk, Nat.mod_eq_of_lt hv]
  have h1 : (r.Key ++ r.Value).take (r.Key.length + r.Value.length) = r.Key ++ r.Value :=
    List.take_of_length_le (by simp)
  have h2 : ¬ r.Key.length = 0 := fun h => hne (List.length_eq_zero.1 h)
  simp only [h1, List.take_left, List.drop_left, h2, false_and, and_false, if_false,
    List.cons_append, List.append_assoc, ne_eq, not_true_eq_false]

theorem EncodeLogRecord_ok_of_lt (r : LogRecord) (hk : r.Key.length < 2 ^ 34)
    (hv : r.Value.length < 2 ^ 34) :
    ∃ enc, EncodeLogRecord r = .ok (enc, (enc.length : Int)) := by
  have h1 := PutVarint_length_le_five _ hk
  have h2 := PutVarint_length_le_five _ hv
  refine ⟨_, (EncodeLogRecord_ok_iff r _ _).2 ⟨by omega, rfl, rfl⟩⟩

theorem EncodeLogRecord_length (r : LogRecord) (enc : Bytes) (n : Int)
    (h : EncodeLogRecord r = .ok (enc, n)) :
    enc.length = 5 + (PutVarint (r.Key.length : Int)).length +
      (PutVarint (r.Value.length : Int)).length + r.Key.length + r.Value.length ∧
    n = enc.length := by
  obtain ⟨_, h2, h3⟩ := (EncodeLogRecord_ok_iff r enc n).1 h
  refine ⟨?_, h3⟩
  rw [h2]
  simp [putUint32LE_length]
  omega

theorem logRecordKeyWithSeq_zero (key : Bytes) :
    logRecordKeyWithSeq key nonTransactionSeqNo = 0 :: key := rfl

/-! ## `Put` and `Delete` -/

/-- What `NewIndexer` returns when it returns an index: the empty index, for
one of the two in-memory index types. -/
theorem NewIndexer_some (t : IndexerType) (index : Indexer)
    (h : NewIndexer t = .ok (some index)) :
    index.items = NewTree ∧ (t = IndexerType.BTree ∨ t = IndexerType.ART) := by
  unfold NewIndexer at h
  by_cases h1 : t = IndexerType.BTree
  · rw [if_pos h1] at h
    injection h with h
    injection h with h
    subst h
    exact ⟨rfl, Or.inl h1⟩
  · rw [if_neg h1] at h
    by_cases h2 : t = IndexerType.ART
    · rw [if_pos h2] at h
      injection h with h
      injection h with h
      subst h
      exact ⟨rfl, Or.inr h2⟩
    · rw [if_neg h2] at h
      by_cases h3 : t = IndexerType.BPLusTree
      · rw [if_pos h3] at h
        injection h with h
        cases h
      · rw [if_neg h3] at h
        cases h

/-- For the two in-memory index types `NewIndexer` returns the empty index. -/
theorem NewIndexer_inMemory (t : IndexerType)
    (h : t = IndexerType.BTree ∨ t = IndexerType.ART) :
    ∃ index, NewIndexer t = .ok (some index) ∧ index.items = NewTree := by
  rcases h with h | h
  · exact ⟨.btree NewTree, by rw [h]; rfl, rfl⟩
  · exact ⟨.art NewART, by rw [h]; rfl, rfl⟩

/-- With valid options, a directory that is not locked and an in-memory index
type, `OpenDB` is the loading of the directory into the fresh engine. -/
theorem OpenDB_eq (options : Options) (dir : Directory) (mergeDir : Option Directory)
    (hopt : checkOptions options = .ok ()) (hlock : dir.locked = false)
    (hidx : options.IndexType = IndexerType.BTree ∨ options.IndexType = IndexerType.ART) :
    OpenDB options dir mergeDir =
      match loadMergeFile dir mergeDir with
      | .error e => .error e
      | .ok dir1 =>
        match ((
            { options := options, fileIds := [], activeFile := none, olderFile := [],
              index := NewTree, seqNo := 0, isMerging := false, seqNoFileExists := false,
              isInitial := !dir.present, bytesWrite := 0, reclaimSize := 0,
              hintIndexFile := dir1.hintIndex, mergeFinishedFile := dir1.mergeFinished,
              seqNoFile := dir1.seqNo } : DB).loadDataFile dir1).loadIndexFromHint with
        | .error e => .error e
        | .ok db2 => db2.loadIndexerFromDataFile := by
  obtain ⟨index, hn, hitems⟩ := NewIndexer_inMemory _ hidx
  unfold OpenDB
  simp only [hopt, hlock, hn, hitems, Bool.false_eq_true, if_false] <;> rfl

/-- An `OpenDB` that returns an engine was called with valid options, on a
directory that was not locked, for an in-memory index type. -/
theorem OpenDB_ok_inMemory (options : Options) (dir : Directory) (mergeDir : Option Directory)
    (db : DB) (h : OpenDB options dir mergeDir = .ok db) :
    checkOptions options = .ok () ∧ dir.locked = false ∧
      (options.IndexType = IndexerType.BTree ∨ options.IndexType = IndexerType.ART) := by
  unfold OpenDB at h
  cases hc : checkOptions options with
  | error e => simp [hc] at h
  | ok u =>
    simp only [hc] at h
    by_cases hl : dir.locked = true
    · simp [hl] at h
    · rcases hn : NewIndexer options.IndexType with e | oi
      · simp [hl, hn] at h
      · cases oi with
        | none => simp [hl, hn] at h
        | some index => exact ⟨rfl, by simpa using hl, (NewIndexer_some _ _ hn).2⟩

/-- The engine opened on an empty directory. -/
theorem OpenDB_empty (options : Options) (db : DB)
    (h : OpenDB options Directory.empty none = .ok db) :
    db.index = NewTree ∧ db.activeFile = none ∧ db.olderFile = [] ∧ db.seqNo = 0 ∧
      db.reclaimSize = 0 ∧ db.options = options ∧ db.hintIndexFile = none ∧
      db.mergeFinishedFile = none ∧ db.seqNoFile = none := by
  unfold OpenDB at h
  cases hc : checkOptions options with
  | error e => simp [hc] at h
  | ok u =>
    simp only [hc, Directory.empty, Bool.false_eq_true, if_false, loadMergeFile] at h
    rcases hn : NewIndexer options.IndexType with e | oi
    · simp [hn] at h
    · cases oi with
      | none => simp [hn] at h
      | some index =>
        simp only [hn, DB.loadDataFile, List.map_nil, List.insertionSort,
          List.getLast?_nil, DB.loadIndexFromHint, DB.loadIndexerFromDataFile,
          List.length_nil, if_true, Except.ok.injEq] at h
        subst h
        simp [(NewIndexer_some _ _ hn).1]

theorem Inv_opened (options : Options) (db : DB)
    (h : OpenDB options Directory.empty none = .ok db) : db.Inv := by
  obtain ⟨h1, h2, h3, -⟩ := OpenDB_empty options db h
  refine ⟨by rw [h1]; exact NewTree_Sorted, ⟨?_, ?_⟩, ?_⟩
  · intro a ha; rw [h2] at ha; cases ha
  · intro id f hm; rw [h3] at hm; cases hm
  · intro key pos hget
    rw [h1] at hget
    simp [BTree.Get, NewTree, treeGet] at hget

/-- What a successful `Put` does: it appends the record of the key with
sequence number 0 and files the returned position under the key. -/
theorem Put_ok (db : DB) (key value : Bytes) (db2 : DB) (h : db.Put key value = (.ok (), db2)) :
    key ≠ [] ∧ ∃ pos db1 reclaim,
      db.appendLogRecord { Key := 0 :: key, Value := value, Typ := LogRecordNormal } = (.ok pos, db1) ∧
      db2 = { db1 with index := (db1.index.Put key pos).1, reclaimSize := reclaim } := by
  unfold DB.Put at h
  by_cases hk : key.length = 0
  · simp [hk] at h
  · simp only [hk, if_false, DB.appendLogRecordWithLock, logRecordKeyWithSeq_zero] at h
    refine ⟨fun hc => hk (by rw [hc]; rfl), ?_⟩
    cases hap : db.appendLogRecord { Key := 0 :: key, Value := value, Typ := LogRecordNormal } with
    | mk res db1 =>
      rw [hap] at h
      cases res with
      | error e => simp at h
      | ok pos =>
        simp only at h
        refine ⟨pos, db1, ?_⟩
        cases hold : (db1.index.Put key pos).2 with
        | none =>
          simp only [hold, Prod.mk.injEq, true_and] at h
          exact ⟨db1.reclaimSize, rfl, h.symm⟩
        | some oldPos =>
          simp only [hold, Prod.mk.injEq, true_and] at h
          exact ⟨_, rfl, h.symm⟩

/-- What a successful `Delete` does: the key was indexed, a tombstone is
appended, and the key is removed from the index. -/
theorem Delete_ok (db : DB) (key : Bytes) (db2 : DB) (h : db.Delete key = (.ok (), db2)) :
    key ≠ [] ∧ (db.index.Get key).isSome ∧ ∃ pos db1 reclaim,
      db.appendLogRecord { Key := 0 :: key, Value := [], Typ := LogRecordDeleted } = (.ok pos, db1) ∧
      db2 = { db1 with index := (db1.index.Delete key).1, reclaimSize := reclaim } := by
  unfold DB.Delete at h
  by_cases hk : key.length = 0
  · simp [hk] at h
  · simp only [hk, if_false, DB.appendLogRecordWithLock, logRecordKeyWithSeq_zero] at h
    refine ⟨fun hc => hk (by rw [hc]; rfl), ?_⟩
    cases hget : db.index.Get key with
    | none => simp [hget] at h
    | some p =>
      simp only [hget] at h
      refine ⟨rfl, ?_⟩
      cases hap : db.appendLogRecord { Key := 0 :: key, Value := [], Typ := LogRecordDeleted } with
      | mk res db1 =>
        rw [hap] at h
        cases res with
        | error e => simp at h
        | ok pos =>
          simp only at h
          refine ⟨pos, db1, ?_⟩
          by_cases hrem : (!(db1.index.Delete key).2.2) = true
          · simp [hrem] at h
          · simp only [hrem, Bool.false_eq_true, if_false] at h
            cases hold : (db1.index.Delete key).2.1 with
            | none =>
              simp only [hold, Prod.mk.injEq, true_and] at h
              exact ⟨_, rfl, h.symm⟩
            | some oldPos =>
              simp only [hold, Prod.mk.injEq, true_and] at h
              exact ⟨_, rfl, h.symm⟩

theorem Get_congr (db db2 : DB) (h0 : db2.index = db.index) (h1 : db2.activeFile = db.activeFile)
    (h2 : db2.olderFile = db.olderFile) (key : Bytes) : db2.Get key = db.Get key := by
  unfold DB.Get DB.getValueByPosition
  rw [h0, h1, h2]

/-- Reads of every key are unchanged by an append. -/
theorem Get_Appended (db db2 : DB) (r : LogRecord) (pos : LogRecordPos) (hinv : db.Inv)
    (h : Appended db db2 r pos) (key : Bytes) : db2.Get key = db.Get key := by
  unfold DB.Get
  by_cases hk : key.length = 0
  · simp [hk]
  · simp only [hk, if_false, h.index_eq]
    cases hget : db.index.Get key with
    | none => rfl
    | some p =>
      simp only
      obtain ⟨df, r2, hfile, hholds⟩ := hinv.holds key p hget
      exact getValueByPosition_Appended db db2 r pos p df r2 h hfile hholds

theorem Get_index_put_other (db : DB) (key key2 : Bytes) (pos : LogRecordPos) (reclaim : Int)
    (hs : db.index.Sorted) (hne : key2 ≠ key) :
    ({ db with index := (db.index.Put key pos).1, reclaimSize := reclaim } : DB).Get key2 =
      db.Get key2 := by
  unfold DB.Get DB.getValueByPosition
  simp only [BTree.Get_Put_other _ _ _ _ hs hne]

theorem Get_index_delete_other (db : DB) (key key2 : Bytes) (reclaim : Int)
    (hs : db.index.Sorted) (hne : key2 ≠ key) :
    ({ db with index := (db.index.Delete key).1, reclaimSize := reclaim } : DB).Get key2 =
      db.Get key2 := by
  unfold DB.Get DB.getValueByPosition
  simp only [BTree.Get_Delete_other _ _ _ hs hne]

/-- The engine after a successful `Put`: the invariant holds, the key is
indexed at the place of its new record, and every other key reads as before. -/
theorem Put_spec (db : DB) (hinv : db.Inv) (key value : Bytes) (db2 : DB)
    (h : db.Put key value = (.ok (), db2)) :
    db2.Inv ∧ key ≠ [] ∧
    (∃ pos df, db2.index.Get key = some pos ∧ db2.fileOf pos.Fid = some df ∧
      HoldsAt df pos.Offset { Key := 0 :: key, Value := value, Typ := LogRecordNormal }) ∧
    (∀ key2, key2 ≠ key → db2.Get key2 = db.Get key2) := by
  obtain ⟨hk, pos, db1, reclaim, hap, hdb2⟩ := Put_ok db key value db2 h
  have happ := Appended_of_appendLogRecord db hinv.files _ pos db1 hap
  have hinv1 := Inv_of_Appended db db1 _ pos hinv happ
  obtain ⟨a, hact, hfid, hholds⟩ := happ.active
  have hfile : db1.fileOf pos.Fid = some a := by rw [hfid]; exact fileOf_active db1 a hact
  subst hdb2
  refine ⟨Inv_put db1 key pos reclaim hinv1 ⟨a, _, hfile, hholds⟩, hk, ⟨pos, a, ?_, ?_, hholds⟩, ?_⟩
  · exact BTree.Get_Put_self _ _ _
  · exact (fileOf_congr db1 _ rfl rfl _).trans hfile
  · intro key2 hne
    rw [Get_index_put_other db1 key key2 pos reclaim hinv1.sorted hne]
    exact Get_Appended db db1 _ pos hinv happ key2

/-- The engine after a successful `Delete`: the invariant holds, the key is no
longer indexed, and every other key reads as before. -/
theorem Delete_spec (db : DB) (hinv : db.Inv) (key : Bytes) (db2 : DB)
    (h : db.Delete key = (.ok (), db2)) :
    db2.Inv ∧ key ≠ [] ∧ db2.index.Get key = none ∧
    (∀ key2, key2 ≠ key → db2.Get key2 = db.Get key2) := by
  obtain ⟨hk, -, pos, db1, reclaim, hap, hdb2⟩ := Delete_ok db key db2 h
  have happ := Appended_of_appendLogRecord db hinv.files _ pos db1 hap
  have hinv1 := Inv_of_Appended db db1 _ pos hinv happ
  subst hdb2
  refine ⟨Inv_delete db1 key reclaim hinv1, hk, BTree.Get_Delete_self _ _ hinv1.sorted, ?_⟩
  intro key2 hne
  rw [Get_index_delete_other db1 key key2 reclaim hinv1.sorted hne]
  exact Get_Appended db db1 _ pos hinv happ key2

theorem ReachablePD_inv (db : DB) (h : ReachablePD db) : db.Inv := by
  induction h with
  | opened options db h => exact Inv_opened options db h
  | put db key value db2 _ hput ih => exact (Put_spec db ih key value db2 hput).1
  | delete db key db2 _ hdel ih => exact (Delete_spec db ih key db2 hdel).1

end Bitcask

namespace Bitcask

/-! ## Chains of appends -/

theorem Grows_refl (db : DB) (hf : db.FilesInv) : Grows db db :=
  ⟨rfl, rfl, hf, fun _ df h => ⟨df, [], h, by simp⟩⟩

theorem Grows_of_Appended (db db2 : DB) (r : LogRecord) (pos : LogRecordPos)
    (h : Appended db db2 r pos) : Grows db db2 :=
  ⟨h.index_eq, h.options_eq, h.files, h.grows⟩

theorem Grows_trans {db db2 db3 : DB} (h1 : Grows db db2) (h2 : Grows db2 db3) : Grows db db3 := by
  refine ⟨h2.index_eq.trans h1.index_eq, h2.options_eq.trans h1.options_eq, h2.files, ?_⟩
  intro fid df hfile
  obtain ⟨df2, extra, hfile2, hio⟩ := h1.grows fid df hfile
  obtain ⟨df3, extra2, hfile3, hio2⟩ := h2.grows fid df2 hfile2
  exact ⟨df3, extra ++ extra2, hfile3, by rw [hio2, hio]; simp⟩

theorem Grows_congr {db db2 db3 : DB} (h : Grows db db2) (h0 : db3.index = db2.index)
    (h1 : db3.activeFile = db2.activeFile) (h2 : db3.olderFile = db2.olderFile)
    (h3 : db3.options = db2.options) : Grows db db3 := by
  refine ⟨h0.trans h.index_eq, h3.trans h.options_eq, FilesInv_congr db2 db3 h1 h2 h.files, ?_⟩
  intro fid df hfile
  obtain ⟨df2, extra, hfile2, hio⟩ := h.grows fid df hfile
  exact ⟨df2, extra, (fileOf_congr db2 db3 h1 h2 fid).trans hfile2, hio⟩

theorem Grows_congr_left {db db0 db2 : DB} (h : Grows db db2)
    (h1 : db0.activeFile = db.activeFile) (h2 : db0.olderFile = db.olderFile)
    (h3 : db0.index = db.index) (h4 : db0.options = db.options) : Grows db0 db2 := by
  refine ⟨h.index_eq.trans h3.symm, h.options_eq.trans h4.symm, h.files, ?_⟩
  intro fid df hfile
  rw [fileOf_congr db db0 h1 h2 fid] at hfile
  exact h.grows fid df hfile

theorem Grows_holds {db db2 : DB} (h : Grows db db2) (fid : Nat) (offset : Int) (r : LogRecord)
    (hh : ∃ df, db.fileOf fid = some df ∧ HoldsAt df offset r) :
    ∃ df, db2.fileOf fid = some df ∧ HoldsAt df offset r := by
  obtain ⟨df, hfile, hholds⟩ := hh
  obtain ⟨df2, extra, hfile2, hio⟩ := h.grows fid df hfile
  exact ⟨df2, hfile2, HoldsAt_extend df df2 offset r extra hholds hio⟩

theorem Inv_of_Grows (db db2 : DB) (hinv : db.Inv) (h : Grows db db2) : db2.Inv := by
  refine ⟨by rw [h.index_eq]; exact hinv.sorted, h.files, ?_⟩
  intro key p hget
  rw [h.index_eq] at hget
  obtain ⟨df, r2, hfile, hholds⟩ := hinv.holds key p hget
  obtain ⟨df2, hfile2, hholds2⟩ := Grows_holds h p.Fid p.Offset r2 ⟨df, hfile, hholds⟩
  exact ⟨df2, r2, hfile2, hholds2⟩

theorem Get_Grows (db db2 : DB) (hinv : db.Inv) (h : Grows db db2) (key : Bytes) :
    db2.Get key = db.Get key := by
  unfold DB.Get
  by_cases hk : key.length = 0
  · simp [hk]
  · simp only [hk, if_false, h.index_eq]
    cases hget : db.index.Get key with
    | none => rfl
    | some p =>
      simp only
      obtain ⟨df, r2, hfile, hholds⟩ := hinv.holds key p hget
      obtain ⟨df2, hfile2, hholds2⟩ := Grows_holds h p.Fid p.Offset r2 ⟨df, hfile, hholds⟩
      rw [getValueByPosition_of_holds db p df r2 hfile hholds,
        getValueByPosition_of_holds db2 p df2 r2 hfile2 hholds2]

/-! ## The two loops of `Commit` -/

/-- The first loop: every staged record is appended under the sequence number
and its place is remembered under its key. -/
theorem commitAppend_spec (seqNo : Nat) (ord : List (Bytes × LogRecord)) :
    ∀ (db : DB) (positions : List (Bytes × LogRecordPos))
      (res : List (Bytes × LogRecordPos)) (db1 : DB),
      db.FilesInv → commitAppend seqNo ord db positions = (.ok res, db1) →
      Grows db db1 ∧ db1.seqNo = db.seqNo ∧ db1.reclaimSize = db.reclaimSize ∧
      (∀ e ∈ ord, ∃ pos, mapGet res e.2.Key = some pos) ∧
      (∀ k pos, mapGet res k = some pos →
        (mapGet positions k = some pos ∧ ∀ e ∈ ord, e.2.Key ≠ k) ∨
        (∃ e ∈ ord, e.2.Key = k ∧ ∃ df, db1.fileOf pos.Fid = some df ∧
          HoldsAt df pos.Offset { Key := logRecordKeyWithSeq k seqNo, Value := e.2.Value,
                                  Typ := e.2.Typ })) := by
  induction ord with
  | nil =>
    intro db positions res db1 hf h
    simp only [commitAppend, Prod.mk.injEq, Except.ok.injEq] at h
    obtain ⟨h1, h2⟩ := h
    subst h1 h2
    refine ⟨Grows_refl db hf, rfl, rfl, ?_, ?_⟩
    · intro e he; cases he
    · intro k pos hk
      exact Or.inl ⟨hk, fun e he => by cases he⟩
  | cons e rest ih =>
    intro db positions res db1 hf h
    obtain ⟨k0, record⟩ := e
    unfold commitAppend at h
    cases hap : db.appendLogRecord
        (LogRecord.mk (logRecordKeyWithSeq record.Key seqNo) record.Value record.Typ) with
    | mk r dbm =>
      rw [hap] at h
      cases r with
      | error err => simp at h
      | ok p =>
        simp only at h
        have happ := Appended_of_appendLogRecord db hf _ p dbm hap
        obtain ⟨hg, hseq, hrec, hall, hpos⟩ := ih dbm _ res db1 happ.files h
        refine ⟨Grows_trans (Grows_of_Appended db dbm _ p happ) hg,
          hseq.trans happ.seqNo_eq, hrec.trans happ.reclaimSize_eq, ?_, ?_⟩
        · intro e he
          rcases List.mem_cons.1 he with he | he
          · subst he
            simp only
            by_cases hin : ∀ e2 ∈ rest, e2.2.Key ≠ record.Key
            · -- the position remembered for the head is still there
              have hsub : ∀ (l : List (Bytes × LogRecord)) (d : DB)
                  (ps rs : List (Bytes × LogRecordPos)) (d2 : DB) (q : LogRecordPos),
                  (∀ e2 ∈ l, e2.2.Key ≠ record.Key) → mapGet ps record.Key = some q →
                  commitAppend seqNo l d ps = (.ok rs, d2) → mapGet rs record.Key = some q := by
                intro l
                induction l with
                | nil =>
                  intro d ps rs d2 q _ hq hc
                  simp only [commitAppend, Prod.mk.injEq, Except.ok.injEq] at hc
                  rw [← hc.1]; exact hq
                | cons e3 l ih3 =>
                  intro d ps rs d2 q hne hq hc
                  obtain ⟨k3, rec3⟩ := e3
                  unfold commitAppend at hc
                  cases hap3 : d.appendLogRecord
                      (LogRecord.mk (logRecordKeyWithSeq rec3.Key seqNo) rec3.Value rec3.Typ) with
                  | mk r3 d3 =>
                    rw [hap3] at hc
                    cases r3 with
                    | error err => simp at hc
                    | ok p3 =>
                      simp only at hc
                      have h3 : rec3.Key ≠ record.Key := hne (k3, rec3) (List.mem_cons_self _ _)
                      exact ih3 d3 _ rs d2 q (fun e2 he2 => hne e2 (List.mem_cons_of_mem _ he2))
                        (by rw [mapGet_mapSet_ne _ _ _ _ (Ne.symm h3)]; exact hq) hc
              exact ⟨p, hsub rest dbm _ res db1 p hin (mapGet_mapSet_self _ _ _) h⟩
            · push_neg at hin
              obtain ⟨e2, he2, hk2⟩ := hin
              obtain ⟨q, hq⟩ := hall e2 he2
              exact ⟨q, by rw [← hk2]; exact hq⟩
          · exact hall e he
        · intro k pos hk
          rcases hpos k pos hk with ⟨h1, h2⟩ | ⟨e2, he2, hk2, df, hfile, hholds⟩
          · by_cases hkk : k = record.Key
            · subst hkk
              rw [mapGet_mapSet_self] at h1
              injection h1 with h1
              subst h1
              right
              refine ⟨(k0, record), List.mem_cons_self _ _, rfl, ?_⟩
              obtain ⟨a, hact, hfid, hholds⟩ := happ.active
              have hfile : dbm.fileOf p.Fid = some a := by rw [hfid]; exact fileOf_active dbm a hact
              exact Grows_holds hg p.Fid p.Offset _ ⟨a, hfile, hholds⟩
            · rw [mapGet_mapSet_ne _ _ _ _ hkk] at h1
              left
              refine ⟨h1, ?_⟩
              intro e3 he3
              rcases List.mem_cons.1 he3 with he3 | he3
              · subst he3; exact fun hc => hkk hc.symm
              · exact h2 e3 he3
          · right
            exact ⟨e2, List.mem_cons_of_mem _ he2, hk2, df, hfile, hholds⟩

end Bitcask

namespace Bitcask

theorem Normal_ne_Deleted : LogRecordNormal ≠ LogRecordDeleted := by decide

/-- The second loop: every staged put is filed under its key at the remembered
place, every staged delete removes its key, nothing else changes. -/
theorem commitIndex_spec (positions : List (Bytes × LogRecordPos))
    (ord : List (Bytes × LogRecord)) :
    ∀ (db db3 : DB), db.Inv →
      (∀ k pos, mapGet positions k = some pos →
        ∃ df r, db.fileOf pos.Fid = some df ∧ HoldsAt df pos.Offset r) →
      (ord.map (fun e => e.2.Key)).Nodup →
      commitIndex positions ord db = (.ok (), db3) →
      db3.Inv ∧ db3.activeFile = db.activeFile ∧ db3.olderFile = db.olderFile ∧
      db3.seqNo = db.seqNo ∧ db3.options = db.options ∧
      (∀ k, (∀ e ∈ ord, e.2.Key ≠ k) → db3.index.Get k = db.index.Get k) ∧
      (∀ e ∈ ord,
        (e.2.Typ = LogRecordNormal → db3.index.Get e.2.Key = mapGet positions e.2.Key) ∧
        (e.2.Typ = LogRecordDeleted → db3.index.Get e.2.Key = none)) := by
  induction ord with
  | nil =>
    intro db db3 hinv _ _ h
    simp only [commitIndex, Prod.mk.injEq, true_and] at h
    subst h
    exact ⟨hinv, rfl, rfl, rfl, rfl, fun _ _ => rfl, fun e he => by cases he⟩
  | cons e rest ih =>
    intro db db3 hinv hpos hnd h
    obtain ⟨k0, record⟩ := e
    simp only [List.map_cons, List.nodup_cons] at hnd
    obtain ⟨hnotin, hnd⟩ := hnd
    unfold commitIndex at h
    cases hp : mapGet positions record.Key with
    | none => simp [hp] at h
    | some pos =>
      simp only [hp] at h
      -- the engine after the head entry
      have hstep : ∃ (idx : BTree) (reclaim : Int),
          commitIndex positions rest { db with index := idx, reclaimSize := reclaim } = (.ok (), db3) ∧
          ({ db with index := idx, reclaimSize := reclaim } : DB).Inv ∧
          (∀ k, k ≠ record.Key → idx.Get k = db.index.Get k) ∧
          (record.Typ = LogRecordNormal → idx.Get record.Key = some pos) ∧
          (record.Typ = LogRecordDeleted → idx.Get record.Key = none) := by
        by_cases hn : record.Typ = LogRecordNormal
        · have hd : record.Typ ≠ LogRecordDeleted := by rw [hn]; exact Normal_ne_Deleted
          simp only [hn, if_true] at h
          cases hold : (db.index.Put record.Key pos).2 with
          | none =>
            simp only [hold] at h
            exact ⟨(db.index.Put record.Key pos).1, db.reclaimSize, h,
              Inv_put db record.Key pos _ hinv (hpos _ _ hp),
              fun k hk => BTree.Get_Put_other _ _ _ _ hinv.sorted hk,
              fun _ => BTree.Get_Put_self _ _ _, fun hc => absurd hc hd⟩
          | some oldPos =>
            simp only [hold] at h
            exact ⟨(db.index.Put record.Key pos).1, db.reclaimSize + oldPos.Size, h,
              Inv_put db record.Key pos _ hinv (hpos _ _ hp),
              fun k hk => BTree.Get_Put_other _ _ _ _ hinv.sorted hk,
              fun _ => BTree.Get_Put_self _ _ _, fun hc => absurd hc hd⟩
        · by_cases hd : record.Typ = LogRecordDeleted
          · simp only [hn, hd, if_true, if_false] at h
            have hd2 : ¬ (LogRecordDeleted = LogRecordNormal) := fun hc => Normal_ne_Deleted hc.symm
            simp only [hd2, if_false] at h
            cases hold : (db.index.Delete record.Key).2.1 with
            | none =>
              simp only [hold] at h
              exact ⟨(db.index.Delete record.Key).1, db.reclaimSize, h,
                Inv_delete db record.Key _ hinv,
                fun k hk => BTree.Get_Delete_other _ _ _ hinv.sorted hk, fun hc => absurd hc hn,
                fun _ => BTree.Get_Delete_self _ _ hinv.sorted⟩
            | some oldPos =>
              simp only [hold] at h
              exact ⟨(db.index.Delete record.Key).1, db.reclaimSize + oldPos.Size, h,
                Inv_delete db record.Key _ hinv,
                fun k hk => BTree.Get_Delete_other _ _ _ hinv.sorted hk, fun hc => absurd hc hn,
                fun _ => BTree.Get_Delete_self _ _ hinv.sorted⟩
          · simp only [hn, hd, if_false] at h
            refine ⟨db.index, db.reclaimSize, h, ?_, fun _ _ => rfl, fun hc => absurd hc hn,
              fun hc => absurd hc hd⟩
            exact ⟨hinv.sorted, FilesInv_congr db _ rfl rfl hinv.files, hinv.holds⟩
      obtain ⟨idx, reclaim, hrest, hinv1, hother, hnorm, hdel⟩ := hstep
      have hpos1 : ∀ k p, mapGet positions k = some p →
          ∃ df r, ({ db with index := idx, reclaimSize := reclaim } : DB).fileOf p.Fid = some df ∧
            HoldsAt df p.Offset r := by
        intro k p hk
        obtain ⟨df, r, h1, h2⟩ := hpos k p hk
        exact ⟨df, r, (fileOf_congr db _ rfl rfl _).trans h1, h2⟩
      obtain ⟨hinv3, hact, hold, hseq, hopt, hframe, hent⟩ :=
        ih { db with index := idx, reclaimSize := reclaim } db3 hinv1 hpos1 hnd hrest
      refine ⟨hinv3, hact, hold, hseq, hopt, ?_, ?_⟩
      · intro k hk
        rw [hframe k (fun e he => hk e (List.mem_cons_of_mem _ he))]
        exact hother k (fun hc => hk (k0, record) (List.mem_cons_self _ _) hc.symm)
      · intro e he
        rcases List.mem_cons.1 he with he | he
        · subst he
          simp only
          have hfr := hframe record.Key (fun e2 he2 hc =>
            hnotin (List.mem_map.2 ⟨e2, he2, hc⟩))
          simp only at hfr
          exact ⟨fun hn => by rw [hfr, hnorm hn, hp], fun hd => by rw [hfr, hdel hd]⟩
        · exact hent e he

/-- What a successful `Commit` of a non-empty batch does. -/
theorem Commit_spec (wb : WriteBatch) (hinv : wb.db.Inv) (hwf : wb.WF)
    (order1 order2 : List (Bytes × LogRecord)) (hp1 : order1.Perm wb.pendingWrites)
    (hp2 : order2.Perm wb.pendingWrites) (hne : wb.pendingWrites ≠ []) (wb2 : WriteBatch)
    (hc : wb.Commit order1 order2 = (.ok (), wb2)) :
    wb2.db.Inv ∧ wb2.pendingWrites = [] ∧ wb2.db.seqNo = (wb.db.seqNo + 1) % 2 ^ 64 ∧
    (∀ key, key ∉ wb.pendingWrites.map (fun e => e.1) → wb2.db.Get key = wb.db.Get key) ∧
    (∀ e ∈ wb.pendingWrites, e.2.Typ = LogRecordDeleted → wb2.db.index.Get e.1 = none) ∧
    (∀ e ∈ wb.pendingWrites, e.2.Typ = LogRecordNormal →
      ∃ pos df, wb2.db.index.Get e.1 = some pos ∧ wb2.db.fileOf pos.Fid = some df ∧
        HoldsAt df pos.Offset { Key := logRecordKeyWithSeq e.1 ((wb.db.seqNo + 1) % 2 ^ 64),
                                Value := e.2.Value, Typ := LogRecordNormal }) := by
  unfold WriteBatch.Commit at hc
  have hlen : ¬ wb.pendingWrites.length = 0 := fun h => hne (List.length_eq_zero.1 h)
  simp only [hlen, if_false] at hc
  by_cases hmax : wb.pendingWrites.length > wb.options.MaxBatchNum
  · simp [hmax] at hc
  · simp only [hmax, if_false] at hc
    generalize hseq : (wb.db.seqNo + 1) % 2 ^ 64 = seqNo at hc ⊢
    cases h1 : commitAppend seqNo order1 { wb.db with seqNo := seqNo } [] with
    | mk res1 db1 =>
      rw [h1] at hc
      cases res1 with
      | error e => simp at hc
      | ok positions =>
        simp only at hc
        cases h2 : db1.appendLogRecord
            (LogRecord.mk (logRecordKeyWithSeq txnFinKey seqNo) [] LogRecordTxnFinished) with
        | mk res2 db2 =>
          rw [h2] at hc
          cases res2 with
          | error e => simp at hc
          | ok finPos =>
            simp only at hc
            cases h3 : commitIndex positions order2 db2 with
            | mk res3 db3 =>
              rw [h3] at hc
              cases res3 with
              | error e => simp at hc
              | ok u =>
                simp only [Prod.mk.injEq, true_and] at hc
                subst hc
                simp only
                -- the engine before the first append
                have hinv0 : ({ wb.db with seqNo := seqNo } : DB).Inv :=
                  ⟨hinv.sorted, FilesInv_congr wb.db _ rfl rfl hinv.files, hinv.holds⟩
                obtain ⟨hg1, hs1, -, hall1, hpos1⟩ :=
                  commitAppend_spec seqNo order1 _ [] positions db1 hinv0.files h1
                have happ2 := Appended_of_appendLogRecord db1 hg1.files _ finPos db2 h2
                have hg2 : Grows ({ wb.db with seqNo := seqNo } : DB) db2 :=
                  Grows_trans hg1 (Grows_of_Appended db1 db2 _ finPos happ2)
                have hg : Grows wb.db db2 := Grows_congr_left hg2 rfl rfl rfl rfl
                have hinv2 : db2.Inv := Inv_of_Grows wb.db db2 hinv hg
                -- the keys of both orders are the staged keys
                have hkey1 : ∀ e ∈ order1, e ∈ wb.pendingWrites := fun e he => hp1.subset he
                have hkey2 : ∀ e ∈ order2, e ∈ wb.pendingWrites := fun e he => hp2.subset he
                have hmapeq : ∀ l : List (Bytes × LogRecord), (∀ e ∈ l, e ∈ wb.pendingWrites) →
                    l.map (fun e => e.2.Key) = l.map (fun e => e.1) := by
                  intro l hl
                  apply List.map_congr_left
                  intro e he
                  exact (hwf.entry e (hl e he)).1
                have hnd2 : (order2.map (fun e => e.2.Key)).Nodup := by
                  rw [hmapeq order2 hkey2]
                  exact (hp2.map _).nodup_iff.2 hwf.nodup
                have hposvalid : ∀ k pos, mapGet positions k = some pos →
                    ∃ df r, db2.fileOf pos.Fid = some df ∧ HoldsAt df pos.Offset r := by
                  intro k pos hk
                  rcases hpos1 k pos hk with ⟨hc, _⟩ | ⟨e, _, _, df, hfile, hholds⟩
                  · simp [mapGet] at hc
                  · obtain ⟨df2, hfile2, hholds2⟩ :=
                      Grows_holds (Grows_of_Appended db1 db2 _ finPos happ2) pos.Fid pos.Offset _
                        ⟨df, hfile, hholds⟩
                    exact ⟨df2, _, hfile2, hholds2⟩
                obtain ⟨hinv3, hact3, hold3, hseq3, -, hframe3, hent3⟩ :=
                  commitIndex_spec positions order2 db2 db3 hinv2 hposvalid hnd2 h3
                refine ⟨hinv3, trivial, ?_, ?_, ?_, ?_⟩
                · rw [hseq3, happ2.seqNo_eq, hs1]
                · intro key hkey
                  have hidx : db3.index.Get key = db2.index.Get key := by
                    apply hframe3
                    intro e he hc
                    apply hkey
                    exact List.mem_map.2 ⟨e, hkey2 e he, by rw [← hc, (hwf.entry e (hkey2 e he)).1]⟩
                  have : db3.Get key = db2.Get key := by
                    unfold DB.Get DB.getValueByPosition
                    rw [hidx, hact3, hold3]
                  rw [this]
                  exact Get_Grows wb.db db2 hinv hg key
                · intro e he hd
                  have he2 : e ∈ order2 := hp2.symm.subset he
                  have := (hent3 e he2).2 hd
                  rw [(hwf.entry e he).1] at this
                  exact this
                · intro e he hn
                  have he2 : e ∈ order2 := hp2.symm.subset he
                  have hk := (hwf.entry e he).1
                  have hget := (hent3 e he2).1 hn
                  rw [hk] at hget
                  have he1 : e ∈ order1 := hp1.symm.subset he
                  obtain ⟨pos, hpos⟩ := hall1 e he1
                  rw [hk] at hpos
                  rcases hpos1 e.1 pos hpos with ⟨hc, _⟩ | ⟨e3, he3, hk3, df, hfile, hholds⟩
                  · simp [mapGet] at hc
                  · -- the entry found is the entry of the key
                    have he3m : e3 ∈ wb.pendingWrites := hkey1 e3 he3
                    have hk3b : e3.1 = e.1 := by rw [← (hwf.entry e3 he3m).1]; exact hk3
                    have hee : e3 = e := by
                      have hinj := List.inj_on_of_nodup_map hwf.nodup he3m he hk3b
                      exact hinj
                    subst hee
                    obtain ⟨df2, hfile2, hholds2⟩ :=
                      Grows_holds (Grows_of_Appended db1 db2 _ finPos happ2) pos.Fid pos.Offset _
                        ⟨df, hfile, hholds⟩
                    refine ⟨pos, df2, by rw [hget, hpos], ?_, ?_⟩
                    · unfold DB.fileOf at hfile2 ⊢
                      rw [hact3, hold3]
                      exact hfile2
                    · rw [hn] at hholds2
                      exact hholds2

end Bitcask

namespace Bitcask

/-! ## Reachable states -/

theorem ReachablePD_reachable (db : DB) (h : ReachablePD db) : Reachable db := by
  induction h with
  | opened options db h => exact Reachable.opened options db h
  | put db key value db2 _ hput ih => exact Reachable.put db key value db2 ih hput
  | delete db key db2 _ hdel ih => exact Reachable.delete db key db2 ih hdel

theorem Commit_empty (wb : WriteBatch) (order1 order2 : List (Bytes × LogRecord))
    (h : wb.pendingWrites = []) : wb.Commit order1 order2 = (.ok (), wb) := by
  unfold WriteBatch.Commit
  simp [h]

theorem Reachable_inv (db : DB) (h : Reachable db) : db.Inv := by
  induction h with
  | opened options db h => exact Inv_opened options db h
  | put db key value db2 _ hput ih => exact (Put_spec db ih key value db2 hput).1
  | delete db key db2 _ hdel ih => exact (Delete_spec db ih key db2 hdel).1
  | commit wb order1 order2 wb2 _ hwf hp1 hp2 hc ih =>
    by_cases hne : wb.pendingWrites = []
    · rw [Commit_empty wb order1 order2 hne] at hc
      injection hc with _ hc
      rw [← hc]
      exact ih
    · exact (Commit_spec wb ih hwf order1 order2 hp1 hp2 hne wb2 hc).1

theorem OpenDB_empty_eq (options : Options) (hopt : checkOptions options = .ok ())
    (hidx : options.IndexType = IndexerType.BTree ∨ options.IndexType = IndexerType.ART) :
    OpenDB options Directory.empty none = .ok (emptyDB options) := by
  obtain ⟨index, hn, hitems⟩ := NewIndexer_inMemory _ hidx
  unfold OpenDB
  simp only [hopt, hn, hitems, if_false, Directory.empty, Bool.false_eq_true,
    loadMergeFile, DB.loadDataFile, List.map_nil, List.insertionSort, List.getLast?_nil,
    DB.loadIndexFromHint, DB.loadIndexerFromDataFile, List.length_nil, if_true]
  rfl

/-- A `Put` with a non-empty key succeeds whenever the record can be encoded. -/
theorem Put_succeeds (db : DB) (hf : db.FilesInv) (key value : Bytes) (hk : key ≠ [])
    (hklen : key.length + 1 < 2 ^ 34) (hvlen : value.length < 2 ^ 34) :
    ∃ db2, db.Put key value = (.ok (), db2) := by
  obtain ⟨enc, henc⟩ := EncodeLogRecord_ok_of_lt
    { Key := 0 :: key, Value := value, Typ := LogRecordNormal }
    (by simpa using hklen) hvlen
  obtain ⟨pos, db1, hap⟩ := appendLogRecord_ok_of_encode db hf _ enc _ henc
  unfold DB.Put
  have : ¬ key.length = 0 := fun h => hk (List.length_eq_zero.1 h)
  simp only [this, if_false, DB.appendLogRecordWithLock, logRecordKeyWithSeq_zero, hap]
  cases (db1.index.Put key pos).2 <;> exact ⟨_, rfl⟩

/-- The value a read returns is never longer than a 32-bit length field says. -/
theorem resolve_readBack_length (r : LogRecord) (v : Bytes)
    (h : resolve (readBack r) = .ok v) : v.length = r.Value.length % 2 ^ 32 := by
  unfold readBack at h
  simp only at h
  split at h
  · simp [resolve] at h
  · split at h
    · simp [resolve] at h
    · simp only [resolve] at h
      split at h
      · cases h
      · injection h with h
        rw [← h]
        have h1 : r.Key.length % 2 ^ 32 ≤ r.Key.length := Nat.mod_le _ _
        have h2 : r.Value.length % 2 ^ 32 ≤ r.Value.length := Nat.mod_le _ _
        simp only [List.length_drop, List.length_take, List.length_append]
        omega

/-- After a successful `Put`, `Get` of the key returns what reading back the
record of the `Put` gives. -/
theorem Get_after_Put (db : DB) (hinv : db.Inv) (key value : Bytes) (db2 : DB)
    (h : db.Put key value = (.ok (), db2)) :
    db2.Get key = resolve (readBack { Key := 0 :: key, Value := value, Typ := LogRecordNormal }) := by
  obtain ⟨-, hk, ⟨pos, df, hget, hfile, hholds⟩, -⟩ := Put_spec db hinv key value db2 h
  exact Get_of_holds db2 key pos df _ hk hget hfile hholds

theorem resolve_readBack_normal (key value : Bytes) (hk : key.length < 2 ^ 32) (hne : key ≠ [])
    (hv : value.length < 2 ^ 32) :
    resolve (readBack { Key := key, Value := value, Typ := LogRecordNormal }) = .ok value := by
  rw [readBack_ok _ hne hk hv]
  simp [resolve, Normal_ne_Deleted]

end Bitcask

namespace Bitcask

/-! ## The data files as lists of records -/

theorem encodeAll_append (a b : List LogRecord) :
    encodeAll (a ++ b) = encodeAll a ++ encodeAll b := by
  induction a with
  | nil => rfl
  | cons r rs ih => simp [encodeAll, ih]

theorem encodeAll_single (r : LogRecord) (enc : Bytes) (n : Int)
    (h : EncodeLogRecord r = .ok (enc, n)) : encodeAll [r] = enc := by
  simp [encodeAll, h]

/-- A plain record is encoded, and its encoding reads back as the record. -/
theorem PlainRecord_encode (r : LogRecord) (h : PlainRecord r) :
    ∃ enc, EncodeLogRecord r = .ok (enc, (enc.length : Int)) ∧ encodeAll [r] = enc ∧
      readBack r = .ok (r, (enc.length : Int)) ∧ 0 < enc.length := by
  obtain ⟨k, hk, hkl, hvl⟩ := h
  have hlen : r.Key.length = k.length + 1 := by rw [hk]; rfl
  obtain ⟨enc, henc⟩ := EncodeLogRecord_ok_of_lt r (by omega) (by omega)
  have hl := (EncodeLogRecord_length r enc _ henc).1
  refine ⟨enc, henc, encodeAll_single r enc _ henc, ?_, by omega⟩
  rw [readBack_ok r (by rw [hk]; simp) (by omega) hvl, hl]

theorem indexRecords_append (fid : Nat) (a b : List LogRecord) (offset : Int) (t : BTree) :
    indexRecords fid (a ++ b) offset t =
      indexRecords fid b (offset + ((encodeAll a).length : Int)) (indexRecords fid a offset t) := by
  induction a generalizing offset t with
  | nil => simp [indexRecords, encodeAll]
  | cons r rs ih =>
    simp only [List.cons_append, indexRecords]
    show indexRecords fid (rs ++ b) _ _ = _
    rw [ih]
    have : encodeAll (r :: rs) = encodeAll [r] ++ encodeAll rs := encodeAll_append [r] rs
    rw [this, List.length_append]
    push_cast
    rw [add_assoc]

theorem mapDelete_of_not_mem {κ α : Type} [DecidableEq κ] (m : List (κ × α)) (k : κ)
    (h : ∀ e ∈ m, e.1 ≠ k) : mapDelete m k = m := by
  unfold mapDelete
  rw [List.filter_eq_self]
  intro e he
  simpa using h e he

/-- The files of a laid-out engine keep the file invariant. -/
theorem Layout_FilesInv (db : DB) (R : List (Nat × List LogRecord)) (hl : Layout db R) :
    db.FilesInv := by
  cases R with
  | nil =>
    refine ⟨?_, ?_⟩
    · intro a ha
      rw [hl.active] at ha
      simp at ha
    · intro id f hm
      rw [hl.older] at hm
      simp at hm
  | cons e tl =>
    refine ⟨?_, ?_⟩
    · intro a ha
      rw [hl.active] at ha
      simp only [List.head?_cons, Option.map_some', Option.some.injEq] at ha
      rw [← ha]
      rfl
    · intro id f hm
      rw [hl.older] at hm
      simp only [List.tail_cons, List.mem_map] at hm
      obtain ⟨e2, he2, heq⟩ := hm
      simp only [Prod.mk.injEq] at heq
      obtain ⟨h1, h2⟩ := heq
      refine ⟨by rw [← h2, ← h1]; rfl, handleOf e, by rw [hl.active]; rfl, ?_⟩
      have := hl.ids
      simp only [List.map_cons, List.pairwise_cons, List.mem_map] at this
      have h3 := this.1 e2.1 ⟨e2, he2, rfl⟩
      rw [← h1]
      exact h3

theorem Layout_congr (db db2 : DB) (R : List (Nat × List LogRecord)) (hl : Layout db R)
    (h1 : db2.activeFile = db.activeFile) (h2 : db2.olderFile = db.olderFile) : Layout db2 R :=
  ⟨hl.ids, by rw [h1]; exact hl.active, by rw [h2]; exact hl.older, hl.plain⟩

/-- An append to a laid-out engine: the engine afterwards is laid out again,
and the index replay builds from the new files is the one it builds from the old
files with the user key of the record put at the place the append returned. -/
theorem Layout_append (db : DB) (R : List (Nat × List LogRecord)) (hl : Layout db R)
    (r : LogRecord) (hp : PlainRecord r) (pos : LogRecordPos) (db1 : DB)
    (hap : db.appendLogRecord r = (.ok pos, db1)) :
    ∃ R2, Layout db1 R2 ∧
      replayIndex R2 = ((replayIndex R).Put (r.Key.drop 1)
        { Fid := pos.Fid, Offset := pos.Offset,
          Size := toUint32 ((encodeAll [r]).length : Int) }).1 := by
  obtain ⟨enc, henc, hsingle, -, -⟩ := PlainRecord_encode r hp
  rw [appendLogRecord_eq db (Layout_FilesInv db R hl) r enc _ henc] at hap
  cases R with
  | nil =>
    have hact : db.activeFile = none := hl.active
    have hold : db.olderFile = [] := hl.older
    have hw : db.writeFile = { FileId := 0, WriteOff := 0, IoManager := [] } := by
      unfold DB.writeFile; rw [hact]; rfl
    rw [hw] at hap
    by_cases hrot : (0 : Int) + (enc.length : Int) > db.options.DataFileSize
    · simp only [hrot, if_true, Prod.mk.injEq, Except.ok.injEq] at hap
      obtain ⟨hpos, hdb1⟩ := hap
      subst hpos; subst hdb1
      refine ⟨[(1, [r]), (0, [])], ⟨by simp, ?_, ?_, ?_⟩, ?_⟩
      · simp [handleOf, hsingle]
      · simp [handleOf, hold, mapSet, mapDelete, encodeAll]
      · intro e he r2 hr2
        simp only [List.mem_cons, List.mem_singleton, List.not_mem_nil, or_false] at he
        rcases he with rfl | rfl
        · simp only [List.mem_singleton] at hr2
          rw [hr2]; exact hp
        · simp at hr2
      · simp [replayIndex, indexRecords]
    · simp only [hrot, if_false, Prod.mk.injEq, Except.ok.injEq] at hap
      obtain ⟨hpos, hdb1⟩ := hap
      subst hpos; subst hdb1
      refine ⟨[(0, [r])], ⟨by simp, ?_, ?_, ?_⟩, ?_⟩
      · simp [handleOf, hsingle, DataFile.Write]
      · simp [hold]
      · intro e he r2 hr2
        simp only [List.mem_singleton] at he
        subst he
        simp only [List.mem_singleton] at hr2
        rw [hr2]; exact hp
      · simp [replayIndex, indexRecords]
  | cons e tl =>
    have hact : db.activeFile = some (handleOf e) := hl.active
    have hold : db.olderFile = tl.map (fun e => (e.1, handleOf e)) := hl.older
    have hw : db.writeFile = handleOf e := by
      unfold DB.writeFile; rw [hact]; rfl
    have hids := hl.ids
    simp only [List.map_cons, List.pairwise_cons, List.mem_map] at hids
    rw [hw] at hap
    by_cases hrot : (handleOf e).WriteOff + (enc.length : Int) > db.options.DataFileSize
    · simp only [hrot, if_true, Prod.mk.injEq, Except.ok.injEq] at hap
      obtain ⟨hpos, hdb1⟩ := hap
      subst hpos; subst hdb1
      refine ⟨(e.1 + 1, [r]) :: e :: tl, ⟨?_, ?_, ?_, ?_⟩, ?_⟩
      · simp only [List.map_cons, List.pairwise_cons, List.mem_cons, List.mem_map]
        refine ⟨?_, hids⟩
        intro a ha
        rcases ha with rfl | ⟨e2, he2, rfl⟩
        · omega
        · have := hids.1 e2.1 ⟨e2, he2, rfl⟩
          omega
      · simp [handleOf, hsingle]
      · simp only [List.tail_cons, List.map_cons, hold]
        unfold mapSet
        rw [mapDelete_of_not_mem]
        · rfl
        · intro e2 he2
          obtain ⟨e3, he3, rfl⟩ := List.mem_map.1 he2
          have := hids.1 e3.1 ⟨e3, he3, rfl⟩
          simp only [handleOf]
          omega
      · intro e2 he2 r2 hr2
        rcases List.mem_cons.1 he2 with rfl | he2
        · simp only [List.mem_singleton] at hr2
          rw [hr2]; exact hp
        · exact hl.plain e2 he2 r2 hr2
      · simp [replayIndex, indexRecords, handleOf]
    · simp only [hrot, if_false, Prod.mk.injEq, Except.ok.injEq] at hap
      obtain ⟨hpos, hdb1⟩ := hap
      subst hpos; subst hdb1
      refine ⟨(e.1, e.2 ++ [r]) :: tl, ⟨?_, ?_, ?_, ?_⟩, ?_⟩
      · simpa using hids
      · simp [handleOf, DataFile.Write, encodeAll_append, hsingle]
      · simp [hold]
      · intro e2 he2 r2 hr2
        rcases List.mem_cons.1 he2 with rfl | he2
        · rcases List.mem_append.1 hr2 with h1 | h1
          · exact hl.plain e (List.mem_cons_self _ _) r2 h1
          · simp only [List.mem_singleton] at h1
            rw [h1]; exact hp
        · exact hl.plain e2 (List.mem_cons_of_mem _ he2) r2 hr2
      · simp [replayIndex, indexRecords_append, indexRecords, handleOf]

end Bitcask

namespace Bitcask

/-! ## Replay of plain records -/

theorem parseLogRecordKey_plain (k : Bytes) : parseLogRecordKey (0 :: k) = .ok (k, 0) := by
  unfold parseLogRecordKey Uvarint
  have h2 : ¬ ((k.length : Int) < 0) := by omega
  simp [uvarintLoop, sliceFrom, MaxVarintLen64, h2]

/-- At the end of the file `ReadLogRecord` reports the end of the file. -/
theorem ReadLogRecord_eof (df : DataFile) :
    df.ReadLogRecord (df.IoManager.length : Int) = .error .EOF := by
  unfold DataFile.ReadLogRecord
  have h : (maxLogRecordHeaderSize : Int) + (df.IoManager.length : Int) >
      (df.IoManager.length : Int) := by
    unfold maxLogRecordHeaderSize; omega
  have h2 : ¬ ((df.IoManager.length : Int) < 0) := by omega
  simp [h, h2, DataFile.readNBytes, decodeLogRecordHeader]

theorem replayRecord_plain (st : Replay) (fid : Nat) (offset : Int) (r : LogRecord) (size : Int)
    (hp : PlainRecord r) :
    ∃ reclaim, replayRecord st fid offset r size =
      .ok { st with db := { st.db with
        index := (st.db.index.Put (r.Key.drop 1)
          { Fid := fid, Offset := offset, Size := toUint32 size }).1,
        reclaimSize := reclaim } } := by
  obtain ⟨k, hk, -, -⟩ := hp
  unfold replayRecord
  rw [hk, parseLogRecordKey_plain]
  have hne : ¬ LogRecordNormal = LogRecordDeleted := by decide
  simp only [nonTransactionSeqNo, if_true, DB.updateIndex, hne, if_false, List.drop_succ_cons,
    List.drop_zero]
  cases hold : (st.db.index.Put k { Fid := fid, Offset := offset, Size := toUint32 size }).2 with
  | none => exact ⟨st.db.reclaimSize, by simp⟩
  | some oldPos => exact ⟨st.db.reclaimSize + oldPos.Size, by simp⟩

theorem length_le_encodeAll (rs : List LogRecord) (hp : ∀ r ∈ rs, PlainRecord r) :
    rs.length ≤ (encodeAll rs).length := by
  induction rs with
  | nil => simp
  | cons r rs ih =>
    obtain ⟨enc, -, hs, -, hpos⟩ := PlainRecord_encode r (hp r (List.mem_cons_self _ _))
    have h1 : encodeAll (r :: rs) = encodeAll [r] ++ encodeAll rs := encodeAll_append [r] rs
    have h2 := ih (fun r2 h => hp r2 (List.mem_cons_of_mem _ h))
    rw [h1, hs, List.length_append, List.length_cons]
    omega

/-- The replay loop over a file that holds plain records from `pre.length` on:
it ends at the end of the file, with each record indexed at its place. -/
theorem replayFile_records (df : DataFile) (fid : Nat) (rs : List LogRecord) :
    ∀ (fuel : Nat) (pre : Bytes) (st : Replay), (∀ r ∈ rs, PlainRecord r) → rs.length < fuel →
      df.IoManager = pre ++ encodeAll rs →
      ∃ reclaim, replayFile df fid fuel (pre.length : Int) st =
        .ok ({ st with db := { st.db with
                index := indexRecords fid rs (pre.length : Int) st.db.index,
                reclaimSize := reclaim } }, (df.IoManager.length : Int)) := by
  induction rs with
  | nil =>
    intro fuel pre st _ hfuel hio
    obtain ⟨f, rfl⟩ : ∃ f, fuel = f + 1 := ⟨fuel - 1, by omega⟩
    have hlen : pre.length = df.IoManager.length := by rw [hio]; simp [encodeAll]
    refine ⟨st.db.reclaimSize, ?_⟩
    unfold replayFile
    rw [hlen, ReadLogRecord_eof]
    rfl
  | cons r rs ih =>
    intro fuel pre st hp hfuel hio
    obtain ⟨f, rfl⟩ : ∃ f, fuel = f + 1 := ⟨fuel - 1, by omega⟩
    obtain ⟨enc, henc, hs, hrb, -⟩ := PlainRecord_encode r (hp r (List.mem_cons_self _ _))
    have h1 : encodeAll (r :: rs) = enc ++ encodeAll rs := by
      rw [← hs]; exact encodeAll_append [r] rs
    have hio2 : df.IoManager = pre ++ enc ++ encodeAll rs := by rw [hio, h1]; simp
    have hread := ReadLogRecord_encoded r enc _ henc df pre (encodeAll rs) hio2
    obtain ⟨reclaim1, hrec⟩ := replayRecord_plain st fid (pre.length : Int) r (enc.length : Int)
      (hp r (List.mem_cons_self _ _))
    have hio3 : df.IoManager = (pre ++ enc) ++ encodeAll rs := hio2
    obtain ⟨reclaim2, hrest⟩ := ih f (pre ++ enc) _ (fun r2 h => hp r2 (List.mem_cons_of_mem _ h))
      (by simp only [List.length_cons] at hfuel; omega) hio3
    refine ⟨reclaim2, ?_⟩
    unfold replayFile
    rw [hread, hrb]
    simp only [hrec]
    have hoff : ((pre.length : Int) + (enc.length : Int)) = ((pre ++ enc).length : Int) := by
      simp
    rw [hoff, hrest]
    simp only [indexRecords, hs]
    rw [hoff]

end Bitcask

namespace Bitcask

/-! ## Replay of all files -/

/-- The replay over the files `A` (oldest first) of an engine that holds them:
the index is the fold of the records over the files, the older files are kept,
and the active file keeps its id and content. -/
theorem replayFiles_layout (A : List (Nat × List LogRecord)) :
    ∀ (st : Replay),
      (∀ e ∈ A, (∀ r ∈ e.2, PlainRecord r) ∧
        ∃ df, st.db.fileOf e.1 = some df ∧ df.IoManager = encodeAll e.2) →
      ∃ reclaim offset, replayFiles false 0 (A.map (fun e => e.1)) st =
        .ok { st with db := { st.db with
          index := A.foldl (fun t e => indexRecords e.1 e.2 0 t) st.db.index,
          reclaimSize := reclaim,
          activeFile := st.db.activeFile.map (fun a => { a with WriteOff := offset }) } } := by
  induction A with
  | nil =>
    intro st _
    rcases st with ⟨⟨o, fi, act, old, idx, sq, im, sfe, ii, bw, rc, hi, mf, sf⟩, tr, cs⟩
    cases act with
    | none => exact ⟨rc, 0, rfl⟩
    | some a => exact ⟨rc, a.WriteOff, rfl⟩
  | cons e rest ih =>
    intro st h
    obtain ⟨hp, df, hfile, hio⟩ := h e (List.mem_cons_self _ _)
    obtain ⟨reclaim1, hrf⟩ := replayFile_records df e.1 e.2 (df.IoManager.length + 1) [] st hp
      (by rw [hio]; have := length_le_encodeAll e.2 hp; omega) (by rw [hio]; rfl)
    simp only [List.length_nil, Nat.cast_zero] at hrf
    unfold DB.fileOf at hfile
    cases hact : st.db.activeFile with
    | none => simp [hact] at hfile
    | some active =>
      simp only [hact] at hfile
      simp only [List.map_cons, replayFiles, replayOne, Bool.false_eq_true, false_and, if_false, hact,
        hfile, hrf]
      by_cases hrest : rest = []
      · subst hrest
        refine ⟨reclaim1, (df.IoManager.length : Int), ?_⟩
        simp [hact, replayFiles]
      · have hrest2 : ¬ (rest.map (fun e => e.1)) = [] := by simpa using hrest
        simp only [hrest2, decide_False, Bool.false_eq_true, if_false]
        obtain ⟨reclaim2, offset, hrec⟩ := ih
          { st with db := { st.db with
              index := indexRecords e.1 e.2 0 st.db.index, reclaimSize := reclaim1 } }
          (by
            intro e2 he2
            obtain ⟨hp2, df2, hfile2, hio2⟩ := h e2 (List.mem_cons_of_mem _ he2)
            exact ⟨hp2, df2, hfile2, hio2⟩)
        refine ⟨reclaim2, offset, ?_⟩
        simp only [hact] at hrec ⊢
        rw [hrec]
        simp [List.foldl_cons]

end Bitcask

namespace Bitcask

/-! ## Opening a directory of plain records -/

/-- Descending ids are brought into ascending order by reversal. -/
theorem insertionSort_descending (ids : List Nat) (h : ids.Pairwise (fun a b => a > b)) :
    ids.insertionSort (· ≤ ·) = ids.reverse := by
  apply List.eq_of_perm_of_sorted (r := (· ≤ ·))
  · exact (List.perm_insertionSort _ _).trans (List.reverse_perm _).symm
  · exact List.sorted_insertionSort _ _
  · rw [List.Sorted, List.pairwise_reverse]
    exact h.imp (fun hab => Nat.le_of_lt hab)

theorem mapGet_layout (R : List (Nat × List LogRecord))
    (hids : (R.map (fun e => e.1)).Pairwise (fun a b => a > b)) (e : Nat × List LogRecord)
    (he : e ∈ R) (f : Nat × List LogRecord → DataFile) :
    mapGet (R.map (fun e => (e.1, f e))) e.1 = some (f e) := by
  induction R with
  | nil => cases he
  | cons e2 tl ih =>
    simp only [List.map_cons, List.pairwise_cons, List.mem_map] at hids
    simp only [List.map_cons, mapGet_cons]
    rcases List.mem_cons.1 he with rfl | he
    · simp
    · have := hids.1 e.1 ⟨e, he, rfl⟩
      have hne : ¬ e2.1 = e.1 := by omega
      simp only [hne, if_false]
      exact ih hids.2 he

theorem mapGet_layout_bytes (R : List (Nat × List LogRecord))
    (hids : (R.map (fun e => e.1)).Pairwise (fun a b => a > b)) (e : Nat × List LogRecord)
    (he : e ∈ R) :
    mapGet (R.map (fun e => (e.1, encodeAll e.2))) e.1 = some (encodeAll e.2) := by
  induction R with
  | nil => cases he
  | cons e2 tl ih =>
    simp only [List.map_cons, List.pairwise_cons, List.mem_map] at hids
    simp only [List.map_cons, mapGet_cons]
    rcases List.mem_cons.1 he with rfl | he
    · simp
    · have := hids.1 e.1 ⟨e, he, rfl⟩
      have hne : ¬ e2.1 = e.1 := by omega
      simp only [hne, if_false]
      exact ih hids.2 he

theorem foldr_mapSet_layout (tl : List (Nat × List LogRecord))
    (hids : (tl.map (fun e => e.1)).Pairwise (fun a b => a > b)) :
    (tl.map openedHandle).foldr (fun f acc => mapSet acc f.FileId f) [] =
      tl.map (fun e => (e.1, openedHandle e)) := by
  induction tl with
  | nil => rfl
  | cons e tl ih =>
    simp only [List.map_cons, List.pairwise_cons, List.mem_map] at hids
    simp only [List.map_cons, List.foldr_cons]
    rw [ih hids.2]
    unfold mapSet
    rw [mapDelete_of_not_mem]
    · rfl
    · intro e2 he2
      obtain ⟨e3, he3, rfl⟩ := List.mem_map.1 he2
      have := hids.1 e3.1 ⟨e3, he3, rfl⟩
      simp only [openedHandle]
      omega

/-- The engine `loadDataFile` builds from a directory whose data files are
those of a layout. -/
theorem loadDataFile_layout (db0 : DB) (dir : Directory) (e : Nat × List LogRecord)
    (tl : List (Nat × List LogRecord))
    (hids : ((e :: tl).map (fun e => e.1)).Pairwise (fun a b => a > b))
    (hdata : dir.dataFiles = (e :: tl).map (fun e => (e.1, encodeAll e.2)))
    (hold : db0.olderFile = []) :
    db0.loadDataFile dir =
      { db0 with fileIds := ((e :: tl).map (fun e => e.1)).reverse,
                 activeFile := some (openedHandle e),
                 olderFile := tl.map (fun e => (e.1, openedHandle e)) } := by
  have hfi : (dir.dataFiles.map (fun e => e.1)).insertionSort (· ≤ ·) =
      ((e :: tl).map (fun e => e.1)).reverse := by
    rw [hdata, List.map_map]
    exact insertionSort_descending _ hids
  have hh : (((e :: tl).map (fun e => e.1)).reverse).map (fun fid => OpenDataFile dir.dataFiles fid) =
      ((e :: tl).map openedHandle).reverse := by
    rw [← List.map_reverse, ← List.map_reverse, List.map_map]
    apply List.map_congr_left
    intro e2 he2
    have he3 : e2 ∈ e :: tl := List.mem_reverse.1 he2
    simp only [Function.comp, OpenDataFile, openedHandle, hdata]
    rw [mapGet_layout_bytes _ hids e2 he3]
    rfl
  have htl : (tl.map (fun e => e.1)).Pairwise (fun a b => a > b) := by
    simp only [List.map_cons, List.pairwise_cons] at hids
    exact hids.2
  unfold DB.loadDataFile
  simp only [hfi, hh]
  simp only [List.getLast?_reverse, List.map_cons, List.head?_cons, List.reverse_cons,
    List.dropLast_concat, hold, List.foldl_reverse, foldr_mapSet_layout tl htl,
    List.getLast?_append, List.getLast?_singleton, Option.or_some]

end Bitcask

namespace Bitcask

theorem replayIndex_eq_foldr (R : List (Nat × List LogRecord)) :
    replayIndex R = R.foldr (fun e t => indexRecords e.1 e.2 0 t) NewTree := by
  induction R with
  | nil => rfl
  | cons e tl ih => simp only [replayIndex, List.foldr_cons, ih]

theorem eq_head_of_fst_eq (e : Nat × List LogRecord) (tl : List (Nat × List LogRecord))
    (hids : ((e :: tl).map (fun e => e.1)).Pairwise (fun a b => a > b))
    (e2 : Nat × List LogRecord) (he2 : e2 ∈ e :: tl) (h : e2.1 = e.1) : e2 = e := by
  rcases List.mem_cons.1 he2 with h1 | h1
  · exact h1
  · simp only [List.map_cons, List.pairwise_cons, List.mem_map] at hids
    have := hids.1 e2.1 ⟨e2, h1, rfl⟩
    omega

/-- The file an id of the layout resolves to: the active file for the newest
id, the handle filed under the id for the others. -/
theorem fileOf_layout (db : DB) (a : DataFile) (e : Nat × List LogRecord)
    (tl : List (Nat × List LogRecord)) (f : Nat × List LogRecord → DataFile)
    (hids : ((e :: tl).map (fun e => e.1)).Pairwise (fun a b => a > b))
    (hact : db.activeFile = some a) (haid : a.FileId = e.1)
    (hold : db.olderFile = tl.map (fun e => (e.1, f e)))
    (e2 : Nat × List LogRecord) (he2 : e2 ∈ e :: tl) :
    db.fileOf e2.1 = some (if e2 = e then a else f e2) := by
  unfold DB.fileOf
  rw [hact]
  simp only [haid]
  by_cases h : e2.1 = e.1
  · have := eq_head_of_fst_eq e tl hids e2 he2 h
    simp [h, this]
  · have hne : e2 ≠ e := fun hc => h (by rw [hc])
    simp only [h, hne, if_false]
    rw [hold]
    have he3 : e2 ∈ tl := by
      rcases List.mem_cons.1 he2 with h1 | h1
      · exact absurd h1 hne
      · exact h1
    simp only [List.map_cons, List.pairwise_cons] at hids
    exact mapGet_layout tl hids.2 e2 he3 f

/-- Opening a directory whose data files hold plain records, without hint and
merge files: `OpenDB` returns an engine whose index is the replay of the records
and whose files have the contents of the directory. -/
theorem OpenDB_layout (options : Options) (dir : Directory) (R : List (Nat × List LogRecord))
    (hids : (R.map (fun e => e.1)).Pairwise (fun a b => a > b))
    (hplain : ∀ e ∈ R, ∀ r ∈ e.2, PlainRecord r)
    (hdata : dir.dataFiles = R.map (fun e => (e.1, encodeAll e.2)))
    (hhint : dir.hintIndex = none) (hmf : dir.mergeFinished = none) (hlock : dir.locked = false)
    (hopt : checkOptions options = .ok ())
    (hidx : options.IndexType = IndexerType.BTree ∨ options.IndexType = IndexerType.ART) :
    ∃ db2, OpenDB options dir none = .ok db2 ∧ db2.index = replayIndex R ∧
      ∀ e ∈ R, ∃ df2, db2.fileOf e.1 = some df2 ∧ df2.IoManager = encodeAll e.2 := by
  rw [OpenDB_eq options dir none hopt hlock hidx]
  simp only [loadMergeFile, hhint, hmf]
  cases R with
  | nil =>
    simp only [DB.loadDataFile, hdata, List.map_nil, List.insertionSort, List.getLast?_nil,
      DB.loadIndexFromHint, DB.loadIndexerFromDataFile, List.length_nil, if_true]
    exact ⟨_, rfl, rfl, fun e he => by cases he⟩
  | cons e tl =>
    rw [loadDataFile_layout _ dir e tl hids hdata rfl]
    simp only [DB.loadIndexFromHint, DB.loadIndexerFromDataFile]
    have hlen : ¬ (((e :: tl).map (fun e => e.1)).reverse).length = 0 := by simp
    simp only [hlen, if_false]
    rw [← List.map_reverse]
    obtain ⟨reclaim, offset, hrf⟩ := replayFiles_layout (e :: tl).reverse
      { db := { options := options, fileIds := ((e :: tl).reverse).map (fun e => e.1),
                activeFile := some (openedHandle e),
                olderFile := tl.map (fun e => (e.1, openedHandle e)),
                index := NewTree, seqNo := 0, isMerging := false, seqNoFileExists := false,
                isInitial := !dir.present, bytesWrite := 0, reclaimSize := 0,
                hintIndexFile := none, mergeFinishedFile := none, seqNoFile := dir.seqNo },
        transactionRecords := [], currentSeqNo := nonTransactionSeqNo }
      (by
        intro e2 he2
        have he3 : e2 ∈ e :: tl := List.mem_reverse.1 he2
        refine ⟨hplain e2 he3, _, fileOf_layout _ (openedHandle e) e tl openedHandle hids rfl rfl rfl
          e2 he3, ?_⟩
        by_cases h : e2 = e
        · simp [h, openedHandle]
        · simp [h, openedHandle])
    rw [hrf]
    refine ⟨_, rfl, ?_, ?_⟩
    · simp only [List.foldl_reverse]
      rw [replayIndex_eq_foldr]
    · intro e2 he2
      refine ⟨_, fileOf_layout _
        { FileId := e.1, WriteOff := offset, IoManager := encodeAll e.2 } e tl openedHandle hids
        rfl rfl rfl e2 he2, ?_⟩
      by_cases h : e2 = e
      · simp [h]
      · simp [h, openedHandle]

end Bitcask

namespace Bitcask

/-! ## The engine against the replay of its files -/

theorem Layout_dataFiles (db : DB) (R : List (Nat × List LogRecord)) (hl : Layout db R) :
    db.dataFiles = R.map (fun e => (e.1, encodeAll e.2)) := by
  unfold DB.dataFiles
  rw [hl.active, hl.older]
  cases R with
  | nil => rfl
  | cons e tl => simp [handleOf, Function.comp]

theorem Layout_fileOf (db : DB) (R : List (Nat × List LogRecord)) (hl : Layout db R) (fid : Nat)
    (df : DataFile) (h : db.fileOf fid = some df) : ∃ e ∈ R, e.1 = fid ∧ df = handleOf e := by
  unfold DB.fileOf at h
  rw [hl.active, hl.older] at h
  cases R with
  | nil => simp at h
  | cons e tl =>
    simp only [List.head?_cons, Option.map_some', List.tail_cons] at h
    by_cases hfid : fid = (handleOf e).FileId
    · simp only [hfid, if_true, Option.some.injEq] at h
      exact ⟨e, List.mem_cons_self _ _, by rw [hfid]; rfl, h.symm⟩
    · simp only [hfid, if_false] at h
      have hm := mem_of_mapGet _ _ _ h
      obtain ⟨e2, he2, heq⟩ := List.mem_map.1 hm
      simp only [Prod.mk.injEq] at heq
      exact ⟨e2, List.mem_cons_of_mem _ he2, heq.1, heq.2.symm⟩

theorem Layout_opened (options : Options) (db : DB)
    (h : OpenDB options Directory.empty none = .ok db) : Layout db [] ∧ Agrees db [] := by
  obtain ⟨h1, h2, h3, -⟩ := OpenDB_empty options db h
  refine ⟨⟨by simp, by rw [h2]; rfl, by rw [h3]; rfl, by simp⟩, ⟨NewTree_Sorted, ?_, ?_⟩⟩
  · intro key _
    rw [h1]
    simp [BTree.Get, NewTree, treeGet]
  · intro key p2 hget
    simp [replayIndex, BTree.Get, NewTree, treeGet] at hget

/-- One append followed by an update of the index at the key of the record:
the engine still agrees with the replay of its files. -/
theorem Agrees_step (db db1 db2 : DB) (R R2 : List (Nat × List LogRecord)) (r : LogRecord)
    (pos : LogRecordPos) (key : Bytes) (size : Nat) (hag : Agrees db R)
    (happ : Appended db db1 r pos) (hp : PlainRecord r) (hkey : r.Key = 0 :: key)
    (hR2 : replayIndex R2 =
      ((replayIndex R).Put key { Fid := pos.Fid, Offset := pos.Offset, Size := size }).1)
    (hact : db2.activeFile = db1.activeFile) (hold : db2.olderFile = db1.olderFile)
    (hother : ∀ key2, key2 ≠ key → db2.index.Get key2 = db.index.Get key2)
    (hself : (r.Typ = LogRecordDeleted ∧ db2.index.Get key = none) ∨
      db2.index.Get key = some pos) :
    Agrees db2 R2 := by
  have hfile : ∀ fid, db2.fileOf fid = db1.fileOf fid := fileOf_congr db1 db2 hact hold
  refine ⟨by rw [hR2]; exact BTree.Put_Sorted _ _ _ hag.sorted, ?_, ?_⟩
  · intro k hnone
    rw [hR2] at hnone
    by_cases hk : k = key
    · subst hk
      rw [BTree.Get_Put_self] at hnone
      cases hnone
    · rw [BTree.Get_Put_other _ _ _ _ hag.sorted hk] at hnone
      rw [hother k hk]
      exact hag.none_of_none k hnone
  · intro k p2 hsome
    rw [hR2] at hsome
    by_cases hk : k = key
    · subst hk
      rw [BTree.Get_Put_self] at hsome
      simp only [Option.some.injEq] at hsome
      subst hsome
      obtain ⟨a, ha, hfid, hholds⟩ := happ.active
      refine ⟨a, r, ?_, hholds, hp, hkey, ?_⟩
      · simp only
        rw [hfile, hfid]
        exact fileOf_active db1 a ha
      · rcases hself with h1 | h1
        · exact Or.inl h1
        · exact Or.inr ⟨pos, h1, rfl, rfl⟩
    · rw [BTree.Get_Put_other _ _ _ _ hag.sorted hk] at hsome
      obtain ⟨df, r0, hf0, hh0, hp0, hk0, hcase⟩ := hag.of_some k p2 hsome
      obtain ⟨df2, extra, hf2, hio⟩ := happ.grows _ _ hf0
      refine ⟨df2, r0, by rw [hfile]; exact hf2, HoldsAt_extend df df2 _ r0 extra hh0 hio, hp0, hk0,
        ?_⟩
      rw [hother k hk]
      exact hcase

/-- Reads of an engine whose index is the replay of the files, and whose files
have the contents of the layout, are the reads of the engine laid out so. -/
theorem Get_replayed (db db2 : DB) (R : List (Nat × List LogRecord)) (hl : Layout db R)
    (hag : Agrees db R) (hidx : db2.index = replayIndex R)
    (hfiles : ∀ e ∈ R, ∃ df2, db2.fileOf e.1 = some df2 ∧ df2.IoManager = encodeAll e.2)
    (key : Bytes) : db2.Get key = db.Get key := by
  by_cases hkey : key = []
  · subst hkey; rfl
  · cases hget : (replayIndex R).Get key with
    | none =>
      rw [Get_of_not_indexed db2 key hkey (by rw [hidx]; exact hget),
        Get_of_not_indexed db key hkey (hag.none_of_none key hget)]
    | some p2 =>
      obtain ⟨df, r, hf, hh, hp, -, hcase⟩ := hag.of_some key p2 hget
      obtain ⟨e, he, hfid, hdf⟩ := Layout_fileOf db R hl _ _ hf
      obtain ⟨df2, hf2, hio2⟩ := hfiles e he
      have hh2 : HoldsAt df2 p2.Offset r :=
        HoldsAt_extend df df2 _ r [] hh (by rw [hio2, hdf]; simp [handleOf])
      rw [Get_of_holds db2 key p2 df2 r hkey (by rw [hidx]; exact hget) (by rw [← hfid]; exact hf2)
        hh2]
      rcases hcase with ⟨hdel, hnone⟩ | ⟨p, hp1, hp2, hp3⟩
      · rw [Get_of_not_indexed db key hkey hnone]
        obtain ⟨enc, -, -, hrb, -⟩ := PlainRecord_encode r hp
        rw [hrb]
        simp [resolve, hdel]
      · rw [Get_of_holds db key p df r hkey hp1 (by rw [hp2]; exact hf) (by rw [hp3]; exact hh)]

end Bitcask

namespace Bitcask

/-! ## Close and reopen -/

theorem OpenDB_ok_options (options : Options) (dir : Directory) (mergeDir : Option Directory)
    (db : DB) (h : OpenDB options dir mergeDir = .ok db) :
    checkOptions options = .ok () ∧
      (options.IndexType = IndexerType.BTree ∨ options.IndexType = IndexerType.ART) :=
  ⟨(OpenDB_ok_inMemory options dir mergeDir db h).1,
    (OpenDB_ok_inMemory options dir mergeDir db h).2.2⟩

set_option maxRecDepth 100000 in
theorem Close_keeps_files (db : DB) (hseq : db.seqNo = 0) :
    (db.Close).1 = .ok () ∧ (db.Close).2.dataFiles = db.dataFiles ∧
    (db.Close).2.hintIndex = db.hintIndexFile ∧ (db.Close).2.mergeFinished = db.mergeFinishedFile ∧
    (db.Close).2.locked = false := by
  obtain ⟨enc, henc⟩ := EncodeLogRecord_ok_of_lt
    { Key := seqNoKey, Value := formatUint 0, Typ := 0 } (by decide) (by decide)
  unfold DB.Close
  cases db.activeFile with
  | none => exact ⟨rfl, rfl, rfl, rfl, rfl⟩
  | some a =>
    simp only [hseq, henc]
    simp [DB.directory]

/-- One successful call keeps the engine in agreement with the replay of its
files. -/
theorem step_durable (db db2 : DB) (op : Op) (h : db.step op = (.ok (), db2))
    (R : List (Nat × List LogRecord)) (hl : Layout db R) (hag : Agrees db R) (hinv : db.Inv)
    (hsize : ∀ key value, op = Op.put key value → key.length + 1 < 2 ^ 32 ∧ value.length < 2 ^ 32) :
    ∃ R2, Layout db2 R2 ∧ Agrees db2 R2 ∧ db2.Inv ∧ db2.options = db.options ∧
      db2.hintIndexFile = db.hintIndexFile ∧ db2.mergeFinishedFile = db.mergeFinishedFile ∧
      db2.seqNo = db.seqNo := by
  cases op with
  | put key value =>
    have hput : db.Put key value = (.ok (), db2) := h
    obtain ⟨hb1, hb2⟩ := hsize key value rfl
    obtain ⟨-, pos, db1, reclaim, hap, hdb2⟩ := Put_ok db key value db2 hput
    have hp : PlainRecord (LogRecord.mk (0 :: key) value LogRecordNormal) := ⟨key, rfl, hb1, hb2⟩
    have happ := Appended_of_appendLogRecord db hinv.files _ pos db1 hap
    have hinv1 := Inv_of_Appended db db1 _ pos hinv happ
    obtain ⟨R2, hl1, hR2⟩ := Layout_append db R hl _ hp pos db1 hap
    subst hdb2
    refine ⟨R2, Layout_congr db1 _ R2 hl1 rfl rfl, ?_, (Put_spec db hinv key value _ hput).1,
      happ.options_eq, happ.hintIndexFile_eq, happ.mergeFinishedFile_eq, happ.seqNo_eq⟩
    refine Agrees_step db db1 _ R R2 _ pos key _ hag happ hp rfl hR2 rfl rfl ?_ ?_
    · intro key2 hne
      simp only
      rw [BTree.Get_Put_other _ _ _ _ hinv1.sorted hne, happ.index_eq]
    · exact Or.inr (BTree.Get_Put_self _ _ _)
  | delete key =>
    have hdel : db.Delete key = (.ok (), db2) := h
    obtain ⟨-, hsome, pos, db1, reclaim, hap, hdb2⟩ := Delete_ok db key db2 hdel
    have hb1 : key.length + 1 < 2 ^ 32 := by
      cases hget : (replayIndex R).Get key with
      | none =>
        rw [hag.none_of_none key hget] at hsome
        simp at hsome
      | some p2 =>
        obtain ⟨df, r, -, -, ⟨k, hk1, hk2, -⟩, hk, -⟩ := hag.of_some key p2 hget
        rw [hk] at hk1
        simp only [List.cons.injEq, true_and] at hk1
        rw [hk1]
        exact hk2
    have hp : PlainRecord (LogRecord.mk (0 :: key) [] LogRecordDeleted) :=
      ⟨key, rfl, hb1, by simp⟩
    have happ := Appended_of_appendLogRecord db hinv.files _ pos db1 hap
    have hinv1 := Inv_of_Appended db db1 _ pos hinv happ
    obtain ⟨R2, hl1, hR2⟩ := Layout_append db R hl _ hp pos db1 hap
    subst hdb2
    refine ⟨R2, Layout_congr db1 _ R2 hl1 rfl rfl, ?_, (Delete_spec db hinv key _ hdel).1,
      happ.options_eq, happ.hintIndexFile_eq, happ.mergeFinishedFile_eq, happ.seqNo_eq⟩
    refine Agrees_step db db1 _ R R2 _ pos key _ hag happ hp rfl hR2 rfl rfl ?_ ?_
    · intro key2 hne
      simp only
      rw [BTree.Get_Delete_other _ _ _ hinv1.sorted hne, happ.index_eq]
    · exact Or.inl ⟨rfl, BTree.Get_Delete_self _ _ hinv1.sorted⟩

/-- A sequence of successful calls keeps the engine in agreement with the
replay of its files. -/
theorem run_durable (ops : List Op) :
    ∀ (db db2 : DB), db.run ops = some db2 →
      (∀ key value, Op.put key value ∈ ops → key.length + 1 < 2 ^ 32 ∧ value.length < 2 ^ 32) →
      ∀ R, Layout db R → Agrees db R → db.Inv →
      ∃ R2, Layout db2 R2 ∧ Agrees db2 R2 ∧ db2.Inv ∧ db2.options = db.options ∧
        db2.hintIndexFile = db.hintIndexFile ∧ db2.mergeFinishedFile = db.mergeFinishedFile ∧
        db2.seqNo = db.seqNo := by
  induction ops with
  | nil =>
    intro db db2 hrun _ R hl hag hinv
    simp only [DB.run, Option.some.injEq] at hrun
    subst hrun
    exact ⟨R, hl, hag, hinv, rfl, rfl, rfl, rfl⟩
  | cons op ops ih =>
    intro db db2 hrun hsize R hl hag hinv
    unfold DB.run at hrun
    cases hstep : db.step op with
    | mk res db1 =>
      cases res with
      | error e => simp [hstep] at hrun
      | ok u =>
        simp only [hstep] at hrun
        obtain ⟨R1, hl1, hag1, hinv1, ho1, hh1, hm1, hs1⟩ := step_durable db db1 op hstep R hl hag
          hinv (fun key value hop => hsize key value (by rw [hop]; exact List.mem_cons_self _ _))
        obtain ⟨R2, hl2, hag2, hinv2, ho2, hh2, hm2, hs2⟩ := ih db1 db2 hrun
          (fun key value hop => hsize key value (List.mem_cons_of_mem _ hop)) R1 hl1 hag1 hinv1
        exact ⟨R2, hl2, hag2, hinv2, ho2.trans ho1, hh2.trans hh1, hm2.trans hm1, hs2.trans hs1⟩

/-- Close and reopen of an engine that agrees with the replay of its files:
`Close` and `OpenDB` return no error and every key reads as before. -/
theorem reopen_of_agrees (db : DB) (R : List (Nat × List LogRecord)) (hl : Layout db R)
    (hag : Agrees db R) (hopt : checkOptions db.options = .ok ())
    (hidx : db.options.IndexType = IndexerType.BTree ∨ db.options.IndexType = IndexerType.ART)
    (hhint : db.hintIndexFile = none)
    (hmf : db.mergeFinishedFile = none) (hseq : db.seqNo = 0) :
    (db.Close).1 = .ok () ∧
    ∃ db2, OpenDB db.options (db.Close).2 none = .ok db2 ∧ ∀ key, db2.Get key = db.Get key := by
  obtain ⟨hc1, hc2, hc3, hc4, hc5⟩ := Close_keeps_files db hseq
  refine ⟨hc1, ?_⟩
  obtain ⟨db2, hopen, hindex, hfiles⟩ := OpenDB_layout db.options (db.Close).2 R hl.ids hl.plain
    (by rw [hc2]; exact Layout_dataFiles db R hl) (by rw [hc3, hhint]) (by rw [hc4, hmf]) hc5 hopt
    hidx
  exact ⟨db2, hopen, Get_replayed db db2 R hl hag hindex hfiles⟩

end Bitcask

namespace Bitcask

/-! ## Keys that do not fit the length field -/

set_option maxRecDepth 100000 in
theorem decodeLogRecordHeader_zeros :
    decodeLogRecordHeader (List.replicate 15 0) =
      .ok (some { crc := 0, recordType := 0, keySize := 0, valueSize := 0 }, 7) := by
  decide

/-- Where fifteen or more zero bytes follow, `ReadLogRecord` reports the end
of the file. -/
theorem ReadLogRecord_zeros (df : DataFile) (pre : Bytes) (m : Nat)
    (hio : df.IoManager = pre ++ List.replicate m 0) (hm : 15 ≤ m) :
    df.ReadLogRecord (pre.length : Int) = .error .EOF := by
  unfold DataFile.ReadLogRecord
  have hmax : maxLogRecordHeaderSize = 15 := rfl
  rw [hmax]
  have hlen : df.IoManager.length = pre.length + m := by rw [hio]; simp
  have h1 : ¬ (((15 : Nat) : Int) + (pre.length : Int) > (df.IoManager.length : Int)) := by
    rw [hlen]; push_cast; omega
  have hread : df.readNBytes ((15 : Nat) : Int) (pre.length : Int) =
      .ok (List.replicate 15 0) := by
    unfold DataFile.readNBytes
    have h2 : ¬ ((pre.length : Int) < 0) := by omega
    have h3 : min 15 m = 15 := by omega
    have h4 : ¬ ((m : Int) < 15) := by omega
    simp [h2, hio, List.take_replicate, h3, h4]
  simp only [h1, if_false, hread, decodeLogRecordHeader_zeros]
  simp

set_option maxRecDepth 100000 in
theorem ReadLogRecord_empty_file :
    (openedHandle (0, [])).ReadLogRecord 0 = .error .EOF := by decide

/-- Opening a directory that holds an empty file 0 and a file 1: the engine is
what the replay of file 1 leaves. -/
theorem OpenDB_rotated (options : Options) (dir : Directory) (rs : List LogRecord)
    (hdata : dir.dataFiles = [(1, encodeAll rs), (0, [])])
    (hhint : dir.hintIndex = none) (hmf : dir.mergeFinished = none) (hlock : dir.locked = false)
    (hopt : checkOptions options = .ok ())
    (hidx : options.IndexType = IndexerType.BTree ∨ options.IndexType = IndexerType.ART) :
    OpenDB options dir none =
      match replayFile (openedHandle (1, rs)) 1 ((encodeAll rs).length + 1) 0
          { db := { options := options, fileIds := [0, 1],
                    activeFile := some (openedHandle (1, rs)),
                    olderFile := [(0, openedHandle (0, []))],
                    index := NewTree, seqNo := 0, isMerging := false, seqNoFileExists := false,
                    isInitial := !dir.present, bytesWrite := 0, reclaimSize := 0,
                    hintIndexFile := none, mergeFinishedFile := none, seqNoFile := dir.seqNo },
            transactionRecords := [], currentSeqNo := 0 } with
      | .error e => .error e
      | .ok (st1, offset) =>
        .ok { st1.db with
          activeFile := st1.db.activeFile.map (fun a => { a with WriteOff := offset }),
          seqNo := st1.currentSeqNo } := by
  rw [OpenDB_eq options dir none hopt hlock hidx]
  simp only [loadMergeFile, hhint, hmf]
  rw [loadDataFile_layout _ dir (1, rs) [(0, [])] (by simp) (by rw [hdata]; rfl) rfl]
  simp only [DB.loadIndexFromHint, DB.loadIndexerFromDataFile, List.map_cons, List.map_nil,
    List.reverse_cons, List.reverse_nil, List.nil_append, List.cons_append, List.length_cons,
    List.length_nil]
  have h0 : ∀ st, replayFile (openedHandle (0, [])) 0 1 0 st = .ok (st, 0) := by
    intro st
    unfold replayFile
    rw [ReadLogRecord_empty_file]
  have hlen : (openedHandle (0, [])).IoManager.length + 1 = 1 := rfl
  simp only [replayFiles, replayOne, Bool.false_eq_true, false_and, if_false, openedHandle,
    mapGet_cons, if_true, nonTransactionSeqNo]
  have h0b := h0
  simp only [openedHandle, encodeAll] at h0b
  simp only [show ¬ (0 : Nat) = 1 by decide, if_false, encodeAll, List.length_nil, zero_add, h0b,
    show ¬ (1 + 1 = 0) by decide, List.cons_ne_nil, decide_False, Bool.false_eq_true, if_true,
    decide_True]
  generalize replayFile _ _ _ _ _ = x
  rcases x with e | ⟨st1, offset⟩ <;> rfl

end Bitcask

namespace Bitcask

/-- What `readBack` returns, when it returns a record, for a record whose key
and value lengths are multiples of `2^32`: the empty key and value, and the
length of the header alone. -/
theorem readBack_wrapped (r : LogRecord) (hk : r.Key.length % 2 ^ 32 = 0)
    (hv : r.Value.length % 2 ^ 32 = 0) (rec : LogRecord) (size : Int)
    (h : readBack r = .ok (rec, size)) :
    rec = { Key := [], Value := [], Typ := r.Typ } ∧
    size = ((5 + (PutVarint (r.Key.length : Int)).length +
      (PutVarint (r.Value.length : Int)).length : Nat) : Int) := by
  unfold readBack at h
  simp only [hk, hv] at h
  split at h
  · cases h
  · split at h
    · cases h
    · simp only [Except.ok.injEq, Prod.mk.injEq] at h
      obtain ⟨h1, h2⟩ := h
      refine ⟨?_, ?_⟩
      · rw [← h1]; simp
      · rw [← h2]; simp

/-- The replay step for a record with the empty key, as a wrapped key reads
back: it is indexed under the empty user key. -/
theorem replayRecord_empty_key (st : Replay) (fid : Nat) (offset size : Int) (typ : LogRecordType)
    (hidx : st.db.index = NewTree) :
    replayRecord st fid offset { Key := [], Value := [], Typ := typ } size =
      .ok { st with db := { st.db with
        index := (NewTree.Put [] { Fid := fid, Offset := offset, Size := toUint32 size }).1 } } := by
  have hne : ¬ LogRecordNormal = LogRecordDeleted := by decide
  simp [replayRecord, parseLogRecordKey, Uvarint, uvarintLoop, sliceFrom, nonTransactionSeqNo,
    DB.updateIndex, hne, hidx, BTree.Put, NewTree, treeReplaceOrInsert]

/-- A key of `2^32 - 1` zero bytes is put without error on the engine opened
on an empty directory; after `Close`, `OpenDB` on the directory does not return
an engine that reads every key as before. -/
theorem reopen_huge_key (n : Nat) (hn : n + 1 = 2 ^ 32) (db : DB)
    (hput : (emptyDB exampleOptions).Put (List.replicate n 0) [] = (.ok (), db)) :
    ¬ ∃ db2, OpenDB exampleOptions (db.Close).2 none = .ok db2 ∧
        ∀ key, db2.Get key = db.Get key := by
  have hr : ReachablePD (emptyDB exampleOptions) :=
    ReachablePD.opened exampleOptions _ (by decide)
  have hinv := ReachablePD_inv _ hr
  have hK : List.replicate n (0 : UInt8) ≠ [] := by
    intro hc
    have := congrArg List.length hc
    simp at this
    omega
  have hget := Get_after_Put _ hinv _ _ db hput
  obtain ⟨-, pos, db1, reclaim, hap, hdb⟩ := Put_ok _ _ _ db hput
  obtain ⟨enc, henc⟩ := EncodeLogRecord_ok_of_lt
    (LogRecord.mk (0 :: List.replicate n 0) [] LogRecordNormal)
    (by simp only [List.length_cons, List.length_replicate]; omega) (by simp)
  have hlen := (EncodeLogRecord_length _ enc _ henc).1
  simp only [List.length_cons, List.length_replicate, List.length_nil] at hlen
  have hsingle := encodeAll_single _ enc _ henc
  have hencEq := ((EncodeLogRecord_ok_iff _ enc _).1 henc).2.1
  rw [appendLogRecord_eq _ hinv.files _ enc _ henc] at hap
  have hrot : (emptyDB exampleOptions).writeFile.WriteOff + (enc.length : Int) >
      (emptyDB exampleOptions).options.DataFileSize := by
    show (0 : Int) + (enc.length : Int) > 64
    omega
  simp only [hrot, if_true, Prod.mk.injEq, Except.ok.injEq] at hap
  obtain ⟨-, hdb1⟩ := hap
  have hseq : db.seqNo = 0 := by rw [hdb, ← hdb1]; rfl
  have hdata : db.dataFiles = [(1, enc), (0, [])] := by rw [hdb, ← hdb1]; rfl
  have hhint : db.hintIndexFile = none := by rw [hdb, ← hdb1]; rfl
  have hmf : db.mergeFinishedFile = none := by rw [hdb, ← hdb1]; rfl
  obtain ⟨-, hc2, hc3, hc4, hc5⟩ := Close_keeps_files db hseq
  rintro ⟨db2, hopen, hall⟩
  rw [OpenDB_rotated exampleOptions _ [LogRecord.mk (0 :: List.replicate n 0) [] LogRecordNormal]
    (by rw [hc2, hsingle, hdata]) (by rw [hc3, hhint]) (by rw [hc4, hmf]) hc5 (by decide)
    (Or.inl rfl)]
    at hopen
  have hall2 := hall (List.replicate n 0)
  rw [hget] at hall2
  have hread : (openedHandle (1, [LogRecord.mk (0 :: List.replicate n 0) [] LogRecordNormal])).ReadLogRecord 0 =
      readBack (LogRecord.mk (0 :: List.replicate n 0) [] LogRecordNormal) := by
    have := ReadLogRecord_encoded _ enc _ henc
      (openedHandle (1, [LogRecord.mk (0 :: List.replicate n 0) [] LogRecordNormal])) [] []
      (by simp [openedHandle, hsingle])
    simpa using this
  rw [hsingle] at hopen
  unfold replayFile at hopen
  rw [hread] at hopen
  cases hrb : readBack (LogRecord.mk (0 :: List.replicate n 0) [] LogRecordNormal) with
  | error e =>
    rw [hrb] at hopen hall2
    by_cases he : e = Error.EOF
    · subst he
      simp only [Except.ok.injEq] at hopen
      rw [Get_of_not_indexed db2 _ hK (by rw [← hopen]; rfl)] at hall2
      simp [resolve] at hall2
    · cases e <;> simp at hopen he
  | ok p =>
    obtain ⟨rec, size⟩ := p
    obtain ⟨hrec, hsize⟩ := readBack_wrapped _
      (by simp only [List.length_cons, List.length_replicate]; rw [hn]; simp) (by simp) rec size hrb
    subst hrec
    rw [hrb] at hopen hall2
    simp only at hopen
    rw [replayRecord_empty_key _ _ _ _ _ rfl] at hopen
    simp only at hopen
    obtain ⟨m, hm⟩ : ∃ m, enc.length = m + 1 := ⟨enc.length - 1, by omega⟩
    rw [hm] at hopen
    unfold replayFile at hopen
    have hzero : (openedHandle (1, [LogRecord.mk (0 :: List.replicate n 0) [] LogRecordNormal])).ReadLogRecord
        (0 + size) = .error .EOF := by
      have := ReadLogRecord_zeros
        (openedHandle (1, [LogRecord.mk (0 :: List.replicate n 0) [] LogRecordNormal]))
        (putUint32LE (ChecksumIEEE (LogRecordNormal :: (PutVarint ((n + 1 : Nat) : Int) ++
          PutVarint ((0 : Nat) : Int) ++ (0 :: List.replicate n 0) ++ []))) ++
          (LogRecordNormal :: (PutVarint ((n + 1 : Nat) : Int) ++ PutVarint ((0 : Nat) : Int))))
        (n + 1)
        (by
          simp only [openedHandle, hsingle]
          rw [hencEq]
          simp [List.replicate_succ])
        (by omega)
      rw [← this]
      congr 1
      rw [hsize]
      simp [putUint32LE_length]
      omega
    rw [hzero] at hopen
    simp only [Except.ok.injEq] at hopen
    have hnone : db2.index.Get (List.replicate n 0) = none := by
      rw [← hopen]
      simp only
      rw [BTree.Get_Put_other _ _ _ _ NewTree_Sorted hK]
      simp [BTree.Get, NewTree, treeGet]
    rw [Get_of_not_indexed db2 _ hK hnone] at hall2
    simp [resolve, LogRecordNormal, LogRecordDeleted] at hall2

/-- The run of the single call `Put` with a key of `2^32 - 1` zero bytes, and
the reopen after it. -/
theorem run_huge_key (n : Nat) (hn : n + 1 = 2 ^ 32) :
    ∃ db, (emptyDB exampleOptions).run [Op.put (List.replicate n 0) []] = some db ∧
      ¬ ∃ db2, OpenDB exampleOptions (db.Close).2 none = .ok db2 ∧
          ∀ key, db2.Get key = db.Get key := by
  have hr : ReachablePD (emptyDB exampleOptions) :=
    ReachablePD.opened exampleOptions _ (by decide)
  obtain ⟨db, hput⟩ := Put_succeeds (emptyDB exampleOptions) (ReachablePD_inv _ hr).files
    (List.replicate n 0) []
    (by
      intro hc
      have := congrArg List.length hc
      rw [List.length_replicate, List.length_nil] at this
      omega)
    (by rw [List.length_replicate]; omega) (by simp)
  refine ⟨db, ?_, reopen_huge_key n hn db hput⟩
  simp only [DB.run, DB.step, hput]

end Bitcask

namespace Bitcask

/-! ## Reading a record frame with any CRC field -/

/-- Wherever a record frame sits in a file (a four-byte CRC field, the type
byte, the two length varints, the key and the value, with a non-empty key and
lengths below `2^32`), `ReadLogRecord` at its first byte compares the CRC of the
frame body with the CRC field: it returns `InvalidCRC` when they differ and the
record otherwise. -/
theorem ReadLogRecord_framed (df : DataFile) (pre post crc4 : Bytes) (typ : UInt8)
    (key value : Bytes) (h4 : crc4.length = 4) (hne : key ≠ []) (hk : key.length < 2 ^ 32)
    (hv : value.length < 2 ^ 32)
    (hio : df.IoManager = pre ++ (crc4 ++ typ :: (PutVarint (key.length : Int) ++
      PutVarint (value.length : Int) ++ key ++ value)) ++ post) :
    df.ReadLogRecord (pre.length : Int) =
      if ChecksumIEEE (typ :: (PutVarint (key.length : Int) ++
          PutVarint (value.length : Int) ++ key ++ value)) ≠ uint32LE crc4 then
        .error .ErrInvalidCRC
      else .ok ({ Key := key, Value := value, Typ := typ },
        ((5 + (PutVarint (key.length : Int)).length + (PutVarint (value.length : Int)).length +
          key.length + value.length : Nat) : Int)) := by
  have hH : 5 + (PutVarint (key.length : Int)).length + (PutVarint (value.length : Int)).length ≤
      15 := by
    have h1 := PutVarint_length_le_five key.length (by omega)
    have h2 := PutVarint_length_le_five value.length (by omega)
    omega
  have hklen : 0 < key.length := List.length_pos.2 hne
  unfold DataFile.ReadLogRecord
  have hdec := fun tail => decodeLogRecordHeader_encoded crc4 typ key.length value.length tail h4
    (by omega) (by omega)
  simp only [Nat.mod_eq_of_lt hk, Nat.mod_eq_of_lt hv] at hdec
  generalize hks : PutVarint (key.length : Int) = ks at hH hio hdec ⊢
  generalize hvs : PutVarint (value.length : Int) = vs at hH hio hdec ⊢
  have hrest : (crc4 ++ typ :: (ks ++ vs ++ key ++ value)) ++ post =
      (crc4 ++ typ :: (ks ++ vs)) ++ (key ++ value ++ post) := by simp
  have hHlen : (crc4 ++ typ :: (ks ++ vs)).length = 5 + ks.length + vs.length := by
    simp [h4]; omega
  have hbuf : ((crc4 ++ typ :: (ks ++ vs ++ key ++ value)) ++ post).take 15 =
      crc4 ++ typ :: (ks ++ (vs ++
        (key ++ value ++ post).take (15 - (5 + ks.length + vs.length)))) := by
    have h15 : (crc4 ++ typ :: (ks ++ vs)).length +
        (15 - (5 + ks.length + vs.length)) = 15 := by omega
    have ht := @List.take_append _ (crc4 ++ typ :: (ks ++ vs))
      (key ++ value ++ post) (15 - (5 + ks.length + vs.length))
    rw [h15] at ht
    rw [hrest, ht]
    simp
  have hread1 : df.readNBytes
      (if (maxLogRecordHeaderSize : Int) + (pre.length : Int) > (df.IoManager.length : Int)
        then (df.IoManager.length : Int) - (pre.length : Int) else (maxLogRecordHeaderSize : Int))
      (pre.length : Int) =
        .ok (((crc4 ++ typ :: (ks ++ vs ++ key ++ value)) ++ post).take 15) := by
    apply readNBytes_ok df pre (((crc4 ++ typ :: (ks ++ vs ++ key ++ value)) ++ post).take 15)
      (((crc4 ++ typ :: (ks ++ vs ++ key ++ value)) ++ post).drop 15)
    · rw [hio]; simp
    · rw [hio]
      simp only [maxLogRecordHeaderSize, MaxVarintLen32, List.length_append, List.length_take]
      split <;> push_cast <;> omega
    · rfl
  simp only [hread1, hbuf, hdec]
  have heof : ¬ (uint32LE crc4 = 0 ∧ key.length = 0 ∧ value.length = 0) := by omega
  simp only [heof, if_false]
  have hslice : slice (crc4 ++ typ :: (ks ++ (vs ++
      (key ++ value ++ post).take (15 - (5 + ks.length + vs.length))))) 4
      ((5 + ks.length + vs.length : Nat) : Int) = .ok (typ :: (ks ++ vs)) := by
    unfold slice
    have hc : ¬ ((4 : Int) < 0 ∨ ((5 + ks.length + vs.length : Nat) : Int) < 4 ∨
        (((crc4 ++ typ :: (ks ++ (vs ++
          (key ++ value ++ post).take (15 - (5 + ks.length + vs.length))))).length : Nat) : Int)
          < ((5 + ks.length + vs.length : Nat) : Int)) := by
      simp only [List.length_append, List.length_cons, h4]
      omega
    simp only [hc, if_false]
    have e1 : crc4 ++ typ :: (ks ++ (vs ++
        (key ++ value ++ post).take (15 - (5 + ks.length + vs.length)))) =
        (crc4 ++ typ :: (ks ++ vs)) ++
        (key ++ value ++ post).take (15 - (5 + ks.length + vs.length)) := by simp
    rw [e1, Int.toNat_ofNat, List.take_left' hHlen]
    rw [show ((4 : Int).toNat) = crc4.length by rw [h4]; rfl, List.drop_left]
  have hz : (key.length : Int) > 0 ∨ (value.length : Int) > 0 := Or.inl (by omega)
  have hrd := readNBytes_ok df (pre ++ (crc4 ++ typ :: (ks ++ vs)))
    (key ++ value) post
    ((key.length : Int) + (value.length : Int))
    ((pre.length : Int) + ((5 + ks.length + vs.length : Nat) : Int))
    (by rw [hio]; simp)
    (by simp)
    (by simp only [List.length_append, hHlen]; push_cast; ring)
  simp only [hz, if_true, hrd, hslice, getLogRecordCRC_eq]
  push_cast
  simp [List.append_assoc]

end Bitcask

namespace Bitcask

/-! ## CRC-32 tells apart two inputs that differ in one byte -/

theorem xor_div_two_pow (a b k : Nat) : (a ^^^ b) / 2 ^ k = a / 2 ^ k ^^^ b / 2 ^ k := by
  induction k with
  | zero => simp
  | succ k ih =>
    rw [pow_succ, ← Nat.div_div_eq_div_mul, ← Nat.div_div_eq_div_mul, ← Nat.div_div_eq_div_mul, ih,
      Nat.xor_div_two]

set_option maxRecDepth 100000 in
/-- The top bytes of the 256 table entries are pairwise different. -/
theorem IEEETable_top_injective (i j : Nat) (hi : i < 256) (hj : j < 256)
    (h : IEEETable i / 2 ^ 24 = IEEETable j / 2 ^ 24) : i = j := by
  have hinv : ∀ i, i < 256 →
      ([0, 65, 195, 130, 134, 199, 69, 4, 77, 12, 142, 207, 203, 138, 8, 73, 154, 219, 89, 24, 28,
        93, 223, 158, 215, 150, 20, 85, 81, 16, 146, 211, 117, 52, 182, 247, 243, 178, 48, 113, 56,
        121, 251, 186, 190, 255, 125, 60, 239, 174, 44, 109, 105, 40, 170, 235, 162, 227, 97, 32,
        36, 101, 231, 166, 234, 171, 41, 104, 108, 45, 175, 238, 167, 230, 100, 37, 33, 96, 226,
        163, 112, 49, 179, 242, 246, 183, 53, 116, 61, 124, 254, 191, 187, 250, 120, 57, 159, 222,
        92, 29, 25, 88, 218, 155, 210, 147, 17, 80, 84, 21, 151, 214, 5, 68, 198, 135, 131, 194,
        64, 1, 72, 9, 139, 202, 206, 143, 13, 76, 149, 212, 86, 23, 19, 82, 208, 145, 216, 153, 27,
        90, 94, 31, 157, 220, 15, 78, 204, 141, 137, 200, 74, 11, 66, 3, 129, 192, 196, 133, 7, 70,
        224, 161, 35, 98, 102, 39, 165, 228, 173, 236, 110, 47, 43, 106, 232, 169, 122, 59, 185,
        248, 252, 189, 63, 126, 55, 118, 244, 181, 177, 240, 114, 51, 127, 62, 188, 253, 249, 184,
        58, 123, 50, 115, 241, 176, 180, 245, 119, 54, 229, 164, 38, 103, 99, 34, 160, 225, 168,
        233, 107, 42, 46, 111, 237, 172, 10, 75, 201, 136, 140, 205, 79, 14, 71, 6, 132, 197, 193,
        128, 2, 67, 144, 209, 83, 18, 22, 87, 213, 148, 221, 156, 30, 95, 91, 26, 152, 217] :
        List Nat).getD (IEEETable i / 2 ^ 24) 256 = i := by
    decide
  rw [← hinv i hi, ← hinv j hj, h]

theorem crcStep_injective_byte (s : Nat) (v v2 : UInt8) (h : crcStep s v = crcStep s v2) :
    v = v2 := by
  unfold crcStep at h
  have h1 := Nat.xor_left_inj.1 h
  have hs : s % 256 < 2 ^ 8 := by omega
  have hv : v.toNat < 2 ^ 8 := v.toNat_lt
  have hv2 : v2.toNat < 2 ^ 8 := v2.toNat_lt
  have h2 := IEEETable_top_injective _ _ (Nat.xor_lt_two_pow hs hv) (Nat.xor_lt_two_pow hs hv2)
    (by rw [h1])
  have h3 := Nat.xor_right_inj.1 h2
  exact UInt8.ext h3

theorem crcStep_injective_state (s s2 : Nat) (v : UInt8) (hs : s < 2 ^ 32) (hs2 : s2 < 2 ^ 32)
    (h : crcStep s v = crcStep s2 v) : s = s2 := by
  unfold crcStep at h
  have hm : s % 256 < 2 ^ 8 := by omega
  have hm2 : s2 % 256 < 2 ^ 8 := by omega
  have hv : v.toNat < 2 ^ 8 := v.toNat_lt
  have hd : s / 256 / 2 ^ 24 = 0 := Nat.div_eq_of_lt (by omega)
  have hd2 : s2 / 256 / 2 ^ 24 = 0 := Nat.div_eq_of_lt (by omega)
  have htop := congrArg (fun x => x / 2 ^ 24) h
  simp only [xor_div_two_pow, hd, hd2, Nat.xor_zero] at htop
  have h2 := IEEETable_top_injective _ _ (Nat.xor_lt_two_pow hm hv) (Nat.xor_lt_two_pow hm2 hv) htop
  have h3 := Nat.xor_left_inj.1 h2
  rw [h2] at h
  have h4 := Nat.xor_right_inj.1 h
  omega

theorem foldl_crcStep_injective (y : Bytes) :
    ∀ (s s2 : Nat), s < 2 ^ 32 → s2 < 2 ^ 32 → y.foldl crcStep s = y.foldl crcStep s2 → s = s2 := by
  induction y with
  | nil => intro s s2 _ _ h; simpa using h
  | cons v y ih =>
    intro s s2 hs hs2 h
    simp only [List.foldl_cons] at h
    exact crcStep_injective_state s s2 v hs hs2
      (ih _ _ (crcStep_lt s v hs) (crcStep_lt s2 v hs2) h)

/-- Two inputs that differ in exactly one byte have different checksums. -/
theorem ChecksumIEEE_single_byte (x y : Bytes) (b b2 : UInt8) (hb : b ≠ b2) :
    ChecksumIEEE (x ++ b :: y) ≠ ChecksumIEEE (x ++ b2 :: y) := by
  intro h
  unfold ChecksumIEEE crc32Update at h
  have h1 := Nat.xor_left_inj.1 h
  simp only [List.foldl_append, List.foldl_cons] at h1
  have hs : x.foldl crcStep (0 ^^^ 0xffffffff) < 2 ^ 32 :=
    foldl_crcStep_lt x _ (by norm_num)
  have h2 := foldl_crcStep_injective y _ _ (crcStep_lt _ b hs) (crcStep_lt _ b2 hs) h1
  exact hb (crcStep_injective_byte _ b b2 h2)

/-- Replacing one byte of the input by a different byte changes the checksum. -/
theorem ChecksumIEEE_set (d : Bytes) (p : Nat) (b : UInt8) (hp : p < d.length)
    (hb : d[p]? ≠ some b) : ChecksumIEEE (d.set p b) ≠ ChecksumIEEE d := by
  have h1 : d.set p b = d.take p ++ b :: d.drop (p + 1) := List.set_eq_take_append_cons_drop.trans
    (by simp [hp])
  have h2 : d = d.take p ++ d[p] :: d.drop (p + 1) := by
    rw [← List.drop_eq_getElem_cons hp, List.take_append_drop]
  rw [h1]
  have h3 : ChecksumIEEE d = ChecksumIEEE (d.take p ++ d[p] :: d.drop (p + 1)) := by rw [← h2]
  rw [h3]
  apply ChecksumIEEE_single_byte
  intro hc
  apply hb
  rw [List.getElem?_eq_getElem hp, hc]

end Bitcask

namespace Bitcask

/-! ## One replaced byte in an encoded record -/

theorem uint32LE_injective (x y : Bytes) (hx : x.length = 4) (hy : y.length = 4)
    (h : uint32LE x = uint32LE y) : x = y := by
  match x, hx with
  | [a0, a1, a2, a3], _ =>
    match y, hy with
    | [b0, b1, b2, b3], _ =>
      unfold uint32LE at h
      simp only [List.getD_cons_zero, List.getD_cons_succ] at h
      have h0 := a0.toNat_lt
      have h1 := a1.toNat_lt
      have h2 := a2.toNat_lt
      have h3 := a3.toNat_lt
      have g0 := b0.toNat_lt
      have g1 := b1.toNat_lt
      have g2 := b2.toNat_lt
      have g3 := b3.toNat_lt
      norm_num at h h0 h1 h2 h3 g0 g1 g2 g3
      have e0 : a0 = b0 := UInt8.ext (by omega)
      have e1 : a1 = b1 := UInt8.ext (by omega)
      have e2 : a2 = b2 := UInt8.ext (by omega)
      have e3 : a3 = b3 := UInt8.ext (by omega)
      rw [e0, e1, e2, e3]

/-- Replacing one byte of a frame body outside the two length varints gives a
frame body again, with a key and a value of the same lengths. -/
theorem body_set (typ : UInt8) (ks vs key value : Bytes) (p : Nat) (b : UInt8)
    (hp : p = 0 ∨ 1 + ks.length + vs.length ≤ p) :
    ∃ typ2 key2 value2, key2.length = key.length ∧ value2.length = value.length ∧
      (typ :: (ks ++ vs ++ key ++ value)).set p b = typ2 :: (ks ++ vs ++ key2 ++ value2) := by
  rcases hp with rfl | hp
  · exact ⟨b, key, value, rfl, rfl, rfl⟩
  · obtain ⟨q, rfl⟩ : ∃ q, p = (1 + ks.length + vs.length) + q := ⟨p - (1 + ks.length + vs.length),
      by omega⟩
    have e : 1 + ks.length + vs.length + q = (ks.length + vs.length + q) + 1 := by omega
    by_cases hq : q < key.length
    · refine ⟨typ, key.set q b, value, by simp, rfl, ?_⟩
      rw [e, List.set_cons_succ]
      congr 1
      have h1 : ks ++ vs ++ key ++ value = (ks ++ vs) ++ (key ++ value) := by simp
      have hidx : ks.length + vs.length + q - (ks ++ vs).length = q := by simp
      rw [h1, List.set_append_right _ _ (by simp), hidx, List.set_append_left _ _ hq]
      simp
    · refine ⟨typ, key, value.set (q - key.length) b, rfl, by simp, ?_⟩
      rw [e, List.set_cons_succ]
      congr 1
      have hidx : ks.length + vs.length + q - (ks ++ vs ++ key).length = q - key.length := by
        simp only [List.length_append]; omega
      rw [List.set_append_right _ _ (by simp only [List.length_append]; omega), hidx]

end Bitcask

namespace Bitcask

/-! ## Claims C1, C2, C3, C6, C9, C10 -/

/-- C1 (as amended): in every engine state reached from an empty directory by
successful `Put`/`Delete` calls, for every non-empty key whose stored form (one
byte of sequence prefix and the key) is shorter than `2^32` bytes and every value
shorter than `2^32` bytes, a `Put` that returns no error is followed by a `Get`
of the key that returns no error and exactly the value. -/
theorem C1_put_then_get (db : DB) (hr : ReachablePD db) (key value : Bytes) (db2 : DB)
    (hklen : key.length + 1 < 2 ^ 32) (hvlen : value.length < 2 ^ 32)
    (hput : db.Put key value = (.ok (), db2)) :
    db2.Get key = .ok value := by
  rw [Get_after_Put db (ReachablePD_inv db hr) key value db2 hput]
  exact resolve_readBack_normal (0 :: key) value (by simpa using hklen) (by simp) hvlen

set_option maxRecDepth 100000 in
/-- C1, witness: `Put("a", "1")` on the engine opened on an empty directory. -/
theorem C1_put_then_get_witness : exampleDB1.Get [97] = .ok [49] :=
  C1_put_then_get (emptyDB exampleOptions)
    (ReachablePD.opened exampleOptions _ (by decide)) [97] [49] exampleDB1 (by decide) (by decide)
    (by decide)

/-- A value of `2^32` bytes is put without error, and is not what `Get` returns. -/
theorem Put_huge_value (v : Bytes) (hlen : v.length = 2 ^ 32) :
    ((emptyDB exampleOptions).Put [97] v).1 = .ok () ∧
    ((emptyDB exampleOptions).Put [97] v).2.Get [97] ≠ .ok v := by
  have hr : ReachablePD (emptyDB exampleOptions) :=
    ReachablePD.opened exampleOptions _ (by decide)
  obtain ⟨db2, hput⟩ := Put_succeeds (emptyDB exampleOptions) (ReachablePD_inv _ hr).files [97] v
    (by decide) (by decide) (by rw [hlen]; norm_num)
  refine ⟨by rw [hput], ?_⟩
  rw [hput]
  simp only
  rw [Get_after_Put _ (ReachablePD_inv _ hr) [97] v db2 hput]
  intro hc
  have := resolve_readBack_length _ v hc
  simp only [hlen] at this
  norm_num at this

/-- C1, counterexample to the claim as stated: a value of `2^32` bytes is put
without error on the engine opened on an empty directory, and the following
`Get` does not return it (its length does not fit the 32-bit length field). -/
theorem C1_counterexample :
    ReachablePD (emptyDB exampleOptions) ∧
    ((emptyDB exampleOptions).Put [97] (List.replicate (2 ^ 32) 0)).1 = .ok () ∧
    ((emptyDB exampleOptions).Put [97] (List.replicate (2 ^ 32) 0)).2.Get [97] ≠
      .ok (List.replicate (2 ^ 32) 0) :=
  ⟨ReachablePD.opened exampleOptions _ (by decide),
    Put_huge_value _ (List.length_replicate _ _)⟩

/-- In every engine state reached from an empty directory by successful `Put`,
`Delete` and `Commit` calls, after a `Delete` of a key that returns no error
(the key was indexed) `Get` of the key returns `KeyNotFound`, and `Get` of every
other key returns exactly what it returned before the `Delete`. -/
theorem Delete_then_get_reachable (db : DB) (hr : Reachable db) (key : Bytes) (db2 : DB)
    (hdel : db.Delete key = (.ok (), db2)) :
    (db.index.Get key).isSome ∧ db2.Get key = .error .ErrKeyNotFound ∧
    ∀ key2, key2 ≠ key → db2.Get key2 = db.Get key2 := by
  obtain ⟨-, hk, hget, hother⟩ := Delete_spec db (Reachable_inv db hr) key db2 hdel
  exact ⟨(Delete_ok db key db2 hdel).2.1, Get_of_not_indexed db2 key hk hget, hother⟩

set_option maxRecDepth 100000 in
/-- The run `Put("a","1"); Put("b","2"); Delete("a")` on an empty directory;
the last conjunct is the read of `"b"`. -/
theorem Delete_then_get_reachable_example :
    ((exampleDB2.index.Get [97]).isSome ∧
      (exampleDB2.Delete [97]).2.Get [97] = .error .ErrKeyNotFound ∧
      ∀ key2, key2 ≠ [97] → (exampleDB2.Delete [97]).2.Get key2 = exampleDB2.Get key2) ∧
    (exampleDB2.Delete [97]).2.Get [98] = .ok [50] :=
  ⟨Delete_then_get_reachable exampleDB2
    (Reachable.put exampleDB1 [98] [50] exampleDB2
      (Reachable.put (emptyDB exampleOptions) [97] [49] exampleDB1
        (Reachable.opened exampleOptions _ (by decide)) (by decide))
      (by decide))
    [97] (exampleDB2.Delete [97]).2 (by decide), by decide⟩

/-- C3: for every record with a non-empty key whose key and value are each
shorter than `2^31` bytes, `EncodeLogRecord` returns a buffer and its length, and
in every data file that holds that buffer from some offset on (followed by
nothing or by further bytes) `ReadLogRecord` at that offset returns no error, a
record with the same type, key and value, and the length `EncodeLogRecord`
returned. -/
theorem C3_record_codec_round_trip (r : LogRecord) (hne : r.Key ≠ [])
    (hk : r.Key.length < 2 ^ 31) (hv : r.Value.length < 2 ^ 31) :
    ∃ enc : Bytes, EncodeLogRecord r = .ok (enc, (enc.length : Int)) ∧
      ∀ (df : DataFile) (pre post : Bytes), df.IoManager = pre ++ enc ++ post →
        df.ReadLogRecord (pre.length : Int) = .ok (r, (enc.length : Int)) := by
  obtain ⟨enc, henc⟩ := EncodeLogRecord_ok_of_lt r (by omega) (by omega)
  refine ⟨enc, henc, ?_⟩
  intro df pre post hio
  rw [ReadLogRecord_encoded r enc _ henc df pre post hio,
    readBack_ok r hne (by omega) (by omega), (EncodeLogRecord_length r enc _ henc).1]

/-- C3, witness: the record of `Put("a", "1")`. -/
theorem C3_record_codec_round_trip_witness :
    ∃ enc : Bytes,
      EncodeLogRecord { Key := [0, 97], Value := [49], Typ := 0 } = .ok (enc, (enc.length : Int)) ∧
      ∀ (df : DataFile) (pre post : Bytes), df.IoManager = pre ++ enc ++ post →
        df.ReadLogRecord (pre.length : Int) =
          .ok ({ Key := [0, 97], Value := [49], Typ := 0 }, (enc.length : Int)) :=
  C3_record_codec_round_trip { Key := [0, 97], Value := [49], Typ := 0 } (by decide)
    (by decide) (by decide)

/-- C6: staging is invisible.  Every batch reached from a batch `wb0` by
`WriteBatch.Put` and `WriteBatch.Delete` calls has the engine of `wb0` unchanged
(index, files, write offset, sequence counter, reclaim counter) and the options
of `wb0`; so `Get` of every key returns what it returned when staging began. -/
theorem C6_staging_is_invisible (wb0 wb : WriteBatch) (h : StagedFrom wb0 wb) :
    wb.db = wb0.db ∧ wb.options = wb0.options ∧ ∀ key, wb.db.Get key = wb0.db.Get key := by
  have hdb : wb.db = wb0.db ∧ wb.options = wb0.options := by
    induction h with
    | start => exact ⟨rfl, rfl⟩
    | put wb key value _ ih =>
      unfold WriteBatch.Put
      split <;> exact ih
    | delete wb key _ ih =>
      unfold WriteBatch.Delete
      split
      · exact ih
      · split
        · split <;> exact ih
        · exact ih
  exact ⟨hdb.1, hdb.2, fun key => by rw [hdb.1]⟩

set_option maxRecDepth 100000 in
/-- C6, witness: on the engine that holds `"a"`, a batch stages a put of `"x"`
and a delete of `"a"`; the engine is untouched while both are staged. -/
theorem C6_staging_is_invisible_witness :
    (exampleStaged.db = exampleBatch.db ∧
      exampleStaged.options = exampleBatch.options ∧
      ∀ key, exampleStaged.db.Get key =
        exampleBatch.db.Get key) ∧
    exampleStaged.pendingWrites =
      [([97], { Key := [97], Value := [], Typ := LogRecordDeleted }),
       ([120], { Key := [120], Value := [49], Typ := LogRecordNormal })] :=
  ⟨C6_staging_is_invisible exampleBatch exampleStaged
    (StagedFrom.delete _ [97] (StagedFrom.put _ [120] [49] StagedFrom.start)), by decide⟩

/-- C9: an empty key is rejected without effect.  In every engine state and for
every batch, `Put`, `Delete` and `Get` of the engine and `Put` and `Delete` of
the batch return the `EmptyKey` error on an empty key, and the engine and the
batch (staging map included) are what they were. -/
theorem C9_empty_key_rejected (db : DB) (wb : WriteBatch) (value : Bytes) :
    db.Put [] value = (.error .ErrKeyisEmpty, db) ∧
    db.Delete [] = (.error .ErrKeyisEmpty, db) ∧
    db.Get [] = .error .ErrKeyisEmpty ∧
    wb.Put [] value = (.error .ErrKeyisEmpty, wb) ∧
    wb.Delete [] = (.error .ErrKeyisEmpty, wb) :=
  ⟨rfl, rfl, rfl, rfl, rfl⟩

/-- C10: in every engine state, `Delete` of a non-empty key that is absent from
the index returns `KeyNotFound` and leaves the engine as it was: no record is
appended, and index, files, write offset and reclaim counter are unchanged. -/
theorem C10_delete_absent_key (db : DB) (key : Bytes) (hk : key ≠ [])
    (habs : db.index.Get key = none) :
    db.Delete key = (.error .ErrKeyNotFound, db) := by
  unfold DB.Delete
  have : ¬ key.length = 0 := fun h => hk (List.length_eq_zero.1 h)
  simp only [this, if_false, habs]

set_option maxRecDepth 100000 in
/-- C10, witness: `Delete("b")` on the engine that holds only `"a"`. -/
theorem C10_delete_absent_key_witness :
    exampleDB1.Delete [98] = (.error .ErrKeyNotFound, exampleDB1) :=
  C10_delete_absent_key exampleDB1 [98] (by decide) (by decide)

end Bitcask

namespace Bitcask

/-! ## Claim C5: the effects of `Commit` -/

theorem WF_nil (options : WriteBatchOptions) (db : DB) :
    (WriteBatch.mk options db []).WF :=
  ⟨by simp, fun e he => by cases he⟩

theorem WF_mapSet (wb : WriteBatch) (hwf : wb.WF) (key : Bytes) (record : LogRecord)
    (h : record.Key = key ∧ key ≠ [] ∧
      (record.Typ = LogRecordNormal ∨ (record.Typ = LogRecordDeleted ∧ record.Value = []))) :
    ({ wb with pendingWrites := mapSet wb.pendingWrites key record } : WriteBatch).WF := by
  refine ⟨?_, ?_⟩
  · show ((mapSet wb.pendingWrites key record).map (fun e => e.1)).Nodup
    unfold mapSet mapDelete
    rw [List.map_cons, List.nodup_cons]
    refine ⟨?_, (hwf.nodup.sublist (List.Sublist.map _ (List.filter_sublist _)))⟩
    intro hc
    obtain ⟨e, he, hk⟩ := List.mem_map.1 hc
    have := (List.mem_filter.1 he).2
    simp only [ne_eq, decide_not, Bool.not_eq_eq_eq_not, Bool.not_true, decide_eq_false_iff_not] at this
    exact this hk
  · intro e he
    rcases mem_mapSet _ _ _ _ he with h1 | h1
    · rw [h1]; exact h
    · exact hwf.entry e h1.1

theorem WF_Put (wb : WriteBatch) (hwf : wb.WF) (key value : Bytes) :
    (wb.Put key value).2.WF := by
  unfold WriteBatch.Put
  split
  · exact hwf
  · rename_i hk
    exact WF_mapSet wb hwf key _ ⟨rfl, fun hc => hk (by rw [hc]; rfl), Or.inl rfl⟩

theorem WF_Delete (wb : WriteBatch) (hwf : wb.WF) (key : Bytes) :
    (wb.Delete key).2.WF := by
  unfold WriteBatch.Delete
  split
  · exact hwf
  · rename_i hk
    split
    · split
      · refine ⟨?_, ?_⟩
        · show ((mapDelete wb.pendingWrites key).map (fun e => e.1)).Nodup
          unfold mapDelete
          exact hwf.nodup.sublist (List.Sublist.map _ (List.filter_sublist _))
        · intro e he
          exact hwf.entry e (mem_mapDelete _ _ _ he).1
      · exact hwf
    · exact WF_mapSet wb hwf key _ ⟨rfl, fun hc => hk (by rw [hc]; rfl), Or.inr ⟨rfl, rfl⟩⟩

theorem PutUvarint_length_le_ten (x : Nat) : (PutUvarint x).length ≤ 10 :=
  PutUvarint_length_le x

/-- For every batch on an engine reached from an empty directory by successful
`Put`, `Delete` and `Commit` calls whose staging map is
non-empty, built as `WriteBatch.Put`/`Delete` build it, with every staged key
shorter than `2^32 - 10` bytes and every staged value shorter than `2^32` bytes:
if `Commit` returns no error (so the map holds at most `MaxBatchNum` entries),
then afterwards `Get` returns the staged value for every key staged as a put,
`KeyNotFound` for every key staged as a delete, what it returned before for
every key not staged, and the staging map is empty.  The order in which the two
loops of `Commit` range over the map is arbitrary. -/
theorem Commit_effects_reachable (wb : WriteBatch) (hr : Reachable wb.db) (hwf : wb.WF)
    (order1 order2 : List (Bytes × LogRecord)) (hp1 : order1.Perm wb.pendingWrites)
    (hp2 : order2.Perm wb.pendingWrites) (hne : wb.pendingWrites ≠ [])
    (hsize : ∀ e ∈ wb.pendingWrites, e.1.length + 10 < 2 ^ 32 ∧ e.2.Value.length < 2 ^ 32)
    (wb2 : WriteBatch) (hc : wb.Commit order1 order2 = (.ok (), wb2)) :
    wb.pendingWrites.length ≤ wb.options.MaxBatchNum ∧
    (∀ e ∈ wb.pendingWrites, e.2.Typ = LogRecordNormal → wb2.db.Get e.1 = .ok e.2.Value) ∧
    (∀ e ∈ wb.pendingWrites, e.2.Typ = LogRecordDeleted →
      wb2.db.Get e.1 = .error .ErrKeyNotFound) ∧
    (∀ key, key ∉ wb.pendingWrites.map (fun e => e.1) → wb2.db.Get key = wb.db.Get key) ∧
    wb2.pendingWrites = [] := by
  obtain ⟨-, hempty, -, hframe, hdel, hput⟩ :=
    Commit_spec wb (Reachable_inv wb.db hr) hwf order1 order2 hp1 hp2 hne wb2 hc
  refine ⟨?_, ?_, ?_, hframe, hempty⟩
  · by_contra hmax
    unfold WriteBatch.Commit at hc
    have hlen : ¬ wb.pendingWrites.length = 0 := fun h => hne (List.length_eq_zero.1 h)
    have hgt : wb.pendingWrites.length > wb.options.MaxBatchNum := by omega
    simp [hlen, hgt] at hc
  · intro e he hn
    obtain ⟨pos, df, hget, hfile, hholds⟩ := hput e he hn
    have hk := (hwf.entry e he).2.1
    rw [Get_of_holds wb2.db e.1 pos df _ hk hget hfile hholds]
    have hlen := PutUvarint_length_le_ten ((wb.db.seqNo + 1) % 2 ^ 64)
    have hpos := PutUvarint_length_pos ((wb.db.seqNo + 1) % 2 ^ 64)
    apply resolve_readBack_normal
    · simp only [logRecordKeyWithSeq, List.length_append]
      have := (hsize e he).1
      omega
    · intro hcon
      have := congrArg List.length hcon
      simp only [logRecordKeyWithSeq, List.length_append, List.length_nil] at this
      omega
    · exact (hsize e he).2
  · intro e he hd
    exact Get_of_not_indexed wb2.db e.1 (hwf.entry e he).2.1 (hdel e he hd)

set_option maxRecDepth 100000 in
/-- On the engine that holds `"a"`, the batch `Put("x","1")`, `Delete("a")` is
committed; the last conjunct is the read of `"x"`. -/
theorem Commit_effects_reachable_example :
    (exampleStaged.pendingWrites.length ≤ exampleStaged.options.MaxBatchNum ∧
      (∀ e ∈ exampleStaged.pendingWrites, e.2.Typ = LogRecordNormal →
        (exampleStaged.Commit exampleStaged.pendingWrites
          exampleStaged.pendingWrites).2.db.Get e.1 = .ok e.2.Value) ∧
      (∀ e ∈ exampleStaged.pendingWrites, e.2.Typ = LogRecordDeleted →
        (exampleStaged.Commit exampleStaged.pendingWrites
          exampleStaged.pendingWrites).2.db.Get e.1 = .error .ErrKeyNotFound) ∧
      (∀ key, key ∉ exampleStaged.pendingWrites.map (fun e => e.1) →
        (exampleStaged.Commit exampleStaged.pendingWrites
          exampleStaged.pendingWrites).2.db.Get key = exampleStaged.db.Get key) ∧
      (exampleStaged.Commit exampleStaged.pendingWrites
          exampleStaged.pendingWrites).2.pendingWrites = []) ∧
    (exampleStaged.Commit exampleStaged.pendingWrites
        exampleStaged.pendingWrites).2.db.Get [120] = .ok [49] :=
  ⟨Commit_effects_reachable exampleStaged
    (Reachable.put (emptyDB exampleOptions) [97] [49] exampleDB1
      (Reachable.opened exampleOptions _ (by decide)) (by decide))
    (WF_Delete _ (WF_Put _ (WF_nil _ _) [120] [49]) [97])
    _ _ (List.Perm.refl _) (List.Perm.refl _) (by decide) (by decide) _ (by decide),
   by decide⟩

end Bitcask

namespace Bitcask

/-- A batch with one staged put commits without error when its record and the
terminator can be encoded. -/
theorem Commit_single_succeeds (options : WriteBatchOptions) (db : DB) (hf : db.FilesInv)
    (key value : Bytes) (hmax : 1 ≤ options.MaxBatchNum) (hk : key.length + 10 < 2 ^ 34)
    (hv : value.length < 2 ^ 34) :
    ∃ wb2, (WriteBatch.mk options db [(key, LogRecord.mk key value LogRecordNormal)]).Commit
      [(key, LogRecord.mk key value LogRecordNormal)]
      [(key, LogRecord.mk key value LogRecordNormal)] = (.ok (), wb2) := by
  unfold WriteBatch.Commit
  have h1 : ¬ (1 > options.MaxBatchNum) := by omega
  simp only [List.length_singleton, one_ne_zero, if_false, h1]
  generalize (db.seqNo + 1) % 2 ^ 64 = seqNo
  have hlen := PutUvarint_length_le_ten seqNo
  obtain ⟨enc, henc⟩ := EncodeLogRecord_ok_of_lt
    (LogRecord.mk (logRecordKeyWithSeq key seqNo) value LogRecordNormal)
    (by simp only [logRecordKeyWithSeq, List.length_append]; omega) hv
  have hf0 : ({ db with seqNo := seqNo } : DB).FilesInv := FilesInv_congr db _ rfl rfl hf
  obtain ⟨pos, db1, hap⟩ := appendLogRecord_ok_of_encode _ hf0 _ enc _ henc
  have happ := Appended_of_appendLogRecord _ hf0 _ pos db1 hap
  obtain ⟨enc2, henc2⟩ := EncodeLogRecord_ok_of_lt
    (LogRecord.mk (logRecordKeyWithSeq txnFinKey seqNo) [] LogRecordTxnFinished)
    (by simp only [logRecordKeyWithSeq, List.length_append, txnFinKey, List.length_cons,
          List.length_nil]; omega) (by simp)
  obtain ⟨pos2, db2, hap2⟩ := appendLogRecord_ok_of_encode db1 happ.files _ enc2 _ henc2
  simp only [commitAppend, hap, hap2, commitIndex, mapGet_mapSet_self, if_true]
  cases (db2.index.Put key pos).2 <;> exact ⟨_, rfl⟩

/-- A value of `2^32` bytes staged in a batch is committed without error, and is
not what `Get` returns afterwards. -/
theorem Commit_huge_value (v : Bytes) (hlen : v.length = 2 ^ 32) :
    ((WriteBatch.mk { MaxBatchNum := 10, SyncWrites := false } (emptyDB exampleOptions)
        [([97], LogRecord.mk [97] v LogRecordNormal)]).Commit
      [([97], LogRecord.mk [97] v LogRecordNormal)]
      [([97], LogRecord.mk [97] v LogRecordNormal)]).1 = .ok () ∧
    ((WriteBatch.mk { MaxBatchNum := 10, SyncWrites := false } (emptyDB exampleOptions)
        [([97], LogRecord.mk [97] v LogRecordNormal)]).Commit
      [([97], LogRecord.mk [97] v LogRecordNormal)]
      [([97], LogRecord.mk [97] v LogRecordNormal)]).2.db.Get [97] ≠ .ok v := by
  have hr : Reachable (emptyDB exampleOptions) := Reachable.opened exampleOptions _ (by decide)
  have hinv := Reachable_inv _ hr
  obtain ⟨wb2, hc⟩ := Commit_single_succeeds { MaxBatchNum := 10, SyncWrites := false }
    (emptyDB exampleOptions) hinv.files [97] v (by decide) (by decide) (by rw [hlen]; norm_num)
  have hwf : (WriteBatch.mk { MaxBatchNum := 10, SyncWrites := false } (emptyDB exampleOptions)
      [([97], LogRecord.mk [97] v LogRecordNormal)]).WF := by
    refine ⟨by simp, ?_⟩
    intro e he
    simp only [List.mem_singleton] at he
    subst he
    exact ⟨rfl, by simp, Or.inl rfl⟩
  obtain ⟨-, -, -, -, -, hput⟩ := Commit_spec _ hinv hwf _ _ (List.Perm.refl _) (List.Perm.refl _)
    (by simp) wb2 hc
  obtain ⟨pos, df, hget, hfile, hholds⟩ := hput _ (List.mem_singleton.2 rfl) rfl
  rw [hc]
  refine ⟨rfl, ?_⟩
  simp only
  simp only at hget hholds
  rw [Get_of_holds wb2.db [97] pos df _ (by decide) hget hfile hholds]
  intro hcon
  have := resolve_readBack_length _ v hcon
  simp only [hlen] at this
  norm_num at this

/-- A value outside the 32-bit length field: on the engine opened on an empty
directory a batch stages one put of a value of `2^32` bytes (the staging map is
what `WriteBatch.Put` leaves, non-empty and within `MaxBatchNum`); `Commit`
returns no error, and `Get` of the key does not return the staged value. -/
theorem Commit_huge_value_example :
    ((WriteBatch.mk { MaxBatchNum := 10, SyncWrites := false } (emptyDB exampleOptions) []).Put
        [97] (List.replicate (2 ^ 32) 0)).2.pendingWrites =
      [([97], LogRecord.mk [97] (List.replicate (2 ^ 32) 0) LogRecordNormal)] ∧
    ((WriteBatch.mk { MaxBatchNum := 10, SyncWrites := false } (emptyDB exampleOptions)
        [([97], LogRecord.mk [97] (List.replicate (2 ^ 32) 0) LogRecordNormal)]).Commit
      [([97], LogRecord.mk [97] (List.replicate (2 ^ 32) 0) LogRecordNormal)]
      [([97], LogRecord.mk [97] (List.replicate (2 ^ 32) 0) LogRecordNormal)]).1 = .ok () ∧
    ((WriteBatch.mk { MaxBatchNum := 10, SyncWrites := false } (emptyDB exampleOptions)
        [([97], LogRecord.mk [97] (List.replicate (2 ^ 32) 0) LogRecordNormal)]).Commit
      [([97], LogRecord.mk [97] (List.replicate (2 ^ 32) 0) LogRecordNormal)]
      [([97], LogRecord.mk [97] (List.replicate (2 ^ 32) 0) LogRecordNormal)]).2.db.Get [97] ≠
        .ok (List.replicate (2 ^ 32) 0) :=
  ⟨rfl, Commit_huge_value _ (List.length_replicate _ _)⟩

/-- Closure `updateIndex` on a deleted record whose key is absent from the
index: the size of a nil position is read. -/
theorem updateIndex_deleted_absent (db : DB) (key : Bytes) (pos : LogRecordPos)
    (h : db.index.Get key = none) : db.updateIndex key LogRecordDeleted pos = .error .Panic := by
  unfold DB.updateIndex
  simp only [if_true, (BTree.Delete_old db.index key).1, h]

set_option maxRecDepth 100000 in
/-- C7, the failing run: `Put("a","1")` on an empty directory; two batches stage
`Delete("a")` while `"a"` is indexed; both commits return no error and `"a"` is
gone.  After the first commit alone, `Close` and `OpenDB` return no error and
`"a"` is gone on the reopened engine; after the second commit, `Close` returns
no error and `OpenDB` on the directory faults in `updateIndex` (`oldPos.Size` is
read from a nil position) when it replays the second batch. -/
theorem C7_open_faults_after_committed_batches :
    exampleDeleteBatch.pendingWrites = [([97], LogRecord.mk [97] [] LogRecordDeleted)] ∧
    exampleFirstCommit.1 = .ok () ∧
    (exampleFirstCommit.2.db.Close).1 = .ok () ∧
    (OpenDB exampleOptions (exampleFirstCommit.2.db.Close).2 none).map (fun db => db.Get [97]) =
      .ok (.error .ErrKeyNotFound) ∧
    exampleSecondCommit.1 = .ok () ∧
    exampleSecondCommit.2.db.Get [97] = .error .ErrKeyNotFound ∧
    (exampleSecondCommit.2.db.Close).1 = .ok () ∧
    OpenDB exampleOptions (exampleSecondCommit.2.db.Close).2 none = .error .Panic := by
  decide

end Bitcask

namespace Bitcask

/-! ## Claim C4 -/

/-- C4 (as amended): durability across a clean restart, for the two in-memory
indexes (`OpenDB` returns an engine for the index types `BTree` and `ART`).
For every sequence of `Put` and `Delete` calls that all return no error, made
on the engine opened on an empty directory, in which every key put is
shorter than `2^32 - 1` bytes and every value put is shorter than `2^32` bytes:
`Close` returns no error, `OpenDB` on the directory it leaves returns an engine
(with or without the startup memory map, which is an option), and `Get` of
every key returns on that engine exactly what it returned before the `Close`. -/
theorem C4_durability (options : Options) (db0 : DB)
    (hopen : OpenDB options Directory.empty none = .ok db0) (ops : List Op) (db : DB)
    (hrun : db0.run ops = some db)
    (hsize : ∀ key value, Op.put key value ∈ ops →
      key.length + 1 < 2 ^ 32 ∧ value.length < 2 ^ 32) :
    (db.Close).1 = .ok () ∧
    ∃ db2, OpenDB options (db.Close).2 none = .ok db2 ∧ ∀ key, db2.Get key = db.Get key := by
  obtain ⟨hopt, hidx⟩ := OpenDB_ok_options options _ _ db0 hopen
  obtain ⟨-, -, -, hseq0, -, hopts0, hhint0, hmf0, -⟩ := OpenDB_empty options db0 hopen
  obtain ⟨hl0, hag0⟩ := Layout_opened options db0 hopen
  obtain ⟨R, hl, hag, -, ho, hh, hm, hs⟩ := run_durable ops db0 db hrun hsize [] hl0 hag0
    (Inv_opened options db0 hopen)
  have hoptions : db.options = options := ho.trans hopts0
  have := reopen_of_agrees db R hl hag (by rw [hoptions]; exact hopt) (by rw [hoptions]; exact hidx)
    (hh.trans hhint0) (hm.trans hmf0) (hs.trans hseq0)
  rw [hoptions] at this
  exact this

set_option maxRecDepth 100000 in
/-- C4, witness: `Put("a","1"); Put("b","2"); Delete("a")` on the engine opened
on an empty directory, then `Close` and `OpenDB`; once with the ordered-tree
index and once with the radix-tree index. -/
theorem C4_durability_witness :
    (((exampleDB2.Delete [97]).2.Close).1 = .ok () ∧
      ∃ db2, OpenDB exampleOptions ((exampleDB2.Delete [97]).2.Close).2 none = .ok db2 ∧
        ∀ key, db2.Get key = (exampleDB2.Delete [97]).2.Get key) ∧
    OpenDB exampleOptionsART Directory.empty none = .ok (emptyDB exampleOptionsART) ∧
    ((exampleART.Close).1 = .ok () ∧
      ∃ db2, OpenDB exampleOptionsART (exampleART.Close).2 none = .ok db2 ∧
        ∀ key, db2.Get key = exampleART.Get key) :=
  ⟨C4_durability exampleOptions (emptyDB exampleOptions) (by decide)
    [Op.put [97] [49], Op.put [98] [50], Op.delete [97]] (exampleDB2.Delete [97]).2 (by decide)
    (by
      intro key value h
      simp only [List.mem_cons, Op.put.injEq, List.mem_singleton, List.not_mem_nil, or_false,
        reduceCtorEq] at h
      rcases h with ⟨rfl, rfl⟩ | ⟨rfl, rfl⟩ <;> decide),
   by decide,
   C4_durability exampleOptionsART (emptyDB exampleOptionsART) (by decide)
    [Op.put [97] [49], Op.put [98] [50], Op.delete [97]] exampleART (by decide)
    (by
      intro key value h
      simp only [List.mem_cons, Op.put.injEq, List.mem_singleton, List.not_mem_nil, or_false,
        reduceCtorEq] at h
      rcases h with ⟨rfl, rfl⟩ | ⟨rfl, rfl⟩ <;> decide)⟩

/-- C4, counterexample to the claim as stated: on the engine opened on an empty
directory, `Put` of a key of `2^32 - 1` bytes with the empty value returns no
error; after `Close`, `OpenDB` on the directory does not return an engine on
which every key reads as it did before the `Close` (the stored key is `2^32`
bytes long, and its length is read back as 0). -/
theorem C4_counterexample :
    OpenDB exampleOptions Directory.empty none = .ok (emptyDB exampleOptions) ∧
    ∃ db, (emptyDB exampleOptions).run [Op.put (List.replicate (2 ^ 32 - 1) 0) []] = some db ∧
      ¬ ∃ db2, OpenDB exampleOptions (db.Close).2 none = .ok db2 ∧
          ∀ key, db2.Get key = db.Get key :=
  ⟨by decide, run_huge_key (2 ^ 32 - 1) (by norm_num)⟩

end Bitcask

namespace Bitcask

/-! ## Claim C8 -/

/-- C8 (as amended): CRC detection outside the length varints.  For every
record with a non-empty key whose key and value are each shorter than `2^32`
bytes, written by `EncodeLogRecord` at some offset of a data file, and every
position `i` of its bytes that lies in the CRC field, on the type byte, or in
the key or the value (not in the two length varints), replacing byte `i` by any
different byte makes `ReadLogRecord` at that offset return `InvalidCRC`. -/
theorem C8_crc_detection (r : LogRecord) (hne : r.Key ≠ []) (hk : r.Key.length < 2 ^ 32)
    (hv : r.Value.length < 2 ^ 32) (enc : Bytes) (n : Int)
    (henc : EncodeLogRecord r = .ok (enc, n)) (i : Nat) (b : UInt8) (hi : i < enc.length)
    (hpos : i < 5 ∨ 5 + (PutVarint (r.Key.length : Int)).length +
      (PutVarint (r.Value.length : Int)).length ≤ i)
    (hb : enc[i]? ≠ some b) (df : DataFile) (pre post : Bytes)
    (hio : df.IoManager = pre ++ enc.set i b ++ post) :
    df.ReadLogRecord (pre.length : Int) = .error .ErrInvalidCRC := by
  obtain ⟨-, hencEq, -⟩ := (EncodeLogRecord_ok_iff r enc n).1 henc
  generalize hc : ChecksumIEEE (r.Typ :: (PutVarint (r.Key.length : Int) ++
    PutVarint (r.Value.length : Int) ++ r.Key ++ r.Value)) = c at hencEq
  have hclt : c < 2 ^ 32 := hc ▸ ChecksumIEEE_lt _
  have h4 : (putUint32LE c).length = 4 := putUint32LE_length c
  by_cases hi4 : i < 4
  · -- the replaced byte is in the CRC field
    have hset : enc.set i b = (putUint32LE c).set i b ++ (r.Typ :: (PutVarint (r.Key.length : Int) ++
        PutVarint (r.Value.length : Int) ++ r.Key ++ r.Value)) := by
      rw [hencEq, List.set_append_left _ _ (by rw [h4]; exact hi4)]
    rw [hset] at hio
    rw [ReadLogRecord_framed df pre post _ r.Typ r.Key r.Value (by simp [h4]) hne hk hv hio, hc]
    have hne2 : c ≠ uint32LE ((putUint32LE c).set i b) := by
      intro heq
      have h5 : uint32LE (putUint32LE c) = uint32LE ((putUint32LE c).set i b) := by
        rw [uint32LE_putUint32LE c hclt]; exact heq
      have h6 := uint32LE_injective _ _ h4 (by simp [h4]) h5
      apply hb
      rw [hencEq, List.getElem?_append_left (by rw [h4]; exact hi4)]
      conv_lhs => rw [h6]
      simp [List.getElem?_set, h4, hi4]
    simp only [hne2, ne_eq, not_false_eq_true, if_true]
  · -- the replaced byte is the type byte or a byte of the key or the value
    have hp : i - 4 = 0 ∨ 1 + (PutVarint (r.Key.length : Int)).length +
        (PutVarint (r.Value.length : Int)).length ≤ i - 4 := by omega
    obtain ⟨typ2, key2, value2, hk2, hv2, hbody⟩ := body_set r.Typ (PutVarint (r.Key.length : Int))
      (PutVarint (r.Value.length : Int)) r.Key r.Value (i - 4) b hp
    have hset : enc.set i b = putUint32LE c ++ (typ2 :: (PutVarint (key2.length : Int) ++
        PutVarint (value2.length : Int) ++ key2 ++ value2)) := by
      rw [hencEq, List.set_append_right _ _ (by rw [h4]; omega), h4, hbody, hk2, hv2]
    rw [hset] at hio
    have hne3 : key2 ≠ [] := by
      intro h0
      rw [h0] at hk2
      exact hne (List.length_eq_zero.1 hk2.symm)
    rw [ReadLogRecord_framed df pre post _ typ2 key2 value2 h4 hne3 (by rw [hk2]; exact hk)
      (by rw [hv2]; exact hv) hio, uint32LE_putUint32LE c hclt, hk2, hv2, ← hbody, ← hc]
    have hlen : i - 4 < (r.Typ :: (PutVarint (r.Key.length : Int) ++
        PutVarint (r.Value.length : Int) ++ r.Key ++ r.Value)).length := by
      rw [hencEq, List.length_append, h4] at hi
      omega
    have hne4 := ChecksumIEEE_set (r.Typ :: (PutVarint (r.Key.length : Int) ++
      PutVarint (r.Value.length : Int) ++ r.Key ++ r.Value)) (i - 4) b hlen (by
        intro h0
        apply hb
        rw [hencEq, List.getElem?_append_right (by rw [h4]; omega), h4]
        exact h0)
    simp only [hne4, ne_eq, not_false_eq_true, if_true]

set_option maxRecDepth 100000 in
/-- C8, witness: in the record of `Put("a", "1")`, the last byte (the value
byte `49`) is replaced by `50`. -/
theorem C8_crc_detection_witness :
    EncodeLogRecord { Key := [0, 97], Value := [49], Typ := 0 } =
      .ok ([52, 149, 115, 195, 0, 4, 2, 0, 97, 49], 10) ∧
    DataFile.ReadLogRecord
      { FileId := 0, WriteOff := 10, IoManager := [52, 149, 115, 195, 0, 4, 2, 0, 97, 50] } 0 =
      .error .ErrInvalidCRC :=
  ⟨by decide,
    C8_crc_detection { Key := [0, 97], Value := [49], Typ := 0 } (by decide) (by decide)
      (by decide) [52, 149, 115, 195, 0, 4, 2, 0, 97, 49] 10 (by decide) 9 50 (by decide)
      (Or.inr (by decide)) (by decide)
      { FileId := 0, WriteOff := 10, IoManager := [52, 149, 115, 195, 0, 4, 2, 0, 97, 50] } [] []
      (by decide)⟩

set_option maxRecDepth 100000 in
/-- C8, counterexample to the claim as stated: in the record of `Put("a", "1")`,
written at offset 0 as the last record of the file, the byte of the key-length
varint (`4`) is replaced by `6`; `ReadLogRecord` at offset 0 then asks for more
key and value bytes than the file holds and returns the end-of-file error, not
`InvalidCRC`. -/
theorem C8_counterexample :
    EncodeLogRecord { Key := [0, 97], Value := [49], Typ := 0 } =
      .ok ([52, 149, 115, 195, 0, 4, 2, 0, 97, 49], 10) ∧
    ([52, 149, 115, 195, 0, 4, 2, 0, 97, 49] : Bytes).set 5 6 =
      [52, 149, 115, 195, 0, 6, 2, 0, 97, 49] ∧
    DataFile.ReadLogRecord
      { FileId := 0, WriteOff := 10, IoManager := [52, 149, 115, 195, 0, 6, 2, 0, 97, 49] } 0 =
      .error .EOF := by
  decide

end Bitcask

namespace Bitcask

/-! ## Claims C11, C16, C17, C18, C20 -/

/-- C11: `Commit` on a batch with an empty staging map returns no error and
leaves batch and engine as they were; `Commit` on a batch with more than
`MaxBatchNum` staged entries returns `ExceedMaxBatchNum` and leaves batch and
engine as they were (no record appended, sequence counter, index and staging
map unchanged).  The order in which `Commit` would range over the map does not
matter. -/
theorem C11_commit_guards (wb : WriteBatch) (order1 order2 : List (Bytes × LogRecord)) :
    (wb.pendingWrites = [] → wb.Commit order1 order2 = (.ok (), wb)) ∧
    (wb.pendingWrites.length > wb.options.MaxBatchNum →
      wb.Commit order1 order2 = (.error .ErrExceedMaxBatchNum, wb)) := by
  refine ⟨fun h => Commit_empty wb order1 order2 h, ?_⟩
  intro h
  unfold WriteBatch.Commit
  have h0 : ¬ wb.pendingWrites.length = 0 := by omega
  simp only [h0, if_false, h, if_true]

set_option maxRecDepth 100000 in
/-- C11, witness: a fresh batch on the engine that holds `"a"`, and the batch
with two staged entries when `MaxBatchNum` is 1. -/
theorem C11_commit_guards_witness :
    exampleBatch.Commit [] [] = (.ok (), exampleBatch) ∧
    ({ exampleStaged with options := { MaxBatchNum := 1, SyncWrites := false } } : WriteBatch).Commit
        exampleStaged.pendingWrites exampleStaged.pendingWrites =
      (.error .ErrExceedMaxBatchNum,
        { exampleStaged with options := { MaxBatchNum := 1, SyncWrites := false } }) :=
  ⟨(C11_commit_guards exampleBatch [] []).1 rfl,
    (C11_commit_guards
      ({ exampleStaged with options := { MaxBatchNum := 1, SyncWrites := false } } : WriteBatch)
      exampleStaged.pendingWrites exampleStaged.pendingWrites).2 (by decide)⟩

/-- A `uint32` takes at most five bytes as a signed varint. -/
theorem PutVarint_length_uint32 (n : Nat) (h : n < 2 ^ 32) : (PutVarint (n : Int)).length ≤ 5 :=
  PutVarint_length_le_five n (by omega)

/-- C16: position round trip.  For every position with `Fid` and `Size` in
`uint32` and `Offset` in `int64`, `DecodeLogRecordPos` of `EncodeLogRecordPos`
returns the position; the encoding is the three signed varints of `Fid`,
`Offset` and `Size` one after the other, and is at most 20 bytes long (the
length of the buffer it is written into). -/
theorem C16_position_round_trip (p : LogRecordPos) (hfid : p.Fid < 2 ^ 32)
    (ho1 : -(2 ^ 63) ≤ p.Offset) (ho2 : p.Offset < 2 ^ 63) (hsize : p.Size < 2 ^ 32) :
    DecodeLogRecordPos (EncodeLogRecordPos p) = .ok p ∧
    EncodeLogRecordPos p =
      PutVarint (p.Fid : Int) ++ PutVarint p.Offset ++ PutVarint (p.Size : Int) ∧
    (EncodeLogRecordPos p).length ≤ 20 := by
  refine ⟨?_, rfl, ?_⟩
  · unfold DecodeLogRecordPos EncodeLogRecordPos
    have h1 := Varint_PutVarint (p.Fid : Int) (PutVarint p.Offset ++ PutVarint (p.Size : Int))
      (by omega) (by omega)
    have h2 := Varint_PutVarint p.Offset (PutVarint (p.Size : Int)) ho1 ho2
    have h3 := Varint_PutVarint (p.Size : Int) [] (by omega) (by omega)
    rw [List.append_nil] at h3
    rw [List.append_assoc, h1]
    have e1 : sliceFrom (PutVarint (p.Fid : Int) ++ (PutVarint p.Offset ++ PutVarint (p.Size : Int)))
        ((PutVarint (p.Fid : Int)).length : Int) =
        .ok (PutVarint p.Offset ++ PutVarint (p.Size : Int)) := by
      unfold sliceFrom
      have hc : ¬ ((((PutVarint (p.Fid : Int)).length : Nat) : Int) < 0 ∨
          (((PutVarint (p.Fid : Int) ++ (PutVarint p.Offset ++ PutVarint (p.Size : Int))).length : Nat)
            : Int) < (((PutVarint (p.Fid : Int)).length : Nat) : Int)) := by
        simp only [List.length_append]; push_cast; omega
      simp only [hc, if_false, Int.toNat_ofNat, List.drop_left]
    simp only [e1, h2]
    have e2 : sliceFrom (PutVarint (p.Fid : Int) ++ (PutVarint p.Offset ++ PutVarint (p.Size : Int)))
        (((PutVarint (p.Fid : Int)).length : Int) + ((PutVarint p.Offset).length : Int)) =
        .ok (PutVarint (p.Size : Int)) := by
      unfold sliceFrom
      have hc : ¬ ((((PutVarint (p.Fid : Int)).length : Nat) : Int) +
            (((PutVarint p.Offset).length : Nat) : Int) < 0 ∨
          (((PutVarint (p.Fid : Int) ++ (PutVarint p.Offset ++ PutVarint (p.Size : Int))).length : Nat)
            : Int) < (((PutVarint (p.Fid : Int)).length : Nat) : Int) +
              (((PutVarint p.Offset).length : Nat) : Int)) := by
        simp only [List.length_append]; push_cast; omega
      simp only [hc, if_false]
      have e3 : ((((PutVarint (p.Fid : Int)).length : Nat) : Int) +
          (((PutVarint p.Offset).length : Nat) : Int)).toNat =
          (PutVarint (p.Fid : Int) ++ PutVarint p.Offset).length := by
        simp only [List.length_append]; omega
      rw [e3, ← List.append_assoc, List.drop_left]
    simp only [e2, h3]
    have e4 : toUint32 (p.Fid : Int) = p.Fid := by
      rw [toUint32_natCast]; exact Nat.mod_eq_of_lt hfid
    have e5 : toUint32 (p.Size : Int) = p.Size := by
      rw [toUint32_natCast]; exact Nat.mod_eq_of_lt hsize
    rw [e4, e5]
  · unfold EncodeLogRecordPos
    have h1 := PutVarint_length_uint32 p.Fid hfid
    have h2 := PutVarint_length_le p.Offset
    have h3 := PutVarint_length_uint32 p.Size hsize
    simp only [List.length_append]
    omega

set_option maxRecDepth 100000 in
/-- C16, witness: the position `(1, 300, 29)`. -/
theorem C16_position_round_trip_witness :
    (DecodeLogRecordPos (EncodeLogRecordPos { Fid := 1, Offset := 300, Size := 29 }) =
        .ok { Fid := 1, Offset := 300, Size := 29 } ∧
      EncodeLogRecordPos { Fid := 1, Offset := 300, Size := 29 } =
        PutVarint ((1 : Nat) : Int) ++ PutVarint 300 ++ PutVarint ((29 : Nat) : Int) ∧
      (EncodeLogRecordPos { Fid := 1, Offset := 300, Size := 29 }).length ≤ 20) ∧
    EncodeLogRecordPos { Fid := 1, Offset := 300, Size := 29 } = [2, 216, 4, 58] :=
  ⟨C16_position_round_trip { Fid := 1, Offset := 300, Size := 29 } (by decide) (by decide)
    (by decide) (by decide), by decide⟩

end Bitcask

namespace Bitcask

/-! ## Claims C17, C18, C20 -/

/-- Every successful append returns a position whose `Size` is 0. -/
theorem appendLogRecord_size (db : DB) (r : LogRecord) (pos : LogRecordPos) (db2 : DB)
    (h : db.appendLogRecord r = (.ok pos, db2)) : pos.Size = 0 := by
  unfold DB.appendLogRecord at h
  simp only at h
  split at h
  · simp at h
  · split at h
    · simp at h
    · split at h
      · simp at h
      · simp only [Prod.mk.injEq, Except.ok.injEq] at h
        rw [← h.1]

/-- An encoded record is at least seven bytes long. -/
theorem EncodeLogRecord_length_ge (r : LogRecord) (enc : Bytes) (n : Int)
    (h : EncodeLogRecord r = .ok (enc, n)) : 7 ≤ enc.length := by
  have h1 := (EncodeLogRecord_length r enc n h).1
  have h2 := PutVarint_length_pos (r.Key.length : Int)
  have h3 := PutVarint_length_pos (r.Value.length : Int)
  omega

/-- No successful append returns the encoded length of the record as `Size`. -/
theorem appendLogRecord_size_ne (db : DB) (r : LogRecord) (pos : LogRecordPos) (db2 : DB)
    (h : db.appendLogRecord r = (.ok pos, db2)) : pos.Size ≠ encodedSize r := by
  obtain ⟨enc, n, henc⟩ := encode_ok_of_appendLogRecord db r pos db2 h
  have h1 := EncodeLogRecord_length_ge r enc n henc
  rw [appendLogRecord_size db r pos db2 h]
  unfold encodedSize
  rw [henc]
  simp only
  omega

set_option maxRecDepth 100000 in
/-- C17, the failing call: `Put("a", "1")` on the engine opened on an empty
directory.  The record is 10 bytes long; the append returns file id 0 and offset
0 as the claim says, but `Size` 0, and that is the position the index stores
for `"a"`. -/
theorem C17_append_returns_size_zero :
    EncodeLogRecord { Key := [0, 97], Value := [49], Typ := LogRecordNormal } =
      .ok ([52, 149, 115, 195, 0, 4, 2, 0, 97, 49], 10) ∧
    ((emptyDB exampleOptions).appendLogRecord
        { Key := [0, 97], Value := [49], Typ := LogRecordNormal }).1 =
      .ok { Fid := 0, Offset := 0, Size := 0 } ∧
    ((emptyDB exampleOptions).Put [97] [49]).1 = .ok () ∧
    ((emptyDB exampleOptions).Put [97] [49]).2.index.Get [97] =
      some { Fid := 0, Offset := 0, Size := 0 } := by
  decide

/-- The rotation rule on an engine whose files are in order (the write offset
of the active file is its length and the older files have smaller ids, as in
every state reached from an empty directory): an append of a record that
is encoded in `s` bytes goes to the file `w`, the active file or the fresh file
0 of an engine without active file: when `w.WriteOff + s > DataFileSize` the
file `w` is entered in the older map under its id, the new active file has the
id of `w` plus 1 and holds the record alone, and the record is at offset 0;
otherwise the older map is unchanged, the active file is `w` with the record
appended, and the record is at the old write offset of `w`. -/
theorem appendLogRecord_rotation_rule (db : DB) (hf : db.FilesInv) (r : LogRecord) (enc : Bytes) (s : Int)
    (henc : EncodeLogRecord r = .ok (enc, s)) :
    s = (enc.length : Int) ∧
    db.writeFile = db.activeFile.getD { FileId := 0, WriteOff := 0, IoManager := [] } ∧
    ∃ pos db2, db.appendLogRecord r = (.ok pos, db2) ∧
      (db.writeFile.WriteOff + s > db.options.DataFileSize →
        db2.olderFile = mapSet db.olderFile db.writeFile.FileId db.writeFile ∧
        mapGet db2.olderFile db.writeFile.FileId = some db.writeFile ∧
        db2.activeFile =
          some { FileId := db.writeFile.FileId + 1, WriteOff := s, IoManager := enc } ∧
        pos.Fid = db.writeFile.FileId + 1 ∧ pos.Offset = 0) ∧
      (¬ db.writeFile.WriteOff + s > db.options.DataFileSize →
        db2.olderFile = db.olderFile ∧
        db2.activeFile =
          some { FileId := db.writeFile.FileId, WriteOff := db.writeFile.WriteOff + s,
                 IoManager := db.writeFile.IoManager ++ enc } ∧
        pos.Fid = db.writeFile.FileId ∧ pos.Offset = db.writeFile.WriteOff) := by
  have hs : s = (enc.length : Int) := (EncodeLogRecord_length r enc s henc).2
  refine ⟨hs, rfl, ?_⟩
  have heq := appendLogRecord_eq db hf r enc s henc
  by_cases hrot : db.writeFile.WriteOff + s > db.options.DataFileSize
  · simp only [hrot, if_true] at heq
    refine ⟨_, _, heq, ?_, fun hc => absurd hrot hc⟩
    intro _
    exact ⟨rfl, mapGet_mapSet_self _ _ _, by rw [hs], rfl, rfl⟩
  · simp only [hrot, if_false] at heq
    refine ⟨_, _, heq, fun hc => absurd hc hrot, ?_⟩
    intro _
    exact ⟨rfl, by simp [DataFile.Write, hs], rfl, rfl⟩

set_option maxRecDepth 100000 in
/-- On the engine that holds `"a"` and `"b"` in file 0 (20 of 64 bytes), a
record of 49 bytes rotates: file 0 becomes an older file and the record is at
offset 0 of file 1. -/
theorem appendLogRecord_rotation_rule_example :
    ∃ (enc : Bytes) (pos : LogRecordPos) (db2 : DB),
      EncodeLogRecord { Key := [0, 99], Value := List.replicate 40 0, Typ := 0 } =
        .ok (enc, 49) ∧
      exampleDB2.writeFile.WriteOff = 20 ∧
      exampleDB2.appendLogRecord { Key := [0, 99], Value := List.replicate 40 0, Typ := 0 } =
        (.ok pos, db2) ∧
      mapGet db2.olderFile 0 = some exampleDB2.writeFile ∧
      db2.activeFile = some { FileId := 1, WriteOff := 49, IoManager := enc } ∧
      pos.Fid = 1 ∧ pos.Offset = 0 := by
  have hr : ReachablePD exampleDB2 :=
    ReachablePD.put exampleDB1 [98] [50] exampleDB2
      (ReachablePD.put (emptyDB exampleOptions) [97] [49] exampleDB1
        (ReachablePD.opened exampleOptions _ (by decide)) (by decide))
      (by decide)
  obtain ⟨enc, henc⟩ := EncodeLogRecord_ok_of_lt
    { Key := [0, 99], Value := List.replicate 40 0, Typ := 0 } (by decide) (by decide)
  have hlen : (enc.length : Int) = 49 := by
    have := (EncodeLogRecord_length _ enc _ henc).1
    rw [this]
    decide
  rw [hlen] at henc
  obtain ⟨-, -, pos, db2, hap, hrot, -⟩ := appendLogRecord_rotation_rule exampleDB2 (ReachablePD_inv _ hr).files
    { Key := [0, 99], Value := List.replicate 40 0, Typ := 0 } enc 49 henc
  have hw : exampleDB2.writeFile.WriteOff = 20 := by decide
  have hid : exampleDB2.writeFile.FileId = 0 := by decide
  obtain ⟨-, h2, h3, h4, h5⟩ := hrot (by rw [hw]; decide)
  rw [hid] at h2 h3 h4
  exact ⟨enc, pos, db2, henc, hw, hap, h2, h3, h4, h5⟩

/-- On an engine reached from an empty directory by successful `Put` and
`Delete` calls every indexed position has `Size` 0 and the reclaim counter
is 0. -/
theorem reclaimSize_zero (db : DB) (h : ReachablePD db) :
    db.reclaimSize = 0 ∧ ∀ key pos, db.index.Get key = some pos → pos.Size = 0 := by
  induction h with
  | opened options db h =>
    obtain ⟨h1, -, -, -, h5, -⟩ := OpenDB_empty options db h
    refine ⟨h5, ?_⟩
    intro key pos hget
    rw [h1] at hget
    simp [BTree.Get, NewTree, treeGet] at hget
  | put db key value db2 hr hput ih =>
    have hinv := ReachablePD_inv db hr
    unfold DB.Put at hput
    by_cases hk : key.length = 0
    · simp [hk] at hput
    · simp only [hk, if_false, DB.appendLogRecordWithLock] at hput
      cases hap : db.appendLogRecord
          { Key := logRecordKeyWithSeq key nonTransactionSeqNo, Value := value,
            Typ := LogRecordNormal } with
      | mk res db1 =>
        rw [hap] at hput
        cases res with
        | error e => simp at hput
        | ok pos =>
          have happ := Appended_of_appendLogRecord db hinv.files _ pos db1 hap
          have hinv1 := Inv_of_Appended db db1 _ pos hinv happ
          have hold := BTree.Put_old db1.index key pos
          have hsz : ∀ key2 pos2, (db1.index.Put key pos).1.Get key2 = some pos2 →
              pos2.Size = 0 := by
            intro key2 pos2 hget
            by_cases hk2 : key2 = key
            · subst hk2
              rw [BTree.Get_Put_self] at hget
              simp only [Option.some.injEq] at hget
              rw [← hget]
              exact happ.size_zero
            · rw [BTree.Get_Put_other _ _ _ _ hinv1.sorted hk2, happ.index_eq] at hget
              exact ih.2 key2 pos2 hget
          simp only at hput
          cases hp : (db1.index.Put key pos).2 with
          | none =>
            rw [hp] at hput
            simp only [Prod.mk.injEq, true_and] at hput
            subst hput
            exact ⟨by simp only; rw [happ.reclaimSize_eq]; exact ih.1, hsz⟩
          | some oldPos =>
            rw [hp] at hput
            simp only [Prod.mk.injEq, true_and] at hput
            subst hput
            refine ⟨?_, hsz⟩
            simp only
            rw [hold, happ.index_eq] at hp
            rw [happ.reclaimSize_eq, ih.1, ih.2 key oldPos hp]
            rfl
  | delete db key db2 hr hdel ih =>
    have hinv := ReachablePD_inv db hr
    unfold DB.Delete at hdel
    by_cases hk : key.length = 0
    · simp [hk] at hdel
    · simp only [hk, if_false, DB.appendLogRecordWithLock] at hdel
      cases hget0 : db.index.Get key with
      | none => simp [hget0] at hdel
      | some p0 =>
        simp only [hget0] at hdel
        cases hap : db.appendLogRecord
            { Key := logRecordKeyWithSeq key nonTransactionSeqNo, Value := [],
              Typ := LogRecordDeleted } with
        | mk res db1 =>
          rw [hap] at hdel
          cases res with
          | error e => simp at hdel
          | ok pos =>
            have happ := Appended_of_appendLogRecord db hinv.files _ pos db1 hap
            have hinv1 := Inv_of_Appended db db1 _ pos hinv happ
            have hold := BTree.Delete_old db1.index key
            have hsz : ∀ key2 pos2, (db1.index.Delete key).1.Get key2 = some pos2 →
                pos2.Size = 0 := by
              intro key2 pos2 hget
              by_cases hk2 : key2 = key
              · subst hk2
                rw [BTree.Get_Delete_self _ _ hinv1.sorted] at hget
                cases hget
              · rw [BTree.Get_Delete_other _ _ _ hinv1.sorted hk2, happ.index_eq] at hget
                exact ih.2 key2 pos2 hget
            have h1 : (db1.index.Delete key).2.1 = some p0 := by
              rw [hold.1, happ.index_eq, hget0]
            have h2 : (db1.index.Delete key).2.2 = true := by
              rw [hold.2, happ.index_eq, hget0]; rfl
            simp only [h1, h2, Bool.not_true, Bool.false_eq_true, if_false, Prod.mk.injEq,
              true_and] at hdel
            subst hdel
            refine ⟨?_, hsz⟩
            simp only
            rw [happ.reclaimSize_eq, ih.1, happ.size_zero, ih.2 key p0 hget0]
            rfl

set_option maxRecDepth 100000 in
/-- C20, the failing run: `Put("a","1")`, `Put("a","2")`, `Delete("a")` on the
engine opened on an empty directory.  Each record of a put is 10 bytes long and
the tombstone 9; the second put supersedes 10 bytes and the delete 10 more and
adds its own 9, and the reclaim counter is 0 after each call. -/
theorem C20_reclaim_counter_stays_zero :
    encodedSize (putRecord ([97], [49])) = 10 ∧
    encodedSize { Key := [0, 97], Value := [], Typ := LogRecordDeleted } = 9 ∧
    (exampleDB1.Put [97] [50]).1 = .ok () ∧
    (exampleDB1.Put [97] [50]).2.reclaimSize = 0 ∧
    ((exampleDB1.Put [97] [50]).2.Delete [97]).1 = .ok () ∧
    ((exampleDB1.Put [97] [50]).2.Delete [97]).2.reclaimSize = 0 := by
  decide

end Bitcask

namespace Bitcask

/-! ## The ordered-tree index and the finite map of the specification -/

theorem SpecIndex_Get_nil (key : Bytes) : SpecIndex.Get { entries := [] } key = none := rfl

theorem SpecIndex_Get_cons (k key : Bytes) (p : LogRecordPos) (l : List (Bytes × LogRecordPos)) :
    SpecIndex.Get { entries := (k, p) :: l } key =
      if k = key then some p else SpecIndex.Get { entries := l } key := by
  unfold SpecIndex.Get
  by_cases h : k = key
  · simp [h]
  · simp [h, List.find?_cons]

theorem SpecIndex_Get_filter_self (l : List (Bytes × LogRecordPos)) (key : Bytes) :
    SpecIndex.Get { entries := l.filter (fun e => decide (e.1 ≠ key)) } key = none := by
  induction l with
  | nil => rfl
  | cons e l ih =>
    obtain ⟨k, p⟩ := e
    by_cases h : k = key
    · simp only [List.filter_cons, h, ne_eq, not_true_eq_false, decide_False, Bool.false_eq_true,
        if_false]
      exact ih
    · simp only [List.filter_cons, h, ne_eq, not_false_eq_true, decide_True, if_true]
      rw [SpecIndex_Get_cons]
      simp only [h, if_false]
      exact ih

theorem SpecIndex_Get_filter_other (l : List (Bytes × LogRecordPos)) (key key2 : Bytes)
    (hne : key2 ≠ key) :
    SpecIndex.Get { entries := l.filter (fun e => decide (e.1 ≠ key)) } key2 =
      SpecIndex.Get { entries := l } key2 := by
  induction l with
  | nil => rfl
  | cons e l ih =>
    obtain ⟨k, p⟩ := e
    by_cases h : k = key
    · simp only [List.filter_cons, h, ne_eq, not_true_eq_false, decide_False, Bool.false_eq_true,
        if_false]
      rw [SpecIndex_Get_cons]
      have h2 : ¬ key = key2 := fun hc => hne hc.symm
      simp only [h2, if_false]
      exact ih
    · simp only [List.filter_cons, h, ne_eq, not_false_eq_true, decide_True, if_true]
      rw [SpecIndex_Get_cons, SpecIndex_Get_cons, ih]

theorem SpecIndex_Get_isSome (l : List (Bytes × LogRecordPos)) (key : Bytes) :
    (SpecIndex.Get { entries := l } key).isSome = true ↔ key ∈ l.map (fun e => e.1) := by
  induction l with
  | nil => simp [SpecIndex_Get_nil]
  | cons e l ih =>
    obtain ⟨k, p⟩ := e
    rw [SpecIndex_Get_cons]
    by_cases h : k = key
    · simp [h]
    · have h2 : ¬ key = k := fun hc => h hc.symm
      simp only [h, if_false, ih, List.map_cons, List.mem_cons, h2, false_or]

/-- Without an entry for the key, filtering the key out changes nothing. -/
theorem filter_key_of_absent (l : List (Bytes × LogRecordPos)) (key : Bytes)
    (h : key ∉ l.map (fun e => e.1)) : l.filter (fun e => decide (e.1 ≠ key)) = l := by
  rw [List.filter_eq_self]
  intro e he
  have : e.1 ≠ key := fun hc => h (hc ▸ List.mem_map_of_mem _ he)
  simpa using this

/-- With one entry for the key, filtering the key out removes one entry. -/
theorem length_filter_key_of_present (l : List (Bytes × LogRecordPos)) (key : Bytes)
    (hn : (l.map (fun e => e.1)).Nodup) (h : key ∈ l.map (fun e => e.1)) :
    (l.filter (fun e => decide (e.1 ≠ key))).length + 1 = l.length := by
  induction l with
  | nil => simp at h
  | cons e l ih =>
    obtain ⟨k, p⟩ := e
    simp only [List.map_cons, List.nodup_cons] at hn
    by_cases hk : k = key
    · subst hk
      simp only [List.filter_cons, ne_eq, not_true_eq_false, decide_False, Bool.false_eq_true,
        if_false, List.length_cons]
      rw [filter_key_of_absent l k hn.1]
    · simp only [List.filter_cons, hk, ne_eq, not_false_eq_true, decide_True, if_true,
        List.length_cons]
      have h2 : key ∈ l.map (fun e => e.1) := by
        simp only [List.map_cons, List.mem_cons] at h
        rcases h with h | h
        · exact absurd h.symm hk
        · exact h
      rw [ih hn.2 h2]

theorem nodup_filter_key (l : List (Bytes × LogRecordPos)) (key : Bytes)
    (hn : (l.map (fun e => e.1)).Nodup) :
    ((l.filter (fun e => decide (e.1 ≠ key))).map (fun e => e.1)).Nodup :=
  (List.Nodup.sublist ((List.filter_sublist l).map _) hn)

theorem not_mem_filter_key (l : List (Bytes × LogRecordPos)) (key : Bytes) :
    key ∉ (l.filter (fun e => decide (e.1 ≠ key))).map (fun e => e.1) := by
  intro h
  obtain ⟨e, he, hk⟩ := List.mem_map.1 h
  have := (List.mem_filter.1 he).2
  simp only [ne_eq, decide_not, Bool.not_eq_true', decide_eq_false_iff_not] at this
  exact this hk

/-! ### The sizes of the tree -/

theorem treeReplaceOrInsert_length (it : Item) (l : List Item) :
    (treeReplaceOrInsert it l).1.length =
      if (treeReplaceOrInsert it l).2.isSome then l.length else l.length + 1 := by
  induction l with
  | nil => simp [treeReplaceOrInsert]
  | cons y ys ih =>
    rw [treeReplaceOrInsert_cons]
    cases h1 : it.Less y
    · cases h2 : y.Less it
      · simp
      · simp only [Bool.false_eq_true, if_false, if_true, List.length_cons, ih]
        split <;> rfl
    · simp

theorem treeDelete_length (it : Item) (l : List Item) :
    (treeDelete it l).1.length + (if (treeDelete it l).2.isSome then 1 else 0) = l.length := by
  induction l with
  | nil => simp [treeDelete]
  | cons y ys ih =>
    rw [treeDelete_cons]
    cases h1 : it.Less y
    · cases h2 : y.Less it
      · simp
      · simp only [Bool.false_eq_true, if_false, if_true, List.length_cons]
        omega
    · simp

theorem treeDelete_of_absent (it : Item) (l : List Item) (h : treeGet it l = none) :
    (treeDelete it l).1 = l := by
  induction l with
  | nil => rfl
  | cons y ys ih =>
    rw [treeDelete_cons]
    rw [treeGet_cons] at h
    cases h1 : it.Less y
    · cases h2 : y.Less it
      · simp [h1, h2] at h
      · simp only [h1, h2, Bool.false_eq_true, if_false, if_true] at h ⊢
        rw [ih h]
    · simp

theorem BTree_Size_Put (bt : BTree) (key : Bytes) (pos : LogRecordPos) :
    (bt.Put key pos).1.Size = if (bt.Get key).isSome then bt.Size else bt.Size + 1 := by
  have h := treeReplaceOrInsert_length { key := key, pos := pos } bt.tree
  have hold := BTree.Put_old bt key pos
  unfold BTree.Size
  unfold BTree.Put at hold ⊢
  simp only at hold ⊢
  rw [h, ← hold]
  simp

theorem BTree_Size_Delete (bt : BTree) (key : Bytes) :
    (bt.Delete key).1.Size + (if (bt.Get key).isSome then 1 else 0) = bt.Size := by
  have h := treeDelete_length { key := key, pos := { Fid := 0, Offset := 0, Size := 0 } } bt.tree
  unfold BTree.Size
  rw [BTree.Delete_tree]
  unfold BTree.Get
  rw [← treeDelete_old]
  simpa using h

theorem BTree_Delete_of_absent (bt : BTree) (key : Bytes) (h : bt.Get key = none) :
    (bt.Delete key).1 = bt := by
  have h1 : treeGet { key := key, pos := { Fid := 0, Offset := 0, Size := 0 } } bt.tree = none := by
    unfold BTree.Get at h
    simpa using h
  have h2 := BTree.Delete_tree bt key
  rw [treeDelete_of_absent _ _ h1] at h2
  cases hd : (bt.Delete key).1
  rw [hd] at h2
  simp only at h2
  rw [h2]

/-! ### The simulation -/

theorem Refines_empty : Refines NewTree SpecIndex.empty :=
  ⟨NewTree_Sorted, by simp [SpecIndex.empty], fun key => by
    simp [BTree.Get, NewTree, treeGet, SpecIndex.empty, SpecIndex_Get_nil], rfl⟩

theorem Refines_Put (bt : BTree) (m : SpecIndex) (h : Refines bt m) (key : Bytes)
    (pos : LogRecordPos) : Refines (bt.Put key pos).1 (m.Put key pos).1 := by
  refine ⟨BTree.Put_Sorted bt key pos h.sorted, ?_, ?_, ?_⟩
  · simp only [SpecIndex.Put, List.map_cons, List.nodup_cons]
    exact ⟨not_mem_filter_key _ _, nodup_filter_key _ _ h.nodup⟩
  · intro key2
    simp only [SpecIndex.Put]
    rw [SpecIndex_Get_cons]
    by_cases hk : key = key2
    · subst hk
      simp [BTree.Get_Put_self]
    · have hk2 : key2 ≠ key := fun hc => hk hc.symm
      simp only [hk, if_false]
      rw [BTree.Get_Put_other _ _ _ _ h.sorted hk2, SpecIndex_Get_filter_other _ _ _ hk2]
      exact h.get key2
  · rw [BTree_Size_Put, h.get key, h.size]
    simp only [SpecIndex.Put, SpecIndex.Size, List.length_cons]
    by_cases hp : (m.Get key).isSome = true
    · simp only [hp, if_true]
      exact (length_filter_key_of_present _ _ h.nodup ((SpecIndex_Get_isSome _ _).1 hp)).symm
    · simp only [hp, Bool.false_eq_true, if_false]
      rw [filter_key_of_absent _ _ (fun hc => hp ((SpecIndex_Get_isSome _ _).2 hc))]

theorem Refines_Delete (bt : BTree) (m : SpecIndex) (h : Refines bt m) (key : Bytes) :
    Refines (bt.Delete key).1 (m.Delete key).1 := by
  refine ⟨BTree.Delete_Sorted bt key h.sorted, nodup_filter_key _ _ h.nodup, ?_, ?_⟩
  · intro key2
    simp only [SpecIndex.Delete]
    by_cases hk : key2 = key
    · subst hk
      rw [BTree.Get_Delete_self _ _ h.sorted, SpecIndex_Get_filter_self]
    · rw [BTree.Get_Delete_other _ _ _ h.sorted hk, SpecIndex_Get_filter_other _ _ _ hk]
      exact h.get key2
  · have h1 := BTree_Size_Delete bt key
    rw [h.get key, h.size] at h1
    simp only [SpecIndex.Delete, SpecIndex.Size] at h1 ⊢
    by_cases hp : (m.Get key).isSome = true
    · simp only [hp, if_true] at h1
      have := length_filter_key_of_present _ _ h.nodup ((SpecIndex_Get_isSome _ _).1 hp)
      omega
    · simp only [hp, Bool.false_eq_true, if_false] at h1
      rw [filter_key_of_absent _ _ (fun hc => hp ((SpecIndex_Get_isSome _ _).2 hc))]
      omega

/-- Every index built by puts holds a finite map. -/
theorem Refines_indexOfPuts (puts : List (Bytes × LogRecordPos)) :
    ∃ m, Refines (indexOfPuts puts) m := by
  unfold indexOfPuts
  have : ∀ (bt : BTree) (m : SpecIndex), Refines bt m →
      ∃ m2, Refines (puts.foldl (fun bt e => (bt.Put e.1 e.2).1) bt) m2 := by
    induction puts with
    | nil => intro bt m h; exact ⟨m, h⟩
    | cons e rest ih =>
      intro bt m h
      exact ih _ _ (Refines_Put bt m h e.1 e.2)
  exact this _ _ Refines_empty

/-- C15: the ordered-tree index behaves as a finite map from keys (the empty
key included) to positions.  The empty index holds the empty map; and whenever
an index `bt` holds a finite map `m` (entries with pairwise different keys):
`Get` and `Size` answer as the map does, `Size` being the number of distinct
keys stored; `Put(k, p)` returns the position stored for `k` before, or nothing,
afterwards `Get(k) = p` and every other key is unchanged; `Delete(k)` returns the
position stored before and `true` when `k` is present, nothing and `false` with
no change when it is absent, afterwards `k` is absent and every other key is
unchanged; and after `Put` and after `Delete` the index holds the map the
specification's `Put` and `Delete` give. -/
theorem C15_index_is_finite_map (bt : BTree) (m : SpecIndex) (h : Refines bt m) (key : Bytes)
    (pos : LogRecordPos) :
    Refines NewTree SpecIndex.empty ∧
    bt.Get key = m.Get key ∧
    bt.Size = m.Size ∧
    (∃ keys : List Bytes, keys.Nodup ∧ (∀ k, k ∈ keys ↔ (bt.Get k).isSome = true) ∧
      bt.Size = keys.length) ∧
    (bt.Put key pos).2 = bt.Get key ∧
    (bt.Put key pos).1.Get key = some pos ∧
    (∀ key2, key2 ≠ key → (bt.Put key pos).1.Get key2 = bt.Get key2) ∧
    (bt.Put key pos).2 = (m.Put key pos).2 ∧
    Refines (bt.Put key pos).1 (m.Put key pos).1 ∧
    (bt.Delete key).2 = (bt.Get key, (bt.Get key).isSome) ∧
    (bt.Delete key).1.Get key = none ∧
    (∀ key2, key2 ≠ key → (bt.Delete key).1.Get key2 = bt.Get key2) ∧
    (bt.Get key = none → (bt.Delete key).1 = bt) ∧
    (bt.Delete key).2 = (m.Delete key).2 ∧
    Refines (bt.Delete key).1 (m.Delete key).1 := by
  have hold := BTree.Delete_old bt key
  have hdel : (bt.Delete key).2 = (bt.Get key, (bt.Get key).isSome) :=
    Prod.ext hold.1 hold.2
  refine ⟨Refines_empty, h.get key, h.size, ?_, BTree.Put_old bt key pos,
    BTree.Get_Put_self bt key pos, fun key2 hne => BTree.Get_Put_other bt key key2 pos h.sorted hne,
    ?_, Refines_Put bt m h key pos, hdel, BTree.Get_Delete_self bt key h.sorted,
    fun key2 hne => BTree.Get_Delete_other bt key key2 h.sorted hne,
    BTree_Delete_of_absent bt key, ?_, Refines_Delete bt m h key⟩
  · refine ⟨m.entries.map (fun e => e.1), h.nodup, ?_, by rw [h.size]; simp [SpecIndex.Size]⟩
    intro k
    rw [h.get k]
    exact (SpecIndex_Get_isSome _ _).symm
  · rw [BTree.Put_old, h.get key]; rfl
  · rw [hdel, h.get key]; rfl

set_option maxRecDepth 100000 in
/-- C15, witness: the index with the keys `ab-1`, `bc-1`, `bc-2`, `cd-1`; `Put`
and `Delete` of the key `bc-1`, stored at offset 30 before. -/
theorem C15_index_is_finite_map_witness :
    ∃ m, Refines exampleIndex m ∧
      exampleIndex.Size = 4 ∧
      (exampleIndex.Put [98, 99, 45, 49] { Fid := 1, Offset := 0, Size := 0 }).2 =
        some { Fid := 0, Offset := 30, Size := 0 } ∧
      (exampleIndex.Put [98, 99, 45, 49] { Fid := 1, Offset := 0, Size := 0 }).1.Get
        [98, 99, 45, 49] = some { Fid := 1, Offset := 0, Size := 0 } ∧
      (exampleIndex.Delete [98, 99, 45, 49]).2 = (some { Fid := 0, Offset := 30, Size := 0 }, true) ∧
      Refines (exampleIndex.Delete [98, 99, 45, 49]).1 (m.Delete [98, 99, 45, 49]).1 := by
  obtain ⟨m, hm⟩ := Refines_indexOfPuts
    [([99, 100, 45, 49], { Fid := 0, Offset := 0, Size := 0 }),
     ([98, 99, 45, 50], { Fid := 0, Offset := 10, Size := 0 }),
     ([97, 98, 45, 49], { Fid := 0, Offset := 20, Size := 0 }),
     ([98, 99, 45, 49], { Fid := 0, Offset := 30, Size := 0 })]
  have h := C15_index_is_finite_map exampleIndex m hm [98, 99, 45, 49]
    { Fid := 1, Offset := 0, Size := 0 }
  obtain ⟨-, -, -, -, h5, h6, -, -, -, h10, -, -, -, -, h15⟩ := h
  refine ⟨m, hm, by decide, ?_, h6, ?_, h15⟩
  · rw [h5]; decide
  · rw [h10]; decide

end Bitcask

namespace Bitcask

/-! ## The iterators -/

theorem btreeIterator_Valid_iff (bti : btreeIterator) :
    bti.Valid = true ↔ bti.currIndex < bti.values.length := by
  unfold btreeIterator.Valid
  simp

theorem btreeIterator_Key_of_lt (bti : btreeIterator) (h : bti.currIndex < bti.values.length) :
    bti.Key = .ok (bti.values[bti.currIndex]).key := by
  unfold btreeIterator.Key
  rw [List.getElem?_eq_getElem h]

/-- The loop over the index iterator visits the items from the current one on,
in the order of `values`. -/
theorem btreeIterator_collect_eq (fuel : Nat) :
    ∀ (bti : btreeIterator), bti.values.length - bti.currIndex < fuel →
      bti.collect fuel = .ok ((bti.values.drop bti.currIndex).map (fun it => it.key)) := by
  induction fuel with
  | zero => intro bti h; omega
  | succ fuel ih =>
    intro bti h
    unfold btreeIterator.collect
    by_cases hv : bti.currIndex < bti.values.length
    · have hv2 : bti.Valid = true := (btreeIterator_Valid_iff bti).2 hv
      have hnext := ih bti.Next (by simp only [btreeIterator.Next]; omega)
      simp only [btreeIterator.Next] at hnext
      simp only [hv2, if_true, btreeIterator_Key_of_lt bti hv]
      simp only [btreeIterator.Next, hnext]
      rw [List.drop_eq_getElem_cons hv]
      rfl
    · have hv2 : ¬ bti.Valid = true := fun hc => hv ((btreeIterator_Valid_iff bti).1 hc)
      simp only [hv2, if_false]
      rw [List.drop_of_length_le (by omega)]
      rfl

theorem btreeIterator_visitedFromHere_eq (bti : btreeIterator) :
    bti.visitedFromHere = .ok ((bti.values.drop bti.currIndex).map (fun it => it.key)) :=
  btreeIterator_collect_eq _ bti (by omega)

/-- The test of `skipToNext` on a key is the test for a byte prefix. -/
theorem prefix_test_iff (pfx key : Bytes) :
    (pfx.length ≤ key.length ∧ bytesCompare pfx (key.take pfx.length) = .eq) ↔ pfx <+: key := by
  rw [bytesCompare_eq_iff, List.prefix_iff_eq_take]
  constructor
  · intro h; exact h.2
  · intro h
    refine ⟨?_, h⟩
    have := congrArg List.length h
    rw [List.length_take] at this
    omega

/-- The loop of `skipToNext` stops at the first item from the current one on
whose key starts with the prefix, or behind the last item. -/
theorem skipLoop_eq (pfx : Bytes) (fuel : Nat) :
    ∀ (bti : btreeIterator), bti.values.length - bti.currIndex < fuel →
      ∃ j, skipLoop pfx fuel bti = .ok { bti with currIndex := j } ∧ bti.currIndex ≤ j ∧
        (bti.currIndex ≤ bti.values.length → j ≤ bti.values.length) ∧
        bti.values.drop j =
          (bti.values.drop bti.currIndex).dropWhile (fun it => !decide (pfx <+: it.key)) := by
  induction fuel with
  | zero => intro bti h; omega
  | succ fuel ih =>
    intro bti h
    unfold skipLoop
    by_cases hv : bti.currIndex < bti.values.length
    · have hv2 : bti.Valid = true := (btreeIterator_Valid_iff bti).2 hv
      simp only [hv2, if_true, btreeIterator_Key_of_lt bti hv, prefix_test_iff]
      rw [List.drop_eq_getElem_cons hv]
      by_cases hm : pfx <+: (bti.values[bti.currIndex]).key
      · refine ⟨bti.currIndex, by simp only [hm, if_true], le_refl _, fun hc => hc, ?_⟩
        rw [List.dropWhile_cons]
        simp only [hm, decide_True, Bool.not_true, Bool.false_eq_true, if_false]
        exact List.drop_eq_getElem_cons hv
      · obtain ⟨j, h1, h2, hle, h3⟩ := ih bti.Next (by simp only [btreeIterator.Next]; omega)
        simp only [btreeIterator.Next] at h1 h2 h3 hle
        refine ⟨j, ?_, by omega, fun _ => hle (by omega), ?_⟩
        · simp only [hm, if_false]
          exact h1
        · rw [List.dropWhile_cons]
          simp only [hm, decide_False, Bool.not_false, if_true]
          exact h3
    · have hv2 : ¬ bti.Valid = true := fun hc => hv ((btreeIterator_Valid_iff bti).1 hc)
      refine ⟨bti.currIndex, by simp [hv2], le_refl _, fun hc => hc, ?_⟩
      rw [List.drop_of_length_le (by omega)]
      rfl

theorem dropWhile_head_not {α : Type} (p : α → Bool) (l : List α) (x : α) (rest : List α)
    (h : l.dropWhile p = x :: rest) : p x = false := by
  induction l with
  | nil => simp at h
  | cons y ys ih =>
    rw [List.dropWhile_cons] at h
    cases hp : p y
    · simp only [hp, Bool.false_eq_true, if_false, List.cons.injEq] at h
      rw [← h.1]; exact hp
    · simp only [hp, if_true] at h
      exact ih h

theorem filter_dropWhile_not {α : Type} (p : α → Bool) (l : List α) :
    (l.dropWhile (fun x => !p x)).filter p = l.filter p := by
  induction l with
  | nil => rfl
  | cons x xs ih =>
    rw [List.dropWhile_cons]
    cases hp : p x
    · simp only [Bool.not_false, if_true, List.filter_cons, hp, Bool.false_eq_true, if_false]
      exact ih
    · simp only [Bool.not_true, Bool.false_eq_true, if_false]

/-- Method `skipToNext` leaves the iterator at an item whose key starts with the
prefix, or behind the last item, and skips only items whose keys do not. -/
theorem skipToNext_eq (it : Iterator) (h : it.indexIter.currIndex ≤ it.indexIter.values.length) :
    ∃ j, it.skipToNext = .ok { it with indexIter := { it.indexIter with currIndex := j } } ∧
      it.indexIter.currIndex ≤ j ∧ j ≤ it.indexIter.values.length ∧
      (it.indexIter.values.drop j).filter (fun x => decide (it.options.Prefix <+: x.key)) =
        (it.indexIter.values.drop it.indexIter.currIndex).filter
          (fun x => decide (it.options.Prefix <+: x.key)) ∧
      (j < it.indexIter.values.length → it.options.Prefix <+: (it.indexIter.values.getD j
        { key := [], pos := { Fid := 0, Offset := 0, Size := 0 } }).key) := by
  unfold Iterator.skipToNext
  by_cases hp : it.options.Prefix.length = 0
  · have hnil : it.options.Prefix = [] := List.length_eq_zero.1 hp
    refine ⟨it.indexIter.currIndex, by simp only [hp, if_true], le_refl _, h, rfl, ?_⟩
    intro _
    rw [hnil]
    exact List.nil_prefix
  · obtain ⟨j, h1, h2, hle, h3⟩ := skipLoop_eq it.options.Prefix (it.indexIter.values.length + 1)
      it.indexIter (by omega)
    refine ⟨j, by simp only [hp, if_false, h1], h2, hle h, ?_, ?_⟩
    · rw [h3]
      exact filter_dropWhile_not (fun x : Item => decide (it.options.Prefix <+: x.key)) _
    · intro hj
      have h4 := List.drop_eq_getElem_cons hj
      rw [h3] at h4
      have h6 := dropWhile_head_not _ _ _ _ h4
      simp only [Bool.not_eq_false', decide_eq_true_eq] at h6
      rw [List.getD_eq_getElem _ _ hj]
      exact h6

/-- The loop over the engine iterator, started at an item whose key starts with
the prefix or behind the last item, visits the keys from there on that start
with the prefix, in the order of `values`. -/
theorem Iterator_collect_eq (fuel : Nat) :
    ∀ (it : Iterator), it.indexIter.values.length - it.indexIter.currIndex < fuel →
      it.indexIter.currIndex ≤ it.indexIter.values.length →
      (it.indexIter.currIndex < it.indexIter.values.length →
        it.options.Prefix <+: (it.indexIter.values.getD it.indexIter.currIndex
          { key := [], pos := { Fid := 0, Offset := 0, Size := 0 } }).key) →
      it.collect fuel = .ok (((it.indexIter.values.drop it.indexIter.currIndex).filter
        (fun x => decide (it.options.Prefix <+: x.key))).map (fun x => x.key)) := by
  induction fuel with
  | zero => intro it h; omega
  | succ fuel ih =>
    intro it h hle hset
    unfold Iterator.collect
    by_cases hv : it.indexIter.currIndex < it.indexIter.values.length
    · have hv2 : it.Valid = true := (btreeIterator_Valid_iff it.indexIter).2 hv
      have hkey : it.Key = .ok (it.indexIter.values[it.indexIter.currIndex]).key :=
        btreeIterator_Key_of_lt it.indexIter hv
      obtain ⟨j, h1, h2, hjle, h3, h4⟩ := skipToNext_eq
        ({ it with indexIter := it.indexIter.Next } : Iterator)
        (by simp only [btreeIterator.Next]; omega)
      simp only [btreeIterator.Next] at h1 h2 h3 h4 hjle
      have hnext : it.Next = .ok ({ it with indexIter :=
          { it.indexIter with currIndex := j } } : Iterator) := by
        unfold Iterator.Next
        simp only [btreeIterator.Next]
        exact h1
      have hrec := ih ({ it with indexIter := { it.indexIter with currIndex := j } } : Iterator)
        (by simp only; omega)
        (by simp only; exact hjle)
        (by simpa using h4)
      simp only at hrec
      simp only [hv2, if_true, hkey, hnext, hrec, h3]
      have hq := hset hv
      rw [List.getD_eq_getElem _ _ hv] at hq
      rw [List.drop_eq_getElem_cons hv, List.filter_cons]
      simp only [hq, decide_True, if_true, List.map_cons]
    · have hv2 : ¬ it.Valid = true := fun hc => hv ((btreeIterator_Valid_iff it.indexIter).1 hc)
      simp only [hv2, if_false]
      rw [List.drop_of_length_le (by omega)]
      rfl

/-- The loop `for it.Rewind(); it.Valid(); it.Next()` visits the keys of the
index iterator that start with the prefix, in the order of `values`. -/
theorem Iterator_visited_eq (it : Iterator) :
    it.visited = .ok ((it.indexIter.values.map (fun x => x.key)).filter
      (fun k => decide (it.options.Prefix <+: k))) := by
  unfold Iterator.visited
  obtain ⟨j, h1, h2, hjle, h3, h4⟩ := skipToNext_eq
    ({ it with indexIter := it.indexIter.Rewind } : Iterator)
    (by simp only [btreeIterator.Rewind]; omega)
  simp only [btreeIterator.Rewind] at h1 h2 h3 h4 hjle
  have hrew : it.Rewind = .ok ({ it with indexIter :=
      { it.indexIter with currIndex := j } } : Iterator) := by
    unfold Iterator.Rewind
    simp only [btreeIterator.Rewind]
    exact h1
  have hcol := Iterator_collect_eq (it.indexIter.values.length + 1)
    ({ it with indexIter := { it.indexIter with currIndex := j } } : Iterator)
    (by simp only; omega) (by simp only; exact hjle) (by simpa using h4)
  simp only at hcol
  simp only [hrew, hcol, h3, List.drop_zero]
  rw [List.filter_map]
  rfl

end Bitcask

namespace Bitcask

/-! ## The keys of the index in iteration order -/

theorem bytesCompare_swap (a b : Bytes) : bytesCompare a b = .gt ↔ bytesCompare b a = .lt := by
  induction a generalizing b with
  | nil => cases b <;> simp [bytesCompare]
  | cons x xs ih =>
    cases b with
    | nil => simp [bytesCompare]
    | cons y ys =>
      simp only [bytesCompare]
      by_cases h1 : x.toNat < y.toNat
      · have h2 : ¬ y.toNat < x.toNat := by omega
        simp [h1, h2]
      · by_cases h2 : y.toNat < x.toNat
        · simp [h1, h2]
        · simp only [h1, h2, if_false]
          exact ih ys

theorem bytesCompare_self (a : Bytes) : bytesCompare a a = .eq := (bytesCompare_eq_iff a a).2 rfl

theorem treeReplaceOrInsert_keys (it : Item) (l : List Item) (k : Bytes) :
    k ∈ (treeReplaceOrInsert it l).1.map (fun x => x.key) ↔
      k = it.key ∨ k ∈ l.map (fun x => x.key) := by
  induction l with
  | nil => simp [treeReplaceOrInsert]
  | cons y ys ih =>
    rw [treeReplaceOrInsert_cons]
    cases h1 : it.Less y
    · cases h2 : y.Less it
      · have hk := key_eq_of_not_Less it y h1 h2
        simp only [Bool.false_eq_true, if_false, List.map_cons, List.mem_cons, hk]
        tauto
      · simp only [Bool.false_eq_true, if_false, if_true, List.map_cons, List.mem_cons, ih]
        tauto
    · simp

theorem indexOfPuts_sorted (puts : List (Bytes × LogRecordPos)) : (indexOfPuts puts).Sorted := by
  obtain ⟨m, hm⟩ := Refines_indexOfPuts puts
  exact hm.sorted

theorem foldl_Put_keys (puts : List (Bytes × LogRecordPos)) :
    ∀ (bt : BTree) (k : Bytes),
      k ∈ (puts.foldl (fun bt e => (bt.Put e.1 e.2).1) bt).tree.map (fun x => x.key) ↔
        k ∈ bt.tree.map (fun x => x.key) ∨ k ∈ puts.map (fun e => e.1) := by
  induction puts with
  | nil => intro bt k; simp
  | cons e rest ih =>
    intro bt k
    simp only [List.foldl_cons, List.map_cons, List.mem_cons]
    rw [ih]
    have := treeReplaceOrInsert_keys { key := e.1, pos := e.2 } bt.tree k
    simp only [BTree.Put]
    rw [this]
    tauto

theorem indexOfPuts_keys (puts : List (Bytes × LogRecordPos)) (k : Bytes) :
    k ∈ (indexOfPuts puts).tree.map (fun x => x.key) ↔ k ∈ puts.map (fun e => e.1) := by
  unfold indexOfPuts
  rw [foldl_Put_keys]
  simp [NewTree]

theorem sorted_keys (bt : BTree) (h : bt.Sorted) :
    (bt.tree.map (fun x => x.key)).Pairwise (fun a b => bytesCompare a b = .lt) := by
  rw [List.pairwise_map]
  exact h.imp (fun hab => by simpa [Item.Less] using hab)

theorem nil_prefix_filter (l : List Bytes) :
    l.filter (fun k => decide (([] : Bytes) <+: k)) = l := by
  rw [List.filter_eq_self]
  intro k _
  simp

/-! ## Claims C12 and C13 -/

/-- C12: iteration order.  For every list of puts made on an empty index, in
any order and with any positions, and every engine with that index: the loop
`Rewind; while Valid: Key, Next` of a forward iterator without prefix visits the
keys put, each once, in strictly ascending byte order, and the same loop of a
reverse iterator visits them in the opposite, strictly descending order. -/
theorem C12_iteration_order (db : DB) (puts : List (Bytes × LogRecordPos)) :
    ∃ keys : List Bytes,
      (({ db with index := indexOfPuts puts } : DB).NewIterator
        { Prefix := [], Reverse := false }).visited = .ok keys ∧
      (({ db with index := indexOfPuts puts } : DB).NewIterator
        { Prefix := [], Reverse := true }).visited = .ok keys.reverse ∧
      keys.Pairwise (fun a b => bytesCompare a b = .lt) ∧
      keys.reverse.Pairwise (fun a b => bytesCompare a b = .gt) ∧
      keys.Nodup ∧
      ∀ k, k ∈ keys ↔ k ∈ puts.map (fun e => e.1) := by
  have hs := sorted_keys _ (indexOfPuts_sorted puts)
  refine ⟨(indexOfPuts puts).tree.map (fun x => x.key), ?_, ?_, hs, ?_, ?_, indexOfPuts_keys puts⟩
  · rw [Iterator_visited_eq]
    simp only [DB.NewIterator, BTree.Iterator, NewBTreeIterator, Bool.false_eq_true, if_false,
      nil_prefix_filter]
  · rw [Iterator_visited_eq]
    simp only [DB.NewIterator, BTree.Iterator, NewBTreeIterator, if_true, nil_prefix_filter,
      List.map_reverse]
  · rw [List.pairwise_reverse]
    exact hs.imp (fun hab => (bytesCompare_swap _ _).2 hab)
  · exact hs.imp (fun hab hc => by
      rw [hc, bytesCompare_self] at hab
      cases hab)

/-- C13: the prefix filter.  For every engine, every prefix and either
direction: the loop `Rewind; while Valid: Key, Next` of the iterator with the
prefix visits exactly those keys that the iterator without prefix visits (the
keys of the index, in iteration order) and that have the prefix as a byte
prefix, in the same order. -/
theorem C13_prefix_filter (db : DB) (pfx : Bytes) (reverse : Bool) :
    ∃ keys : List Bytes,
      (db.NewIterator { Prefix := [], Reverse := reverse }).visited = .ok keys ∧
      (∀ k, k ∈ keys ↔ ∃ x ∈ db.index.tree, x.key = k) ∧
      (db.NewIterator { Prefix := pfx, Reverse := reverse }).visited =
        .ok (keys.filter (fun k => decide (pfx <+: k))) := by
  refine ⟨(db.index.Iterator reverse).values.map (fun x => x.key), ?_, ?_, ?_⟩
  · rw [Iterator_visited_eq]
    simp only [DB.NewIterator, nil_prefix_filter]
  · intro k
    cases reverse <;> simp [BTree.Iterator, NewBTreeIterator]
  · rw [Iterator_visited_eq]
    rfl

set_option maxRecDepth 100000 in
/-- The prefix `bc-` over the keys `ab-1`, `bc-1`, `bc-2`, `cd-1`, forward and
reverse, and the iteration without prefix. -/
theorem Iterator_prefix_example :
    (({ emptyDB exampleOptions with index := exampleIndex } : DB).NewIterator
      { Prefix := [98, 99, 45], Reverse := false }).visited =
        .ok [[98, 99, 45, 49], [98, 99, 45, 50]] ∧
    (({ emptyDB exampleOptions with index := exampleIndex } : DB).NewIterator
      { Prefix := [98, 99, 45], Reverse := true }).visited =
        .ok [[98, 99, 45, 50], [98, 99, 45, 49]] ∧
    (({ emptyDB exampleOptions with index := exampleIndex } : DB).NewIterator
      { Prefix := [], Reverse := false }).visited =
        .ok [[97, 98, 45, 49], [98, 99, 45, 49], [98, 99, 45, 50], [99, 100, 45, 49]] := by
  decide

end Bitcask

namespace Bitcask

/-! ## `sort.Search` and `Seek` -/

/-- The loop of `sort.Search` finds the boundary of a predicate that is false
below `r` and true from `r` on. -/
theorem sortSearchLoop_eq (f : Nat → Bool) (r n : Nat) (hlo : ∀ k, k < r → f k = false)
    (hhi : ∀ k, r ≤ k → k < n → f k = true) :
    ∀ fuel i j, i ≤ r → r ≤ j → j ≤ n → j - i ≤ fuel → sortSearchLoop f fuel i j = r := by
  intro fuel
  induction fuel with
  | zero =>
    intro i j h1 h2 _ h4
    unfold sortSearchLoop
    omega
  | succ fuel ih =>
    intro i j h1 h2 h3 h4
    unfold sortSearchLoop
    by_cases hij : i < j
    · simp only [hij, if_true]
      have hh1 : i ≤ (i + j) / 2 := by omega
      have hh2 : (i + j) / 2 < j := by omega
      cases hf : f ((i + j) / 2)
      · simp only [Bool.not_false, if_true]
        have hr : (i + j) / 2 < r := by
          by_contra hc
          have := hhi ((i + j) / 2) (by omega) (by omega)
          rw [hf] at this
          cases this
        exact ih _ _ (by omega) h2 h3 (by omega)
      · simp only [Bool.not_true, Bool.false_eq_true, if_false]
        have hr : r ≤ (i + j) / 2 := by
          by_contra hc
          have := hlo ((i + j) / 2) (by omega)
          rw [hf] at this
          cases this
        exact ih _ _ h1 hr (by omega) (by omega)
    · simp only [hij, if_false]
      omega

theorem sortSearch_append (tw dw : List Item) (Q : Item → Bool)
    (h1 : ∀ x ∈ tw, Q x = false) (h2 : ∀ x ∈ dw, Q x = true) :
    sortSearch (tw ++ dw).length
      (fun i => match (tw ++ dw)[i]? with
        | some it => Q it
        | none => false) = tw.length := by
  unfold sortSearch
  apply sortSearchLoop_eq _ tw.length (tw ++ dw).length
  · intro k hk
    have : (tw ++ dw)[k]? = some tw[k] := by
      rw [List.getElem?_append_left hk, List.getElem?_eq_getElem hk]
    simp only [this]
    exact h1 _ (List.getElem_mem hk)
  · intro k hk1 hk2
    have hk3 : k - tw.length < dw.length := by
      rw [List.length_append] at hk2
      omega
    have : (tw ++ dw)[k]? = some dw[k - tw.length] := by
      rw [List.getElem?_append_right hk1, List.getElem?_eq_getElem hk3]
    simp only [this]
    exact h2 _ (List.getElem_mem hk3)
  all_goals simp

theorem dropWhile_not_all {α : Type} (Q : α → Bool) (vs : List α)
    (hmono : vs.Pairwise (fun a b => Q a = true → Q b = true)) :
    ∀ x ∈ vs.dropWhile (fun x => !Q x), Q x = true := by
  induction vs with
  | nil => intro x hx; simp at hx
  | cons a rest ih =>
    intro x hx
    rw [List.pairwise_cons] at hmono
    cases ha : Q a
    · rw [List.dropWhile_cons_of_pos (by simp [ha])] at hx
      exact ih hmono.2 x hx
    · rw [List.dropWhile_cons_of_neg (by simp [ha])] at hx
      rcases List.mem_cons.1 hx with h | h
      · rw [h]; exact ha
      · exact hmono.1 x h ha

/-- On a list along which `Q` stays true once it is true, `sort.Search` with
the closure of `Seek` returns an index from which on exactly the items with `Q`
lie. -/
theorem sortSearch_drop (vs : List Item) (Q : Item → Bool)
    (hmono : vs.Pairwise (fun a b => Q a = true → Q b = true)) :
    vs.drop (sortSearch vs.length
      (fun i => match vs[i]? with
        | some it => Q it
        | none => false)) = vs.filter Q := by
  have hsplit := List.takeWhile_append_dropWhile (fun x => !Q x) vs
  have h1 : ∀ x ∈ vs.takeWhile (fun x => !Q x), Q x = false := by
    intro x hx
    have := List.mem_takeWhile_imp hx
    simpa using this
  have h2 := dropWhile_not_all Q vs hmono
  generalize vs.takeWhile (fun x => !Q x) = tw at hsplit h1
  generalize vs.dropWhile (fun x => !Q x) = dw at hsplit h2
  subst hsplit
  rw [sortSearch_append tw dw Q h1 h2, List.drop_left, List.filter_append]
  have e1 : tw.filter Q = [] := by
    rw [List.filter_eq_nil_iff]
    intro x hx
    simp [h1 x hx]
  have e2 : dw.filter Q = dw := by
    rw [List.filter_eq_self]
    exact h2
  rw [e1, e2, List.nil_append]

theorem Seek_forward_drop (vs : List Item) (hs : TreeSorted vs) (t : Bytes) (cur : Nat) :
    ∃ j, ({ currIndex := cur, reverse := false, values := vs } : btreeIterator).Seek t =
        { currIndex := j, reverse := false, values := vs } ∧
      vs.drop j = vs.filter (fun it => decide (bytesCompare it.key t ≠ .lt)) := by
  refine ⟨_, rfl, sortSearch_drop vs (fun it => decide (bytesCompare it.key t ≠ .lt)) ?_⟩
  · refine hs.imp ?_
    intro a b hab ha
    simp only [Item.Less, decide_eq_true_eq] at hab ha ⊢
    intro hb
    exact ha (bytesCompare_lt_trans _ _ _ hab hb)

theorem Seek_reverse_drop (vs : List Item) (hs : TreeSorted vs) (t : Bytes) (cur : Nat) :
    ∃ j, ({ currIndex := cur, reverse := true, values := vs.reverse } : btreeIterator).Seek t =
        { currIndex := j, reverse := true, values := vs.reverse } ∧
      vs.reverse.drop j = vs.reverse.filter (fun it => decide (bytesCompare it.key t ≠ .gt)) := by
  refine ⟨_, rfl, sortSearch_drop vs.reverse (fun it => decide (bytesCompare it.key t ≠ .gt)) ?_⟩
  · rw [List.pairwise_reverse]
    refine hs.imp ?_
    intro a b hab hb
    simp only [Item.Less, decide_eq_true_eq] at hab hb ⊢
    intro ha
    rw [bytesCompare_swap] at ha
    exact hb ((bytesCompare_swap _ _).2 (bytesCompare_lt_trans _ _ _ ha hab))

end Bitcask

namespace Bitcask

/-- What follows for an index iterator whose remaining keys are the keys of a
list `ks`, ordered by `R`, that satisfy `P`. -/
theorem seek_facts (bti : btreeIterator) (ks : List Bytes) (P : Bytes → Bool)
    (R : Bytes → Bytes → Prop)
    (hV : (bti.values.drop bti.currIndex).map (fun it => it.key) = ks.filter P)
    (hs : ks.Pairwise R) :
    (bti.Valid = true ↔ ∃ k ∈ ks, P k = true) ∧
    (bti.Valid = true → ∃ k0, bti.Key = .ok k0 ∧ k0 ∈ ks ∧ P k0 = true ∧
      ∀ k ∈ ks, P k = true → k0 = k ∨ R k0 k) ∧
    bti.visitedFromHere = .ok (ks.filter P) := by
  have hkey : bti.Valid = true → ∃ rest, bti.Key = .ok (bti.values[bti.currIndex]?.getD ⟨[], ⟨0, 0, 0⟩⟩).key ∧
      ks.filter P = (bti.values[bti.currIndex]?.getD ⟨[], ⟨0, 0, 0⟩⟩).key :: rest := by
    intro hv
    have hlt := (btreeIterator_Valid_iff bti).1 hv
    refine ⟨(bti.values.drop (bti.currIndex + 1)).map (fun it => it.key), ?_, ?_⟩
    · rw [btreeIterator_Key_of_lt bti hlt, List.getElem?_eq_getElem hlt]
      rfl
    · rw [← hV, List.drop_eq_getElem_cons hlt, List.getElem?_eq_getElem hlt]
      rfl
  have hvalid : bti.Valid = true ↔ ∃ k ∈ ks, P k = true := by
    constructor
    · intro hv
      obtain ⟨rest, _, h2⟩ := hkey hv
      have hm : (bti.values[bti.currIndex]?.getD ⟨[], ⟨0, 0, 0⟩⟩).key ∈ ks.filter P := by
        rw [h2]; exact List.mem_cons_self _ _
      rw [List.mem_filter] at hm
      exact ⟨_, hm.1, hm.2⟩
    · rintro ⟨k, hk1, hk2⟩
      rw [btreeIterator_Valid_iff]
      by_contra hc
      have hm : k ∈ ks.filter P := List.mem_filter.2 ⟨hk1, hk2⟩
      rw [← hV, List.drop_of_length_le (by omega)] at hm
      simp at hm
  refine ⟨hvalid, ?_, ?_⟩
  · intro hv
    obtain ⟨rest, h1, h2⟩ := hkey hv
    have hm : (bti.values[bti.currIndex]?.getD ⟨[], ⟨0, 0, 0⟩⟩).key ∈ ks.filter P := by
      rw [h2]; exact List.mem_cons_self _ _
    rw [List.mem_filter] at hm
    refine ⟨_, h1, hm.1, hm.2, ?_⟩
    intro k hk1 hk2
    have hm2 : k ∈ ks.filter P := List.mem_filter.2 ⟨hk1, hk2⟩
    have hp : (ks.filter P).Pairwise R := hs.sublist (List.filter_sublist ks)
    rw [h2] at hm2 hp
    rcases List.mem_cons.1 hm2 with h | h
    · exact Or.inl h.symm
    · exact Or.inr ((List.pairwise_cons.1 hp).1 k h)
  · rw [btreeIterator_visitedFromHere_eq, hV]

theorem filter_suffix_of_drop {α β : Type} (f : α → β) (vs : List α) (j : Nat) (P : β → Bool)
    (h : (vs.drop j).map f = (vs.map f).filter P) : (vs.map f).filter P <:+ vs.map f := by
  rw [← h, List.map_drop]
  exact List.drop_suffix _ _

/-! ## Claim C14 -/

/-- C14: Seek on the ordered-tree iterator.  For every list of puts made on an
empty index and every target `t`, with `keys` the keys of the index in ascending
order (what the forward iterator visits, the reverse iterator visiting the
reversed list): after `Seek t` the forward iterator is valid exactly when some
indexed key is not below `t`; when it is valid its key is an indexed key not
below `t` that no other such key is below (the smallest key at or above `t`);
and the loop `while Valid: Key, Next` from there visits exactly the keys not
below `t`, which are a final segment of `keys`.  After `Seek t` the reverse
iterator is valid exactly when some indexed key is not above `t`; when it is
valid its key is the largest indexed key at or below `t`; and the loop from
there visits exactly the keys not above `t`, a final segment of the reversed
list. -/
theorem C14_seek (puts : List (Bytes × LogRecordPos)) (t : Bytes) :
    ∃ keys : List Bytes,
      ((indexOfPuts puts).Iterator false).visitedFromHere = .ok keys ∧
      ((indexOfPuts puts).Iterator true).visitedFromHere = .ok keys.reverse ∧
      (∀ k, k ∈ keys ↔ k ∈ puts.map (fun e => e.1)) ∧
      keys.Pairwise (fun a b => bytesCompare a b = .lt) ∧
      ((((indexOfPuts puts).Iterator false).Seek t).Valid = true ↔
        ∃ k ∈ puts.map (fun e => e.1), bytesCompare k t ≠ .lt) ∧
      ((((indexOfPuts puts).Iterator false).Seek t).Valid = true →
        ∃ k0, (((indexOfPuts puts).Iterator false).Seek t).Key = .ok k0 ∧
          k0 ∈ puts.map (fun e => e.1) ∧ bytesCompare k0 t ≠ .lt ∧
          ∀ k ∈ puts.map (fun e => e.1), bytesCompare k t ≠ .lt → bytesCompare k0 k ≠ .gt) ∧
      (((indexOfPuts puts).Iterator false).Seek t).visitedFromHere =
        .ok (keys.filter (fun k => decide (bytesCompare k t ≠ .lt))) ∧
      keys.filter (fun k => decide (bytesCompare k t ≠ .lt)) <:+ keys ∧
      ((((indexOfPuts puts).Iterator true).Seek t).Valid = true ↔
        ∃ k ∈ puts.map (fun e => e.1), bytesCompare k t ≠ .gt) ∧
      ((((indexOfPuts puts).Iterator true).Seek t).Valid = true →
        ∃ k0, (((indexOfPuts puts).Iterator true).Seek t).Key = .ok k0 ∧
          k0 ∈ puts.map (fun e => e.1) ∧ bytesCompare k0 t ≠ .gt ∧
          ∀ k ∈ puts.map (fun e => e.1), bytesCompare k t ≠ .gt → bytesCompare k0 k ≠ .lt) ∧
      (((indexOfPuts puts).Iterator true).Seek t).visitedFromHere =
        .ok (keys.reverse.filter (fun k => decide (bytesCompare k t ≠ .gt))) ∧
      keys.reverse.filter (fun k => decide (bytesCompare k t ≠ .gt)) <:+ keys.reverse := by
  have hsorted : TreeSorted (indexOfPuts puts).tree := indexOfPuts_sorted puts
  have hs := sorted_keys _ (indexOfPuts_sorted puts)
  have hmem := indexOfPuts_keys puts
  have hF0 : (indexOfPuts puts).Iterator false =
      { currIndex := 0, reverse := false, values := (indexOfPuts puts).tree } := by
    simp [BTree.Iterator, NewBTreeIterator]
  have hR0 : (indexOfPuts puts).Iterator true =
      { currIndex := 0, reverse := true, values := (indexOfPuts puts).tree.reverse } := by
    simp [BTree.Iterator, NewBTreeIterator]
  rw [hF0, hR0]
  generalize (indexOfPuts puts).tree = vs at hsorted hs hmem
  obtain ⟨jf, hF, hdF⟩ := Seek_forward_drop vs hsorted t 0
  obtain ⟨jr, hR, hdR⟩ := Seek_reverse_drop vs hsorted t 0
  rw [hF, hR]
  have hVF : (vs.drop jf).map (fun it => it.key) =
      (vs.map (fun it => it.key)).filter (fun k => decide (bytesCompare k t ≠ .lt)) := by
    rw [hdF, List.filter_map]
    rfl
  have hVR : (vs.reverse.drop jr).map (fun it => it.key) =
      (vs.map (fun it => it.key)).reverse.filter (fun k => decide (bytesCompare k t ≠ .gt)) := by
    rw [hdR, ← List.map_reverse, List.filter_map]
    rfl
  have hsr : (vs.map (fun it => it.key)).reverse.Pairwise (fun a b => bytesCompare a b = .gt) := by
    rw [List.pairwise_reverse]
    exact hs.imp (fun hab => (bytesCompare_swap _ _).2 hab)
  obtain ⟨f1, f2, f3⟩ := seek_facts { currIndex := jf, reverse := false, values := vs }
    (vs.map (fun it => it.key)) (fun k => decide (bytesCompare k t ≠ .lt))
    (fun a b => bytesCompare a b = .lt) hVF hs
  obtain ⟨r1, r2, r3⟩ := seek_facts { currIndex := jr, reverse := true, values := vs.reverse }
    (vs.map (fun it => it.key)).reverse (fun k => decide (bytesCompare k t ≠ .gt))
    (fun a b => bytesCompare a b = .gt) hVR hsr
  refine ⟨vs.map (fun it => it.key), ?_, ?_, hmem, hs, ?_, ?_, f3, ?_, ?_, ?_, r3, ?_⟩
  · rw [btreeIterator_visitedFromHere_eq]
    rfl
  · rw [btreeIterator_visitedFromHere_eq, ← List.map_reverse]
    rfl
  · rw [f1]
    constructor
    · rintro ⟨k, hk1, hk2⟩
      exact ⟨k, (hmem k).1 hk1, by simpa using hk2⟩
    · rintro ⟨k, hk1, hk2⟩
      exact ⟨k, (hmem k).2 hk1, by simpa using hk2⟩
  · intro hv
    obtain ⟨k0, h1, h2, h3, h4⟩ := f2 hv
    refine ⟨k0, h1, (hmem k0).1 h2, by simpa using h3, ?_⟩
    intro k hk1 hk2
    rcases h4 k ((hmem k).2 hk1) (by simpa using hk2) with h | h
    · rw [h, bytesCompare_self]
      simp
    · rw [h]
      simp
  · exact filter_suffix_of_drop _ vs jf _ hVF
  · rw [r1]
    constructor
    · rintro ⟨k, hk1, hk2⟩
      exact ⟨k, (hmem k).1 (List.mem_reverse.1 hk1), by simpa using hk2⟩
    · rintro ⟨k, hk1, hk2⟩
      exact ⟨k, List.mem_reverse.2 ((hmem k).2 hk1), by simpa using hk2⟩
  · intro hv
    obtain ⟨k0, h1, h2, h3, h4⟩ := r2 hv
    refine ⟨k0, h1, (hmem k0).1 (List.mem_reverse.1 h2), by simpa using h3, ?_⟩
    intro k hk1 hk2
    rcases h4 k (List.mem_reverse.2 ((hmem k).2 hk1)) (by simpa using hk2) with h | h
    · rw [h, bytesCompare_self]
      simp
    · rw [h]
      simp
  · have := filter_suffix_of_drop (fun it : Item => it.key) vs.reverse jr _
      (by rw [List.map_reverse]; exact hVR)
    rw [List.map_reverse] at this
    exact this

set_option maxRecDepth 100000 in
/-- Seek on the keys `ab-1`, `bc-1`, `bc-2`, `cd-1` with the target `bc-15`,
which is not a key: the forward iterator stands on `bc-2` and goes on to `cd-1`,
the reverse iterator stands on `bc-1` and goes on to `ab-1`; with the target
`zz` the forward iterator is invalid. -/
theorem Seek_example :
    ((exampleIndex.Iterator false).Seek [98, 99, 45, 49, 53]).Key = .ok [98, 99, 45, 50] ∧
    ((exampleIndex.Iterator false).Seek [98, 99, 45, 49, 53]).visitedFromHere =
      .ok [[98, 99, 45, 50], [99, 100, 45, 49]] ∧
    ((exampleIndex.Iterator true).Seek [98, 99, 45, 49, 53]).Key = .ok [98, 99, 45, 49] ∧
    ((exampleIndex.Iterator true).Seek [98, 99, 45, 49, 53]).visitedFromHere =
      .ok [[98, 99, 45, 49], [97, 98, 45, 49]] ∧
    ((exampleIndex.Iterator false).Seek [122, 122]).Valid = false := by
  decide

end Bitcask

namespace Bitcask

/-! ## Counting data files -/

theorem encodedSize_of_encode (r : LogRecord) (enc : Bytes) (n : Int)
    (h : EncodeLogRecord r = .ok (enc, n)) : encodedSize r = enc.length := by
  unfold encodedSize
  rw [h]

/-- One successful `Put` moves the number of data files and the length of the
active file as `packStep` does. -/
theorem put_packStep (db : DB) (hf : db.FilesInv) (st : Nat × Int)
    (hc : (db.activeFile = none ∧ st.1 = 0) ∨
      (∃ a, db.activeFile = some a ∧ db.olderFile.length + 1 = st.1 ∧ st.2 = a.WriteOff))
    (e : Bytes × Bytes) (db2 : DB) (h : db.Put e.1 e.2 = (.ok (), db2)) :
    db2.FilesInv ∧ db2.options = db.options ∧
      ∃ a, db2.activeFile = some a ∧
        db2.olderFile.length + 1 =
          (packStep db.options.DataFileSize st (encodedSize (putRecord e))).1 ∧
        (packStep db.options.DataFileSize st (encodedSize (putRecord e))).2 = a.WriteOff := by
  obtain ⟨_, pos, db1, reclaim, hap, hdb2⟩ := Put_ok db e.1 e.2 db2 h
  have happ := Appended_of_appendLogRecord db hf _ pos db1 hap
  obtain ⟨enc, n, henc⟩ := encode_ok_of_appendLogRecord db _ pos db1 hap
  have hn : n = enc.length := ((EncodeLogRecord_ok_iff _ enc n).1 henc).2.2
  have hsize : encodedSize (putRecord e) = enc.length := by
    unfold putRecord
    rw [logRecordKeyWithSeq_zero]
    exact encodedSize_of_encode _ enc n henc
  rw [appendLogRecord_eq db hf _ enc n henc] at hap
  have hf2 : db2.FilesInv := by
    rw [hdb2]
    exact FilesInv_congr db1 _ rfl rfl happ.files
  have hopt : db2.options = db.options := by
    rw [hdb2]
    exact happ.options_eq
  refine ⟨hf2, hopt, ?_⟩
  rw [hsize]
  subst hn
  rcases hc with ⟨hact, hst⟩ | ⟨a, hact, hlen, hw⟩
  · have hol := FilesInv.older_nil db hf hact
    have hwf : db.writeFile = { FileId := 0, WriteOff := 0, IoManager := [] } := by
      unfold DB.writeFile
      rw [hact]
      rfl
    rw [hwf] at hap
    simp only [packStep, hst, if_true]
    by_cases hrot : (0 : Int) + (enc.length : Int) > db.options.DataFileSize
    · simp only [hrot, if_true, Prod.mk.injEq, Except.ok.injEq] at hap ⊢
      obtain ⟨_, hdb1⟩ := hap
      subst hdb1
      subst hdb2
      refine ⟨_, rfl, ?_, rfl⟩
      simp [hol, mapSet, mapDelete]
    · simp only [hrot, if_false, Prod.mk.injEq, Except.ok.injEq] at hap ⊢
      obtain ⟨_, hdb1⟩ := hap
      subst hdb1
      subst hdb2
      refine ⟨_, rfl, ?_, ?_⟩
      · simp [hol]
      · simp [DataFile.Write]
  · have hwf : db.writeFile = a := by
      unfold DB.writeFile
      rw [hact]
      rfl
    rw [hwf] at hap
    have hst : ¬ st.1 = 0 := by omega
    simp only [packStep, hst, if_false]
    rw [hw, ← hlen]
    by_cases hrot : a.WriteOff + (enc.length : Int) > db.options.DataFileSize
    · simp only [hrot, if_true, Prod.mk.injEq, Except.ok.injEq] at hap ⊢
      obtain ⟨_, hdb1⟩ := hap
      subst hdb1
      subst hdb2
      refine ⟨_, rfl, ?_, rfl⟩
      have hdel : mapDelete db.olderFile a.FileId = db.olderFile := by
        apply mapDelete_of_not_mem
        intro e2 he2
        obtain ⟨_, a2, ha2, hlt⟩ := hf.older e2.1 e2.2 he2
        rw [hact] at ha2
        injection ha2 with ha2
        subst ha2
        omega
      simp [mapSet, hdel]
    · simp only [hrot, if_false, Prod.mk.injEq, Except.ok.injEq] at hap ⊢
      obtain ⟨_, hdb1⟩ := hap
      subst hdb1
      subst hdb2
      refine ⟨_, rfl, rfl, ?_⟩
      simp [DataFile.Write]

/-- A sequence of successful puts moves the number of data files and the length
of the active file as the fold of `packStep` over the lengths of the records. -/
theorem putAll_packStep (puts : List (Bytes × Bytes)) :
    ∀ (db : DB) (st : Nat × Int), db.FilesInv →
      ((db.activeFile = none ∧ st.1 = 0) ∨
        (∃ a, db.activeFile = some a ∧ db.olderFile.length + 1 = st.1 ∧ st.2 = a.WriteOff)) →
      ∀ db2, DB.putAll puts db = some db2 →
        db2.FilesInv ∧
        ((db2.activeFile = none ∧
            ((puts.map (fun e => encodedSize (putRecord e))).foldl
              (packStep db.options.DataFileSize) st).1 = 0) ∨
          (∃ a, db2.activeFile = some a ∧
            db2.olderFile.length + 1 =
              ((puts.map (fun e => encodedSize (putRecord e))).foldl
                (packStep db.options.DataFileSize) st).1 ∧
            ((puts.map (fun e => encodedSize (putRecord e))).foldl
              (packStep db.options.DataFileSize) st).2 = a.WriteOff)) := by
  induction puts with
  | nil =>
    intro db st hf hc db2 h
    simp only [DB.putAll, Option.some.injEq] at h
    subst h
    exact ⟨hf, hc⟩
  | cons e rest ih =>
    intro db st hf hc db2 h
    unfold DB.putAll at h
    cases hput : db.Put e.1 e.2 with
    | mk res db1 =>
      rw [hput] at h
      cases res with
      | error err => simp at h
      | ok u =>
        simp only at h
        obtain ⟨hf1, hopt, hc1⟩ := put_packStep db hf st hc e db1 hput
        have := ih db1 _ hf1 (Or.inr hc1) db2 h
        rw [hopt] at this
        exact this

/-- The number of data files is the first component of the state `packStep`
keeps. -/
theorem DataFileNum_of_state (db : DB) (hf : db.FilesInv) (st : Nat × Int)
    (hc : (db.activeFile = none ∧ st.1 = 0) ∨
      (∃ a, db.activeFile = some a ∧ db.olderFile.length + 1 = st.1 ∧ st.2 = a.WriteOff)) :
    db.DataFileNum = st.1 := by
  unfold DB.DataFileNum
  rcases hc with ⟨hact, hst⟩ | ⟨a, hact, hlen, _⟩
  · rw [FilesInv.older_nil db hf hact, hact, hst]
    rfl
  · rw [hact, ← hlen]
    rfl

/-- When the record is not longer than `F`, `packStep` keeps the bounds: the
bytes written so far fit into the full files and the active file, the active
file is not longer than `F`, and there are not more files than records. -/
theorem packStep_bounds (F : Int) (st : Nat × Int) (B k s : Nat) (hs : (s : Int) ≤ F)
    (h : (st.1 = 0 ∧ B = 0 ∧ k = 0) ∨
      (∃ m : Nat, st.1 = m + 1 ∧ (B : Int) ≤ m * F + st.2 ∧ 0 ≤ st.2 ∧ st.2 ≤ F ∧ st.1 ≤ k)) :
    ∃ m : Nat, (packStep F st s).1 = m + 1 ∧ ((B + s : Nat) : Int) ≤ m * F + (packStep F st s).2 ∧
      0 ≤ (packStep F st s).2 ∧ (packStep F st s).2 ≤ F ∧ (packStep F st s).1 ≤ k + 1 := by
  rcases h with ⟨h1, h2, h3⟩ | ⟨m, h1, h2, h3, h4, h5⟩
  · have hno : ¬ ((0 : Int) + (s : Int) > F) := by omega
    simp only [packStep, h1, if_true, hno, if_false]
    refine ⟨0, rfl, ?_, ?_, ?_, ?_⟩
    · subst h2
      push_cast
      omega
    · omega
    · omega
    · omega
  · have hne : ¬ st.1 = 0 := by omega
    simp only [packStep, hne, if_false]
    by_cases hrot : st.2 + (s : Int) > F
    · simp only [hrot, if_true]
      refine ⟨m + 1, by omega, ?_, by omega, hs, by omega⟩
      push_cast
      linarith
    · simp only [hrot, if_false]
      refine ⟨m, h1, ?_, by omega, by omega, by omega⟩
      push_cast
      linarith

theorem packFiles_bounds_aux (F : Int) (sizes : List Nat) :
    (∀ s ∈ sizes, (s : Int) ≤ F) → ∀ (st : Nat × Int) (B k : Nat),
      ((st.1 = 0 ∧ B = 0 ∧ k = 0) ∨
        (∃ m : Nat, st.1 = m + 1 ∧ (B : Int) ≤ m * F + st.2 ∧ 0 ≤ st.2 ∧ st.2 ≤ F ∧ st.1 ≤ k)) →
      ((B + sizes.sum : Nat) : Int) ≤ ((sizes.foldl (packStep F) st).1 : Int) * F ∧
        (sizes.foldl (packStep F) st).1 ≤ k + sizes.length := by
  induction sizes with
  | nil =>
    intro _ st B k h
    simp only [List.sum_nil, List.foldl_nil, List.length_nil, Nat.add_zero]
    rcases h with ⟨h1, h2, h3⟩ | ⟨m, h1, h2, h3, h4, h5⟩
    · rw [h1, h2, h3]
      simp
    · refine ⟨?_, h5⟩
      rw [h1]
      push_cast
      linarith
  | cons s rest ih =>
    intro hfit st B k h
    have hs : (s : Int) ≤ F := hfit s (List.mem_cons_self _ _)
    have hrest : ∀ x ∈ rest, (x : Int) ≤ F := fun x hx => hfit x (List.mem_cons_of_mem _ hx)
    have hstep := packStep_bounds F st B k s hs h
    have := ih hrest (packStep F st s) (B + s) (k + 1) (Or.inr hstep)
    simp only [List.sum_cons, List.foldl_cons, List.length_cons]
    rw [show B + (s + rest.sum) = B + s + rest.sum by omega,
      show k + (rest.length + 1) = k + 1 + rest.length by omega]
    exact this

/-- When no record is longer than `F`, the records fit into the files counted,
and there are at most as many files as records. -/
theorem packFiles_bounds (F : Int) (sizes : List Nat) (hfit : ∀ s ∈ sizes, (s : Int) ≤ F) :
    (sizes.sum : Int) ≤ ((packFiles F sizes).1 : Int) * F ∧ (packFiles F sizes).1 ≤ sizes.length := by
  have := packFiles_bounds_aux F sizes hfit (0, 0) 0 0 (Or.inl ⟨rfl, rfl, rfl⟩)
  simpa [packFiles] using this

theorem ceilDiv_le (B F n : Nat) (h : B ≤ n * F) : ceilDiv B F ≤ n := by
  unfold ceilDiv
  rcases Nat.eq_zero_or_pos F with hF | hF
  · subst hF
    simp
  · apply Nat.le_of_lt_succ
    rw [Nat.div_lt_iff_lt_mul hF, Nat.succ_mul]
    omega

theorem ceilDiv_le_of_int (B n : Nat) (F : Int) (h : (B : Int) ≤ (n : Int) * F) :
    ceilDiv B F.toNat ≤ n := by
  by_cases hF : 0 ≤ F
  · apply ceilDiv_le
    obtain ⟨f, rfl⟩ := Int.eq_ofNat_of_zero_le hF
    simp only [Int.toNat_ofNat]
    exact_mod_cast h
  · have h0 : F.toNat = 0 := Int.toNat_eq_zero.2 (by omega)
    rw [h0]
    unfold ceilDiv
    simp

end Bitcask

namespace Bitcask

/-! ## Claim C19 -/

set_option maxRecDepth 100000 in
/-- C19, the claim as stated fails: with `DataFileSize = 64`, three puts of the
key `k` with a value of 33 bytes on an engine opened on an empty directory
append three records of 42 bytes each, 126 bytes in all, whose ceiling of
`126 / 64` is 2; but no two of the records fit into one file, and the engine
holds three data files. -/
theorem C19_counterexample :
    OpenDB exampleOptions Directory.empty none = .ok (emptyDB exampleOptions) ∧
    exampleOptions.DataFileSize = 64 ∧
    (∀ e ∈ exampleWidePuts, encodedSize (putRecord e) = 42) ∧
    totalBytes exampleWidePuts = 126 ∧
    ceilDiv (totalBytes exampleWidePuts) 64 = 2 ∧
    (DB.putAll exampleWidePuts (emptyDB exampleOptions)).map DB.DataFileNum = some 3 := by
  refine ⟨OpenDB_empty_eq exampleOptions (by decide) (Or.inl rfl), rfl, ?_, ?_, ?_, ?_⟩
  · decide
  · decide
  · decide
  · decide

/-- C19, amended: with `DataFileSize = F`, after successful puts on an engine
opened on an empty directory, the number of data files (older files plus the
active file) is the number that filling the files in order gives, where a
record that would make the active file longer than `F` starts a new file and no
record is split (`packFiles`); and when none of the `k` encoded records is
longer than `F`, with `B` their total length, the number of data files is at
least the ceiling of `B / F` and at most `k`. -/
theorem C19_file_count (opts : Options) (db0 db : DB) (puts : List (Bytes × Bytes))
    (hopen : OpenDB opts Directory.empty none = .ok db0)
    (hrun : DB.putAll puts db0 = some db) :
    db.DataFileNum =
      (packFiles opts.DataFileSize (puts.map (fun e => encodedSize (putRecord e)))).1 ∧
    ((∀ e ∈ puts, (encodedSize (putRecord e) : Int) ≤ opts.DataFileSize) →
      ceilDiv (totalBytes puts) opts.DataFileSize.toNat ≤ db.DataFileNum ∧
      db.DataFileNum ≤ puts.length) := by
  obtain ⟨_, hact, hold, _, _, hopt, _⟩ := OpenDB_empty opts db0 hopen
  have hf0 : db0.FilesInv := (Inv_opened opts db0 hopen).files
  obtain ⟨hf, hc⟩ := putAll_packStep puts db0 (0, 0) hf0 (Or.inl ⟨hact, rfl⟩) db hrun
  rw [hopt] at hc
  have hnum : db.DataFileNum =
      (packFiles opts.DataFileSize (puts.map (fun e => encodedSize (putRecord e)))).1 :=
    DataFileNum_of_state db hf _ hc
  refine ⟨hnum, ?_⟩
  intro hfit
  have hfit2 : ∀ s ∈ puts.map (fun e => encodedSize (putRecord e)), (s : Int) ≤ opts.DataFileSize := by
    intro s hs
    obtain ⟨e, he, rfl⟩ := List.mem_map.1 hs
    exact hfit e he
  obtain ⟨h1, h2⟩ := packFiles_bounds opts.DataFileSize _ hfit2
  rw [hnum]
  constructor
  · exact ceilDiv_le_of_int _ _ _ h1
  · simpa using h2

set_option maxRecDepth 100000 in
/-- With `DataFileSize = 64`, three puts of the key `k` with a value of 20
bytes append records of 29 bytes each, 87 bytes in all, and leave two data
files. -/
theorem C19_file_count_witness :
    OpenDB exampleOptions Directory.empty none = .ok (emptyDB exampleOptions) ∧
    ∃ db, DB.putAll exampleThreePuts (emptyDB exampleOptions) = some db ∧
      (∀ e ∈ exampleThreePuts, encodedSize (putRecord e) = 29) ∧
      totalBytes exampleThreePuts = 87 ∧
      ceilDiv (totalBytes exampleThreePuts) exampleOptions.DataFileSize.toNat = 2 ∧
      db.DataFileNum = 2 ∧
      ceilDiv (totalBytes exampleThreePuts) exampleOptions.DataFileSize.toNat ≤ db.DataFileNum ∧
      db.DataFileNum ≤ exampleThreePuts.length := by
  have hopen := OpenDB_empty_eq exampleOptions (by decide) (Or.inl rfl)
  have hsome : (DB.putAll exampleThreePuts (emptyDB exampleOptions)).isSome = true := by decide
  obtain ⟨db, hdb⟩ := Option.isSome_iff_exists.1 hsome
  have h := C19_file_count exampleOptions _ db exampleThreePuts hopen hdb
  have hfit : ∀ e ∈ exampleThreePuts,
      (encodedSize (putRecord e) : Int) ≤ exampleOptions.DataFileSize := by decide
  have hpack : (packFiles exampleOptions.DataFileSize
      (exampleThreePuts.map (fun e => encodedSize (putRecord e)))).1 = 2 := by decide
  exact ⟨hopen, db, hdb, by decide, by decide, by decide, h.1.trans hpack, (h.2 hfit).1,
    (h.2 hfit).2⟩

end Bitcask

namespace Bitcask

/-! ## Claims C21, C26, C28, C30 -/

set_option maxRecDepth 100000 in
/-- C21, the failing run: `Put("a", "1"); Delete("a")` on the engine opened on
an empty directory, then `Close` and `OpenDB`.  Before `Close` the index is empty
and `KeyNum` is 0.  After `OpenDB` the index holds `"a"` again, at the place of
the tombstone (file 0, offset 10, a record of type `Deleted`): `KeyNum` is 1 and
the iterator visits `"a"`, while `Get` answers `KeyNotFound`. -/
theorem C21_replay_indexes_tombstones :
    exampleDeleted.index.Get [97] = none ∧
    exampleDeleted.Stat.KeyNum = 0 ∧
    (exampleDeleted.NewIterator { Prefix := [], Reverse := false }).visited = .ok [] ∧
    (exampleDeleted.Close).1 = .ok () ∧
    (OpenDB exampleOptions (exampleDeleted.Close).2 none).map (fun db => db.index.Get [97]) =
      .ok (some { Fid := 0, Offset := 10, Size := 9 }) ∧
    (OpenDB exampleOptions (exampleDeleted.Close).2 none).map (fun db => db.Stat.KeyNum) = .ok 1 ∧
    (OpenDB exampleOptions (exampleDeleted.Close).2 none).map
        (fun db => (db.NewIterator { Prefix := [], Reverse := false }).visited) = .ok (.ok [[97]]) ∧
    (OpenDB exampleOptions (exampleDeleted.Close).2 none).map (fun db => db.Get [97]) =
      .ok (.error .ErrKeyNotFound) ∧
    (OpenDB exampleOptions (exampleDeleted.Close).2 none).map
        (fun db => (db.fileOf 0).map (fun df => df.ReadLogRecord 10)) =
      .ok (some (.ok ({ Key := [0, 97], Value := [], Typ := LogRecordDeleted }, 9))) := by
  decide

set_option maxRecDepth 100000 in
/-- C26, the failing call: on the engine that holds `"a"` and `"b"`, `ListKeys`
returns two entries, the first `"b"` and the second nil; `"a"` is missing. -/
theorem C26_ListKeys_keeps_one_key :
    (exampleDB2.NewIterator { Prefix := [], Reverse := false }).visited = .ok [[97], [98]] ∧
    exampleDB2.ListKeys = .ok [[98], []] := by
  decide

/-- C28: `NewIndexer` returns an empty ordered tree for `BTree` and an empty
radix tree for `ART`, and on both `Put(k, p)` followed by `Get(k)` returns `p`;
for `BPLusTree` it returns the nil interface value, on which `Put` is a run-time
panic. -/
theorem C28_NewIndexer_BPTree_is_nil (k : Bytes) (p : LogRecordPos) :
    NewIndexer IndexerType.BTree = .ok (some (.btree NewTree)) ∧
    (Indexer.Put (some (.btree NewTree)) k p).map (fun r => Indexer.Get r.1 k) = .ok (.ok (some p)) ∧
    NewIndexer IndexerType.ART = .ok (some (.art NewART)) ∧
    (Indexer.Put (some (.art NewART)) k p).map (fun r => Indexer.Get r.1 k) = .ok (.ok (some p)) ∧
    NewIndexer IndexerType.BPLusTree = .ok none ∧
    Indexer.Put none k p = .error .Panic ∧
    Indexer.Get none k = .error .Panic := by
  have hl : ∀ p1 p2 : LogRecordPos, (Item.mk k p1).Less (Item.mk k p2) = false := by
    intro p1 p2
    simp [Item.Less, bytesCompare_self]
  refine ⟨rfl, ?_, rfl, ?_, rfl, rfl, rfl⟩
  · simp [Indexer.Put, Indexer.Get, Except.map, BTree.Put, BTree.Get, NewTree,
      treeReplaceOrInsert, treeGet, hl]
  · simp [Indexer.Put, Indexer.Get, Except.map, AdaptiveRadixTree.Put, AdaptiveRadixTree.Get,
      NewART, treeReplaceOrInsert, treeGet, hl]

set_option maxRecDepth 100000 in
/-- C30, the failing run: a first session commits one batch (counter 1) and
closes, which leaves the record of `1` in `seq-no`; the directory is opened
again (the counter is 1), a second batch is committed (counter 2), and `Close`
appends the record of `2`: `seq-no` now holds two records, and `loadSeqNo`, which
reads the record at offset 0, sets the counter to 1. -/
theorem C30_seq_no_file_keeps_stale_record :
    exampleFirstCommit.1 = .ok () ∧ exampleFirstCommit.2.db.seqNo = 1 ∧
    (exampleFirstCommit.2.db.Close).1 = .ok () ∧
    (exampleFirstCommit.2.db.Close).2.seqNo =
      some [74, 72, 143, 183, 0, 12, 2, 115, 101, 113, 46, 110, 111, 49] ∧
    OpenDB exampleOptions (exampleFirstCommit.2.db.Close).2 none = .ok exampleReopened ∧
    exampleReopened.seqNo = 1 ∧
    exampleThirdCommit.1 = .ok () ∧ exampleThirdCommit.2.db.seqNo = 2 ∧
    (exampleThirdCommit.2.db.Close).1 = .ok () ∧
    (exampleThirdCommit.2.db.Close).2.seqNo =
      some ([74, 72, 143, 183, 0, 12, 2, 115, 101, 113, 46, 110, 111, 49] ++
        [240, 25, 134, 46, 0, 12, 2, 115, 101, 113, 46, 110, 111, 50]) ∧
    EncodeLogRecord { Key := seqNoKey, Value := formatUint 1, Typ := 0 } =
      .ok ([74, 72, 143, 183, 0, 12, 2, 115, 101, 113, 46, 110, 111, 49], 14) ∧
    EncodeLogRecord { Key := seqNoKey, Value := formatUint 2, Typ := 0 } =
      .ok ([240, 25, 134, 46, 0, 12, 2, 115, 101, 113, 46, 110, 111, 50], 14) ∧
    (({ exampleThirdCommit.2.db with
        seqNoFile := (exampleThirdCommit.2.db.Close).2.seqNo } : DB).loadSeqNo).map
      (fun db => db.seqNo) = .ok 1 := by
  decide

end Bitcask

namespace Bitcask

/-! ## Claim C27 -/

end Bitcask

namespace Bitcask

/-! ## Claims C23 and C24: `Merge` -/

/-- `OpenDB` on a data directory with a merge directory that holds the
`merge-finished` marker and a hint file never returns an engine: the hint file
is moved into the data directory, and `loadIndexFromHint` fails on it. -/
theorem loadDataFile_hintIndexFile (db : DB) (dir : Directory) :
    (db.loadDataFile dir).hintIndexFile = db.hintIndexFile := by
  unfold DB.loadDataFile
  simp only
  split <;> rfl

theorem loadIndexFromHint_of_some (db : DB) (hint : Bytes) (h : db.hintIndexFile = some hint) :
    db.loadIndexFromHint = .error .ErrOS := by
  unfold DB.loadIndexFromHint
  rw [h]

theorem OpenDB_merged_fails (options : Options) (dir m : Directory)
    (hfin : m.mergeFinished.isSome = true) (hhint : m.hintIndex.isSome = true) (db : DB) :
    OpenDB options dir (some m) ≠ .ok db := by
  obtain ⟨fin, hfin⟩ := Option.isSome_iff_exists.1 hfin
  obtain ⟨hint, hhint⟩ := Option.isSome_iff_exists.1 hhint
  intro hopen
  obtain ⟨hopt, hlock, hidx⟩ := OpenDB_ok_inMemory options dir (some m) db hopen
  rw [OpenDB_eq options dir (some m) hopt hlock hidx] at hopen
  simp only [loadMergeFile, hfin, hhint] at hopen
  cases hg : getNonMergeFileId fin with
  | error e => simp [hg] at hopen
  | ok n =>
    simp only [hg] at hopen
    rw [loadIndexFromHint_of_some _ hint (by rw [loadDataFile_hintIndexFile])] at hopen
    simp at hopen

/-- A `Merge` that returns no error on an engine with an active file leaves a
merge directory with the `merge-finished` marker and a hint file. -/
theorem Merge_ok_mergeDir (db : DB) (env : MergeEnv) (mergeDir : Option Directory)
    (hact : db.activeFile.isSome = true) (h : (db.Merge env mergeDir).1 = .ok ()) :
    ∃ m, (db.Merge env mergeDir).2.2 = some m ∧ m.mergeFinished.isSome = true ∧
      m.hintIndex.isSome = true := by
  obtain ⟨active, hact⟩ := Option.isSome_iff_exists.1 hact
  revert h
  unfold DB.Merge
  simp only [hact]
  repeat' split
  all_goals first
    | (intro h; cases h; done)
    | (intro _; exact ⟨_, rfl, rfl, rfl⟩)

set_option maxRecDepth 100000 in
/-- C23, the failing run: `Put("a", "1"); Put("b", "2")` on the engine opened on
an empty directory; `Merge` (ratio test passed, disk free) returns no error and
leaves a merge directory with one data file, a hint file and the
`merge-finished` marker; `Close` returns no error; `OpenDB` on the data directory
with that merge directory fails with an operating-system error, where without
the merge directory it returns an engine that resolves both keys. -/
theorem C23_open_fails_after_merge :
    exampleDB2.Get [97] = .ok [49] ∧ exampleDB2.Get [98] = .ok [50] ∧
    (exampleDB2.Merge exampleEnv none).1 = .ok () ∧
    (exampleDB2.Merge exampleEnv none).2.2.map (fun m => m.dataFiles.map (fun e => e.1)) =
      some [0] ∧
    (exampleDB2.Merge exampleEnv none).2.2.map (fun m => m.hintIndex.isSome) = some true ∧
    (exampleDB2.Merge exampleEnv none).2.2.map (fun m => m.mergeFinished.isSome) = some true ∧
    ((exampleDB2.Merge exampleEnv none).2.1.Close).1 = .ok () ∧
    OpenDB exampleOptions ((exampleDB2.Merge exampleEnv none).2.1.Close).2
        (exampleDB2.Merge exampleEnv none).2.2 = .error .ErrOS ∧
    (OpenDB exampleOptions ((exampleDB2.Merge exampleEnv none).2.1.Close).2 none).map
        (fun db => db.Get [97]) = .ok (.ok [49]) ∧
    (OpenDB exampleOptions ((exampleDB2.Merge exampleEnv none).2.1.Close).2 none).map
        (fun db => db.Get [98]) = .ok (.ok [50]) := by
  decide

/-- C24, amended: `Merge` on an engine without active file returns no error and
changes nothing.  With an active file, `Merge` returns `ErrMergeIsProcess` when
a merge is running; otherwise `ErrMergeRatioUnreached` when the `float32`
quotient `float32(reclaimSize) / float32(totalSize)` of the reclaim counter and
the directory size is below the option `DataFileMergeRatio`; otherwise the error
of the query for the free disk space, if it fails; otherwise
`ErrNoEnoughSpaceForMerge` when the free disk space is at most the directory
size minus the reclaim counter.  In each of these cases the engine and the merge
directory are as before the call. -/
theorem C24_merge_preconditions (db : DB) (env : MergeEnv) (mergeDir : Option Directory) :
    (db.activeFile = none → db.Merge env mergeDir = (.ok (), db, mergeDir)) ∧
    (db.activeFile.isSome = true → db.isMerging = true →
      db.Merge env mergeDir = (.error .ErrMergeIsProcess, db, mergeDir)) ∧
    (db.activeFile.isSome = true → db.isMerging = false →
      ((Float32.ofInt db.reclaimSize).div (Float32.ofInt (DirSize db.directory))).lt
        db.options.DataFileMergeRatio = true →
      db.Merge env mergeDir = (.error .ErrMergeRatioUnreached, db, mergeDir)) ∧
    (∀ e, db.activeFile.isSome = true → db.isMerging = false →
      ((Float32.ofInt db.reclaimSize).div (Float32.ofInt (DirSize db.directory))).lt
        db.options.DataFileMergeRatio = false →
      env.availableDiskSize = .error e → db.Merge env mergeDir = (.error e, db, mergeDir)) ∧
    (∀ free : Nat, db.activeFile.isSome = true → db.isMerging = false →
      ((Float32.ofInt db.reclaimSize).div (Float32.ofInt (DirSize db.directory))).lt
        db.options.DataFileMergeRatio = false →
      env.availableDiskSize = .ok free →
      (free : Int) ≤ DirSize db.directory - db.reclaimSize →
      DirSize db.directory - db.reclaimSize < 2 ^ 64 →
      db.Merge env mergeDir = (.error .ErrNoEnoughSpaceForMerge, db, mergeDir)) := by
  refine ⟨?_, ?_, ?_, ?_, ?_⟩
  · intro h
    unfold DB.Merge
    rw [h]
  · intro ha hm
    obtain ⟨a, ha⟩ := Option.isSome_iff_exists.1 ha
    unfold DB.Merge
    simp only [ha, hm, if_true]
  · intro ha hm hr
    obtain ⟨a, ha⟩ := Option.isSome_iff_exists.1 ha
    unfold DB.Merge
    simp only [ha, hm, hr, Bool.false_eq_true, if_false, if_true]
  · intro e ha hm hr he
    obtain ⟨a, ha⟩ := Option.isSome_iff_exists.1 ha
    unfold DB.Merge
    simp only [ha, hm, hr, he, Bool.false_eq_true, if_false]
  · intro free ha hm hr hf hle hlt
    obtain ⟨a, ha⟩ := Option.isSome_iff_exists.1 ha
    unfold DB.Merge
    have hmod : (DirSize db.directory - db.reclaimSize) % 2 ^ 64 =
        DirSize db.directory - db.reclaimSize :=
      Int.emod_eq_of_lt (by omega) hlt
    have hge : ((DirSize db.directory - db.reclaimSize) % 2 ^ 64).toNat ≥ free := by
      rw [hmod]
      omega
    simp only [ha, hm, hr, hf, hge, Bool.false_eq_true, if_false, if_true]

set_option maxRecDepth 100000 in
/-- C24, witness: the engine without active file; the engine that holds `"a"`
(a directory of 10 bytes) while a merge is running; the same engine with a
reclaim counter of 1 and a merge ratio of one half (the quotient is about one
tenth); with a failing query for the free disk space; and with 5 bytes of free
disk. -/
theorem C24_merge_preconditions_witness :
    (emptyDB exampleOptions).Merge exampleEnv none = (.ok (), emptyDB exampleOptions, none) ∧
    ({ exampleDB1 with isMerging := true } : DB).Merge exampleEnv none =
      (.error .ErrMergeIsProcess, { exampleDB1 with isMerging := true }, none) ∧
    exampleHalfRatio.Merge exampleEnv none =
      (.error .ErrMergeRatioUnreached, exampleHalfRatio, none) ∧
    exampleDB1.Merge { availableDiskSize := .error .ErrOS } none =
      (.error .ErrOS, exampleDB1, none) ∧
    DirSize exampleDB1.directory = 10 ∧ exampleDB1.reclaimSize = 0 ∧
    exampleDB1.Merge { availableDiskSize := .ok 5 } none =
      (.error .ErrNoEnoughSpaceForMerge, exampleDB1, none) :=
  ⟨(C24_merge_preconditions (emptyDB exampleOptions) exampleEnv none).1 rfl,
   (C24_merge_preconditions ({ exampleDB1 with isMerging := true } : DB) exampleEnv none).2.1
     (by decide) rfl,
   (C24_merge_preconditions exampleHalfRatio exampleEnv none).2.2.1
     (by decide) (by decide) (by decide),
   (C24_merge_preconditions exampleDB1 { availableDiskSize := .error .ErrOS } none).2.2.2.1
     .ErrOS (by decide) (by decide) (by decide) rfl,
   by decide, by decide,
   (C24_merge_preconditions exampleDB1 { availableDiskSize := .ok 5 } none).2.2.2.2
     5 (by decide) (by decide) (by decide) rfl (by decide) (by decide)⟩

end Bitcask

namespace Bitcask

/-! ## Claim C25: sequence numbers -/

theorem appendAll_append (a b : List LogRecord) (db : DB) :
    DB.appendAll (a ++ b) db =
      match DB.appendAll a db with
      | (.error e, db1) => (.error e, db1)
      | (.ok _, db1) => DB.appendAll b db1 := by
  induction a generalizing db with
  | nil => rfl
  | cons r rest ih =>
    simp only [List.cons_append, DB.appendAll]
    rcases hap : db.appendLogRecord r with ⟨res, db1⟩
    cases res with
    | error e => rfl
    | ok pos => exact ih db1

theorem appendLogRecord_seqNo (db : DB) (r : LogRecord) :
    (db.appendLogRecord r).2.seqNo = db.seqNo := by
  unfold DB.appendLogRecord
  rcases henc : EncodeLogRecord r with e | ⟨enc, size⟩
  · cases hact : db.activeFile <;> rfl
  · cases hact : db.activeFile with
    | none =>
      simp only [DB.setActiveDataFile, hact]
      by_cases hrot : (OpenDataFile db.dataFiles 0).WriteOff + size > db.options.DataFileSize
      · simp only [hrot, if_true]
      · simp only [hrot, if_false]
    | some a =>
      simp only
      by_cases hrot : a.WriteOff + size > db.options.DataFileSize
      · simp only [hact, hrot, if_true, DB.setActiveDataFile]
      · simp only [hact, hrot, if_false]

theorem appendAll_seqNo (rs : List LogRecord) :
    ∀ db : DB, (DB.appendAll rs db).2.seqNo = db.seqNo := by
  induction rs with
  | nil => intro db; rfl
  | cons r rest ih =>
    intro db
    have h1 := appendLogRecord_seqNo db r
    simp only [DB.appendAll]
    rcases hap : db.appendLogRecord r with ⟨res, db1⟩
    rw [hap] at h1
    cases res with
    | error e => exact h1
    | ok pos => exact (ih db1).trans h1

/-- The first loop of `Commit` is the sequence of appends of the staged records
under the sequence number. -/
theorem commitAppend_appendAll (seqNo : Nat) (ord : List (Bytes × LogRecord)) :
    ∀ (db : DB) (positions ps : List (Bytes × LogRecordPos)) (db1 : DB),
      commitAppend seqNo ord db positions = (.ok ps, db1) →
      DB.appendAll (ord.map (fun e =>
        { Key := logRecordKeyWithSeq e.2.Key seqNo, Value := e.2.Value, Typ := e.2.Typ })) db =
        (.ok (), db1) := by
  induction ord with
  | nil =>
    intro db positions ps db1 h
    simp only [commitAppend, Prod.mk.injEq] at h
    rw [← h.2]
    rfl
  | cons e rest ih =>
    intro db positions ps db1 h
    obtain ⟨k, record⟩ := e
    simp only [commitAppend] at h
    simp only [List.map_cons, DB.appendAll]
    rcases hap : db.appendLogRecord
      { Key := logRecordKeyWithSeq record.Key seqNo, Value := record.Value, Typ := record.Typ }
      with ⟨res, db2⟩
    rw [hap] at h
    cases res with
    | error e2 => simp at h
    | ok pos => exact ih db2 _ ps db1 h

/-- The second loop of `Commit` leaves the files and the sequence counter as
they are. -/
theorem commitIndex_files (positions : List (Bytes × LogRecordPos))
    (ord : List (Bytes × LogRecord)) :
    ∀ (db : DB), (commitIndex positions ord db).2.activeFile = db.activeFile ∧
      (commitIndex positions ord db).2.olderFile = db.olderFile ∧
      (commitIndex positions ord db).2.seqNo = db.seqNo := by
  induction ord with
  | nil => intro db; exact ⟨rfl, rfl, rfl⟩
  | cons e rest ih =>
    intro db
    obtain ⟨k, record⟩ := e
    simp only [commitIndex]
    cases mapGet positions record.Key with
    | none => exact ⟨rfl, rfl, rfl⟩
    | some pos =>
      simp only
      split
      · rename_i oldPos _
        exact ih _
      · exact ih _

/-- C25: sequence numbers.  A commit of a non-empty staging map that returns no
error, on an engine whose counter is below the largest `uint64`, uses the
sequence number `S` = counter + 1 and leaves the counter at `S`: `S` is not 0 and
above the counter before.  The files of the engine afterwards are those left by
appending, to the engine before, the records `batchRecords S order1` one after
the other without error: every staged record (in the order `order1` in which
the staging map is ranged over) with the key `logRecordKeyWithSeq key S`, its
value and its type, and after all of them one record with the key
`logRecordKeyWithSeq txnFinKey S`, an empty value and the type
`LogRecordTxnFinished`. -/
theorem C25_sequence_numbers (wb : WriteBatch) (order1 order2 : List (Bytes × LogRecord))
    (wb2 : WriteBatch) (hne : wb.pendingWrites ≠ []) (hlt : wb.db.seqNo + 1 < 2 ^ 64)
    (hp1 : order1.Perm wb.pendingWrites)
    (hc : wb.Commit order1 order2 = (.ok (), wb2)) :
    wb2.db.seqNo = wb.db.seqNo + 1 ∧ wb2.db.seqNo ≠ 0 ∧ wb.db.seqNo < wb2.db.seqNo ∧
    (batchRecords (wb.db.seqNo + 1) order1).length = wb.pendingWrites.length + 1 ∧
    (∀ e ∈ wb.pendingWrites,
      { Key := logRecordKeyWithSeq e.2.Key (wb.db.seqNo + 1), Value := e.2.Value, Typ := e.2.Typ }
        ∈ (batchRecords (wb.db.seqNo + 1) order1).dropLast) ∧
    (batchRecords (wb.db.seqNo + 1) order1).getLast? =
      some { Key := logRecordKeyWithSeq txnFinKey (wb.db.seqNo + 1), Value := [],
             Typ := LogRecordTxnFinished } ∧
    ∃ dbA, DB.appendAll (batchRecords (wb.db.seqNo + 1) order1)
        { wb.db with seqNo := wb.db.seqNo + 1 } = (.ok (), dbA) ∧
      wb2.db.activeFile = dbA.activeFile ∧ wb2.db.olderFile = dbA.olderFile ∧
      wb2.db.seqNo = dbA.seqNo := by
  have hmod : (wb.db.seqNo + 1) % 2 ^ 64 = wb.db.seqNo + 1 := Nat.mod_eq_of_lt hlt
  unfold WriteBatch.Commit at hc
  have hlen : ¬ wb.pendingWrites.length = 0 := fun h => hne (List.length_eq_zero.1 h)
  simp only [hlen, if_false, hmod] at hc
  by_cases hmax : wb.pendingWrites.length > wb.options.MaxBatchNum
  · simp [hmax] at hc
  · simp only [hmax, if_false] at hc
    rcases hca : commitAppend (wb.db.seqNo + 1) order1 { wb.db with seqNo := wb.db.seqNo + 1 } []
      with ⟨res1, db1⟩
    rw [hca] at hc
    cases res1 with
    | error e => simp at hc
    | ok positions =>
      simp only at hc
      rcases hfin : db1.appendLogRecord
        { Key := logRecordKeyWithSeq txnFinKey (wb.db.seqNo + 1), Value := [],
          Typ := LogRecordTxnFinished } with ⟨res2, db2⟩
      rw [hfin] at hc
      cases res2 with
      | error e => simp at hc
      | ok pos =>
        simp only at hc
        have hfiles := commitIndex_files positions order2 db2
        rcases hci : commitIndex positions order2 db2 with ⟨res3, db3⟩
        rw [hci] at hc hfiles
        cases res3 with
        | error e => simp at hc
        | ok u =>
          simp only [Prod.mk.injEq, true_and] at hc
          subst hc
          simp only at hfiles ⊢
          have hall := commitAppend_appendAll _ order1 _ [] positions db1 hca
          have hseq1 : db1.seqNo = wb.db.seqNo + 1 := by
            have := appendAll_seqNo (order1.map (fun e =>
              { Key := logRecordKeyWithSeq e.2.Key (wb.db.seqNo + 1), Value := e.2.Value,
                Typ := e.2.Typ })) { wb.db with seqNo := wb.db.seqNo + 1 }
            rw [hall] at this
            exact this
          have hseq2 : db2.seqNo = wb.db.seqNo + 1 := by
            have := appendLogRecord_seqNo db1
              { Key := logRecordKeyWithSeq txnFinKey (wb.db.seqNo + 1), Value := [],
                Typ := LogRecordTxnFinished }
            rw [hfin] at this
            exact this.trans hseq1
          have hseq3 : db3.seqNo = wb.db.seqNo + 1 := hfiles.2.2.trans hseq2
          refine ⟨hseq3, by rw [hseq3]; omega, by rw [hseq3]; omega, ?_, ?_, ?_, db2, ?_,
            hfiles.1, hfiles.2.1, hfiles.2.2⟩
          · simp [batchRecords, hp1.length_eq]
          · intro e he
            simp only [batchRecords, List.dropLast_concat]
            exact List.mem_map.2 ⟨e, hp1.symm.subset he, rfl⟩
          · simp [batchRecords]
          · unfold batchRecords
            rw [appendAll_append, hall]
            simp only [DB.appendAll, hfin]

set_option maxRecDepth 100000 in
/-- C25, witness: the batch `Put("x", "1")`, `Delete("a")` committed on the
engine that holds `"a"` (counter 0) uses the sequence number 1. -/
theorem C25_sequence_numbers_witness :
    exampleStaged.db.seqNo = 0 ∧
    (exampleStaged.Commit exampleStaged.pendingWrites exampleStaged.pendingWrites).1 = .ok () ∧
    (exampleStaged.Commit exampleStaged.pendingWrites exampleStaged.pendingWrites).2.db.seqNo = 1 ∧
    batchRecords 1 exampleStaged.pendingWrites =
      [{ Key := [1, 97], Value := [], Typ := LogRecordDeleted },
       { Key := [1, 120], Value := [49], Typ := LogRecordNormal },
       { Key := 1 :: txnFinKey, Value := [], Typ := LogRecordTxnFinished }] ∧
    (exampleStaged.Commit exampleStaged.pendingWrites exampleStaged.pendingWrites).2.db.seqNo ≠ 0 :=
  ⟨by decide, by decide,
   (C25_sequence_numbers exampleStaged exampleStaged.pendingWrites exampleStaged.pendingWrites
     (exampleStaged.Commit exampleStaged.pendingWrites exampleStaged.pendingWrites).2
     (by decide) (by decide) (List.Perm.refl _) (Prod.ext (by decide) rfl)).1,
   by decide,
   (C25_sequence_numbers exampleStaged exampleStaged.pendingWrites exampleStaged.pendingWrites
     (exampleStaged.Commit exampleStaged.pendingWrites exampleStaged.pendingWrites).2
     (by decide) (by decide) (List.Perm.refl _) (Prod.ext (by decide) rfl)).2.1⟩

end Bitcask

namespace Bitcask

/-! ## Claim C29: `Stat` -/

theorem appendLogRecord_index (db : DB) (r : LogRecord) :
    (db.appendLogRecord r).2.index = db.index := by
  unfold DB.appendLogRecord
  rcases henc : EncodeLogRecord r with e | ⟨enc, size⟩
  · cases hact : db.activeFile <;> rfl
  · cases hact : db.activeFile with
    | none =>
      simp only [DB.setActiveDataFile, hact]
      by_cases hrot : (OpenDataFile db.dataFiles 0).WriteOff + size > db.options.DataFileSize
      · simp only [hrot, if_true]
      · simp only [hrot, if_false]
    | some a =>
      simp only
      by_cases hrot : a.WriteOff + size > db.options.DataFileSize
      · simp only [hact, hrot, if_true, DB.setActiveDataFile]
      · simp only [hact, hrot, if_false]

/-- What a call does to the index: a `Put` that returns no error files the key,
a `Delete` that returns no error removes a key that was there, and a call that
returns an error leaves the index as it is. -/
theorem step_index (db : DB) (op : Op) :
    (∀ db2, db.step op = (.ok (), db2) →
      match op with
      | .put key _ => ∃ pos, db2.index = (db.index.Put key pos).1
      | .delete key => db2.index = (db.index.Delete key).1) ∧
    (∀ e db2, db.step op = (.error e, db2) → db2.index = db.index) := by
  cases op with
  | put key value =>
    constructor
    · intro db2 h
      obtain ⟨-, pos, db1, reclaim, hap, hdb2⟩ := Put_ok db key value db2 h
      have := appendLogRecord_index db { Key := 0 :: key, Value := value, Typ := LogRecordNormal }
      rw [hap] at this
      exact ⟨pos, by rw [hdb2]; simp only; rw [this]⟩
    · intro e db2 h
      simp only [DB.step, DB.Put] at h
      by_cases hk : key.length = 0
      · simp only [hk, if_true, Prod.mk.injEq] at h
        rw [← h.2]
      · simp only [hk, if_false, DB.appendLogRecordWithLock] at h
        have := appendLogRecord_index db
          { Key := logRecordKeyWithSeq key nonTransactionSeqNo, Value := value,
            Typ := LogRecordNormal }
        rcases hap : db.appendLogRecord
          { Key := logRecordKeyWithSeq key nonTransactionSeqNo, Value := value,
            Typ := LogRecordNormal } with ⟨res, db1⟩
        rw [hap] at h this
        cases res with
        | error e2 =>
          simp only [Prod.mk.injEq] at h
          rw [← h.2]
          exact this
        | ok pos =>
          simp only at h
          split at h <;> simp at h
  | delete key =>
    constructor
    · intro db2 h
      obtain ⟨-, -, pos, db1, reclaim, hap, hdb2⟩ := Delete_ok db key db2 h
      have := appendLogRecord_index db { Key := 0 :: key, Value := [], Typ := LogRecordDeleted }
      rw [hap] at this
      simp only
      rw [hdb2]
      simp only
      rw [this]
    · intro e db2 h
      simp only [DB.step, DB.Delete] at h
      by_cases hk : key.length = 0
      · simp only [hk, if_true, Prod.mk.injEq] at h
        rw [← h.2]
      · simp only [hk, if_false, DB.appendLogRecordWithLock] at h
        cases hget : db.index.Get key with
        | none =>
          simp only [hget, Prod.mk.injEq] at h
          rw [← h.2]
        | some p =>
          simp only [hget] at h
          have := appendLogRecord_index db
            { Key := logRecordKeyWithSeq key nonTransactionSeqNo, Value := [],
              Typ := LogRecordDeleted }
          rcases hap : db.appendLogRecord
            { Key := logRecordKeyWithSeq key nonTransactionSeqNo, Value := [],
              Typ := LogRecordDeleted } with ⟨res, db1⟩
          rw [hap] at h this
          cases res with
          | error e2 =>
            simp only [Prod.mk.injEq] at h
            rw [← h.2]
            exact this
          | ok pos =>
            simp only at h this
            have hold := BTree.Delete_old db1.index key
            rw [this, hget] at hold
            rw [this] at h
            simp only [hold.2, Option.isSome_some, Bool.not_true, Bool.false_eq_true, if_false] at h
            split at h <;> simp at h

theorem lastIsPut_snoc (hist : List Op) (op : Op) (k : Bytes) :
    lastIsPut (hist ++ [op]) k =
      if op.key = k then
        (match op with
          | .put _ _ => true
          | .delete _ => false)
      else lastIsPut hist k := by
  unfold lastIsPut
  rw [List.filter_append]
  by_cases h : op.key = k
  · simp only [h, if_true, List.filter_cons, List.filter_nil, decide_True,
      List.getLast?_append_cons, List.getLast?_singleton]
    cases op <;> rfl
  · simp only [h, if_false, List.filter_cons, List.filter_nil, decide_False, List.append_nil,
      Bool.false_eq_true]

/-- The index after a session holds exactly the keys whose last call that
returned no error is a `Put`. -/
theorem session_index (ops : List Op) :
    ∀ (db : DB) (hist : List Op), (∃ m, Refines db.index m) →
      (∀ k, (db.index.Get k).isSome = lastIsPut hist k) →
      (∃ m, Refines (db.session ops).1.index m) ∧
      ∀ k, ((db.session ops).1.index.Get k).isSome = lastIsPut (hist ++ (db.session ops).2) k := by
  induction ops with
  | nil =>
    intro db hist hm hk
    simpa [DB.session] using ⟨hm, hk⟩
  | cons op rest ih =>
    intro db hist hm hk
    obtain ⟨hok, herr⟩ := step_index db op
    obtain ⟨m, hm⟩ := hm
    simp only [DB.session]
    rcases hstep : db.step op with ⟨res, db1⟩
    cases res with
    | error e =>
      simp only
      have hidx := herr e db1 hstep
      exact ih db1 hist ⟨m, by rw [hidx]; exact hm⟩ (by rw [hidx]; exact hk)
    | ok u =>
      simp only
      have hidx := hok db1 hstep
      rw [show hist ++ op :: (DB.session rest db1).2 = (hist ++ [op]) ++ (DB.session rest db1).2 by
        simp]
      cases op with
      | put key value =>
        obtain ⟨pos, hidx⟩ := hidx
        refine ih db1 (hist ++ [Op.put key value]) ⟨_, by rw [hidx]; exact Refines_Put _ _ hm key pos⟩
          ?_
        intro k
        rw [lastIsPut_snoc, hidx]
        by_cases hkk : key = k
        · subst hkk
          simp [Op.key, BTree.Get_Put_self]
        · have hne : k ≠ key := fun hc => hkk hc.symm
          simp only [Op.key, hkk, if_false]
          rw [BTree.Get_Put_other _ _ _ _ hm.sorted hne]
          exact hk k
      | delete key =>
        simp only at hidx
        refine ih db1 (hist ++ [Op.delete key]) ⟨_, by rw [hidx]; exact Refines_Delete _ _ hm key⟩ ?_
        intro k
        rw [lastIsPut_snoc, hidx]
        by_cases hkk : key = k
        · subst hkk
          simp [Op.key, BTree.Get_Delete_self _ _ hm.sorted]
        · have hne : k ≠ key := fun hc => hkk hc.symm
          simp only [Op.key, hkk, if_false]
          rw [BTree.Get_Delete_other _ _ _ hm.sorted hne]
          exact hk k

theorem lastIsPut_mem (ops : List Op) (k : Bytes) (h : lastIsPut ops k = true) :
    k ∈ ops.map (fun op => op.key) := by
  unfold lastIsPut at h
  cases hl : (ops.filter (fun op => decide (op.key = k))).getLast? with
  | none => simp [hl] at h
  | some op =>
    have hmem := List.mem_of_getLast?_eq_some hl
    rw [List.mem_filter] at hmem
    exact List.mem_map.2 ⟨op, hmem.1, by simpa using hmem.2⟩

/-- The size of an index that holds exactly the keys whose last call among
`ops` is a `Put` is the number of these keys. -/
theorem Size_eq_liveKeys (bt : BTree) (m : SpecIndex) (hm : Refines bt m) (ops : List Op)
    (hk : ∀ k, (bt.Get k).isSome = lastIsPut ops k) : bt.Size = (liveKeys ops).length := by
  rw [hm.size]
  unfold SpecIndex.Size
  rw [← List.length_map m.entries (fun e => e.1)]
  apply List.Perm.length_eq
  unfold liveKeys
  rw [List.perm_ext_iff_of_nodup hm.nodup ((List.nodup_dedup _).filter _)]
  intro k
  rw [← SpecIndex_Get_isSome, ← hm.get, hk]
  rw [List.mem_filter, List.mem_dedup]
  constructor
  · intro h
    exact ⟨lastIsPut_mem ops k h, h⟩
  · intro h
    exact h.2

/-- C29: `Stat`.  For every engine state `Stat` returns the size of the index
as `KeyNum`, the number of older files plus 1 if there is an active file as
`DataFileNum`, the reclaim counter as `ReclaimableSize` and the size of the
directory as `DiskSize`.  After a session of `Put` and `Delete` calls on the
engine opened on an empty directory, `KeyNum` is the number of distinct keys
whose last call that returned no error is a `Put`. -/
theorem C29_stat (db : DB) (options : Options) (db0 : DB) (ops : List Op)
    (hopen : OpenDB options Directory.empty none = .ok db0) :
    db.Stat.KeyNum = db.index.Size ∧
    db.Stat.DataFileNum = db.olderFile.length + (if db.activeFile.isSome then 1 else 0) ∧
    db.Stat.ReclaimableSize = db.reclaimSize ∧
    db.Stat.DiskSize = DirSize db.directory ∧
    (db0.session ops).1.Stat.KeyNum = (liveKeys (db0.session ops).2).length := by
  refine ⟨rfl, ?_, rfl, rfl, ?_⟩
  · unfold DB.Stat
    simp only
    split <;> rfl
  · obtain ⟨h1, -⟩ := OpenDB_empty options db0 hopen
    have hnone : ∀ k, (db0.index.Get k).isSome = lastIsPut [] k := by
      intro k
      rw [h1]
      simp [BTree.Get, NewTree, treeGet, lastIsPut]
    obtain ⟨⟨m, hm⟩, hk⟩ := session_index ops db0 [] ⟨_, by rw [h1]; exact Refines_empty⟩ hnone
    simp only [List.nil_append] at hk
    exact Size_eq_liveKeys _ m hm _ hk

set_option maxRecDepth 100000 in
/-- C29, witness: `Put("a", "1"); Put("b", "2"); Delete("z"); Delete("a")` on
the engine opened on an empty directory.  `Delete("z")` returns an error; after
the session `"b"` is the one key whose last call without error is a `Put`, and
`KeyNum` is 1, with one data file and a reclaim counter of 0. -/
theorem C29_stat_witness :
    ((emptyDB exampleOptions).session
      [Op.put [97] [49], Op.put [98] [50], Op.delete [122], Op.delete [97]]).2 =
      [Op.put [97] [49], Op.put [98] [50], Op.delete [97]] ∧
    liveKeys [Op.put [97] [49], Op.put [98] [50], Op.delete [97]] = [[98]] ∧
    ((emptyDB exampleOptions).session
      [Op.put [97] [49], Op.put [98] [50], Op.delete [122], Op.delete [97]]).1.Stat.KeyNum = 1 ∧
    ((emptyDB exampleOptions).session
      [Op.put [97] [49], Op.put [98] [50], Op.delete [122], Op.delete [97]]).1.Stat.DataFileNum
      = 1 ∧
    ((emptyDB exampleOptions).session
      [Op.put [97] [49], Op.put [98] [50], Op.delete [122], Op.delete [97]]).1.Stat.KeyNum =
      (liveKeys ((emptyDB exampleOptions).session
        [Op.put [97] [49], Op.put [98] [50], Op.delete [122], Op.delete [97]]).2).length :=
  ⟨by decide, by decide, by decide, by decide,
   (C29_stat (emptyDB exampleOptions) exampleOptions (emptyDB exampleOptions)
     [Op.put [97] [49], Op.put [98] [50], Op.delete [122], Op.delete [97]]
     (OpenDB_empty_eq exampleOptions (by decide) (Or.inl rfl))).2.2.2.2⟩

end Bitcask

namespace Bitcask

/-! ## Claim C22: a torn tail -/

theorem readNBytes_eof (df : DataFile) (n off : Int) (hn : 0 < n) (ho : 0 ≤ off)
    (h : (df.IoManager.length : Int) < off + n) : df.readNBytes n off = .error .EOF := by
  unfold DataFile.readNBytes
  obtain ⟨N, rfl⟩ := Int.eq_ofNat_of_zero_le (le_of_lt hn)
  obtain ⟨O, rfl⟩ := Int.eq_ofNat_of_zero_le ho
  have h1 : ¬ (N : Int) < 0 := by omega
  have h2 : ¬ (O : Int) < 0 := by omega
  have h3 : ((df.IoManager.drop O).take N).length < N := by
    rw [List.length_take, List.length_drop]
    omega
  simp only [h1, h2, if_false, Int.toNat_ofNat, h3, if_true]

/-- The header bytes `ReadLogRecord` reads where the bytes `t` end the file. -/
theorem readNBytes_header (df : DataFile) (pre t : Bytes) (hio : df.IoManager = pre ++ t) :
    df.readNBytes
      (if (maxLogRecordHeaderSize : Int) + (pre.length : Int) > (df.IoManager.length : Int)
        then (df.IoManager.length : Int) - (pre.length : Int) else (maxLogRecordHeaderSize : Int))
      (pre.length : Int) = .ok (t.take 15) := by
  apply readNBytes_ok df pre (t.take 15) (t.drop 15)
  · rw [hio]; simp
  · rw [hio]
    simp only [maxLogRecordHeaderSize, MaxVarintLen32, List.length_append, List.length_take]
    split <;> push_cast <;> omega
  · rfl

/-- A read that finds a header with a key size above 0 and cannot read key and
value to the end reports the end of the file. -/
theorem ReadLogRecord_eof_of (df : DataFile) (off : Int) (headerBuf : Bytes)
    (header : LogRecordHeader) (hs : Int)
    (h1 : df.readNBytes
      (if (maxLogRecordHeaderSize : Int) + off > (df.IoManager.length : Int)
        then (df.IoManager.length : Int) - off else (maxLogRecordHeaderSize : Int)) off =
      .ok headerBuf)
    (h2 : decodeLogRecordHeader headerBuf = .ok (some header, hs))
    (h3 : 0 < header.keySize)
    (h4 : df.readNBytes ((header.keySize : Int) + (header.valueSize : Int)) (off + hs) =
      .error .EOF) :
    df.ReadLogRecord off = .error .EOF := by
  unfold DataFile.ReadLogRecord
  simp only [h1, h2]
  have h5 : ¬ (header.crc = 0 ∧ header.keySize = 0 ∧ header.valueSize = 0) := by omega
  have h6 : (header.keySize : Int) > 0 ∨ (header.valueSize : Int) > 0 := by omega
  simp only [h5, if_false, h6, if_true, h4]

/-- A header cut off behind the key size: the value size reads as 0. -/
theorem decodeLogRecordHeader_cut (crc4 : Bytes) (typ : UInt8) (a : Nat)
    (h4 : crc4.length = 4) (ha : a < 2 ^ 62) :
    decodeLogRecordHeader (crc4 ++ typ :: PutVarint a) =
      .ok (some { crc := uint32LE crc4, recordType := typ, keySize := a % 2 ^ 32,
                  valueSize := 0 },
           ((5 + (PutVarint a).length : Nat) : Int)) := by
  unfold decodeLogRecordHeader
  have hlen : ¬ ((crc4 ++ typ :: PutVarint a).length ≤ 4) := by
    simp [h4]
  simp only [hlen, if_false]
  have htake : (crc4 ++ typ :: PutVarint a).take 4 = crc4 := List.take_left' h4
  have hget : (crc4 ++ typ :: PutVarint a).getD 4 0 = typ := by
    rw [List.getD_eq_getElem?_getD, List.getElem?_append_right (by omega)]
    simp [h4]
  have hdrop : (crc4 ++ typ :: PutVarint a).drop 5 = PutVarint a ++ [] := by
    rw [show (5 : Nat) = crc4.length + 1 by omega, List.drop_append]
    simp
  rw [htake, hget, hdrop, Varint_PutVarint a _ (by omega) (by omega)]
  have hsl : sliceFrom (crc4 ++ typ :: PutVarint a) (5 + ((PutVarint a).length : Int)) =
      .ok [] := by
    unfold sliceFrom
    have hc : ¬ ((5 + ((PutVarint a).length : Int) < 0) ∨
        (((crc4 ++ typ :: PutVarint a).length : Nat) : Int) <
          5 + ((PutVarint a).length : Int)) := by
      simp only [List.length_append, List.length_cons, h4]
      push_cast
      omega
    simp only [hc, if_false]
    rw [List.drop_of_length_le]
    simp only [List.length_append, List.length_cons, h4]
    omega
  simp only [hsl]
  have hv : Varint [] = (0, 0) := by
    simp [Varint, Uvarint, uvarintLoop]
  rw [hv]
  simp only [toUint32_natCast]
  simp [toUint32]

theorem PutVarint_small (n : Nat) (h : n < 64) : (PutVarint (n : Int)).length = 1 := by
  unfold PutVarint PutUvarint putUvarintLoop
  have h0 : ¬ ((n : Int) < 0) := by omega
  have h1 : (2 * (n : Int)).toNat < 128 := by omega
  simp [h0, h1]

/-- The read at the first byte of an encoded record whose last four bytes are
missing at the end of the file, when key and value together take at least three
bytes: the end of the file is reported. -/
theorem ReadLogRecord_torn_core (crc4 : Bytes) (typ : UInt8) (a b : Nat) (kv : Bytes)
    (h4 : crc4.length = 4) (ha : a < 2 ^ 32) (hb : b < 2 ^ 32) (ha0 : 0 < a)
    (hkvlen : kv.length = a + b) (hK : 3 ≤ a + b)
    (hH : 5 + (PutVarint (a : Int)).length + (PutVarint (b : Int)).length ≤ 15)
    (df : DataFile) (pre : Bytes)
    (hio : df.IoManager = pre ++
      (crc4 ++ typ :: (PutVarint (a : Int) ++ (PutVarint (b : Int) ++ kv))).take
        (5 + (PutVarint (a : Int)).length + (PutVarint (b : Int)).length + kv.length - 4)) :
    df.ReadLogRecord (pre.length : Int) = .error .EOF := by
  have hdecA := fun tail => decodeLogRecordHeader_encoded crc4 typ a b tail h4
    (by omega) (by omega)
  have hdecB := decodeLogRecordHeader_cut crc4 typ a h4 (by omega)
  have hsmallA : a < 64 → (PutVarint (a : Int)).length = 1 := PutVarint_small a
  have hsmallB : b < 64 → (PutVarint (b : Int)).length = 1 := PutVarint_small b
  have hamod : a % 2 ^ 32 = a := Nat.mod_eq_of_lt ha
  have hbmod : b % 2 ^ 32 = b := Nat.mod_eq_of_lt hb
  rw [hamod, hbmod] at hdecA
  rw [hamod] at hdecB
  have hposA := PutVarint_length_pos (a : Int)
  have hposB := PutVarint_length_pos (b : Int)
  generalize PutVarint (a : Int) = ks at hdecA hdecB hsmallA hH hio hposA
  generalize PutVarint (b : Int) = vs at hdecA hsmallB hH hio hposB
  by_cases hK4 : 4 ≤ a + b
  · -- the header is whole
    have htorn : (crc4 ++ typ :: (ks ++ (vs ++ kv))).take
        (5 + ks.length + vs.length + kv.length - 4) =
        (crc4 ++ typ :: (ks ++ vs)) ++ kv.take (kv.length - 4) := by
      have e1 : crc4 ++ typ :: (ks ++ (vs ++ kv)) = (crc4 ++ typ :: (ks ++ vs)) ++ kv := by simp
      have e2 : 5 + ks.length + vs.length + kv.length - 4 =
          (crc4 ++ typ :: (ks ++ vs)).length + (kv.length - 4) := by
        simp only [List.length_append, List.length_cons, h4]
        omega
      rw [e1, e2, List.take_append]
    rw [htorn] at hio
    have hbuf : ((crc4 ++ typ :: (ks ++ vs)) ++ kv.take (kv.length - 4)).take 15 =
        crc4 ++ typ :: (ks ++ (vs ++ (kv.take (kv.length - 4)).take
          (15 - (5 + ks.length + vs.length)))) := by
      have e3 : (crc4 ++ typ :: (ks ++ vs)).length + (15 - (5 + ks.length + vs.length)) = 15 := by
        simp only [List.length_append, List.length_cons, h4]
        omega
      have ht := @List.take_append _ (crc4 ++ typ :: (ks ++ vs)) (kv.take (kv.length - 4))
        (15 - (5 + ks.length + vs.length))
      rw [e3] at ht
      rw [ht]
      simp
    refine ReadLogRecord_eof_of df _ _ _ _ (readNBytes_header df pre _ hio)
      (by rw [hbuf]; exact hdecA _) ha0 ?_
    apply readNBytes_eof
    · simp only; omega
    · omega
    · rw [hio]
      simp only [List.length_append, List.length_cons, List.length_take, h4]
      push_cast
      omega
  · -- the header has lost the value size
    have hb64 : b < 64 := by omega
    have ha64 : a < 64 := by omega
    have hvs := hsmallB hb64
    have hks := hsmallA ha64
    have htorn : (crc4 ++ typ :: (ks ++ (vs ++ kv))).take
        (5 + ks.length + vs.length + kv.length - 4) = crc4 ++ typ :: ks := by
      have e1 : crc4 ++ typ :: (ks ++ (vs ++ kv)) = (crc4 ++ typ :: ks) ++ (vs ++ kv) := by simp
      rw [e1]
      apply List.take_left'
      simp only [List.length_append, List.length_cons, h4]
      omega
    rw [htorn] at hio
    have hbuf : (crc4 ++ typ :: ks).take 15 = crc4 ++ typ :: ks := by
      apply List.take_of_length_le
      simp only [List.length_append, List.length_cons, h4]
      omega
    refine ReadLogRecord_eof_of df _ _ _ _ (readNBytes_header df pre _ hio)
      (by rw [hbuf]; exact hdecB) ha0 ?_
    apply readNBytes_eof
    · simp only; omega
    · omega
    · rw [hio]
      simp only [List.length_append, List.length_cons, h4]
      push_cast
      omega

/-- The read at the first byte of the encoding of a record whose last four
bytes are missing at the end of the file reports the end of the file, when the
stored key and the value fit the length fields and together take at least three
bytes. -/
theorem ReadLogRecord_torn (r : LogRecord) (hk32 : r.Key.length < 2 ^ 32)
    (hv32 : r.Value.length < 2 ^ 32) (hkey : 0 < r.Key.length)
    (hkv : 3 ≤ r.Key.length + r.Value.length) (enc : Bytes) (n : Int)
    (henc : EncodeLogRecord r = .ok (enc, n)) (df : DataFile) (pre : Bytes)
    (hio : df.IoManager = pre ++ enc.take (enc.length - 4)) :
    df.ReadLogRecord (pre.length : Int) = .error .EOF := by
  have hlen := (EncodeLogRecord_length r enc n henc).1
  rw [EncodeLogRecord_ok_iff] at henc
  obtain ⟨hH, henc, -⟩ := henc
  refine ReadLogRecord_torn_core
    (putUint32LE (ChecksumIEEE (r.Typ :: (PutVarint (r.Key.length : Int) ++
      PutVarint (r.Value.length : Int) ++ r.Key ++ r.Value))))
    r.Typ r.Key.length r.Value.length (r.Key ++ r.Value) (putUint32LE_length _) hk32 hv32 hkey
    (by simp) hkv hH df pre ?_
  rw [hio, hlen]
  congr 2
  · rw [List.length_append]
    omega
  · rw [henc]
    simp

end Bitcask

namespace Bitcask

/-- The replay loop over a file that holds plain records from `pre.length` on,
followed by bytes at which the end of the file is reported: it ends behind the
last record, with each record indexed at its place. -/
theorem replayFile_records_tail (df : DataFile) (fid : Nat) (rs : List LogRecord) :
    ∀ (fuel : Nat) (pre : Bytes) (st : Replay), (∀ r ∈ rs, PlainRecord r) → rs.length < fuel →
      (∃ tail, df.IoManager = pre ++ encodeAll rs ++ tail) →
      df.ReadLogRecord (((pre ++ encodeAll rs).length : Nat) : Int) = .error .EOF →
      ∃ reclaim, replayFile df fid fuel (pre.length : Int) st =
        .ok ({ st with db := { st.db with
                index := indexRecords fid rs (pre.length : Int) st.db.index,
                reclaimSize := reclaim } }, (((pre ++ encodeAll rs).length : Nat) : Int)) := by
  induction rs with
  | nil =>
    intro fuel pre st _ hfuel _ heof
    obtain ⟨f, rfl⟩ : ∃ f, fuel = f + 1 := ⟨fuel - 1, by omega⟩
    simp only [encodeAll, List.append_nil] at heof ⊢
    refine ⟨st.db.reclaimSize, ?_⟩
    unfold replayFile
    rw [heof]
    rfl
  | cons r rs ih =>
    intro fuel pre st hp hfuel hio heof
    obtain ⟨tail, hio⟩ := hio
    obtain ⟨f, rfl⟩ : ∃ f, fuel = f + 1 := ⟨fuel - 1, by omega⟩
    obtain ⟨enc, henc, hs, hrb, -⟩ := PlainRecord_encode r (hp r (List.mem_cons_self _ _))
    have h1 : encodeAll (r :: rs) = enc ++ encodeAll rs := by
      rw [← hs]; exact encodeAll_append [r] rs
    have hio2 : df.IoManager = pre ++ enc ++ (encodeAll rs ++ tail) := by rw [hio, h1]; simp
    have hread := ReadLogRecord_encoded r enc _ henc df pre (encodeAll rs ++ tail) hio2
    obtain ⟨reclaim1, hrec⟩ := replayRecord_plain st fid (pre.length : Int) r (enc.length : Int)
      (hp r (List.mem_cons_self _ _))
    have hlen : (pre ++ encodeAll (r :: rs)).length = ((pre ++ enc) ++ encodeAll rs).length := by
      rw [h1]; simp
    rw [hlen] at heof ⊢
    obtain ⟨reclaim2, hrest⟩ := ih f (pre ++ enc) _ (fun r2 h => hp r2 (List.mem_cons_of_mem _ h))
      (by simp only [List.length_cons] at hfuel; omega) ⟨tail, by rw [hio2]; simp⟩ heof
    refine ⟨reclaim2, ?_⟩
    unfold replayFile
    rw [hread, hrb]
    simp only [hrec]
    have hoff : ((pre.length : Int) + (enc.length : Int)) = ((pre ++ enc).length : Int) := by
      simp
    rw [hoff, hrest]
    simp only [indexRecords, hs]
    rw [hoff]

/-- Opening a directory with one data file that holds plain records followed by
bytes at which the end of the file is reported: the index is the replay of the
records, and the file is held as it is. -/
theorem OpenDB_torn (options : Options) (dir : Directory) (fid : Nat) (rs : List LogRecord)
    (tail : Bytes) (hplain : ∀ r ∈ rs, PlainRecord r)
    (hdata : dir.dataFiles = [(fid, encodeAll rs ++ tail)])
    (hhint : dir.hintIndex = none) (hmf : dir.mergeFinished = none) (hlock : dir.locked = false)
    (hopt : checkOptions options = .ok ())
    (hidx : options.IndexType = IndexerType.BTree ∨ options.IndexType = IndexerType.ART)
    (heof : ({ FileId := fid, WriteOff := 0, IoManager := encodeAll rs ++ tail } :
      DataFile).ReadLogRecord (((encodeAll rs).length : Nat) : Int) = .error .EOF) :
    ∃ db2, OpenDB options dir none = .ok db2 ∧ db2.index = indexRecords fid rs 0 NewTree ∧
      db2.olderFile = [] ∧
      ∃ df2, db2.activeFile = some df2 ∧ df2.FileId = fid ∧
        df2.IoManager = encodeAll rs ++ tail := by
  obtain ⟨reclaim, hrf⟩ := replayFile_records_tail
    { FileId := fid, WriteOff := 0, IoManager := encodeAll rs ++ tail } fid rs
    ((encodeAll rs ++ tail).length + 1) []
    { db := { options := options, fileIds := [fid],
              activeFile := some { FileId := fid, WriteOff := 0, IoManager := encodeAll rs ++ tail },
              olderFile := [], index := NewTree, seqNo := 0, isMerging := false,
              seqNoFileExists := false, isInitial := !dir.present, bytesWrite := 0,
              reclaimSize := 0, hintIndexFile := none, mergeFinishedFile := none,
              seqNoFile := dir.seqNo },
      transactionRecords := [], currentSeqNo := nonTransactionSeqNo }
    hplain
    (by
      have := length_le_encodeAll rs hplain
      rw [List.length_append]
      omega)
    ⟨tail, by simp⟩ (by simpa using heof)
  rw [OpenDB_eq options dir none hopt hlock hidx]
  simp only [loadMergeFile, hhint, hmf]
  have hload : ∀ db0 : DB, db0.olderFile = [] → db0.loadDataFile dir =
      { db0 with fileIds := [fid],
                 activeFile := some { FileId := fid, WriteOff := 0,
                                      IoManager := encodeAll rs ++ tail },
                 olderFile := [] } := by
    intro db0 hold
    unfold DB.loadDataFile
    simp [hdata, List.insertionSort, List.orderedInsert, OpenDataFile, mapGet, hold]
  rw [hload _ rfl]
  simp only [DB.loadIndexFromHint, DB.loadIndexerFromDataFile, List.length_singleton,
    one_ne_zero, if_false, replayFiles, replayOne, Bool.false_eq_true, false_and, if_true,
    decide_True]
  simp only [List.length_nil, List.nil_append, Nat.cast_zero] at hrf
  rw [hrf]
  exact ⟨_, rfl, rfl, rfl, _, rfl, rfl, rfl⟩

/-- Reads of an engine whose index is the replay of the files, and whose files
start with the contents of the layout, are the reads of the engine laid out
so. -/
theorem Get_replayed_tail (db db2 : DB) (R : List (Nat × List LogRecord)) (hl : Layout db R)
    (hag : Agrees db R) (hidx : db2.index = replayIndex R)
    (hfiles : ∀ e ∈ R, ∃ df2 extra, db2.fileOf e.1 = some df2 ∧
      df2.IoManager = encodeAll e.2 ++ extra)
    (key : Bytes) : db2.Get key = db.Get key := by
  by_cases hkey : key = []
  · subst hkey; rfl
  · cases hget : (replayIndex R).Get key with
    | none =>
      rw [Get_of_not_indexed db2 key hkey (by rw [hidx]; exact hget),
        Get_of_not_indexed db key hkey (hag.none_of_none key hget)]
    | some p2 =>
      obtain ⟨df, r, hf, hh, hp, -, hcase⟩ := hag.of_some key p2 hget
      obtain ⟨e, he, hfid, hdf⟩ := Layout_fileOf db R hl _ _ hf
      obtain ⟨df2, extra, hf2, hio2⟩ := hfiles e he
      have hh2 : HoldsAt df2 p2.Offset r :=
        HoldsAt_extend df df2 _ r extra hh (by rw [hio2, hdf]; simp [handleOf])
      rw [Get_of_holds db2 key p2 df2 r hkey (by rw [hidx]; exact hget) (by rw [← hfid]; exact hf2)
        hh2]
      rcases hcase with ⟨hdel, hnone⟩ | ⟨p, hp1, hp2, hp3⟩
      · rw [Get_of_not_indexed db key hkey hnone]
        obtain ⟨enc, -, -, hrb, -⟩ := PlainRecord_encode r hp
        rw [hrb]
        simp [resolve, hdel]
      · rw [Get_of_holds db key p df r hkey hp1 (by rw [hp2]; exact hf) (by rw [hp3]; exact hh)]

theorem putAll_eq_run (puts : List (Bytes × Bytes)) :
    ∀ db : DB, DB.putAll puts db = DB.run (puts.map (fun e => Op.put e.1 e.2)) db := by
  induction puts with
  | nil => intro db; rfl
  | cons e rest ih =>
    intro db
    simp only [DB.putAll, List.map_cons, DB.run, DB.step]
    rcases hput : db.Put e.1 e.2 with ⟨res, db1⟩
    cases res with
    | error err => rfl
    | ok u => exact ih db1

end Bitcask

namespace Bitcask

theorem take_append_sub (x y : Bytes) (n : Nat) (h : n ≤ y.length) :
    (x ++ y).take ((x ++ y).length - n) = x ++ y.take (y.length - n) := by
  have e : (x ++ y).length - n = x.length + (y.length - n) := by
    rw [List.length_append]
    omega
  rw [e, List.take_append]

set_option maxRecDepth 100000 in
/-- C22, the claim as stated fails: `Put("b", "2"); Put("a", "")` on the engine
opened on an empty directory, both without error; all records are in data file
0, whose last record is nine bytes long; `Close` returns no error.  With the
last four bytes of data file 0 removed, `OpenDB` fails with `ErrInvalidCRC`: the
five bytes that remain of the record decode as a header with both sizes zero and
a checksum that does not match. -/
theorem C22_counterexample :
    OpenDB exampleOptions Directory.empty none = .ok (emptyDB exampleOptions) ∧
    ((emptyDB exampleOptions).Put [98] [50]).1 = .ok () ∧
    (((emptyDB exampleOptions).Put [98] [50]).2.Put [97] []).1 = .ok () ∧
    exampleEmptyValue.olderFile = [] ∧
    exampleEmptyValue.activeFile.map (fun a => (a.FileId, a.IoManager.length)) = some (0, 19) ∧
    (exampleEmptyValue.Close).1 = .ok () ∧
    ((exampleEmptyValue.Close).2.truncateFile 0 4).dataFiles.map (fun e => (e.1, e.2.length)) =
      [(0, 15)] ∧
    OpenDB exampleOptions ((exampleEmptyValue.Close).2.truncateFile 0 4) none =
      .error .ErrInvalidCRC := by
  decide

/-- C22, amended: a torn tail.  On an engine opened on an empty directory,
after successful puts (every key shorter than `2^32 - 1` bytes and every value
shorter than `2^32` bytes) that all went to one data file, with key and value of
the last put together at least two bytes long: `Close` returns no error, and
when the last four bytes of the active data file are removed and the directory
is opened again, `OpenDB` returns no error, the index of the reopened engine is
the replay of the files as they were before the last put, and every key
resolves through `Get` as it did before the last put. -/
theorem C22_torn_tail (options : Options) (db0 dbPrev db : DB) (puts : List (Bytes × Bytes))
    (key value : Bytes) (a : DataFile)
    (hopen : OpenDB options Directory.empty none = .ok db0)
    (hinit : DB.putAll puts db0 = some dbPrev)
    (hlast : dbPrev.Put key value = (.ok (), db))
    (hact : db.activeFile = some a) (hone : db.olderFile = [])
    (hsize : ∀ e ∈ puts, e.1.length + 1 < 2 ^ 32 ∧ e.2.length < 2 ^ 32)
    (hk : key.length + 1 < 2 ^ 32) (hv : value.length < 2 ^ 32)
    (hkv : 2 ≤ key.length + value.length) :
    (db.Close).1 = .ok () ∧
    ∃ db2, OpenDB options ((db.Close).2.truncateFile a.FileId 4) none = .ok db2 ∧
      (∀ k, db2.Get k = dbPrev.Get k) ∧
      ∃ R, Layout dbPrev R ∧ db2.index = replayIndex R := by
  obtain ⟨-, -, -, hseq0, -, hopt0, hhint0, hmf0, -⟩ := OpenDB_empty options db0 hopen
  obtain ⟨hcheck, hidxt⟩ := OpenDB_ok_options options _ _ db0 hopen
  obtain ⟨hl0, hag0⟩ := Layout_opened options db0 hopen
  have hrun : db0.run (puts.map (fun e => Op.put e.1 e.2)) = some dbPrev := by
    rw [← putAll_eq_run]; exact hinit
  obtain ⟨R, hl, hag, hinv, hopt, hhint, hmf, hseq⟩ := run_durable _ db0 dbPrev hrun
    (by
      intro k v hm
      obtain ⟨e, he, heq⟩ := List.mem_map.1 hm
      injection heq with h1 h2
      rw [← h1, ← h2]
      exact hsize e he)
    [] hl0 hag0 (Inv_opened options db0 hopen)
  obtain ⟨-, pos, db1, reclaim, hap, hdb⟩ := Put_ok dbPrev key value db hlast
  have hp : PlainRecord (LogRecord.mk (0 :: key) value LogRecordNormal) := ⟨key, rfl, hk, hv⟩
  obtain ⟨enc, henc, hs, -, hpos⟩ := PlainRecord_encode _ hp
  have hlen7 := EncodeLogRecord_length_ge _ enc _ henc
  have happ := Appended_of_appendLogRecord dbPrev hinv.files _ pos db1 hap
  rw [appendLogRecord_eq dbPrev hinv.files _ enc _ henc] at hap
  have hact1 : db1.activeFile = some a := by rw [← hact, hdb]
  have hone1 : db1.olderFile = [] := by rw [← hone, hdb]
  by_cases hrot : dbPrev.writeFile.WriteOff + (enc.length : Int) > dbPrev.options.DataFileSize
  · simp only [hrot, if_true, Prod.mk.injEq] at hap
    rw [← hap.2] at hone1
    simp [mapSet] at hone1
  · simp only [hrot, if_false, Prod.mk.injEq] at hap
    obtain ⟨-, hdb1⟩ := hap
    have hprevold : dbPrev.olderFile = [] := by rw [← hone1, ← hdb1]
    have hawrite : a = dbPrev.writeFile.Write enc := by
      rw [← hdb1] at hact1
      simp only [Option.some.injEq] at hact1
      exact hact1.symm
    -- the one file of the layout
    have hfile : ∃ (fid : Nat) (rs : List LogRecord), (∀ r ∈ rs, PlainRecord r) ∧
        a.FileId = fid ∧ a.IoManager = encodeAll rs ++ enc ∧
        replayIndex R = indexRecords fid rs 0 NewTree ∧
        ∀ e ∈ R, e.1 = fid ∧ e.2 = rs := by
      cases R with
      | nil =>
        have hnone : dbPrev.activeFile = none := hl.active
        have hw : dbPrev.writeFile = { FileId := 0, WriteOff := 0, IoManager := [] } := by
          unfold DB.writeFile; rw [hnone]; rfl
        refine ⟨0, [], by simp, ?_, ?_, rfl, by simp⟩
        · rw [hawrite, hw]; rfl
        · rw [hawrite, hw]; simp [DataFile.Write, encodeAll]
      | cons e tl =>
        have hsome : dbPrev.activeFile = some (handleOf e) := hl.active
        have htl : tl = [] := by
          have := hl.older
          rw [hprevold] at this
          simpa using this.symm
        subst htl
        have hw : dbPrev.writeFile = handleOf e := by
          unfold DB.writeFile; rw [hsome]; rfl
        refine ⟨e.1, e.2, hl.plain e (List.mem_cons_self _ _), ?_, ?_, rfl, by simp⟩
        · rw [hawrite, hw]; rfl
        · rw [hawrite, hw]; rfl
    obtain ⟨fid, rs, hplain, hafid, haio, hreplay, hR⟩ := hfile
    -- the directory after `Close`
    have hseqdb : db.seqNo = 0 := by
      rw [hdb]
      simp only
      rw [happ.seqNo_eq, hseq, hseq0]
    obtain ⟨hc1, hc2, hc3, hc4, hc5⟩ := Close_keeps_files db hseqdb
    have hdf : db.dataFiles = [(fid, encodeAll rs ++ enc)] := by
      unfold DB.dataFiles
      simp only [hact, hone, hafid, haio]
      rfl
    have hhintdb : db.hintIndexFile = none := by
      rw [hdb]
      simp only
      rw [happ.hintIndexFile_eq, hhint, hhint0]
    have hmfdb : db.mergeFinishedFile = none := by
      rw [hdb]
      simp only
      rw [happ.mergeFinishedFile_eq, hmf, hmf0]
    have htrunc : ((db.Close).2.truncateFile a.FileId 4).dataFiles =
        [(fid, encodeAll rs ++ enc.take (enc.length - 4))] := by
      unfold Directory.truncateFile
      simp only [hc2, hdf, hafid, List.map_cons, List.map_nil, if_true]
      rw [take_append_sub _ _ 4 (by omega)]
    have heof : (DataFile.mk fid 0 (encodeAll rs ++ enc.take (enc.length - 4))).ReadLogRecord
        (((encodeAll rs).length : Nat) : Int) = .error .EOF :=
      ReadLogRecord_torn _ (by simpa using hk) hv (by simp) (by simp; omega) enc _ henc _
        (encodeAll rs) rfl
    obtain ⟨db2, hopen2, hidx2, -, df2, hact2, hfid2, hio2⟩ := OpenDB_torn options
      ((db.Close).2.truncateFile a.FileId 4) fid rs (enc.take (enc.length - 4)) hplain htrunc
      (by simp only [Directory.truncateFile]; rw [hc3, hhintdb])
      (by simp only [Directory.truncateFile]; rw [hc4, hmfdb])
      (by simp only [Directory.truncateFile]; exact hc5)
      hcheck hidxt heof
    refine ⟨hc1, db2, hopen2, ?_, R, hl, by rw [hidx2, hreplay]⟩
    refine Get_replayed_tail dbPrev db2 R hl hag (by rw [hidx2, hreplay]) ?_
    intro e he
    obtain ⟨he1, he2⟩ := hR e he
    refine ⟨df2, enc.take (enc.length - 4), ?_, by rw [hio2, he2]⟩
    rw [he1, ← hfid2]
    exact fileOf_active db2 df2 hact2

set_option maxRecDepth 100000 in
/-- C22, witness: `Put("b", "2"); Put("a", "1")` on the engine opened on an empty
directory, then the last four bytes of data file 0 removed; once with the
ordered-tree index and once with the radix-tree index. -/
theorem C22_torn_tail_witness :
    OpenDB exampleOptions Directory.empty none = .ok (emptyDB exampleOptions) ∧
    DB.putAll [([98], [50])] (emptyDB exampleOptions) =
      some ((emptyDB exampleOptions).Put [98] [50]).2 ∧
    (((emptyDB exampleOptions).Put [98] [50]).2.Put [97] [49]) = (.ok (), exampleTwoPuts) ∧
    exampleTwoPuts.activeFile = some exampleTwoPuts.writeFile ∧
    exampleTwoPuts.writeFile.FileId = 0 ∧
    exampleTwoPuts.olderFile = [] ∧
    ((exampleTwoPuts.Close).1 = .ok () ∧
    ∃ db2, OpenDB exampleOptions ((exampleTwoPuts.Close).2.truncateFile 0 4) none = .ok db2 ∧
      (∀ k, db2.Get k = ((emptyDB exampleOptions).Put [98] [50]).2.Get k) ∧
      ∃ R, Layout ((emptyDB exampleOptions).Put [98] [50]).2 R ∧ db2.index = replayIndex R) ∧
    OpenDB exampleOptionsART Directory.empty none = .ok (emptyDB exampleOptionsART) ∧
    ((exampleTwoPutsART.Close).1 = .ok () ∧
    ∃ db2, OpenDB exampleOptionsART ((exampleTwoPutsART.Close).2.truncateFile 0 4) none =
        .ok db2 ∧
      (∀ k, db2.Get k = ((emptyDB exampleOptionsART).Put [98] [50]).2.Get k) ∧
      ∃ R, Layout ((emptyDB exampleOptionsART).Put [98] [50]).2 R ∧
        db2.index = replayIndex R) :=
  ⟨OpenDB_empty_eq exampleOptions (by decide) (Or.inl rfl), by decide, by decide, by decide,
    by decide, by decide,
    C22_torn_tail exampleOptions (emptyDB exampleOptions) ((emptyDB exampleOptions).Put [98] [50]).2
      exampleTwoPuts [([98], [50])] [97] [49] exampleTwoPuts.writeFile
      (OpenDB_empty_eq exampleOptions (by decide) (Or.inl rfl)) (by decide) (by decide)
      (by decide) (by decide) (by decide) (by decide) (by decide) (by decide),
    OpenDB_empty_eq exampleOptionsART (by decide) (Or.inr rfl),
    C22_torn_tail exampleOptionsART (emptyDB exampleOptionsART)
      ((emptyDB exampleOptionsART).Put [98] [50]).2
      exampleTwoPutsART [([98], [50])] [97] [49] exampleTwoPutsART.writeFile
      (OpenDB_empty_eq exampleOptionsART (by decide) (Or.inr rfl)) (by decide) (by decide)
      (by decide) (by decide) (by decide) (by decide) (by decide) (by decide)⟩

end Bitcask

namespace Bitcask

/-! ## Claims C31, C33, C39: the record codec -/

/-- C31: wire format.  For every record whose key and value are shorter than
`2^31` bytes, `EncodeLogRecord` returns a buffer `b` and the length `n = len(b)`
with `n = 5 + vlen(|key|) + vlen(|value|) + |key| + |value|`, both varints being
1 to 5 bytes long (so the header part is at most 15 bytes); `b[4]` is the type,
the varint of the key length, the varint of the value length, the key and the
value follow in this order (each varint decodes to the length it stands for),
and `b[0..4]` is the little-endian CRC-32 (IEEE) of `b[4..n]`. -/
theorem C31_wire_format (r : LogRecord) (hk : r.Key.length < 2 ^ 31)
    (hv : r.Value.length < 2 ^ 31) :
    ∃ b : Bytes, EncodeLogRecord r = .ok (b, (b.length : Int)) ∧
      b.length = 5 + (PutVarint (r.Key.length : Int)).length +
        (PutVarint (r.Value.length : Int)).length + r.Key.length + r.Value.length ∧
      1 ≤ (PutVarint (r.Key.length : Int)).length ∧ (PutVarint (r.Key.length : Int)).length ≤ 5 ∧
      1 ≤ (PutVarint (r.Value.length : Int)).length ∧
      (PutVarint (r.Value.length : Int)).length ≤ 5 ∧
      5 + (PutVarint (r.Key.length : Int)).length + (PutVarint (r.Value.length : Int)).length ≤
        maxLogRecordHeaderSize ∧
      b.get? 4 = some r.Typ ∧
      b.drop 5 = PutVarint (r.Key.length : Int) ++ PutVarint (r.Value.length : Int) ++ r.Key ++
        r.Value ∧
      (∀ rest, Varint (PutVarint (r.Key.length : Int) ++ rest) =
        ((r.Key.length : Int), ((PutVarint (r.Key.length : Int)).length : Int))) ∧
      (∀ rest, Varint (PutVarint (r.Value.length : Int) ++ rest) =
        ((r.Value.length : Int), ((PutVarint (r.Value.length : Int)).length : Int))) ∧
      b.take 4 = putUint32LE (ChecksumIEEE (b.drop 4)) ∧
      ChecksumIEEE (b.drop 4) < 2 ^ 32 ∧
      uint32LE (b.take 4) = ChecksumIEEE (b.drop 4) := by
  have hk5 := PutVarint_length_le_five r.Key.length (by omega)
  have hv5 := PutVarint_length_le_five r.Value.length (by omega)
  have hk1 := PutVarint_length_pos (r.Key.length : Int)
  have hv1 := PutVarint_length_pos (r.Value.length : Int)
  obtain ⟨b, hb⟩ := EncodeLogRecord_ok_of_lt r (by omega) (by omega)
  have hlen := (EncodeLogRecord_length r b _ hb).1
  have hform := ((EncodeLogRecord_ok_iff r b _).1 hb).2.1
  have hcrc := ChecksumIEEE_lt (r.Typ :: (PutVarint (r.Key.length : Int) ++
    PutVarint (r.Value.length : Int) ++ r.Key ++ r.Value))
  have hdrop : b.drop 4 = r.Typ :: (PutVarint (r.Key.length : Int) ++
      PutVarint (r.Value.length : Int) ++ r.Key ++ r.Value) := by
    rw [hform]
    rfl
  have htake : b.take 4 = putUint32LE (ChecksumIEEE (r.Typ :: (PutVarint (r.Key.length : Int) ++
      PutVarint (r.Value.length : Int) ++ r.Key ++ r.Value))) := by
    rw [hform]
    rfl
  refine ⟨b, hb, hlen, hk1, hk5, hv1, hv5, ?_, ?_, ?_, ?_, ?_, ?_, ?_, ?_⟩
  · show _ ≤ 5 * 2 + 5
    omega
  · rw [hform]
    rfl
  · rw [hform]
    rfl
  · intro rest
    exact Varint_PutVarint _ rest (by omega) (by omega)
  · intro rest
    exact Varint_PutVarint _ rest (by omega) (by omega)
  · rw [hdrop, htake]
  · rw [hdrop]
    exact hcrc
  · rw [hdrop, htake]
    exact uint32LE_putUint32LE _ hcrc

set_option maxRecDepth 100000 in
/-- C31, witness: the record of `Put("a", "1")` is encoded in ten bytes. -/
theorem C31_wire_format_witness :
    ∃ b : Bytes, EncodeLogRecord { Key := [0, 97], Value := [49], Typ := LogRecordNormal } =
        .ok (b, (b.length : Int)) ∧
      b.length = 10 ∧ b.get? 4 = some LogRecordNormal ∧ b.drop 5 = [4, 2, 0, 97, 49] ∧
      b.take 4 = putUint32LE (ChecksumIEEE (b.drop 4)) := by
  obtain ⟨b, h1, h2, -, -, -, -, -, h3, h4, -, -, h5, -⟩ :=
    C31_wire_format { Key := [0, 97], Value := [49], Typ := LogRecordNormal } (by decide)
      (by decide)
  exact ⟨b, h1, h2, h3, h4, h5⟩

theorem parseLogRecordKey_withSeq (k : Bytes) (s : Nat) (hs : s < 2 ^ 64) :
    parseLogRecordKey (PutUvarint s ++ k) = .ok (k, s) := by
  unfold parseLogRecordKey
  rw [Uvarint_PutUvarint s k hs]
  have h1 : ¬ (((PutUvarint s).length : Int) < 0) := by omega
  have h2 : ¬ ((((PutUvarint s ++ k).length : Nat) : Int) < ((PutUvarint s).length : Int)) := by
    rw [List.length_append]
    push_cast
    omega
  simp only [sliceFrom, h1, h2, or_self, if_false, Int.toNat_ofNat, List.drop_left]

/-- C33: sequence-prefixed key round trip.  For every user key `k` (the empty
one included) and every sequence number `s` of the `uint64` range, the encoded
key is the unsigned varint of `s` followed by `k` (one byte `0x00` for `s = 0`),
and `parseLogRecordKey` returns `(k, s)` for it. -/
theorem C33_key_round_trip (k : Bytes) (s : Nat) (hs : s < 2 ^ 64) :
    parseLogRecordKey (logRecordKeyWithSeq k s) = .ok (k, s) ∧
    logRecordKeyWithSeq k s = PutUvarint s ++ k ∧
    PutUvarint 0 = [0] ∧
    logRecordKeyWithSeq k 0 = 0 :: k ∧
    1 ≤ (PutUvarint s).length ∧ (PutUvarint s).length ≤ 10 :=
  ⟨parseLogRecordKey_withSeq k s hs, rfl, rfl, rfl, PutUvarint_length_pos s,
    PutUvarint_length_le s⟩

set_option maxRecDepth 100000 in
/-- C33, witness: the key `"a"` with sequence number 300, whose varint takes two
bytes, and the empty key with sequence number 0. -/
theorem C33_key_round_trip_witness :
    logRecordKeyWithSeq [97] 300 = [172, 2, 97] ∧
    parseLogRecordKey [172, 2, 97] = .ok ([97], 300) ∧
    parseLogRecordKey (logRecordKeyWithSeq [] 0) = .ok ([], 0) :=
  ⟨by decide, (C33_key_round_trip [97] 300 (by decide)).1,
    (C33_key_round_trip [] 0 (by decide)).1⟩

/-! ### Header decoding -/

/-- The count `binary.Uvarint` returns is 0 (buffer too small), negative
(overflow), or the number of bytes read, which the buffer holds. -/
theorem uvarintLoop_count (buf : Bytes) :
    ∀ (i x s : Nat), (uvarintLoop buf i x s).2 = 0 ∨ (uvarintLoop buf i x s).2 ≤ -10 ∨
      ((i : Int) < (uvarintLoop buf i x s).2 ∧
        (uvarintLoop buf i x s).2 ≤ (i : Int) + (buf.length : Int)) := by
  induction buf with
  | nil => intro i x s; exact Or.inl rfl
  | cons b rest ih =>
    intro i x s
    unfold uvarintLoop
    by_cases h1 : i = MaxVarintLen64
    · simp only [h1, if_true]
      exact Or.inr (Or.inl (by show -(((10 : Nat) : Int) + 1) ≤ -10; omega))
    · simp only [h1, if_false]
      by_cases h2 : b.toNat < 0x80
      · simp only [h2, if_true]
        by_cases h3 : i = MaxVarintLen64 - 1 ∧ b.toNat > 1
        · simp only [h3, and_self, if_true]
          exact Or.inr (Or.inl (by show -((((10 - 1 : Nat)) : Int) + 1) ≤ -10; omega))
        · simp only [h3, if_false, List.length_cons]
          exact Or.inr (Or.inr ⟨by omega, by push_cast; omega⟩)
      · simp only [h2, if_false]
        rcases ih (i + 1) ((x + (b.toNat % 0x80) * 2 ^ s) % 2 ^ 64) (s + 7) with h | h | ⟨h, h'⟩
        · exact Or.inl h
        · exact Or.inr (Or.inl h)
        · refine Or.inr (Or.inr ⟨by omega, ?_⟩)
          simp only [List.length_cons]
          omega

/-- A varint cannot overflow within nine bytes. -/
theorem uvarintLoop_short (buf : Bytes) :
    ∀ (i x s : Nat), i + buf.length ≤ 9 → 0 ≤ (uvarintLoop buf i x s).2 := by
  induction buf with
  | nil => intro i x s _; exact le_refl _
  | cons b rest ih =>
    intro i x s hlen
    simp only [List.length_cons] at hlen
    unfold uvarintLoop
    have h1 : ¬ i = MaxVarintLen64 := by show ¬ i = 10; omega
    have h3 : ¬ (i = MaxVarintLen64 - 1 ∧ b.toNat > 1) := by
      show ¬ (i = 10 - 1 ∧ _)
      omega
    simp only [h1, h3, if_false]
    by_cases h2 : b.toNat < 0x80
    · simp only [h2, if_true]
      omega
    · simp only [h2, if_false]
      exact ih _ _ _ (by omega)

theorem Varint_count (buf : Bytes) : (Varint buf).2 = (Uvarint buf).2 := rfl

/-- Where the first varint of the header does not overflow, a buffer of at most
fifteen bytes is decoded to a header whose size lies between 5 and the length of
the buffer. -/
theorem decodeLogRecordHeader_ok (buf : Bytes) (h4 : 4 < buf.length) (h15 : buf.length ≤ 15)
    (hn : 0 ≤ (Varint (buf.drop 5)).2) :
    ∃ header n, decodeLogRecordHeader buf = .ok (some header, n) ∧ 5 ≤ n ∧
      n ≤ (buf.length : Int) := by
  unfold decodeLogRecordHeader
  have h0 : ¬ buf.length ≤ 4 := by omega
  simp only [h0, if_false]
  have hc1 := uvarintLoop_count (buf.drop 5) 0 0 0
  rw [Varint_count] at hn
  have hlen1 : (buf.drop 5).length = buf.length - 5 := List.length_drop _ _
  have hu : (Varint (buf.drop 5)).2 = (uvarintLoop (buf.drop 5) 0 0 0).2 := rfl
  have hnn : 0 ≤ (uvarintLoop (buf.drop 5) 0 0 0).2 := hn
  have hle1 : (uvarintLoop (buf.drop 5) 0 0 0).2 ≤ ((buf.length - 5 : Nat) : Int) := by
    rcases hc1 with h | h | ⟨_, h⟩
    · rw [h]; omega
    · omega
    · rw [hlen1] at h
      simpa using h
  have hs : sliceFrom buf (5 + (Varint (buf.drop 5)).2) =
      .ok (buf.drop (5 + (Varint (buf.drop 5)).2).toNat) := by
    unfold sliceFrom
    rw [hu]
    have : ¬ (5 + (uvarintLoop (buf.drop 5) 0 0 0).2 < 0 ∨
        (buf.length : Int) < 5 + (uvarintLoop (buf.drop 5) 0 0 0).2) := by omega
    simp only [this, if_false]
  simp only [hs]
  refine ⟨_, _, rfl, ?_, ?_⟩
  · -- the second varint does not overflow either
    have h2 : 0 ≤ (Varint (buf.drop (5 + (Varint (buf.drop 5)).2).toNat)).2 := by
      rw [hu]
      by_cases hz : (uvarintLoop (buf.drop 5) 0 0 0).2 = 0
      · rw [hz]
        exact hn
      · show 0 ≤ (uvarintLoop _ 0 0 0).2
        apply uvarintLoop_short
        rw [List.length_drop]
        omega
    rw [hu] at h2 ⊢
    omega
  · have hc2 := uvarintLoop_count (buf.drop (5 + (Varint (buf.drop 5)).2).toNat) 0 0 0
    have hu2 : (Varint (buf.drop (5 + (Varint (buf.drop 5)).2).toNat)).2 =
        (uvarintLoop (buf.drop (5 + (Varint (buf.drop 5)).2).toNat) 0 0 0).2 := rfl
    rw [hu2]
    rw [List.length_drop] at hc2
    rw [hu] at hc2 ⊢
    rcases hc2 with h | h | ⟨_, h⟩
    · rw [h]; omega
    · omega
    · omega

/-- Where the first varint of the header overflows, `decodeLogRecordHeader` is a
run-time panic: the negative count makes the index of the next slice negative. -/
theorem decodeLogRecordHeader_panic (buf : Bytes) (h4 : 4 < buf.length)
    (hn : (Varint (buf.drop 5)).2 < 0) : decodeLogRecordHeader buf = .error .Panic := by
  unfold decodeLogRecordHeader
  have h0 : ¬ buf.length ≤ 4 := by omega
  simp only [h0, if_false]
  have h5 : (Varint (buf.drop 5)).2 ≤ -10 := by
    have hu : (Varint (buf.drop 5)).2 = (uvarintLoop (buf.drop 5) 0 0 0).2 := rfl
    rw [hu] at hn ⊢
    rcases uvarintLoop_count (buf.drop 5) 0 0 0 with h | h | ⟨h, _⟩
    · omega
    · exact h
    · omega
  have hs : sliceFrom buf (5 + (Varint (buf.drop 5)).2) = .error .Panic := by
    unfold sliceFrom
    have : 5 + (Varint (buf.drop 5)).2 < 0 ∨ (buf.length : Int) < 5 + (Varint (buf.drop 5)).2 :=
      Or.inl (by omega)
    simp only [this, if_true]
  simp only [hs]

set_option maxRecDepth 100000 in
/-- C39, the failing input: a buffer of at most four bytes is decoded to the
sentinel, but the fifteen bytes of `exampleOverflowHeader`, whose first varint
overflows (`binary.Varint` returns the count -10), make `decodeLogRecordHeader`
slice the buffer at index -5, a run-time panic; `ReadLogRecord` at offset 0 of a
file with these bytes panics, and so does `OpenDB` on a directory with that
file. -/
theorem C39_decodeLogRecordHeader_panics :
    decodeLogRecordHeader [1, 2, 3, 4] = .ok (none, 0) ∧
    exampleOverflowHeader.length = 15 ∧
    Varint (exampleOverflowHeader.drop 5) = (0, -10) ∧
    sliceFrom exampleOverflowHeader (5 + -10) = .error .Panic ∧
    decodeLogRecordHeader exampleOverflowHeader = .error .Panic ∧
    DataFile.ReadLogRecord { FileId := 0, WriteOff := 0, IoManager := exampleOverflowHeader } 0 =
      .error .Panic ∧
    OpenDB exampleOptions exampleDamagedDirectory none = .error .Panic := by
  decide

end Bitcask

namespace Bitcask

/-! ## Claims C32, C37, C38: merge directory, hint file, merge flag -/

set_option maxRecDepth 100000 in
/-- C32, the failing call: for the data directory `/tmp/bitcask` the
specification places the merge directory at `/tmp/bitcask_merge`, but
`getMergePath` returns the relative path `bitcask_merge`, which names
`/home/user/bitcask_merge` for a process working in `/home/user` and
`/srv/bitcask_merge` for one working in `/srv`. -/
theorem C32_getMergePath_is_relative :
    exampleOptions.DirPath = "/tmp/bitcask" ∧
    specMergePath exampleOptions.DirPath = "/tmp/bitcask_merge" ∧
    (emptyDB exampleOptions).getMergePath = "bitcask_merge" ∧
    resolvePath "/home/user" (emptyDB exampleOptions).getMergePath = "/home/user/bitcask_merge" ∧
    resolvePath "/srv" (emptyDB exampleOptions).getMergePath = "/srv/bitcask_merge" ∧
    resolvePath "/srv" (specMergePath exampleOptions.DirPath) = "/tmp/bitcask_merge" := by
  decide

set_option maxRecDepth 100000 in
/-- C37, the failing call: the hint file that `WriteHintRecord` writes for the
pairs `("a", (0, 0))` and `("b", (0, 10))` holds two records, from which the loop of
`loadIndexFromHint` would build an index with both keys at their positions.
With this file in the data directory `/tmp/bitcask`, the path tested is
`/tmp/bitcask/hint-index` but the path opened is
`/tmp/bitcask/hint-index/hint-index`: `loadIndexFromHint` returns the error of
the operating system, and so does `OpenDB`. -/
theorem C37_hint_file_not_read :
    exampleHintFile.map (fun f => f.IoManager) =
      .ok [179, 27, 126, 220, 0, 2, 6, 97, 0, 0, 0, 8, 99, 101, 224, 0, 2, 6, 98, 0, 20, 0] ∧
    exampleHintFile.map (fun f => (loadHintRecords f (f.IoManager.length + 1) 0 NewTree).map
        (fun t => t.Get [97])) = .ok (.ok (some { Fid := 0, Offset := 0, Size := 0 })) ∧
    exampleHintFile.map (fun f => (loadHintRecords f (f.IoManager.length + 1) 0 NewTree).map
        (fun t => t.Get [98])) = .ok (.ok (some { Fid := 0, Offset := 10, Size := 0 })) ∧
    (emptyDB exampleOptions).hintFileTested = "/tmp/bitcask/hint-index" ∧
    (emptyDB exampleOptions).hintFileOpened = "/tmp/bitcask/hint-index/hint-index" ∧
    exampleHintFile.map (fun f =>
        ({ emptyDB exampleOptions with hintIndexFile := some f.IoManager } : DB).loadIndexFromHint) =
      .ok (.error .ErrOS) ∧
    exampleHintFile.map (fun f =>
        OpenDB exampleOptions { exampleDB2.directory with hintIndex := some f.IoManager,
                                                          locked := false } none) =
      .ok (.error .ErrOS) ∧
    (OpenDB exampleOptions { exampleDB2.directory with locked := false } none).map
        (fun db => db.Get [98]) = .ok (.ok [50]) := by
  decide

/-! ### The errors `Merge` can return -/

theorem readNBytes_error (df : DataFile) (n off : Int) (e : Error)
    (h : df.readNBytes n off = .error e) : e ≠ .ErrMergeIsProcess := by
  unfold DataFile.readNBytes at h
  intro hc
  subst hc
  by_cases h1 : n < 0
  · simp [h1] at h
  · by_cases h2 : off < 0
    · simp [h1, h2] at h
    · simp only [h1, h2, if_false] at h
      split at h <;> cases h

theorem sliceFrom_error (buf : Bytes) (i : Int) (e : Error) (h : sliceFrom buf i = .error e) :
    e ≠ .ErrMergeIsProcess := by
  unfold sliceFrom at h
  intro hc
  subst hc
  split at h <;> cases h

theorem slice_error (buf : Bytes) (lo hi : Int) (e : Error) (h : slice buf lo hi = .error e) :
    e ≠ .ErrMergeIsProcess := by
  unfold slice at h
  intro hc
  subst hc
  split at h <;> cases h

theorem decodeLogRecordHeader_error (buf : Bytes) (e : Error)
    (h : decodeLogRecordHeader buf = .error e) : e ≠ .ErrMergeIsProcess := by
  unfold decodeLogRecordHeader at h
  split at h
  · cases h
  · simp only at h
    split at h
    · rename_i e2 hs
      injection h with h
      subst h
      exact sliceFrom_error _ _ _ hs
    · cases h

theorem ReadLogRecord_error (df : DataFile) (off : Int) (e : Error)
    (h : df.ReadLogRecord off = .error e) : e ≠ .ErrMergeIsProcess := by
  unfold DataFile.ReadLogRecord at h
  simp only at h
  split at h
  · rename_i e2 hr
    injection h with h
    subst h
    exact readNBytes_error _ _ _ _ hr
  · split at h
    · rename_i e2 hd
      injection h with h
      subst h
      exact decodeLogRecordHeader_error _ _ hd
    · injection h with h
      subst h
      intro hc
      cases hc
    · split at h
      · injection h with h
        subst h
        intro hc
        cases hc
      · split at h
        · rename_i e2 hkv
          injection h with h
          subst h
          split at hkv
          · split at hkv
            · rename_i e3 hr
              injection hkv with hkv
              subst hkv
              exact readNBytes_error _ _ _ _ hr
            · cases hkv
          · cases hkv
        · split at h
          · rename_i e2 hs
            injection h with h
            subst h
            exact slice_error _ _ _ _ hs
          · split at h
            · injection h with h
              subst h
              intro hc
              cases hc
            · cases h

theorem parseLogRecordKey_error (key : Bytes) (e : Error)
    (h : parseLogRecordKey key = .error e) : e ≠ .ErrMergeIsProcess := by
  unfold parseLogRecordKey at h
  simp only at h
  split at h
  · rename_i e2 hs
    injection h with h
    subst h
    exact sliceFrom_error _ _ _ hs
  · cases h

theorem EncodeLogRecord_error (r : LogRecord) (e : Error) (h : EncodeLogRecord r = .error e) :
    e = .Panic := by
  unfold EncodeLogRecord at h
  simp only at h
  split at h
  · injection h with h
    exact h.symm
  · cases h

theorem appendLogRecord_error (db : DB) (r : LogRecord) (e : Error) (db2 : DB)
    (h : db.appendLogRecord r = (.error e, db2)) : e = .Panic := by
  unfold DB.appendLogRecord at h
  rcases henc : EncodeLogRecord r with e2 | ⟨enc, size⟩
  · simp only [henc, Prod.mk.injEq, Except.error.injEq] at h
    rw [← h.1]
    exact EncodeLogRecord_error r e2 henc
  · simp only [henc] at h
    split at h
    · simp only [Prod.mk.injEq, Except.error.injEq] at h
      exact h.1.symm
    · split at h
      · simp only [Prod.mk.injEq, Except.error.injEq] at h
        exact h.1.symm
      · simp only [Prod.mk.injEq] at h
        cases h.1

theorem WriteHintRecord_error (df : DataFile) (key : Bytes) (pos : LogRecordPos) (e : Error)
    (h : df.WriteHintRecord key pos = .error e) : e = .Panic := by
  unfold DataFile.WriteHintRecord at h
  split at h
  · rename_i e2 henc
    injection h with h
    subst h
    exact EncodeLogRecord_error _ _ henc
  · cases h

theorem mergeRecords_error (db : DB) (dataFile : DataFile) :
    ∀ (fuel : Nat) (offset : Int) (st st2 : DB × DataFile) (e : Error),
      mergeRecords db dataFile fuel offset st = (.error e, st2) → e ≠ .ErrMergeIsProcess := by
  intro fuel
  induction fuel with
  | zero =>
    intro offset st st2 e h
    unfold mergeRecords at h
    simp only [Prod.mk.injEq, Except.error.injEq] at h
    rw [← h.1]
    intro hc
    cases hc
  | succ fuel ih =>
    intro offset st st2 e h
    obtain ⟨mergeDB, hintFile⟩ := st
    unfold mergeRecords at h
    rcases hread : dataFile.ReadLogRecord offset with e2 | ⟨logRecord, size⟩
    · have hne := ReadLogRecord_error _ _ _ hread
      rw [hread] at h
      cases e2 <;> simp only [Prod.mk.injEq, Except.error.injEq] at h <;>
        first
        | (cases h.1; done)
        | (rw [← h.1]; exact hne)
    · rw [hread] at h
      simp only at h
      rcases hparse : parseLogRecordKey logRecord.Key with e2 | ⟨realKey, seq⟩
      · rw [hparse] at h
        simp only [Prod.mk.injEq, Except.error.injEq] at h
        rw [← h.1]
        exact parseLogRecordKey_error _ _ hparse
      · rw [hparse] at h
        simp only at h
        split at h
        · rcases happ : mergeDB.appendLogRecord
              { logRecord with Key := logRecordKeyWithSeq realKey nonTransactionSeqNo } with
            ⟨res, mergeDB1⟩
          rw [happ] at h
          cases res with
          | error e2 =>
            simp only [Prod.mk.injEq, Except.error.injEq] at h
            rw [← h.1, appendLogRecord_error _ _ _ _ happ]
            intro hc
            cases hc
          | ok pos =>
            simp only at h
            rcases hw : hintFile.WriteHintRecord realKey pos with e2 | hintFile1
            · rw [hw] at h
              simp only [Prod.mk.injEq, Except.error.injEq] at h
              rw [← h.1, WriteHintRecord_error _ _ _ _ hw]
              intro hc
              cases hc
            · rw [hw] at h
              exact ih _ _ _ _ h
        · exact ih _ _ _ _ h

theorem mergeDataFiles_nil (db : DB) (st : DB × DataFile) :
    mergeDataFiles db [] st = (.ok (), st) := rfl

theorem mergeDataFiles_cons (db : DB) (f : DataFile) (rest : List DataFile) (st : DB × DataFile) :
    mergeDataFiles db (f :: rest) st =
      match mergeRecords db f (f.IoManager.length + 1) 0 st with
      | (.error e, st1) => (.error e, st1)
      | (.ok _, st1) => mergeDataFiles db rest st1 := rfl

theorem mergeDataFiles_error (db : DB) (files : List DataFile) :
    ∀ (st st2 : DB × DataFile) (e : Error),
      mergeDataFiles db files st = (.error e, st2) → e ≠ .ErrMergeIsProcess := by
  induction files with
  | nil =>
    intro st st2 e h
    rw [mergeDataFiles_nil] at h
    simp only [Prod.mk.injEq] at h
    cases h.1
  | cons f rest ih =>
    intro st st2 e h
    rw [mergeDataFiles_cons] at h
    generalize hm : mergeRecords db f (f.IoManager.length + 1) 0 st = x at h
    obtain ⟨res, st1⟩ := x
    cases res with
    | error e2 =>
      simp only [Prod.mk.injEq, Except.error.injEq] at h
      rw [← h.1]
      exact mergeRecords_error db f _ _ _ _ _ hm
    | ok u => exact ih _ _ _ h

theorem OpenDB_empty_error (options : Options) (e : Error)
    (h : OpenDB options Directory.empty none = .error e) :
    e = .ErrInvalidOptions ∨ e = .NilIndex ∨ e = .Panic := by
  rcases hc : checkOptions options with e2 | u
  · unfold OpenDB at h
    rw [hc] at h
    simp only [Except.error.injEq] at h
    rw [← h]
    unfold checkOptions at hc
    repeat' split at hc
    all_goals first
      | (injection hc with hc; exact Or.inl hc.symm)
      | cases hc
  · by_cases h1 : options.IndexType = IndexerType.BTree
    · rw [OpenDB_empty_eq options hc (Or.inl h1)] at h
      cases h
    · by_cases h2 : options.IndexType = IndexerType.ART
      · rw [OpenDB_empty_eq options hc (Or.inr h2)] at h
        cases h
      · unfold OpenDB at h
        rw [hc] at h
        simp only [Directory.empty, Bool.false_eq_true, if_false, NewIndexer, h1, h2] at h
        by_cases h3 : options.IndexType = IndexerType.BPLusTree
        · simp only [h3, if_true, Except.error.injEq] at h
          exact Or.inr (Or.inl h.symm)
        · simp only [h3, if_false, Except.error.injEq] at h
          exact Or.inr (Or.inr h.symm)

/-- A call of `Merge` on an engine whose flag is down does not return
`ErrMergeIsProcess`, unless the query for the free disk space returns that
value. -/
theorem Merge_not_in_progress (db : DB) (env : MergeEnv) (mergeDir : Option Directory)
    (hflag : db.isMerging = false)
    (henv : env.availableDiskSize ≠ .error .ErrMergeIsProcess) :
    (db.Merge env mergeDir).1 ≠ .error .ErrMergeIsProcess := by
  unfold DB.Merge
  cases hact : db.activeFile with
  | none => simp
  | some active =>
    simp only [hflag, Bool.false_eq_true, if_false]
    split
    · simp
    · rcases hav : env.availableDiskSize with e | free
      · simp only
        intro hc
        apply henv
        rw [hav]
        simp only [Except.error.injEq] at hc ⊢
        exact hc
      · simp only
        split
        · simp
        · split
          · simp
          · split
            · rename_i e hopen
              simp only [ne_eq, Except.error.injEq]
              rcases OpenDB_empty_error _ _ hopen with h | h | h <;> rw [h] <;> intro hc <;>
                cases hc
            · split
              · rename_i e m1 h1 hm
                simp only [ne_eq, Except.error.injEq]
                exact mergeDataFiles_error _ _ _ _ _ hm
              · split
                · rename_i e henc
                  simp only [ne_eq, Except.error.injEq]
                  rw [EncodeLogRecord_error _ _ henc]
                  intro hc
                  cases hc
                · simp

/-- The flag after a call of `Merge` on an engine whose flag is down. -/
theorem Merge_isMerging (db : DB) (env : MergeEnv) (mergeDir : Option Directory)
    (hflag : db.isMerging = false) : (db.Merge env mergeDir).2.1.isMerging = false := by
  unfold DB.Merge
  cases hact : db.activeFile with
  | none => exact hflag
  | some active =>
    simp only [hflag, Bool.false_eq_true, if_false]
    repeat' split
    all_goals first
      | exact hflag
      | rfl

/-- C38: merge flag.  A call of `Merge` can set the flag `isMerging` only on an
engine whose flag is down; every such call, whether it returns an error or
not, leaves the flag down, and a following call of `Merge` does not return
`ErrMergeIsProcess` (the query for the free disk space is taken not to return
that value of the engine). -/
theorem C38_merge_flag (db : DB) (env env2 : MergeEnv) (mergeDir mergeDir2 : Option Directory)
    (hflag : db.isMerging = false)
    (henv : env2.availableDiskSize ≠ .error .ErrMergeIsProcess) :
    (db.Merge env mergeDir).2.1.isMerging = false ∧
    ((db.Merge env mergeDir).2.1.Merge env2 mergeDir2).1 ≠ .error .ErrMergeIsProcess :=
  ⟨Merge_isMerging db env mergeDir hflag,
    Merge_not_in_progress _ env2 mergeDir2 (Merge_isMerging db env mergeDir hflag) henv⟩

set_option maxRecDepth 100000 in
/-- C38, witness: a merge that succeeds (on the engine that holds `"a"` and
`"b"`) and a merge that fails after it has set the flag (on the engine whose data
file is damaged, where the walk over the file ends with `ErrInvalidCRC`). -/
theorem C38_merge_flag_witness :
    exampleDB2.isMerging = false ∧
    (exampleDB2.Merge exampleEnv none).1 = .ok () ∧
    (exampleDB2.Merge exampleEnv none).2.1.isMerging = false ∧
    ((exampleDB2.Merge exampleEnv none).2.1.Merge exampleEnv
      (exampleDB2.Merge exampleEnv none).2.2).1 ≠ .error .ErrMergeIsProcess ∧
    exampleCorruptDB.isMerging = false ∧
    (exampleCorruptDB.Merge exampleEnv none).1 = .error .ErrInvalidCRC ∧
    (exampleCorruptDB.Merge exampleEnv none).2.1.isMerging = false ∧
    ((exampleCorruptDB.Merge exampleEnv none).2.1.Merge exampleEnv
      (exampleCorruptDB.Merge exampleEnv none).2.2).1 ≠ .error .ErrMergeIsProcess :=
  ⟨rfl, by decide,
    (C38_merge_flag exampleDB2 exampleEnv exampleEnv none
      (exampleDB2.Merge exampleEnv none).2.2 rfl (by decide)).1,
    (C38_merge_flag exampleDB2 exampleEnv exampleEnv none
      (exampleDB2.Merge exampleEnv none).2.2 rfl (by decide)).2,
    rfl, by decide,
    (C38_merge_flag exampleCorruptDB exampleEnv exampleEnv none
      (exampleCorruptDB.Merge exampleEnv none).2.2 rfl (by decide)).1,
    (C38_merge_flag exampleCorruptDB exampleEnv exampleEnv none
      (exampleCorruptDB.Merge exampleEnv none).2.2 rfl (by decide)).2⟩

end Bitcask

namespace Bitcask

/-! ## Claim C34: contiguity -/

theorem bytesIn_nil (fid : Nat) : bytesIn fid [] = 0 := rfl

theorem bytesIn_append (fid : Nat) (t u : List (LogRecord × LogRecordPos)) :
    bytesIn fid (t ++ u) = bytesIn fid t + bytesIn fid u := by
  simp [bytesIn, List.filter_append]

theorem bytesIn_single (fid : Nat) (r : LogRecord) (p : LogRecordPos) :
    bytesIn fid [(r, p)] = if p.Fid = fid then encodedSize r else 0 := by
  by_cases h : p.Fid = fid <;> simp [bytesIn, List.filter, h]

theorem bytesIn_eq_zero (fid : Nat) (t : List (LogRecord × LogRecordPos))
    (h : ∀ e ∈ t, e.2.Fid ≠ fid) : bytesIn fid t = 0 := by
  have : t.filter (fun e => decide (e.2.Fid = fid)) = [] := by
    rw [List.filter_eq_nil_iff]
    intro e he
    simpa using h e he
  simp [bytesIn, this]

theorem TraceInv_writeFile (db : DB) (t : List (LogRecord × LogRecordPos)) (hinv : TraceInv db t) :
    db.writeFile.WriteOff = (bytesIn db.writeFile.FileId t : Int) ∧
    ∀ e ∈ t, e.2.Fid ≤ db.writeFile.FileId := by
  unfold DB.writeFile
  cases hact : db.activeFile with
  | none =>
    rw [hinv.none_nil hact]
    exact ⟨rfl, fun e he => by cases he⟩
  | some a => exact ⟨hinv.writeOff a hact, hinv.below a hact⟩

/-- One append against the trace: the offset returned is the number of bytes
appended to the file before, and the invariant holds again. -/
theorem TraceInv_append (db : DB) (t : List (LogRecord × LogRecordPos)) (r : LogRecord)
    (pos : LogRecordPos) (db1 : DB) (hinv : TraceInv db t)
    (hap : db.appendLogRecord r = (.ok pos, db1)) :
    TraceInv db1 (t ++ [(r, pos)]) ∧ pos.Offset = (bytesIn pos.Fid t : Int) ∧
      db1.options = db.options := by
  have happ := Appended_of_appendLogRecord db hinv.files r pos db1 hap
  obtain ⟨enc, n, henc⟩ := encode_ok_of_appendLogRecord db r pos db1 hap
  have hn : n = enc.length := ((EncodeLogRecord_ok_iff r enc n).1 henc).2.2
  have hsize : encodedSize r = enc.length := encodedSize_of_encode r enc n henc
  obtain ⟨hw, hbelow⟩ := TraceInv_writeFile db t hinv
  rw [appendLogRecord_eq db hinv.files r enc n henc] at hap
  by_cases hrot : db.writeFile.WriteOff + n > db.options.DataFileSize
  · simp only [hrot, if_true, Prod.mk.injEq, Except.ok.injEq] at hap
    obtain ⟨hpos, hdb1⟩ := hap
    have hfid : pos.Fid = db.writeFile.FileId + 1 := by rw [← hpos]
    have hoff : pos.Offset = 0 := by rw [← hpos]
    have hzero : bytesIn (db.writeFile.FileId + 1) t = 0 :=
      bytesIn_eq_zero _ _ (fun e he => by have := hbelow e he; omega)
    have hact1 : db1.activeFile =
        some (DataFile.mk (db.writeFile.FileId + 1) (enc.length : Int) enc) := by rw [← hdb1]
    refine ⟨⟨happ.files, ?_, ?_, ?_⟩, ?_, happ.options_eq⟩
    · intro h
      rw [hact1] at h
      cases h
    · intro a ha
      rw [hact1] at ha
      simp only [Option.some.injEq] at ha
      subst ha
      simp only
      rw [bytesIn_append, hzero, bytesIn_single, hfid, hsize]
      simp
    · intro a ha e he
      rw [hact1] at ha
      simp only [Option.some.injEq] at ha
      subst ha
      simp only
      rcases List.mem_append.1 he with h1 | h1
      · have := hbelow e h1
        omega
      · simp only [List.mem_singleton] at h1
        rw [h1]
        simp only
        omega
    · rw [hoff, hfid, hzero]
      rfl
  · simp only [hrot, if_false, Prod.mk.injEq, Except.ok.injEq] at hap
    obtain ⟨hpos, hdb1⟩ := hap
    have hfid : pos.Fid = db.writeFile.FileId := by rw [← hpos]
    have hoff : pos.Offset = db.writeFile.WriteOff := by rw [← hpos]
    have hact1 : db1.activeFile = some (db.writeFile.Write enc) := by rw [← hdb1]
    refine ⟨⟨happ.files, ?_, ?_, ?_⟩, ?_, happ.options_eq⟩
    · intro h
      rw [hact1] at h
      cases h
    · intro a ha
      rw [hact1] at ha
      simp only [Option.some.injEq] at ha
      subst ha
      simp only [DataFile.Write]
      rw [bytesIn_append, bytesIn_single, hfid, hsize, hw]
      simp
    · intro a ha e he
      rw [hact1] at ha
      simp only [Option.some.injEq] at ha
      subst ha
      simp only [DataFile.Write]
      rcases List.mem_append.1 he with h1 | h1
      · exact hbelow e h1
      · simp only [List.mem_singleton] at h1
        rw [h1]
        simp only
        omega
    · rw [hoff, hfid, hw]

theorem appendTrace_cons (r : LogRecord) (rest : List LogRecord) (db db2 : DB)
    (ps : List LogRecordPos) (h : DB.appendTrace (r :: rest) db = some (db2, ps)) :
    ∃ pos db1 ps1, db.appendLogRecord r = (.ok pos, db1) ∧
      DB.appendTrace rest db1 = some (db2, ps1) ∧ ps = pos :: ps1 := by
  unfold DB.appendTrace at h
  rcases hap : db.appendLogRecord r with ⟨res, db1⟩
  rw [hap] at h
  cases res with
  | error e => cases h
  | ok pos =>
    simp only at h
    rcases hrest : DB.appendTrace rest db1 with _ | ⟨db3, ps1⟩
    · rw [hrest] at h
      cases h
    · rw [hrest] at h
      simp only [Option.some.injEq, Prod.mk.injEq] at h
      exact ⟨pos, db1, ps1, rfl, by rw [hrest, h.1], h.2.symm⟩

/-- A sequence of appends against the trace. -/
theorem appendTrace_inv (rs : List LogRecord) :
    ∀ (db : DB) (t : List (LogRecord × LogRecordPos)) (db2 : DB) (ps : List LogRecordPos),
      TraceInv db t → DB.appendTrace rs db = some (db2, ps) →
      ps.length = rs.length ∧ TraceInv db2 (t ++ rs.zip ps) ∧ db2.options = db.options ∧
      ∀ pre r p post, rs.zip ps = pre ++ (r, p) :: post →
        p.Offset = (bytesIn p.Fid (t ++ pre) : Int) := by
  induction rs with
  | nil =>
    intro db t db2 ps hinv h
    simp only [DB.appendTrace, Option.some.injEq, Prod.mk.injEq] at h
    obtain ⟨h1, h2⟩ := h
    subst h1 h2
    refine ⟨rfl, by simpa using hinv, rfl, ?_⟩
    intro pre r p post hz
    simp at hz
  | cons r rest ih =>
    intro db t db2 ps hinv h
    obtain ⟨pos, db1, ps1, hap, hrest, hps⟩ := appendTrace_cons r rest db db2 ps h
    subst hps
    obtain ⟨hinv1, hoff, hopt1⟩ := TraceInv_append db t r pos db1 hinv hap
    obtain ⟨hlen, hinv2, hopt2, hpos⟩ := ih db1 (t ++ [(r, pos)]) db2 ps1 hinv1 hrest
    refine ⟨by simp [hlen], ?_, hopt2.trans hopt1, ?_⟩
    · simpa using hinv2
    · intro pre r2 p post hz
      simp only [List.zip_cons_cons] at hz
      cases pre with
      | nil =>
        simp only [List.nil_append, List.cons.injEq, Prod.mk.injEq] at hz
        obtain ⟨⟨-, hp⟩, -⟩ := hz
        subst hp
        simpa using hoff
      | cons e pre2 =>
        simp only [List.cons_append, List.cons.injEq] at hz
        obtain ⟨he, hz2⟩ := hz
        subst he
        have := hpos pre2 r2 p post hz2
        simpa using this

theorem TraceInv_opened (options : Options) (db0 : DB)
    (hopen : OpenDB options Directory.empty none = .ok db0) : TraceInv db0 [] := by
  obtain ⟨-, hact, -⟩ := OpenDB_empty options db0 hopen
  refine ⟨(Inv_opened options db0 hopen).files, fun _ => rfl, ?_, ?_⟩
  · intro a ha
    rw [hact] at ha
    cases ha
  · intro a _ e he
    cases he

/-- C34: contiguity.  On an engine opened on an empty directory, after appends
that all return no error (`rs` the records, `ps` the positions returned): the
write offset of the active file is the sum of the encoded sizes of the records
appended to that file, and it is the length of the file; every append returned
as offset the sum of the encoded sizes of the records appended to the same file
before it; so for two consecutive appends into the same file the second offset
is the first offset plus the encoded size of the first record, and the first
record of every file is at offset 0. -/
theorem C34_contiguity (options : Options) (db0 db : DB) (rs : List LogRecord)
    (ps : List LogRecordPos) (hopen : OpenDB options Directory.empty none = .ok db0)
    (hrun : DB.appendTrace rs db0 = some (db, ps)) :
    ps.length = rs.length ∧
    (∀ a, db.activeFile = some a →
      a.WriteOff = (bytesIn a.FileId (rs.zip ps) : Int) ∧
      a.WriteOff = (a.IoManager.length : Int)) ∧
    (∀ pre r p post, rs.zip ps = pre ++ (r, p) :: post → p.Offset = (bytesIn p.Fid pre : Int)) ∧
    (∀ pre r1 p1 r2 p2 post, rs.zip ps = pre ++ (r1, p1) :: (r2, p2) :: post →
      p2.Fid = p1.Fid → p2.Offset = p1.Offset + (encodedSize r1 : Int)) ∧
    (∀ pre r p post, rs.zip ps = pre ++ (r, p) :: post → (∀ e ∈ pre, e.2.Fid ≠ p.Fid) →
      p.Offset = 0) := by
  obtain ⟨hlen, hinv, -, hpos⟩ := appendTrace_inv rs db0 [] db ps (TraceInv_opened options db0 hopen)
    hrun
  simp only [List.nil_append] at hinv hpos
  refine ⟨hlen, ?_, hpos, ?_, ?_⟩
  · intro a ha
    exact ⟨hinv.writeOff a ha, hinv.files.writeOff a ha⟩
  · intro pre r1 p1 r2 p2 post hz hfid
    have h1 := hpos pre r1 p1 ((r2, p2) :: post) hz
    have h2 := hpos (pre ++ [(r1, p1)]) r2 p2 post (by rw [hz]; simp)
    rw [h2, h1, bytesIn_append, bytesIn_single, hfid]
    simp
  · intro pre r p post hz hne
    rw [hpos pre r p post hz, bytesIn_eq_zero _ _ hne]
    rfl

set_option maxRecDepth 100000 in
/-- C34, witness: three records of 29 bytes with a file-size ceiling of 64 bytes
go to file 0 at offsets 0 and 29 and to file 1 at offset 0; the active file 1 is
29 bytes long. -/
theorem C34_contiguity_witness :
    OpenDB exampleOptions Directory.empty none = .ok (emptyDB exampleOptions) ∧
    DB.appendTrace exampleRecords (emptyDB exampleOptions) =
      some (exampleAppended, examplePositions) ∧
    exampleRecords.map encodedSize = [29, 29, 29] ∧
    exampleAppended.activeFile.map (fun a => (a.FileId, a.WriteOff)) = some (1, 29) ∧
    examplePositions.length = exampleRecords.length ∧
    exampleAppended.writeFile.WriteOff =
      (bytesIn exampleAppended.writeFile.FileId (exampleRecords.zip examplePositions) : Int) ∧
    exampleAppended.writeFile.WriteOff = (exampleAppended.writeFile.IoManager.length : Int) :=
  ⟨OpenDB_empty_eq exampleOptions (by decide) (Or.inl rfl), by decide, by decide, by decide,
    (C34_contiguity exampleOptions (emptyDB exampleOptions) exampleAppended exampleRecords
      examplePositions (OpenDB_empty_eq exampleOptions (by decide) (Or.inl rfl))
      (by decide)).1,
    (C34_contiguity exampleOptions (emptyDB exampleOptions) exampleAppended exampleRecords
      examplePositions (OpenDB_empty_eq exampleOptions (by decide) (Or.inl rfl))
      (by decide)).2.1 exampleAppended.writeFile (by decide)⟩

end Bitcask

namespace Bitcask

/-! ## Claim C35: replay bookkeeping -/

theorem updateIndex_files (db : DB) (key : Bytes) (typ : LogRecordType) (pos : LogRecordPos)
    (db1 : DB) (h : db.updateIndex key typ pos = .ok db1) :
    db1.activeFile = db.activeFile ∧ db1.olderFile = db.olderFile ∧ db1.fileIds = db.fileIds := by
  unfold DB.updateIndex at h
  split at h
  · simp only at h
    split at h
    · cases h
    · injection h with h
      subst h
      exact ⟨rfl, rfl, rfl⟩
  · simp only at h
    split at h <;>
    · injection h with h
      subst h
      exact ⟨rfl, rfl, rfl⟩

theorem updateIndexAll_files (l : List TransactionReocrd) :
    ∀ (db db1 : DB), updateIndexAll l db = .ok db1 →
      db1.activeFile = db.activeFile ∧ db1.olderFile = db.olderFile ∧ db1.fileIds = db.fileIds := by
  induction l with
  | nil =>
    intro db db1 h
    simp only [updateIndexAll, Except.ok.injEq] at h
    subst h
    exact ⟨rfl, rfl, rfl⟩
  | cons x rest ih =>
    intro db db1 h
    unfold updateIndexAll at h
    split at h
    · cases h
    · rename_i db2 hu
      obtain ⟨h1, h2, h3⟩ := updateIndex_files _ _ _ _ _ hu
      obtain ⟨h4, h5, h6⟩ := ih _ _ h
      exact ⟨h4.trans h1, h5.trans h2, h6.trans h3⟩

theorem bump_seqNo (seqNo : Nat) (st0 : Replay) :
    (if seqNo > st0.currentSeqNo then { st0 with currentSeqNo := seqNo } else st0).db = st0.db ∧
    (if seqNo > st0.currentSeqNo then { st0 with currentSeqNo := seqNo } else st0).currentSeqNo =
      max st0.currentSeqNo seqNo := by
  by_cases hgt : seqNo > st0.currentSeqNo
  · simp only [hgt, if_true]
    exact ⟨trivial, by omega⟩
  · simp only [hgt, if_false]
    exact ⟨trivial, by omega⟩

/-- One record of the replay: the files stay as they are, and the largest
sequence number seen is raised to the number the record carries. -/
theorem replayRecord_seqNo (st : Replay) (fid : Nat) (offset : Int) (r : LogRecord) (size : Int)
    (st1 : Replay) (h : replayRecord st fid offset r size = .ok st1) :
    st1.db.activeFile = st.db.activeFile ∧ st1.db.olderFile = st.db.olderFile ∧
    st1.db.fileIds = st.db.fileIds ∧ st1.currentSeqNo = max st.currentSeqNo (recordSeqNo r) := by
  unfold replayRecord at h
  simp only at h
  rcases hparse : parseLogRecordKey r.Key with e | ⟨realKey, seqNo⟩
  · rw [hparse] at h
    cases h
  · have hseq : seqNo = recordSeqNo r := by
      unfold parseLogRecordKey at hparse
      simp only at hparse
      split at hparse
      · cases hparse
      · simp only [Except.ok.injEq, Prod.mk.injEq] at hparse
        exact hparse.2.symm
    rw [hparse] at h
    simp only at h
    split at h
    · cases h
    · rename_i st0 hr
      simp only [Except.ok.injEq] at h
      have h0 : st0.db.activeFile = st.db.activeFile ∧ st0.db.olderFile = st.db.olderFile ∧
          st0.db.fileIds = st.db.fileIds ∧ st0.currentSeqNo = st.currentSeqNo := by
        by_cases hz : seqNo = nonTransactionSeqNo
        · simp only [hz, if_true] at hr
          split at hr
          · cases hr
          · rename_i db1 hu
            simp only [Except.ok.injEq] at hr
            obtain ⟨h1, h2, h3⟩ := updateIndex_files _ _ _ _ _ hu
            rw [← hr]
            exact ⟨h1, h2, h3, rfl⟩
        · simp only [hz, if_false] at hr
          split at hr
          · split at hr
            · cases hr
            · rename_i db1 hu
              simp only [Except.ok.injEq] at hr
              obtain ⟨h1, h2, h3⟩ := updateIndexAll_files _ _ _ hu
              rw [← hr]
              exact ⟨h1, h2, h3, rfl⟩
          · simp only [Except.ok.injEq] at hr
            rw [← hr]
            exact ⟨rfl, rfl, rfl, rfl⟩
      obtain ⟨hb1, hb2⟩ := bump_seqNo seqNo st0
      rw [h] at hb1 hb2
      rw [hb1, hb2, h0.2.2.2, ← hseq]
      exact ⟨h0.1, h0.2.1, h0.2.2.1, rfl⟩

/-- The replay loop over one file: the files stay as they are, the largest
sequence number seen is raised to the largest one carried by a record read, and
the final offset is the start offset plus the sizes of the records read. -/
theorem replayFile_scan (df : DataFile) (fid : Nat) :
    ∀ (fuel : Nat) (offset : Int) (st st1 : Replay) (offset1 : Int),
      replayFile df fid fuel offset st = .ok (st1, offset1) →
      st1.db.activeFile = st.db.activeFile ∧ st1.db.olderFile = st.db.olderFile ∧
      st1.db.fileIds = st.db.fileIds ∧
      st1.currentSeqNo = maxSeqNoFrom st.currentSeqNo (scanFile df fuel offset) ∧
      offset1 = offset + sizesOf (scanFile df fuel offset) := by
  intro fuel
  induction fuel with
  | zero =>
    intro offset st st1 offset1 h
    unfold replayFile at h
    cases h
  | succ fuel ih =>
    intro offset st st1 offset1 h
    unfold replayFile at h
    unfold scanFile
    rcases hread : df.ReadLogRecord offset with e | ⟨r, size⟩
    · rw [hread] at h
      cases e <;> first
        | (cases h; done)
        | (simp only [Except.ok.injEq, Prod.mk.injEq] at h
           obtain ⟨h1, h2⟩ := h
           subst h1 h2
           exact ⟨rfl, rfl, rfl, rfl, by simp [sizesOf]⟩)
    · rw [hread] at h
      simp only at h
      rcases hrec : replayRecord st fid offset r size with e | st2
      · rw [hrec] at h
        cases h
      · rw [hrec] at h
        obtain ⟨h1, h2, h3, h4⟩ := replayRecord_seqNo st fid offset r size st2 hrec
        obtain ⟨h5, h6, h7, h8, h9⟩ := ih _ _ _ _ h
        refine ⟨h5.trans h1, h6.trans h2, h7.trans h3, ?_, ?_⟩
        · rw [h8, h4]
          rfl
        · rw [h9]
          simp only [sizesOf, List.map_cons, List.sum_cons]
          omega

theorem scanFile_congr (df df2 : DataFile) (h : df2.IoManager = df.IoManager) :
    ∀ (fuel : Nat) (offset : Int), scanFile df2 fuel offset = scanFile df fuel offset := by
  have hread : ∀ offset, df2.ReadLogRecord offset = df.ReadLogRecord offset := by
    intro offset
    unfold DataFile.ReadLogRecord DataFile.readNBytes
    rw [h]
  intro fuel
  induction fuel with
  | zero => intro offset; rfl
  | succ fuel ih =>
    intro offset
    unfold scanFile
    rw [hread]
    rcases df.ReadLogRecord offset with e | ⟨r, size⟩
    · rfl
    · simp only
      rw [ih]

theorem maxSeqNoFrom_append (m : Nat) (a b : List (LogRecord × Int)) :
    maxSeqNoFrom m (a ++ b) = maxSeqNoFrom (maxSeqNoFrom m a) b := by
  simp [maxSeqNoFrom, List.foldl_append]

/-- One file of the replay. -/
theorem replayOne_scan (fid : Nat) (isLast : Bool) (st st1 : Replay)
    (h : replayOne fid isLast st = .ok st1) :
    ∃ df, st.db.fileOf fid = some df ∧ st1.db.olderFile = st.db.olderFile ∧
      st1.db.fileIds = st.db.fileIds ∧
      st1.currentSeqNo =
        maxSeqNoFrom st.currentSeqNo (scanFile df (df.IoManager.length + 1) 0) ∧
      st1.db.activeFile =
        if isLast = true then
          st.db.activeFile.map (fun a =>
            { a with WriteOff := sizesOf (scanFile df (df.IoManager.length + 1) 0) })
        else st.db.activeFile := by
  unfold replayOne at h
  cases hact : st.db.activeFile with
  | none =>
    rw [hact] at h
    cases h
  | some active =>
    rw [hact] at h
    simp only at h
    have hfile : st.db.fileOf fid =
        (if fid = active.FileId then some active else mapGet st.db.olderFile fid) := by
      unfold DB.fileOf
      rw [hact]
    rcases hdf : (if fid = active.FileId then some active else mapGet st.db.olderFile fid) with
      _ | df
    · rw [hdf] at h
      cases h
    · rw [hdf] at h
      simp only at h
      generalize hrf : replayFile df fid (df.IoManager.length + 1) 0 st = x at h
      rcases x with e | ⟨st2, offset⟩
      · cases h
      · simp only at h
        obtain ⟨h1, h2, h3, h4, h5⟩ := replayFile_scan df fid _ _ _ _ _ hrf
        refine ⟨df, by rw [hfile, hdf], ?_⟩
        cases isLast with
        | true =>
          simp only [if_true, Except.ok.injEq] at h
          rw [← h]
          simp only
          rw [h1, hact, h5]
          simp only [zero_add, if_true]
          exact ⟨h2, h3, h4, trivial⟩
        | false =>
          simp only [Bool.false_eq_true, if_false, Except.ok.injEq] at h
          rw [← h]
          simp only [Bool.false_eq_true, if_false]
          exact ⟨h2, h3, h4, h1.trans hact⟩

theorem replayFiles_nil (hasMerge : Bool) (n : Nat) (st : Replay) :
    replayFiles hasMerge n [] st = .ok st := rfl

theorem replayFiles_cons (n : Nat) (fid : Nat) (rest : List Nat) (st : Replay) :
    replayFiles false n (fid :: rest) st =
      match replayOne fid (decide (rest = [])) st with
      | .error e => .error e
      | .ok st2 => replayFiles false n rest st2 := by
  simp only [replayFiles, Bool.false_eq_true, false_and, if_false] <;> rfl

/-- The replay over the files of a directory (no merge recorded): the largest
sequence number seen is raised to the largest one carried by a record read from
one of the files, and the write offset of the active file becomes the sum of the
sizes of the records read from the last file. -/
theorem replayFiles_scan (dir : Directory) (ids : List Nat) :
    ∀ (st st2 : Replay),
      (∀ fid ∈ ids, ∀ df, st.db.fileOf fid = some df →
        df.IoManager = (OpenDataFile dir.dataFiles fid).IoManager) →
      replayFiles false 0 ids st = .ok st2 →
      st2.db.olderFile = st.db.olderFile ∧ st2.db.fileIds = st.db.fileIds ∧
      st2.currentSeqNo = maxSeqNoFrom st.currentSeqNo (ids.flatMap (scanData dir)) ∧
      st2.db.activeFile =
        match ids.getLast? with
        | none => st.db.activeFile
        | some last =>
          st.db.activeFile.map (fun a => { a with WriteOff := sizesOf (scanData dir last) }) := by
  induction ids with
  | nil =>
    intro st st2 _ h
    rw [replayFiles_nil] at h
    simp only [Except.ok.injEq] at h
    subst h
    exact ⟨rfl, rfl, rfl, rfl⟩
  | cons fid rest ih =>
    intro st st2 hfiles h
    rw [replayFiles_cons] at h
    rcases hone : replayOne fid (decide (rest = [])) st with e | st1
    · rw [hone] at h
      cases h
    · rw [hone] at h
      simp only at h
      obtain ⟨df, hdf, h1, h2, h3, h4⟩ := replayOne_scan fid _ st st1 hone
      have hio := hfiles fid (List.mem_cons_self _ _) df hdf
      have hscan : scanFile df (df.IoManager.length + 1) 0 = scanData dir fid := by
        unfold scanData
        rw [hio]
        exact scanFile_congr _ _ hio _ _
      rw [hscan] at h3 h4
      by_cases hrest : rest = []
      · subst hrest
        rw [replayFiles_nil] at h
        simp only [Except.ok.injEq] at h
        subst h
        simp only [decide_True, if_true] at h4
        refine ⟨h1, h2, ?_, ?_⟩
        · simpa using h3
        · simpa using h4
      · simp only [hrest, decide_False, Bool.false_eq_true, if_false] at h4
        obtain ⟨h5, h6, h7, h8⟩ := ih st1 st2
          (by
            intro fid2 hm df2 hf2
            rw [fileOf_congr st.db st1.db h4 h1] at hf2
            exact hfiles fid2 (List.mem_cons_of_mem _ hm) df2 hf2)
          h
        refine ⟨h5.trans h1, h6.trans h2, ?_, ?_⟩
        · rw [h7, h3, List.flatMap_cons, maxSeqNoFrom_append]
        · rw [h8, h4]
          obtain ⟨y, ys, rfl⟩ := List.exists_cons_of_ne_nil hrest
          rw [List.getLast?_cons_cons]

theorem mem_foldl_mapSet (hs : List DataFile) :
    ∀ (acc : List (Nat × DataFile)) (e : Nat × DataFile),
      e ∈ hs.foldl (fun acc f => mapSet acc f.FileId f) acc →
      e ∈ acc ∨ ∃ f ∈ hs, e = (f.FileId, f) := by
  induction hs with
  | nil => intro acc e h; exact Or.inl h
  | cons f rest ih =>
    intro acc e h
    simp only [List.foldl_cons] at h
    rcases ih _ e h with h1 | ⟨f2, hf2, he⟩
    · rcases mem_mapSet _ _ _ _ h1 with h2 | h2
      · exact Or.inr ⟨f, List.mem_cons_self _ _, h2⟩
      · exact Or.inl h2.1
    · exact Or.inr ⟨f2, List.mem_cons_of_mem _ hf2, he⟩

theorem loadDataFile_mergeFinishedFile (db : DB) (dir : Directory) :
    (db.loadDataFile dir).mergeFinishedFile = db.mergeFinishedFile := by
  unfold DB.loadDataFile
  simp only
  split <;> rfl

/-- The handles `loadDataFile` opens: the ids in ascending order, the file of
the last id as active file, and every handle opened on the file of its id. -/
theorem loadDataFile_files (db0 : DB) (dir : Directory) (hold : db0.olderFile = [])
    (hact : db0.activeFile = none) :
    (db0.loadDataFile dir).fileIds = (dir.dataFiles.map (fun e => e.1)).insertionSort (· ≤ ·) ∧
    ((db0.loadDataFile dir).fileIds = [] → (db0.loadDataFile dir).activeFile = none) ∧
    (∀ last, (db0.loadDataFile dir).fileIds.getLast? = some last →
      (db0.loadDataFile dir).activeFile = some (OpenDataFile dir.dataFiles last)) ∧
    (∀ fid df, (db0.loadDataFile dir).fileOf fid = some df →
      df = OpenDataFile dir.dataFiles fid) := by
  unfold DB.loadDataFile
  simp only
  generalize (dir.dataFiles.map (fun e => e.1)).insertionSort (· ≤ ·) = ids
  rw [List.getLast?_map]
  cases hlast : ids.getLast? with
  | none =>
    simp only [Option.map_none']
    refine ⟨by first | rfl | trivial, fun _ => hact, ?_, ?_⟩
    · intro last h
      rw [hlast] at h
      cases h
    · intro fid df h
      unfold DB.fileOf at h
      simp only [hact] at h
      cases h
  | some last =>
    simp only [Option.map_some']
    refine ⟨by first | rfl | trivial, ?_, ?_, ?_⟩
    · intro h
      rw [h] at hlast
      cases hlast
    · intro last2 h
      rw [hlast] at h
      simp only [Option.some.injEq] at h
      rw [h]
    · intro fid df h
      unfold DB.fileOf at h
      simp only at h
      by_cases hfid : fid = (OpenDataFile dir.dataFiles last).FileId
      · simp only [hfid, if_true, Option.some.injEq] at h
        rw [← h, hfid]
        rfl
      · simp only [hfid, if_false] at h
        have hm := mem_of_mapGet _ _ _ h
        rw [hold] at hm
        rcases mem_foldl_mapSet _ _ _ hm with h1 | ⟨f, hf, he⟩
        · cases h1
        · have hf2 := List.mem_of_mem_dropLast hf
          obtain ⟨k, -, hk⟩ := List.mem_map.1 hf2
          simp only [Prod.mk.injEq] at he
          rw [he.2, he.1, ← hk]
          rfl

/-- C35: replay bookkeeping.  After `OpenDB` on a directory without the marker
of a completed merge has returned an engine: the file ids are those of the data
files in ascending order; the sequence counter is the largest sequence number
carried by a record read from one of these files (0 if no record is read); and
the active file is the file of the last id, whose write offset is the sum of the
sizes of the records read from it, the offset just past the last record read.
Without data files there is no active file. -/
theorem C35_replay_bookkeeping (options : Options) (dir : Directory) (db : DB)
    (hopen : OpenDB options dir none = .ok db) (hmf : dir.mergeFinished = none) :
    db.fileIds = (dir.dataFiles.map (fun e => e.1)).insertionSort (· ≤ ·) ∧
    db.seqNo = maxSeqNoFrom 0 (db.fileIds.flatMap (scanData dir)) ∧
    (db.fileIds = [] → db.activeFile = none) ∧
    (∀ last, db.fileIds.getLast? = some last →
      ∃ a, db.activeFile = some a ∧ a.FileId = last ∧
        a.IoManager = (OpenDataFile dir.dataFiles last).IoManager ∧
        a.WriteOff = sizesOf (scanData dir last)) := by
  obtain ⟨hopt, hlock, hidx⟩ := OpenDB_ok_inMemory options dir none db hopen
  rw [OpenDB_eq options dir none hopt hlock hidx] at hopen
  simp only [loadMergeFile] at hopen
  generalize hdb0 : (
    { options := options, fileIds := [], activeFile := none, olderFile := [],
      index := NewTree, seqNo := 0, isMerging := false, seqNoFileExists := false,
      isInitial := !dir.present, bytesWrite := 0, reclaimSize := 0,
      hintIndexFile := dir.hintIndex, mergeFinishedFile := dir.mergeFinished,
      seqNoFile := dir.seqNo } : DB) = db0 at hopen
  have hold0 : db0.olderFile = [] := by rw [← hdb0]
  have hact0 : db0.activeFile = none := by rw [← hdb0]
  have hmf0 : db0.mergeFinishedFile = none := by rw [← hdb0]; exact hmf
  have hseq0 : db0.seqNo = 0 := by rw [← hdb0]
  obtain ⟨hids, hnone, hlast, hfiles⟩ := loadDataFile_files db0 dir hold0 hact0
  have hmf1 := (loadDataFile_mergeFinishedFile db0 dir).trans hmf0
  have hseq1 : (db0.loadDataFile dir).seqNo = 0 := by
    rw [← hseq0]
    unfold DB.loadDataFile
    simp only
    split <;> rfl
  generalize db0.loadDataFile dir = db1 at hopen hids hnone hlast hfiles hmf1 hseq1
  unfold DB.loadIndexFromHint at hopen
  cases hh : db1.hintIndexFile with
  | some x =>
    rw [hh] at hopen
    cases hopen
  | none =>
    rw [hh] at hopen
    simp only at hopen
    unfold DB.loadIndexerFromDataFile at hopen
    by_cases hlen : db1.fileIds.length = 0
    · simp only [hlen, if_true, Except.ok.injEq] at hopen
      subst hopen
      have hnil : db1.fileIds = [] := List.length_eq_zero.1 hlen
      refine ⟨hids, ?_, hnone, ?_⟩
      · rw [hnil, hseq1]
        rfl
      · intro last h
        rw [hnil] at h
        cases h
    · simp only [hlen, if_false, hmf1] at hopen
      rcases hrep : replayFiles false 0 db1.fileIds
          { db := db1, transactionRecords := [], currentSeqNo := nonTransactionSeqNo } with e | st
      · rw [hrep] at hopen
        cases hopen
      · rw [hrep] at hopen
        simp only [Except.ok.injEq] at hopen
        obtain ⟨h1, h2, h3, h4⟩ := replayFiles_scan dir db1.fileIds _ st
          (fun fid _ df hf => by rw [hfiles fid df hf]) hrep
        simp only at h1 h2 h3 h4
        rw [← hopen]
        simp only
        rw [h2]
        refine ⟨hids, h3, ?_, ?_⟩
        · intro h
          exact absurd (by rw [h]; rfl) hlen
        · intro last h
          rw [h4, h, hlast last h]
          exact ⟨_, rfl, rfl, rfl, rfl⟩

set_option maxRecDepth 100000 in
/-- C35, witness: the directory left by `Put("a", "1")`, one committed batch and
`Close` holds one data file with records of 10, 9 and 15 bytes that carry the
sequence numbers 0, 1 and 1; the engine opened on it has the sequence counter 1
and the write offset 34. -/
theorem C35_replay_bookkeeping_witness :
    OpenDB exampleOptions exampleBatchDirectory none = .ok exampleReopened ∧
    exampleBatchDirectory.mergeFinished = none ∧
    (scanData exampleBatchDirectory 0).map (fun e => (recordSeqNo e.1, e.2)) =
      [(0, 10), (1, 9), (1, 15)] ∧
    exampleReopened.fileIds = [0] ∧
    exampleReopened.seqNo = 1 ∧
    exampleReopened.seqNo =
      maxSeqNoFrom 0 (exampleReopened.fileIds.flatMap (scanData exampleBatchDirectory)) ∧
    ∃ a, exampleReopened.activeFile = some a ∧ a.FileId = 0 ∧
      a.IoManager = (OpenDataFile exampleBatchDirectory.dataFiles 0).IoManager ∧
      a.WriteOff = sizesOf (scanData exampleBatchDirectory 0) :=
  ⟨by decide, by decide, by decide, by decide, by decide,
    (C35_replay_bookkeeping exampleOptions exampleBatchDirectory exampleReopened (by decide)
      (by decide)).2.1,
    (C35_replay_bookkeeping exampleOptions exampleBatchDirectory exampleReopened (by decide)
      (by decide)).2.2.2 0 (by decide)⟩

end Bitcask

namespace Bitcask

/-! ## The rounds of the walk of `Merge` -/

theorem mergeRecords_succ (db : DB) (dataFile : DataFile) (fuel : Nat) (offset : Int)
    (mergeDB : DB) (hintFile : DataFile) :
    mergeRecords db dataFile (fuel + 1) offset (mergeDB, hintFile) =
      match dataFile.ReadLogRecord offset with
      | .error .EOF => (.ok (), (mergeDB, hintFile))
      | .error e => (.error e, (mergeDB, hintFile))
      | .ok (logRecord, size) =>
        match parseLogRecordKey logRecord.Key with
        | .error e => (.error e, (mergeDB, hintFile))
        | .ok (realKey, _) =>
          let live : Bool :=
            match db.index.Get realKey with
            | none => false
            | some logRecordPos =>
              decide (logRecordPos.Fid = dataFile.FileId ∧ logRecordPos.Offset = offset)
          if live then
            match mergeDB.appendLogRecord
                { logRecord with Key := logRecordKeyWithSeq realKey nonTransactionSeqNo } with
            | (.error e, mergeDB1) => (.error e, (mergeDB1, hintFile))
            | (.ok pos, mergeDB1) =>
              match hintFile.WriteHintRecord realKey pos with
              | .error e => (.error e, (mergeDB1, hintFile))
              | .ok hintFile1 => mergeRecords db dataFile fuel (offset + size) (mergeDB1, hintFile1)
          else mergeRecords db dataFile fuel (offset + size) (mergeDB, hintFile) := rfl

/-- One round of the loop of `Merge` on a record the index points to. -/
theorem mergeRecords_live (db : DB) (dataFile : DataFile) (fuel : Nat) (offset : Int)
    (mergeDB : DB) (hintFile : DataFile) (logRecord : LogRecord) (size : Int) (realKey : Bytes)
    (seqNo : Nat) (p : LogRecordPos)
    (hread : dataFile.ReadLogRecord offset = .ok (logRecord, size))
    (hparse : parseLogRecordKey logRecord.Key = .ok (realKey, seqNo))
    (hget : db.index.Get realKey = some p) (hfid : p.Fid = dataFile.FileId)
    (hoff : p.Offset = offset) :
    mergeRecords db dataFile (fuel + 1) offset (mergeDB, hintFile) =
      match mergeDB.appendLogRecord
          { Key := logRecordKeyWithSeq realKey 0, Value := logRecord.Value,
            Typ := logRecord.Typ } with
      | (.error e, mergeDB1) => (.error e, (mergeDB1, hintFile))
      | (.ok pos, mergeDB1) =>
        match hintFile.WriteHintRecord realKey pos with
        | .error e => (.error e, (mergeDB1, hintFile))
        | .ok hintFile1 => mergeRecords db dataFile fuel (offset + size) (mergeDB1, hintFile1) := by
  rw [mergeRecords_succ, hread]
  simp only [hparse, hget, hfid, hoff, and_self, decide_True, if_true] <;> rfl

/-- One round of the loop of `Merge` on a record the index does not point to. -/
theorem mergeRecords_dead (db : DB) (dataFile : DataFile) (fuel : Nat) (offset : Int)
    (mergeDB : DB) (hintFile : DataFile) (logRecord : LogRecord) (size : Int) (realKey : Bytes)
    (seqNo : Nat)
    (hread : dataFile.ReadLogRecord offset = .ok (logRecord, size))
    (hparse : parseLogRecordKey logRecord.Key = .ok (realKey, seqNo))
    (hdead : ¬ ∃ p, db.index.Get realKey = some p ∧ p.Fid = dataFile.FileId ∧ p.Offset = offset) :
    mergeRecords db dataFile (fuel + 1) offset (mergeDB, hintFile) =
      mergeRecords db dataFile fuel (offset + size) (mergeDB, hintFile) := by
  rw [mergeRecords_succ, hread]
  simp only [hparse]
  cases hget : db.index.Get realKey with
  | none => simp
  | some p =>
    have : ¬ (p.Fid = dataFile.FileId ∧ p.Offset = offset) := fun hc => hdead ⟨p, hget, hc.1, hc.2⟩
    simp [this]

theorem WriteHintRecord_ok (hintFile hintFile1 : DataFile) (key : Bytes) (pos : LogRecordPos)
    (h : hintFile.WriteHintRecord key pos = .ok hintFile1) :
    ∃ enc n, EncodeLogRecord { Key := key, Value := EncodeLogRecordPos pos, Typ := 0 } =
        .ok (enc, n) ∧
      hintFile1.IoManager = hintFile.IoManager ++ enc := by
  unfold DataFile.WriteHintRecord at h
  split at h
  · cases h
  · rename_i enc n henc
    simp only [Except.ok.injEq] at h
    exact ⟨enc, n, henc, by rw [← h]; rfl⟩

/-- One round of the walk of `Merge` over the file `dataFile`, for the record
read at `offset` (with user key `realKey`): if the index maps
`realKey` to a position with the file id of `dataFile` and the offset `offset`,
the record is appended to the merge engine with the key `encode_seq(0, realKey)`
and its own value and type, the hint file receives one record with the key
`realKey` and the encoded position returned by that append, and the walk goes on
at `offset + size`; otherwise neither the merge engine nor the hint file changes
and the walk goes on at `offset + size`. -/
theorem mergeRecords_round (db : DB) (dataFile : DataFile) (fuel : Nat) (offset : Int)
    (mergeDB : DB) (hintFile : DataFile) (logRecord : LogRecord) (size : Int) (realKey : Bytes)
    (seqNo : Nat)
    (hread : dataFile.ReadLogRecord offset = .ok (logRecord, size))
    (hparse : parseLogRecordKey logRecord.Key = .ok (realKey, seqNo)) :
    ((∃ p, db.index.Get realKey = some p ∧ p.Fid = dataFile.FileId ∧ p.Offset = offset) →
      mergeRecords db dataFile (fuel + 1) offset (mergeDB, hintFile) =
        match mergeDB.appendLogRecord
            { Key := logRecordKeyWithSeq realKey 0, Value := logRecord.Value,
              Typ := logRecord.Typ } with
        | (.error e, mergeDB1) => (.error e, (mergeDB1, hintFile))
        | (.ok pos, mergeDB1) =>
          match hintFile.WriteHintRecord realKey pos with
          | .error e => (.error e, (mergeDB1, hintFile))
          | .ok hintFile1 =>
            mergeRecords db dataFile fuel (offset + size) (mergeDB1, hintFile1)) ∧
    ((¬ ∃ p, db.index.Get realKey = some p ∧ p.Fid = dataFile.FileId ∧ p.Offset = offset) →
      mergeRecords db dataFile (fuel + 1) offset (mergeDB, hintFile) =
        mergeRecords db dataFile fuel (offset + size) (mergeDB, hintFile)) ∧
    (∀ pos hintFile1, hintFile.WriteHintRecord realKey pos = .ok hintFile1 →
      ∃ enc n, EncodeLogRecord { Key := realKey, Value := EncodeLogRecordPos pos, Typ := 0 } =
          .ok (enc, n) ∧
        hintFile1.IoManager = hintFile.IoManager ++ enc) := by
  refine ⟨?_, mergeRecords_dead db dataFile fuel offset mergeDB hintFile logRecord size realKey
    seqNo hread hparse, fun pos hintFile1 h => WriteHintRecord_ok _ _ _ _ h⟩
  rintro ⟨p, hget, hfid, hoff⟩
  exact mergeRecords_live db dataFile fuel offset mergeDB hintFile logRecord size realKey seqNo p
    hread hparse hget hfid hoff

set_option maxRecDepth 100000 in
/-- The walk over file 0 of the engine after `Put("a", "1"); Put("a", "2")`.
The record at offset 0 is skipped, the record at offset 10, to
which the index points, is appended to the merge engine at file 0, offset 0, and
the hint file receives the entry for `"a"`; the walk ends at offset 20. -/
theorem mergeRecords_round_example :
    exampleOverwritten.index.Get [97] = some { Fid := 0, Offset := 10, Size := 0 } ∧
    exampleOverwritten.writeFile.ReadLogRecord 0 =
      .ok ({ Key := [0, 97], Value := [49], Typ := LogRecordNormal }, 10) ∧
    exampleOverwritten.writeFile.ReadLogRecord 10 =
      .ok ({ Key := [0, 97], Value := [50], Typ := LogRecordNormal }, 10) ∧
    mergeRecords exampleOverwritten exampleOverwritten.writeFile 3 0
        (exampleMergeDB, emptyHintFile) =
      mergeRecords exampleOverwritten exampleOverwritten.writeFile 2 (0 + 10)
        (exampleMergeDB, emptyHintFile) ∧
    mergeRecords exampleOverwritten exampleOverwritten.writeFile 2 10
        (exampleMergeDB, emptyHintFile) =
      mergeRecords exampleOverwritten exampleOverwritten.writeFile 1 (10 + 10)
        (exampleMergeDB1, exampleHintFile1) ∧
    mergeRecords exampleOverwritten exampleOverwritten.writeFile 1 20
        (exampleMergeDB1, exampleHintFile1) = (.ok (), (exampleMergeDB1, exampleHintFile1)) ∧
    exampleMergeDB1.dataFiles = [(0, [142, 196, 122, 90, 0, 4, 2, 0, 97, 50])] ∧
    exampleHintFile1.IoManager = [179, 27, 126, 220, 0, 2, 6, 97, 0, 0, 0] :=
  ⟨by decide, by decide, by decide,
    (mergeRecords_round exampleOverwritten exampleOverwritten.writeFile 2 0 exampleMergeDB
      emptyHintFile { Key := [0, 97], Value := [49], Typ := LogRecordNormal } 10 [97] 0
      (by decide) (by decide)).2.1 (by decide),
    (mergeRecords_round exampleOverwritten exampleOverwritten.writeFile 1 10 exampleMergeDB
      emptyHintFile { Key := [0, 97], Value := [50], Typ := LogRecordNormal } 10 [97] 0
      (by decide) (by decide)).1 ⟨{ Fid := 0, Offset := 10, Size := 0 }, by decide, by decide,
        by decide⟩,
    by decide, by decide, by decide⟩

end Bitcask

namespace Bitcask

/-! ## Stored records and the place of the next record -/

theorem putUvarintLoop_length_mono (fuel : Nat) :
    ∀ (x y : Nat), x ≤ y → (putUvarintLoop fuel x).length ≤ (putUvarintLoop fuel y).length := by
  induction fuel with
  | zero => intro x y _; simp [putUvarintLoop]
  | succ f ih =>
    intro x y hxy
    unfold putUvarintLoop
    by_cases hy : y < 0x80
    · have hx : x < 0x80 := by omega
      simp [hx, hy]
    · by_cases hx : x < 0x80
      · simp only [hx, hy, if_true, if_false, List.length_cons, List.length_nil]
        omega
      · simp only [hx, hy, if_false, List.length_cons]
        have := ih (x / 0x80) (y / 0x80) (Nat.div_le_div_right hxy)
        omega

theorem PutVarint_length_mono (a b : Nat) (h : a ≤ b) :
    (PutVarint (a : Int)).length ≤ (PutVarint (b : Int)).length := by
  unfold PutVarint PutUvarint
  have ha : ¬ ((a : Int) < 0) := by omega
  have hb : ¬ ((b : Int) < 0) := by omega
  simp only [ha, hb, if_false]
  apply putUvarintLoop_length_mono
  omega

theorem Stored_key_ne (r : LogRecord) (h : Stored r) : r.Key ≠ [] := by
  obtain ⟨s, k, -, hk, -, -⟩ := h
  have := PutUvarint_length_pos s
  intro hc
  rw [hc] at hk
  have : (PutUvarint s ++ k).length = 0 := by rw [← hk]; rfl
  rw [List.length_append] at this
  omega

/-- A stored record is encoded, and its encoding reads back as the record. -/
theorem Stored_encode (r : LogRecord) (h : Stored r) :
    ∃ enc, EncodeLogRecord r = .ok (enc, (enc.length : Int)) ∧ encodeAll [r] = enc ∧
      encodedSize r = enc.length ∧ readBack r = .ok (r, (enc.length : Int)) ∧ 7 ≤ enc.length := by
  have hne := Stored_key_ne r h
  obtain ⟨s, k, -, -, hkl, hvl⟩ := h
  obtain ⟨enc, henc⟩ := EncodeLogRecord_ok_of_lt r (by omega) (by omega)
  have hl := (EncodeLogRecord_length r enc _ henc).1
  refine ⟨enc, henc, encodeAll_single r enc _ henc, encodedSize_of_encode r enc _ henc, ?_,
    EncodeLogRecord_length_ge r enc _ henc⟩
  rw [readBack_ok r hne hkl hvl, hl]

/-- The record `Merge` appends for a stored record is not longer than the
record. -/
theorem Stored_rewrite (r : LogRecord) (h : Stored r) :
    ∃ (k : Bytes) (s : Nat), parseLogRecordKey r.Key = .ok (k, s) ∧
      encodedSize { r with Key := logRecordKeyWithSeq k nonTransactionSeqNo } ≤ encodedSize r := by
  obtain ⟨enc, henc, -, hsize, -, -⟩ := Stored_encode r h
  obtain ⟨s, k, hs, hk, hkl, hvl⟩ := h
  refine ⟨k, s, by rw [hk]; exact parseLogRecordKey_withSeq k s hs, ?_⟩
  have hlen : r.Key.length = (PutUvarint s).length + k.length := by rw [hk, List.length_append]
  have h1 := PutUvarint_length_pos s
  have hk2 : (logRecordKeyWithSeq k nonTransactionSeqNo).length = k.length + 1 := rfl
  obtain ⟨enc2, henc2⟩ := EncodeLogRecord_ok_of_lt
    { r with Key := logRecordKeyWithSeq k nonTransactionSeqNo }
    (by show (logRecordKeyWithSeq k nonTransactionSeqNo).length < 2 ^ 34; rw [hk2]; omega)
    (by show r.Value.length < 2 ^ 34; omega)
  rw [hsize, encodedSize_of_encode _ enc2 _ henc2, (EncodeLogRecord_length _ enc2 _ henc2).1,
    (EncodeLogRecord_length r enc _ henc).1]
  simp only
  rw [hk2]
  have hm := PutVarint_length_mono (k.length + 1) r.Key.length (by omega)
  push_cast at hm ⊢
  omega

theorem length_le_encodeAll_stored (rs : List LogRecord) (hs : ∀ r ∈ rs, Stored r) :
    rs.length ≤ (encodeAll rs).length := by
  induction rs with
  | nil => simp
  | cons r rs ih =>
    obtain ⟨enc, -, hs1, -, -, hpos⟩ := Stored_encode r (hs r (List.mem_cons_self _ _))
    have h1 : encodeAll (r :: rs) = encodeAll [r] ++ encodeAll rs := encodeAll_append [r] rs
    have h2 := ih (fun r2 h => hs r2 (List.mem_cons_of_mem _ h))
    rw [h1, hs1, List.length_append, List.length_cons]
    omega

/-- Where the next record goes after a successful append: to the next file when
the record would take the current file past the ceiling, to the end of the
current file otherwise; the position returned names that file. -/
theorem append_writeFile (db : DB) (hf : db.FilesInv) (r : LogRecord) (pos : LogRecordPos)
    (db1 : DB) (hap : db.appendLogRecord r = (.ok pos, db1)) :
    db1.FilesInv ∧ db1.options = db.options ∧ pos.Fid = db1.writeFile.FileId ∧
    0 ≤ db.writeFile.WriteOff ∧
    ((db.writeFile.WriteOff + (encodedSize r : Int) > db.options.DataFileSize ∧
        db1.writeFile.FileId = db.writeFile.FileId + 1 ∧
        db1.writeFile.WriteOff = (encodedSize r : Int)) ∨
      (db.writeFile.WriteOff + (encodedSize r : Int) ≤ db.options.DataFileSize ∧
        db1.writeFile.FileId = db.writeFile.FileId ∧
        db1.writeFile.WriteOff = db.writeFile.WriteOff + (encodedSize r : Int))) := by
  have happ := Appended_of_appendLogRecord db hf r pos db1 hap
  obtain ⟨enc, n, henc⟩ := encode_ok_of_appendLogRecord db r pos db1 hap
  have hn : n = enc.length := ((EncodeLogRecord_ok_iff r enc n).1 henc).2.2
  have hsize : encodedSize r = enc.length := encodedSize_of_encode r enc n henc
  have hw := FilesInv.writeFile_writeOff db hf
  rw [appendLogRecord_eq db hf r enc n henc] at hap
  refine ⟨happ.files, happ.options_eq, ?_, by rw [hw]; omega, ?_⟩
  · by_cases hrot : db.writeFile.WriteOff + n > db.options.DataFileSize
    · simp only [hrot, if_true, Prod.mk.injEq, Except.ok.injEq] at hap
      rw [← hap.1, ← hap.2]
      rfl
    · simp only [hrot, if_false, Prod.mk.injEq, Except.ok.injEq] at hap
      rw [← hap.1, ← hap.2]
      rfl
  · rw [hsize, ← hn]
    by_cases hrot : db.writeFile.WriteOff + n > db.options.DataFileSize
    · simp only [hrot, if_true, Prod.mk.injEq, Except.ok.injEq] at hap
      refine Or.inl ⟨hrot, ?_, ?_⟩
      · rw [← hap.2]; rfl
      · rw [← hap.2, hn]; rfl
    · simp only [hrot, if_false, Prod.mk.injEq, Except.ok.injEq] at hap
      refine Or.inr ⟨by omega, ?_, ?_⟩
      · rw [← hap.2]; rfl
      · rw [← hap.2, hn]; rfl

end Bitcask

namespace Bitcask

/-! ## Two engines side by side -/

/-- Both engines append a record, the second one a record that is not longer:
the second engine stays behind, and its record goes to a file whose id is not
higher. -/
theorem Behind_step_both (db db2 db1 db3 : DB) (r r2 : LogRecord) (pos pos2 : LogRecordPos)
    (hf : db.FilesInv) (hf2 : db2.FilesInv)
    (hopt : db2.options.DataFileSize = db.options.DataFileSize) (hb : Behind db2 db)
    (hsize : encodedSize r2 ≤ encodedSize r)
    (hap : db.appendLogRecord r = (.ok pos, db1))
    (hap2 : db2.appendLogRecord r2 = (.ok pos2, db3)) :
    Behind db3 db1 ∧ pos2.Fid ≤ pos.Fid := by
  obtain ⟨-, -, hp, h0, hcase⟩ := append_writeFile db hf r pos db1 hap
  obtain ⟨-, -, hp2, h02, hcase2⟩ := append_writeFile db2 hf2 r2 pos2 db3 hap2
  rw [hopt] at hcase2
  have hs : (encodedSize r2 : Int) ≤ (encodedSize r : Int) := by exact_mod_cast hsize
  unfold Behind at hb ⊢
  rw [hp, hp2]
  rcases hcase with ⟨c1, c2, c3⟩ | ⟨c1, c2, c3⟩ <;>
    rcases hcase2 with ⟨d1, d2, d3⟩ | ⟨d1, d2, d3⟩ <;>
    rw [c2, c3, d2, d3] <;>
    rcases hb with hb | ⟨hb1, hb2⟩ <;>
    constructor <;> omega

/-- Only the first engine appends a record: the second engine stays behind. -/
theorem Behind_step_first (db db2 db1 : DB) (r : LogRecord) (pos : LogRecordPos)
    (hf : db.FilesInv) (hb : Behind db2 db) (hap : db.appendLogRecord r = (.ok pos, db1)) :
    Behind db2 db1 := by
  obtain ⟨-, -, -, h0, hcase⟩ := append_writeFile db hf r pos db1 hap
  unfold Behind at hb ⊢
  rcases hcase with ⟨c1, c2, c3⟩ | ⟨c1, c2, c3⟩ <;>
    rw [c2, c3] <;>
    rcases hb with hb | ⟨hb1, hb2⟩ <;>
    omega

theorem keptPositions_none (r : LogRecord) (rest : List (LogRecord × Option LogRecord))
    (pos : LogRecordPos) (ps : List LogRecordPos) :
    keptPositions ((r, none) :: rest) (pos :: ps) = keptPositions rest ps := by
  simp [keptPositions]

theorem keptPositions_some (r r2 : LogRecord) (rest : List (LogRecord × Option LogRecord))
    (pos : LogRecordPos) (ps : List LogRecordPos) :
    keptPositions ((r, some r2) :: rest) (pos :: ps) = pos :: keptPositions rest ps := by
  simp [keptPositions]

/-- A sequence of records appended to one engine, and a selection of them, each
replaced by a record that is not longer, appended in the same order to an engine
that is behind: every selected record goes to a file whose id is not higher than
that of its original, and the second engine is still behind. -/
theorem appendTrace_behind (pairs : List (LogRecord × Option LogRecord)) :
    ∀ (db db2 dbA dbB : DB) (ps ps2 : List LogRecordPos),
      db.FilesInv → db2.FilesInv → db2.options.DataFileSize = db.options.DataFileSize →
      Behind db2 db →
      (∀ e ∈ pairs, ∀ r2, e.2 = some r2 → encodedSize r2 ≤ encodedSize e.1) →
      DB.appendTrace (pairs.map (fun e => e.1)) db = some (dbA, ps) →
      DB.appendTrace (pairs.filterMap (fun e => e.2)) db2 = some (dbB, ps2) →
      List.Forall₂ (fun p2 p => p2.Fid ≤ p.Fid) ps2 (keptPositions pairs ps) ∧ Behind dbB dbA ∧
        dbA.FilesInv ∧ dbB.FilesInv := by
  induction pairs with
  | nil =>
    intro db db2 dbA dbB ps ps2 hf hf2 _ hb _ h h2
    simp only [List.map_nil, DB.appendTrace, Option.some.injEq, Prod.mk.injEq] at h
    simp only [List.filterMap_nil, DB.appendTrace, Option.some.injEq, Prod.mk.injEq] at h2
    obtain ⟨h1, h3⟩ := h
    obtain ⟨h4, h5⟩ := h2
    subst h1 h3 h4 h5
    exact ⟨List.Forall₂.nil, hb, hf, hf2⟩
  | cons e rest ih =>
    intro db db2 dbA dbB ps ps2 hf hf2 hopt hb hsize h h2
    obtain ⟨r, o⟩ := e
    simp only [List.map_cons] at h
    obtain ⟨pos, db1, ps1, hap, hrest, hps⟩ := appendTrace_cons r _ db dbA ps h
    subst hps
    obtain ⟨hf1, hopt1, -⟩ := append_writeFile db hf r pos db1 hap
    have hsize2 : ∀ e ∈ rest, ∀ r2, e.2 = some r2 → encodedSize r2 ≤ encodedSize e.1 :=
      fun e he => hsize e (List.mem_cons_of_mem _ he)
    cases o with
    | none =>
      have hfm : ((r, (none : Option LogRecord)) :: rest).filterMap (fun e => e.2) =
          rest.filterMap (fun e => e.2) := rfl
      rw [hfm] at h2
      rw [keptPositions_none]
      exact ih db1 db2 dbA dbB ps1 ps2 hf1 hf2 (by rw [hopt1]; exact hopt)
        (Behind_step_first db db2 db1 r pos hf hb hap) hsize2 hrest h2
    | some r2 =>
      have hfm : ((r, some r2) :: rest).filterMap (fun e => e.2) =
          r2 :: rest.filterMap (fun e => e.2) := rfl
      rw [hfm] at h2
      obtain ⟨pos2, db3, ps3, hap2, hrest2, hps2⟩ := appendTrace_cons r2 _ db2 dbB ps2 h2
      subst hps2
      obtain ⟨hf3, hopt3, -⟩ := append_writeFile db2 hf2 r2 pos2 db3 hap2
      obtain ⟨hb1, hfid⟩ := Behind_step_both db db2 db1 db3 r r2 pos pos2 hf hf2 hopt hb
        (hsize (r, some r2) (List.mem_cons_self _ _) r2 rfl) hap hap2
      rw [keptPositions_some]
      obtain ⟨hall, hb2, hfA, hfB⟩ := ih db1 db3 dbA dbB ps1 ps3 hf1 hf3
        (by rw [hopt1, hopt3]; exact hopt) hb1 hsize2 hrest hrest2
      exact ⟨List.Forall₂.cons hfid hall, hb2, hfA, hfB⟩

end Bitcask

namespace Bitcask

/-! ## The files appends leave -/

theorem nodup_mapSet {α : Type} (m : List (Nat × α)) (k : Nat) (v : α)
    (h : (m.map (fun e => e.1)).Nodup) : ((mapSet m k v).map (fun e => e.1)).Nodup := by
  unfold mapSet mapDelete
  simp only [List.map_cons, List.nodup_cons, List.mem_map, List.mem_filter, decide_eq_true_eq,
    not_exists, not_and]
  refine ⟨?_, ?_⟩
  · intro e he hc
    exact he.2 hc
  · exact List.Nodup.sublist (List.Sublist.map _ (List.filter_sublist _)) h

theorem Packed_writeFile_none (db : DB) (h : db.activeFile = none) :
    db.writeFile = { FileId := 0, WriteOff := 0, IoManager := [] } := by
  unfold DB.writeFile
  rw [h]
  rfl

/-- The engine opened on an empty directory is packed. -/
theorem Packed_opened (options : Options) (db0 : DB)
    (hopen : OpenDB options Directory.empty none = .ok db0) : Packed db0 := by
  obtain ⟨-, hact, hold, -, -, hopt, -⟩ := OpenDB_empty options db0 hopen
  obtain ⟨hcheck, -⟩ := OpenDB_ok_options options _ _ db0 hopen
  have hsize : 0 ≤ db0.options.DataFileSize := by
    rw [hopt]
    unfold checkOptions at hcheck
    by_cases h1 : options.DirPath = ""
    · simp [h1] at hcheck
    · by_cases h2 : options.DataFileSize ≤ 0
      · simp [h1, h2] at hcheck
      · omega
  refine ⟨(Inv_opened options db0 hopen).files, by rw [hold]; exact List.nodup_nil, hsize, ?_, ?_⟩
  · rw [Packed_writeFile_none db0 hact]
    exact ⟨[], rfl, ⟨fun r hr => absurd hr (List.not_mem_nil r), Or.inl (by simpa using hsize)⟩⟩
  · intro e he
    rw [hold] at he
    cases he

/-- An append of a stored record keeps the engine packed. -/
theorem Packed_append (db : DB) (hp : Packed db) (r : LogRecord) (hs : Stored r)
    (pos : LogRecordPos) (db1 : DB) (hap : db.appendLogRecord r = (.ok pos, db1)) :
    Packed db1 := by
  have happ := Appended_of_appendLogRecord db hp.files r pos db1 hap
  obtain ⟨enc, henc, hs1, -, -, -⟩ := Stored_encode r hs
  have hw := FilesInv.writeFile_writeOff db hp.files
  rw [appendLogRecord_eq db hp.files r enc _ henc] at hap
  by_cases hrot : db.writeFile.WriteOff + (enc.length : Int) > db.options.DataFileSize
  · simp only [hrot, if_true, Prod.mk.injEq, Except.ok.injEq] at hap
    obtain ⟨-, hdb1⟩ := hap
    have hold1 : db1.olderFile = mapSet db.olderFile db.writeFile.FileId db.writeFile := by
      rw [← hdb1]
    have hwf1 : db1.writeFile =
        DataFile.mk (db.writeFile.FileId + 1) (enc.length : Int) enc := by
      rw [← hdb1]
      rfl
    refine ⟨happ.files, ?_, by rw [happ.options_eq]; exact hp.size, ?_, ?_⟩
    · rw [hold1]
      exact nodup_mapSet _ _ _ hp.nodup
    · rw [hwf1, happ.options_eq]
      refine ⟨[r], hs1.symm, ?_, Or.inr ⟨le_refl _, by simp⟩⟩
      intro r2 hr2
      rw [List.mem_singleton.1 hr2]
      exact hs
    · intro e he
      rw [hold1] at he
      rw [happ.options_eq]
      rcases mem_mapSet _ _ _ _ he with h1 | h1
      · rw [h1]
        exact hp.fits
      · exact hp.older e h1.1
  · simp only [hrot, if_false, Prod.mk.injEq, Except.ok.injEq] at hap
    obtain ⟨-, hdb1⟩ := hap
    have hold1 : db1.olderFile = db.olderFile := by rw [← hdb1]
    have hwf1 : db1.writeFile = db.writeFile.Write enc := by
      rw [← hdb1]
      rfl
    refine ⟨happ.files, by rw [hold1]; exact hp.nodup, by rw [happ.options_eq]; exact hp.size,
      ?_, ?_⟩
    · rw [hwf1, happ.options_eq]
      obtain ⟨recs, hio, hst, -⟩ := hp.fits
      refine ⟨recs ++ [r], ?_, ?_, Or.inl ?_⟩
      · rw [encodeAll_append, hs1, ← hio]
        rfl
      · intro r2 hr2
        rcases List.mem_append.1 hr2 with h1 | h1
        · exact hst r2 h1
        · rw [List.mem_singleton.1 h1]
          exact hs
      · simp only [DataFile.Write, List.length_append]
        push_cast
        omega
    · intro e he
      rw [hold1] at he
      rw [happ.options_eq]
      exact hp.older e he

/-- Appends of stored records keep the engine packed. -/
theorem Packed_appendTrace (rs : List LogRecord) :
    ∀ (db db2 : DB) (ps : List LogRecordPos), Packed db → (∀ r ∈ rs, Stored r) →
      DB.appendTrace rs db = some (db2, ps) → Packed db2 := by
  induction rs with
  | nil =>
    intro db db2 ps hp _ h
    simp only [DB.appendTrace, Option.some.injEq, Prod.mk.injEq] at h
    rw [← h.1]
    exact hp
  | cons r rest ih =>
    intro db db2 ps hp hs h
    obtain ⟨pos, db1, ps1, hap, hrest, -⟩ := appendTrace_cons r rest db db2 ps h
    exact ih db1 db2 ps1 (Packed_append db hp r (hs r (List.mem_cons_self _ _)) pos db1 hap)
      (fun r2 h2 => hs r2 (List.mem_cons_of_mem _ h2)) hrest

theorem writeFile_congr (db db2 : DB) (h : db2.activeFile = db.activeFile) :
    db2.writeFile = db.writeFile := by
  unfold DB.writeFile
  rw [h]

theorem Packed_congr (db db2 : DB) (hp : Packed db) (h1 : db2.activeFile = db.activeFile)
    (h2 : db2.olderFile = db.olderFile) (h3 : db2.options = db.options) : Packed db2 :=
  ⟨FilesInv_congr db db2 h1 h2 hp.files, by rw [h2]; exact hp.nodup, by rw [h3]; exact hp.size,
    by rw [writeFile_congr db db2 h1, h3]; exact hp.fits,
    fun e he => by rw [h3]; exact hp.older e (by rw [← h2]; exact he)⟩

end Bitcask

namespace Bitcask

/-! ## The walk of `Merge` over packed files -/

/-- The walk of `Merge` over the rest of a file that holds stored records and
fits the file-size ceiling of the merge engine: where the merge engine is behind
the place the walk has reached in the file, it is behind the end of the file
after the walk. -/
theorem mergeRecords_behind (db : DB) (df : DataFile) (F : Int) :
    ∀ (recs : List LogRecord) (fuel : Nat) (pre : Bytes) (mergeDB : DB) (hintFile : DataFile)
      (st2 : DB × DataFile),
      (∀ r ∈ recs, Stored r) → recs.length < fuel → df.IoManager = pre ++ encodeAll recs →
      mergeDB.FilesInv → mergeDB.options.DataFileSize = F →
      (((pre ++ encodeAll recs).length : Int) ≤ F ∨ recs = [] ∨
        (recs.length ≤ 1 ∧ mergeDB.writeFile.FileId < df.FileId)) →
      (mergeDB.writeFile.FileId < df.FileId ∨
        (mergeDB.writeFile.FileId = df.FileId ∧
          mergeDB.writeFile.WriteOff ≤ (pre.length : Int))) →
      mergeRecords db df fuel (pre.length : Int) (mergeDB, hintFile) = (.ok (), st2) →
      st2.1.FilesInv ∧ st2.1.options.DataFileSize = F ∧
      (st2.1.writeFile.FileId < df.FileId ∨
        (st2.1.writeFile.FileId = df.FileId ∧
          st2.1.writeFile.WriteOff ≤ ((pre ++ encodeAll recs).length : Int))) := by
  intro recs
  induction recs with
  | nil =>
    intro fuel pre mergeDB hintFile st2 _ hfuel hio hf hopt _ hb h
    obtain ⟨f, rfl⟩ : ∃ f, fuel = f + 1 := ⟨fuel - 1, by omega⟩
    have hlen : pre.length = df.IoManager.length := by rw [hio]; simp [encodeAll]
    rw [mergeRecords_succ, hlen, ReadLogRecord_eof] at h
    simp only [Prod.mk.injEq, true_and] at h
    rw [← h]
    refine ⟨hf, hopt, ?_⟩
    simpa [encodeAll] using hb
  | cons r rs ih =>
    intro fuel pre mergeDB hintFile st2 hs hfuel hio hf hopt hfit hb h
    obtain ⟨f, rfl⟩ : ∃ f, fuel = f + 1 := ⟨fuel - 1, by omega⟩
    have hsr := hs r (List.mem_cons_self _ _)
    obtain ⟨enc, henc, hs1, hsz, hrb, hpos⟩ := Stored_encode r hsr
    obtain ⟨k, s, hparse, hle⟩ := Stored_rewrite r hsr
    have h1 : encodeAll (r :: rs) = enc ++ encodeAll rs := by
      rw [← hs1]; exact encodeAll_append [r] rs
    have hio2 : df.IoManager = pre ++ enc ++ encodeAll rs := by rw [hio, h1]; simp
    have hread := ReadLogRecord_encoded r enc _ henc df pre (encodeAll rs) hio2
    rw [hrb] at hread
    have hoff : ((pre.length : Int) + (enc.length : Int)) = ((pre ++ enc).length : Int) := by
      simp
    have htot : (pre ++ encodeAll (r :: rs)).length = ((pre ++ enc) ++ encodeAll rs).length := by
      rw [h1]; simp
    have hrs : ∀ r2 ∈ rs, Stored r2 := fun r2 h2 => hs r2 (List.mem_cons_of_mem _ h2)
    have hfuel2 : rs.length < f := by simp only [List.length_cons] at hfuel; omega
    rw [mergeRecords_succ, hread] at h
    simp only [hparse] at h
    rw [hoff] at h
    rw [htot]
    rw [htot] at hfit
    split at h
    · generalize happ : mergeDB.appendLogRecord
        { r with Key := logRecordKeyWithSeq k nonTransactionSeqNo } = x at h
      obtain ⟨res, mergeDB1⟩ := x
      cases res with
      | error e =>
        simp only [Prod.mk.injEq] at h
        cases h.1
      | ok pos =>
        simp only at h
        generalize hw : hintFile.WriteHintRecord k pos = y at h
        cases y with
        | error e =>
          simp only [Prod.mk.injEq] at h
          cases h.1
        | ok hintFile1 =>
          simp only at h
          obtain ⟨hf1, hopt1, -, h0, hcase⟩ := append_writeFile mergeDB hf _ pos mergeDB1 happ
          rw [hopt] at hcase
          have hle2 : (encodedSize { r with Key := logRecordKeyWithSeq k nonTransactionSeqNo } :
              Int) ≤ (enc.length : Int) := by
            rw [← hsz]
            exact_mod_cast hle
          have hlen2 : ((pre ++ enc).length : Int) = (pre.length : Int) + (enc.length : Int) :=
            hoff.symm
          have hlen3 : (((pre ++ enc) ++ encodeAll rs).length : Int) =
              (pre.length : Int) + (enc.length : Int) + ((encodeAll rs).length : Int) := by
            simp only [List.length_append]
            push_cast
            ring
          refine ih f (pre ++ enc) mergeDB1 hintFile1 st2 hrs hfuel2 hio2 hf1
            (by rw [hopt1]; exact hopt) ?_ ?_ h
          · rcases hfit with h2 | h2 | ⟨h2, h3⟩
            · exact Or.inl h2
            · cases h2
            · refine Or.inr (Or.inl ?_)
              simp only [List.length_cons] at h2
              exact List.length_eq_zero.1 (by omega)
          · rcases hcase with ⟨c1, c2, c3⟩ | ⟨c1, c2, c3⟩
            · rw [c2, c3]
              rcases hb with h2 | ⟨h2, h3⟩
              · by_cases heq : mergeDB.writeFile.FileId + 1 = df.FileId
                · exact Or.inr ⟨heq, by omega⟩
                · exact Or.inl (by omega)
              · exfalso
                rcases hfit with h4 | h4 | ⟨h4, h5⟩
                · omega
                · cases h4
                · omega
            · rw [c2, c3]
              rcases hb with h2 | ⟨h2, h3⟩
              · exact Or.inl h2
              · exact Or.inr ⟨h2, by omega⟩

    · refine ih f (pre ++ enc) mergeDB hintFile st2 hrs hfuel2 hio2 hf hopt ?_ ?_ h
      · rcases hfit with h2 | h2 | ⟨h2, h3⟩
        · exact Or.inl h2
        · cases h2
        · refine Or.inr (Or.inl ?_)
          simp only [List.length_cons] at h2
          exact List.length_eq_zero.1 (by omega)
      · rcases hb with h2 | ⟨h2, h3⟩
        · exact Or.inl h2
        · refine Or.inr ⟨h2, ?_⟩
          rw [← hoff]
          omega

/-- The walk of `Merge` over packed files in ascending order of their ids: the
merge engine, which starts without files, ends with an active file whose id is
not above the ids of the files walked. -/
theorem mergeDataFiles_behind (db : DB) (F : Int) (bound : Nat) :
    ∀ (files : List DataFile) (mergeDB : DB) (hintFile : DataFile) (st2 : DB × DataFile),
      (files.map (fun df => df.FileId)).Pairwise (fun a b => a < b) →
      (∀ df ∈ files, FileFits F df) →
      mergeDB.FilesInv → mergeDB.options.DataFileSize = F →
      (∀ df ∈ files, mergeDB.writeFile.FileId < df.FileId ∨
        (mergeDB.writeFile.FileId = 0 ∧ mergeDB.writeFile.WriteOff = 0)) →
      (∀ df ∈ files, df.FileId ≤ bound) → mergeDB.writeFile.FileId ≤ bound →
      mergeDataFiles db files (mergeDB, hintFile) = (.ok (), st2) →
      st2.1.FilesInv ∧ st2.1.writeFile.FileId ≤ bound := by
  intro files
  induction files with
  | nil =>
    intro mergeDB hintFile st2 _ _ hf _ _ _ hm h
    rw [mergeDataFiles_nil] at h
    simp only [Prod.mk.injEq, true_and] at h
    rw [← h]
    exact ⟨hf, hm⟩
  | cons df rest ih =>
    intro mergeDB hintFile st2 hsorted hfits hf hopt hpre hbound hm h
    rw [mergeDataFiles_cons] at h
    generalize hwalk : mergeRecords db df (df.IoManager.length + 1) 0 (mergeDB, hintFile) = x at h
    obtain ⟨res, st1⟩ := x
    cases res with
    | error e =>
      simp only [Prod.mk.injEq] at h
      cases h.1
    | ok u =>
      simp only at h
      obtain ⟨recs, hio, hst, hfit⟩ := hfits df (List.mem_cons_self _ _)
      have hpre1 := hpre df (List.mem_cons_self _ _)
      have hnil : ((([] : Bytes).length : Nat) : Int) = 0 := rfl
      rw [← hnil] at hwalk
      obtain ⟨hf1, hopt1, hb1⟩ := mergeRecords_behind db df F recs (df.IoManager.length + 1) []
        mergeDB hintFile st1 hst
        (by have := length_le_encodeAll_stored recs hst; rw [hio]; omega)
        (by rw [hio]; rfl) hf hopt
        (by
          rcases hfit with h1 | ⟨h1, h2⟩
          · refine Or.inl ?_
            rw [List.nil_append, ← hio]
            exact h1
          · refine Or.inr (Or.inr ⟨h1, ?_⟩)
            rcases hpre1 with h3 | ⟨h3, -⟩
            · exact h3
            · omega)
        (by
          rcases hpre1 with h3 | ⟨h3, h4⟩
          · exact Or.inl h3
          · by_cases hz : df.FileId = 0
            · exact Or.inr ⟨by omega, by rw [h4]; rfl⟩
            · exact Or.inl (by omega))
        hwalk
      have hle : st1.1.writeFile.FileId ≤ df.FileId := by
        rcases hb1 with h1 | ⟨h1, -⟩ <;> omega
      simp only [List.map_cons, List.pairwise_cons, List.mem_map] at hsorted
      obtain ⟨mergeDB1, hintFile1⟩ := st1
      refine ih mergeDB1 hintFile1 st2 hsorted.2 (fun d hd => hfits d (List.mem_cons_of_mem _ hd))
        hf1 hopt1 ?_ (fun d hd => hbound d (List.mem_cons_of_mem _ hd)) ?_ h
      · intro d hd
        have := hsorted.1 d.FileId ⟨d, hd, rfl⟩
        simp only at hle
        exact Or.inl (by omega)
      · have := hbound df (List.mem_cons_self _ _)
        simp only at hle
        omega

end Bitcask

namespace Bitcask

/-! ## The files `Merge` writes -/

/-- Handles with distinct ids, sorted as `Merge` sorts them, are in strictly
ascending order of their ids. -/
theorem sorted_mergeFiles (l : List DataFile) (hnd : (l.map (fun df => df.FileId)).Nodup) :
    ((l.insertionSort (fun a b => a.FileId ≤ b.FileId)).map (fun df => df.FileId)).Pairwise
      (fun a b => a < b) := by
  haveI : IsTotal DataFile (fun a b => a.FileId ≤ b.FileId) := ⟨fun a b => Nat.le_total _ _⟩
  haveI : IsTrans DataFile (fun a b => a.FileId ≤ b.FileId) := ⟨fun a b c => Nat.le_trans⟩
  have hs : (l.insertionSort (fun a b => a.FileId ≤ b.FileId)).Pairwise
      (fun a b => a.FileId ≤ b.FileId) := List.sorted_insertionSort _ l
  have hperm := List.perm_insertionSort (fun (a b : DataFile) => a.FileId ≤ b.FileId) l
  have hnd2 : ((l.insertionSort (fun a b => a.FileId ≤ b.FileId)).map
      (fun df => df.FileId)).Nodup := (hperm.map _).nodup_iff.2 hnd
  have hnd3 : (l.insertionSort (fun a b => a.FileId ≤ b.FileId)).Pairwise
      (fun a b => a.FileId ≠ b.FileId) := List.pairwise_map.1 hnd2
  rw [List.pairwise_map]
  exact (hs.and hnd3).imp (fun h => by omega)

/-- The data files of an engine have ids up to the id of its active file. -/
theorem dataFiles_le (db : DB) (hf : db.FilesInv) (e : Nat × Bytes) (he : e ∈ db.dataFiles) :
    e.1 ≤ db.writeFile.FileId := by
  unfold DB.dataFiles at he
  unfold DB.writeFile
  cases hact : db.activeFile with
  | none =>
    rw [hact, FilesInv.older_nil db hf hact] at he
    simp at he
  | some a =>
    rw [hact] at he
    simp only [List.singleton_append, List.mem_cons, List.mem_map] at he
    rcases he with h1 | ⟨e2, he2, h2⟩
    · rw [h1]
      exact le_refl _
    · obtain ⟨h3, a2, ha2, h4⟩ := hf.older e2.1 e2.2 he2
      rw [hact] at ha2
      simp only [Option.some.injEq] at ha2
      subst ha2
      rw [← h2]
      simp only [Option.getD_some]
      omega

/-- A call of `Merge` that returns no error on a packed engine with the active
file `a`: the new active file has the id after that of `a`, and every data file
of the merge directory has an id up to that of `a`. -/
theorem Merge_fileIds (db : DB) (hp : Packed db) (a : DataFile) (hact : db.activeFile = some a)
    (env : MergeEnv) (mergeDir : Option Directory) (db2 : DB) (m : Directory)
    (h : db.Merge env mergeDir = (.ok (), db2, some m)) :
    (∃ a2, db2.activeFile = some a2 ∧ a2.FileId = a.FileId + 1) ∧
    (∀ e ∈ m.dataFiles, e.1 ≤ a.FileId) ∧
    (∃ enc n, EncodeLogRecord
        { Key := mergeFinishedKey, Value := formatUint (a.FileId + 1), Typ := 0 } = .ok (enc, n) ∧
      m.mergeFinished = some enc) := by
  unfold DB.Merge at h
  rw [hact] at h
  simp only at h
  generalize hdb1 : ({ db with activeFile := some a, isMerging := true,
                               olderFile := mapSet db.olderFile a.FileId a } : DB).setActiveDataFile =
    db1 at h
  have hold1 : db1.olderFile = mapSet db.olderFile a.FileId a := by rw [← hdb1]; rfl
  have hopt1 : db1.options = db.options := by rw [← hdb1]; rfl
  have hact1 : ∃ a1, db1.activeFile = some a1 ∧ a1.FileId = a.FileId + 1 := by
    rw [← hdb1]
    exact ⟨_, rfl, rfl⟩
  split at h
  · cases h
  · split at h
    · cases h
    · split at h
      · cases h
      · split at h
        · cases h
        · split at h
          · cases h
          · split at h
            · cases h
            · split at h
              · cases h
              · split at h
                · cases h
                · rename_i hm hr x4 free hav hsp x3 active1 hactive1 x2 mergeDB hopen x1 u mergeDB1
                    hintFile1 hwalk x0 encRecord n henc
                  obtain ⟨a1, ha1, ha1id⟩ := hact1
                  rw [ha1] at hactive1
                  simp only [Option.some.injEq] at hactive1
                  subst hactive1
                  simp only [Prod.mk.injEq, true_and, Option.some.injEq] at h
                  obtain ⟨hdb2, hmd⟩ := h
                  have hmfiles : m.dataFiles = mergeDB1.dataFiles := by rw [← hmd]; rfl
                  have hmfin : m.mergeFinished = some encRecord := by rw [← hmd]; rfl
                  refine ⟨⟨a1, by rw [← hdb2]; exact ha1, ha1id⟩, ?_, ⟨encRecord, n, by rw [← ha1id]; exact henc,
                    hmfin⟩⟩
                  obtain ⟨-, hmact, hmold, -, -, hmopt, -⟩ := OpenDB_empty _ mergeDB hopen
                  have hmwf := Packed_writeFile_none mergeDB hmact
                  have hids : ∀ df ∈ (mapSet db.olderFile a.FileId a).map (fun e => e.2),
                      (df = a ∨ ∃ e ∈ db.olderFile, e.2 = df) := by
                    intro df hdf
                    obtain ⟨e, he, rfl⟩ := List.mem_map.1 hdf
                    rcases mem_mapSet _ _ _ _ he with h1 | h1
                    · rw [h1]
                      exact Or.inl rfl
                    · exact Or.inr ⟨e, h1.1, rfl⟩
                  have hwfa : db.writeFile = a := by
                    unfold DB.writeFile
                    rw [hact]
                    rfl
                  have hkeys : ((mapSet db.olderFile a.FileId a).map (fun e => e.2)).map
                      (fun df => df.FileId) =
                      (mapSet db.olderFile a.FileId a).map (fun e => e.1) := by
                    rw [List.map_map]
                    apply List.map_congr_left
                    intro e he
                    rcases mem_mapSet _ _ _ _ he with h1 | h1
                    · rw [h1]
                      rfl
                    · exact (hp.files.older e.1 e.2 h1.1).1
                  have hperm := List.perm_insertionSort
                    (fun (a b : DataFile) => a.FileId ≤ b.FileId)
                    ((mapSet db.olderFile a.FileId a).map (fun e => e.2))
                  rw [hold1] at hwalk
                  obtain ⟨hf1, hle⟩ := mergeDataFiles_behind db1 db.options.DataFileSize a.FileId _
                    mergeDB { FileId := 0, WriteOff := 0, IoManager := [] } (mergeDB1, hintFile1)
                    (sorted_mergeFiles _ (by rw [hkeys]; exact nodup_mapSet _ _ _ hp.nodup))
                    (by
                      intro df hdf
                      rcases hids df (hperm.mem_iff.1 hdf) with h1 | ⟨e, he, h1⟩
                      · rw [h1, ← hwfa]
                        exact hp.fits
                      · rw [← h1]
                        exact hp.older e he)
                    (Inv_opened _ mergeDB hopen).files
                    (by rw [hmopt, hopt1])
                    (by
                      intro df _
                      rw [hmwf]
                      exact Or.inr ⟨rfl, rfl⟩)
                    (by
                      intro df hdf
                      rcases hids df (hperm.mem_iff.1 hdf) with h1 | ⟨e, he, h1⟩
                      · rw [h1]
                      · obtain ⟨h3, a2, ha2, h4⟩ := hp.files.older e.1 e.2 he
                        rw [hact] at ha2
                        simp only [Option.some.injEq] at ha2
                        subst ha2
                        rw [← h1, h3]
                        omega)
                    (by rw [hmwf]; exact Nat.zero_le _)
                    hwalk
                  intro e he
                  rw [hmfiles] at he
                  exact le_trans (dataFiles_le mergeDB1 hf1 e he) hle

end Bitcask

namespace Bitcask

/-! ## The `merge-finished` marker and the move of the merged files -/

theorem digitChar_byte (d : Nat) (h : d < 10) :
    (UInt8.ofNat (Nat.digitChar d).toNat).toNat = 48 + d := by
  interval_cases d <;> rfl

/-- The digits `Nat.toDigits` writes in front of the accumulator: at least one,
all decimal digits, and their value is the number. -/
theorem toDigitsCore_spec (fuel : Nat) :
    ∀ (n : Nat) (ds : List Char), n < fuel →
      ∃ pre : List Char, Nat.toDigitsCore 10 fuel n ds = pre ++ ds ∧ pre ≠ [] ∧
        pre.length ≤ max 1 n ∧
        (∀ c ∈ pre, 48 ≤ (UInt8.ofNat c.toNat).toNat ∧ (UInt8.ofNat c.toNat).toNat ≤ 57) ∧
        (pre.map (fun c => UInt8.ofNat c.toNat)).foldl
          (fun acc c => acc * 10 + (c.toNat - 48)) 0 = n := by
  induction fuel with
  | zero => intro n ds h; omega
  | succ fuel ih =>
    intro n ds hn
    unfold Nat.toDigitsCore
    have hd := digitChar_byte (n % 10) (Nat.mod_lt _ (by norm_num))
    by_cases hz : n / 10 = 0
    · simp only [hz, if_true]
      refine ⟨[Nat.digitChar (n % 10)], rfl, by simp, by simp, ?_, ?_⟩
      · intro c hc
        rw [List.mem_singleton.1 hc, hd]
        omega
      · simp only [List.map_cons, List.map_nil, List.foldl_cons, List.foldl_nil, hd]
        omega
    · simp only [hz, if_false]
      obtain ⟨pre, hpre, hne, hlen, hdig, hval⟩ := ih (n / 10) (Nat.digitChar (n % 10) :: ds)
        (by omega)
      refine ⟨pre ++ [Nat.digitChar (n % 10)], by rw [hpre]; simp, by simp, ?_, ?_, ?_⟩
      · simp only [List.length_append, List.length_singleton]
        omega
      · intro c hc
        rcases List.mem_append.1 hc with h1 | h1
        · exact hdig c h1
        · rw [List.mem_singleton.1 h1, hd]
          omega
      · rw [List.map_append, List.foldl_append, hval]
        simp only [List.map_cons, List.map_nil, List.foldl_cons, List.foldl_nil, hd]
        omega

theorem formatUint_spec (n : Nat) :
    formatUint n ≠ [] ∧ (formatUint n).length ≤ max 1 n ∧
      parseDigits (formatUint n) = some n ∧
      (∀ c ∈ formatUint n, 48 ≤ c.toNat) := by
  obtain ⟨pre, hpre, hne, hlen, hdig, hval⟩ := toDigitsCore_spec (n + 1) n [] (by omega)
  have hf : formatUint n = pre.map (fun c => UInt8.ofNat c.toNat) := by
    unfold formatUint Nat.toDigits
    rw [hpre, List.append_nil]
  have hne2 : formatUint n ≠ [] := by
    rw [hf]
    simpa using hne
  refine ⟨hne2, by rw [hf, List.length_map]; exact hlen, ?_, ?_⟩
  · unfold parseDigits
    have hall : (formatUint n).all (fun c => decide (48 ≤ c.toNat ∧ c.toNat ≤ 57)) = true := by
      rw [hf, List.all_eq_true]
      intro b hb
      obtain ⟨c, hc, rfl⟩ := List.mem_map.1 hb
      simpa using hdig c hc
    simp only [hne2, hall, not_true_eq_false, or_self, if_false]
    rw [hf, hval]
  · intro b hb
    rw [hf] at hb
    obtain ⟨c, hc, rfl⟩ := List.mem_map.1 hb
    exact (hdig c hc).1

/-- The text `strconv.FormatUint` (or `strconv.Itoa`) writes for a number in the
range of `int64` is read back by `strconv.Atoi`. -/
theorem atoi_formatUint (n : Nat) (hn : n < 2 ^ 63) : atoi (formatUint n) = .ok (n : Int) := by
  obtain ⟨hne, -, hparse, hdig⟩ := formatUint_spec n
  obtain ⟨c, rest, hcons⟩ := List.exists_cons_of_ne_nil hne
  have hc : 48 ≤ c.toNat := hdig c (by rw [hcons]; exact List.mem_cons_self _ _)
  have h45 : ¬ (formatUint n).head? = some 45 := by
    rw [hcons]
    simp only [List.head?_cons, Option.some.injEq]
    intro h
    rw [h] at hc
    exact absurd hc (by decide)
  have h43 : ¬ (formatUint n).head? = some 43 := by
    rw [hcons]
    simp only [List.head?_cons, Option.some.injEq]
    intro h
    rw [h] at hc
    exact absurd hc (by decide)
  unfold atoi
  simp only [h45, h43, or_self, if_false, hparse, hn, if_true]

/-- The id recorded in the `merge-finished` marker that `Merge` writes is read
back by `getNonMergeFileId`. -/
theorem getNonMergeFileId_marker (N : Nat) (hN : 0 < N) (hN2 : N < 2 ^ 32) (enc : Bytes) (n : Int)
    (henc : EncodeLogRecord { Key := mergeFinishedKey, Value := formatUint N, Typ := 0 } =
      .ok (enc, n)) :
    getNonMergeFileId enc = .ok N := by
  obtain ⟨-, hlen, -, -⟩ := formatUint_spec N
  have hatoi := atoi_formatUint N (by omega)
  unfold getNonMergeFileId
  have hread := ReadLogRecord_encoded _ enc n henc
    { FileId := 0, WriteOff := 0, IoManager := enc } [] [] (by simp)
  rw [readBack_ok _ (by show mergeFinishedKey ≠ []; decide)
    (by show mergeFinishedKey.length < 2 ^ 32; decide)
    (by show (formatUint N).length < 2 ^ 32; omega)] at hread
  simp only [List.length_nil, Nat.cast_zero] at hread
  rw [hread]
  simp only [hatoi, toUint32]
  have h1 : ((N : Int) % 2 ^ 32).toNat = N := by
    rw [Int.emod_eq_of_lt (by omega) (by omega)]
    simp
  rw [h1]

theorem mapGet_foldl_mapSet_other (l : List (Nat × Bytes)) (fid : Nat) :
    ∀ (acc : List (Nat × Bytes)), (∀ e ∈ l, e.1 ≠ fid) →
      mapGet (l.foldl (fun acc e => mapSet acc e.1 e.2) acc) fid = mapGet acc fid := by
  induction l with
  | nil => intro acc _; rfl
  | cons e rest ih =>
    intro acc h
    simp only [List.foldl_cons]
    rw [ih _ (fun e2 he2 => h e2 (List.mem_cons_of_mem _ he2))]
    exact mapGet_mapSet_ne _ _ _ _ (fun hc => h e (List.mem_cons_self _ _) hc.symm)

theorem mapGet_filter_ge (l : List (Nat × Bytes)) (N fid : Nat) (h : N ≤ fid) :
    mapGet (l.filter (fun e => decide (¬ e.1 < N))) fid = mapGet l fid := by
  induction l with
  | nil => rfl
  | cons e rest ih =>
    obtain ⟨k, v⟩ := e
    by_cases hk : k < N
    · have hne : ¬ k = fid := by omega
      simp only [List.filter_cons, hk, not_true_eq_false, decide_False, Bool.false_eq_true,
        if_false, mapGet_cons, hne]
      exact ih
    · simp only [List.filter_cons, hk, not_false_eq_true, decide_True, if_true, mapGet_cons]
      rw [ih]

/-- Taking in a merge directory whose marker records `N` and whose data files
all have ids below `N`: every data file with an id from `N` on is left as it
was. -/
theorem loadMergeFile_keeps (dir m : Directory) (N : Nat) (hN : 0 < N) (hN2 : N < 2 ^ 32)
    (enc : Bytes) (n : Int)
    (henc : EncodeLogRecord { Key := mergeFinishedKey, Value := formatUint N, Typ := 0 } =
      .ok (enc, n))
    (hfin : m.mergeFinished = some enc) (hids : ∀ e ∈ m.dataFiles, e.1 < N) :
    ∃ dir1, loadMergeFile dir (some m) = .ok dir1 ∧
      ∀ fid, N ≤ fid → mapGet dir1.dataFiles fid = mapGet dir.dataFiles fid := by
  unfold loadMergeFile
  simp only [hfin, getNonMergeFileId_marker N hN hN2 enc n henc]
  refine ⟨_, rfl, ?_⟩
  intro fid hfid
  simp only
  rw [mapGet_foldl_mapSet_other _ _ _ (fun e he => by have := hids e he; omega),
    mapGet_filter_ge _ _ _ hfid]

end Bitcask

namespace Bitcask

/-! ## Claim C40: the files of a merge stay below the files outside it -/

/-- C40: records `pairs.map fst` are appended to an engine opened on an empty
directory, and a selection of them, each replaced by a record whose encoding is
not longer, is appended in the same order to a second engine opened on an empty
directory with the same file-size ceiling; all appends return no error.  Then
every selected record goes to a data file whose id is not higher than the id of
the file its original went to.  And for every engine that holds the files the
first sequence of appends leaves (stored records, file ids in the `uint32`
range) and has the active file `a`: when `Merge` returns no error, the new
active file has the id `a.FileId + 1` (the id recorded as `nonMergeFileId`),
every data file of the merge directory has an id below it, and taking the merge
directory into any data directory at the next `OpenDB` leaves every data file
with an id from `a.FileId + 1` on as it was. -/
theorem C40_merge_output (options options2 : Options) (db0 db02 dbA dbB : DB)
    (pairs : List (LogRecord × Option LogRecord)) (ps ps2 : List LogRecordPos)
    (hopen : OpenDB options Directory.empty none = .ok db0)
    (hopen2 : OpenDB options2 Directory.empty none = .ok db02)
    (hF : options2.DataFileSize = options.DataFileSize)
    (hsize : ∀ e ∈ pairs, ∀ r2, e.2 = some r2 → encodedSize r2 ≤ encodedSize e.1)
    (hrun : DB.appendTrace (pairs.map (fun e => e.1)) db0 = some (dbA, ps))
    (hrun2 : DB.appendTrace (pairs.filterMap (fun e => e.2)) db02 = some (dbB, ps2)) :
    List.Forall₂ (fun p2 p => p2.Fid ≤ p.Fid) ps2 (keptPositions pairs ps) ∧
    ∀ (db : DB) (a : DataFile) (env : MergeEnv) (mergeDir : Option Directory) (db2 : DB)
      (m : Directory),
      (∀ e ∈ pairs, Stored e.1) → db.activeFile = dbA.activeFile →
      db.olderFile = dbA.olderFile → db.options = dbA.options → db.activeFile = some a →
      a.FileId + 1 < 2 ^ 32 → db.Merge env mergeDir = (.ok (), db2, some m) →
      (∃ a2, db2.activeFile = some a2 ∧ a2.FileId = a.FileId + 1) ∧
      (∀ e ∈ m.dataFiles, e.1 < a.FileId + 1) ∧
      ∀ dir : Directory, ∃ dir1, loadMergeFile dir (some m) = .ok dir1 ∧
        ∀ fid, a.FileId + 1 ≤ fid → mapGet dir1.dataFiles fid = mapGet dir.dataFiles fid := by
  obtain ⟨-, hact0, -, -, -, hopt0, -⟩ := OpenDB_empty options db0 hopen
  obtain ⟨-, hact02, -, -, -, hopt02, -⟩ := OpenDB_empty options2 db02 hopen2
  have hb : Behind db02 db0 := by
    unfold Behind
    rw [Packed_writeFile_none db0 hact0, Packed_writeFile_none db02 hact02]
    exact Or.inr ⟨rfl, le_refl _⟩
  refine ⟨(appendTrace_behind pairs db0 db02 dbA dbB ps ps2 (Inv_opened options db0 hopen).files
    (Inv_opened options2 db02 hopen2).files (by rw [hopt0, hopt02]; exact hF) hb hsize hrun
    hrun2).1, ?_⟩
  intro db a env mergeDir db2 m hstored h1 h2 h3 hact hid hmerge
  have hpA : Packed dbA := Packed_appendTrace _ db0 dbA ps (Packed_opened options db0 hopen)
    (by
      intro r hr
      obtain ⟨e, he, rfl⟩ := List.mem_map.1 hr
      exact hstored e he)
    hrun
  have hp : Packed db := Packed_congr dbA db hpA h1 h2 h3
  obtain ⟨hnew, hids, enc, n, henc, hfin⟩ := Merge_fileIds db hp a hact env mergeDir db2 m hmerge
  have hids2 : ∀ e ∈ m.dataFiles, e.1 < a.FileId + 1 := fun e he => by
    have := hids e he
    omega
  exact ⟨hnew, hids2, fun dir =>
    loadMergeFile_keeps dir m (a.FileId + 1) (by omega) hid enc n henc hfin hids2⟩

set_option maxRecDepth 100000 in
/-- C40, witness: three records of 29 bytes with a file-size ceiling of 64 bytes
go to file 0, file 0 and file 1; the second and the third of them alone go to
file 0 and file 0 of a second engine.  A merge of the engine that holds these
files, with the index pointing to the third record, rotates to the active file
2 and leaves one data file, file 0, in the merge directory; taking that
directory into the data directory leaves file 2 as it was. -/
theorem C40_merge_output_witness :
    OpenDB exampleOptions Directory.empty none = .ok (emptyDB exampleOptions) ∧
    DB.appendTrace (examplePairs.map (fun e => e.1)) (emptyDB exampleOptions) =
      some (exampleAppended, examplePositions) ∧
    DB.appendTrace (examplePairs.filterMap (fun e => e.2)) exampleMergeDB =
      some (exampleSecond,
        [{ Fid := 0, Offset := 0, Size := 0 }, { Fid := 0, Offset := 29, Size := 0 }]) ∧
    keptPositions examplePairs examplePositions =
      [{ Fid := 0, Offset := 29, Size := 0 }, { Fid := 1, Offset := 0, Size := 0 }] ∧
    List.Forall₂ (fun (p2 p : LogRecordPos) => p2.Fid ≤ p.Fid)
      [LogRecordPos.mk 0 0 0, LogRecordPos.mk 0 29 0]
      (keptPositions examplePairs examplePositions) ∧
    examplePacked.Merge exampleEnv none =
      (.ok (), (examplePacked.Merge exampleEnv none).2.1, some exampleMergeDir) ∧
    examplePacked.writeFile.FileId = 1 ∧
    exampleMergeDir.dataFiles.map (fun e => e.1) = [0] ∧
    (∃ a2, (examplePacked.Merge exampleEnv none).2.1.activeFile = some a2 ∧ a2.FileId = 1 + 1) ∧
    (∀ e ∈ exampleMergeDir.dataFiles, e.1 < 1 + 1) ∧
    ∃ dir1, loadMergeFile ((examplePacked.Merge exampleEnv none).2.1.Close).2
        (some exampleMergeDir) = .ok dir1 ∧
      ∀ fid, 1 + 1 ≤ fid → mapGet dir1.dataFiles fid =
        mapGet ((examplePacked.Merge exampleEnv none).2.1.Close).2.dataFiles fid := by
  have hopen := OpenDB_empty_eq exampleOptions (by decide) (Or.inl rfl)
  have hopen2 : OpenDB { exampleOptions with DirPath := "bitcask_merge", SyncWrites := false }
      Directory.empty none = .ok exampleMergeDB :=
    OpenDB_empty_eq _ (by decide) (Or.inl rfl)
  have h := C40_merge_output exampleOptions
    { exampleOptions with DirPath := "bitcask_merge", SyncWrites := false }
    (emptyDB exampleOptions) exampleMergeDB exampleAppended exampleSecond examplePairs
    examplePositions
    [{ Fid := 0, Offset := 0, Size := 0 }, { Fid := 0, Offset := 29, Size := 0 }]
    hopen hopen2 rfl (by decide) (by decide) (by decide)
  have hstored : ∀ e ∈ examplePairs, Stored e.1 := by
    intro e he
    have hk : e.1.Key = PutUvarint 0 ++ [107] ∧ e.1.Key.length < 2 ^ 32 ∧
        e.1.Value.length < 2 ^ 32 := by
      revert e
      decide
    exact ⟨0, [107], by norm_num, hk.1, hk.2.1, hk.2.2⟩
  have hB := h.2 examplePacked examplePacked.writeFile exampleEnv none
    (examplePacked.Merge exampleEnv none).2.1 exampleMergeDir hstored (by decide) (by decide)
    (by decide) (by decide) (by decide) (by decide)
  exact ⟨hopen, by decide, by decide, by decide, h.1, by decide, by decide, by decide, hB.1,
    hB.2.1, hB.2.2 _⟩

end Bitcask

namespace Bitcask

/-! ## Appends on an engine opened over a torn tail -/

set_option maxRecDepth 100000 in
/-- What `OpenDB` returns on the directory with the torn tail: the record of
`"b"` is indexed, the write offset of the active file is 10, the offset of the
torn record, and the file keeps its 16 bytes. -/
theorem exampleTornDB_opened :
    OpenDB exampleOptions exampleTornDirectory none = .ok exampleTornDB ∧
    exampleTornDB.activeFile.map (fun a => (a.FileId, a.WriteOff, a.IoManager.length)) =
      some (0, 10, 16) ∧
    exampleTornDB.olderFile = [] ∧
    exampleTornDB.index.Get [98] = some { Fid := 0, Offset := 0, Size := 10 } := by
  decide

set_option maxRecDepth 100000 in
/-- C2, the code departs from the claim.  The directory `Put("b", "2");
Put("a", "1"); Close` leave behind loses the last 4 bytes of its data file;
`OpenDB` on it returns an engine that holds `"b"`.  On that engine `Put("c",
"0")` returns no error and `Get("c")` returns `io.EOF`; then `Delete("b")`
returns no error and `Get("b")` returns `ErrKeyNotFound`, but `Get("c")` now
returns `ErrInvalidCRC`: the `Delete` of `"b"` has changed what `Get` returns
for another key. -/
theorem C2_delete_changes_other_key_after_torn_tail :
    OpenDB exampleOptions exampleTornDirectory none = .ok exampleTornDB ∧
    exampleTornDB.Put [99] [48] = (.ok (), exampleTornPut) ∧
    exampleTornPut.index.Get [98] = some { Fid := 0, Offset := 0, Size := 10 } ∧
    exampleTornPut.Get [99] = .error .EOF ∧
    (exampleTornPut.Delete [98]).1 = .ok () ∧
    (exampleTornPut.Delete [98]).2.Get [98] = .error .ErrKeyNotFound ∧
    (exampleTornPut.Delete [98]).2.Get [99] = .error .ErrInvalidCRC := by
  decide

set_option maxRecDepth 100000 in
/-- C5, the code departs from the claim.  On the engine opened over the torn
tail a batch that stages `Put("x", "1")` commits without error and its staging
map is empty afterwards, but `Get("x")` returns `io.EOF`, not the staged value:
the records of the batch were written behind the 6 torn bytes, at offset 16 of
the file, and indexed from the write offset 10 on. -/
theorem C5_commit_lost_after_torn_tail :
    OpenDB exampleOptions exampleTornDirectory none = .ok exampleTornDB ∧
    exampleTornBatch.pendingWrites = [([120], LogRecord.mk [120] [49] LogRecordNormal)] ∧
    (exampleTornBatch.Commit exampleTornBatch.pendingWrites exampleTornBatch.pendingWrites).1 =
      .ok () ∧
    (exampleTornBatch.Commit exampleTornBatch.pendingWrites
      exampleTornBatch.pendingWrites).2.pendingWrites = [] ∧
    (exampleTornBatch.Commit exampleTornBatch.pendingWrites
      exampleTornBatch.pendingWrites).2.db.index.Get [120] =
        some { Fid := 0, Offset := 10, Size := 0 } ∧
    (exampleTornBatch.Commit exampleTornBatch.pendingWrites
      exampleTornBatch.pendingWrites).2.db.Get [120] = .error .EOF := by
  decide

set_option maxRecDepth 100000 in
/-- C18, the code departs from the claim.  On the engine opened over the torn
tail the active file has the write offset 10 and a length of 16 bytes.  The
append of the record of `Put("c", "0")`, 10 bytes long, does not rotate (10 + 10
is not above the ceiling of 64), leaves the file id and the older map as they
were and returns the position (file 0, offset 10); but the bytes of the record
are written at the end of the file, at offset 16, not at the old write offset:
the 10 bytes at offset 10 are not the record, and `ReadLogRecord` at the
returned offset returns `io.EOF`. -/
theorem C18_append_misplaced_after_torn_tail :
    OpenDB exampleOptions exampleTornDirectory none = .ok exampleTornDB ∧
    exampleTornDB.activeFile.map (fun a => (a.FileId, a.WriteOff, a.IoManager.length)) =
      some (0, 10, 16) ∧
    EncodeLogRecord (LogRecord.mk [0, 99] [48] LogRecordNormal) =
      .ok ([32, 199, 66, 134, 0, 4, 2, 0, 99, 48], 10) ∧
    (exampleTornDB.appendLogRecord (LogRecord.mk [0, 99] [48] LogRecordNormal)).1 =
      .ok { Fid := 0, Offset := 10, Size := 0 } ∧
    (exampleTornDB.appendLogRecord (LogRecord.mk [0, 99] [48] LogRecordNormal)).2.olderFile =
      exampleTornDB.olderFile ∧
    (exampleTornDB.appendLogRecord (LogRecord.mk [0, 99] [48] LogRecordNormal)).2.activeFile.map
      (fun a => (a.FileId, a.WriteOff, a.IoManager.length)) = some (0, 20, 26) ∧
    (exampleTornDB.appendLogRecord (LogRecord.mk [0, 99] [48] LogRecordNormal)).2.activeFile.map
      (fun a => (a.IoManager.drop 16).take 10) = some [32, 199, 66, 134, 0, 4, 2, 0, 99, 48] ∧
    (exampleTornDB.appendLogRecord (LogRecord.mk [0, 99] [48] LogRecordNormal)).2.activeFile.map
      (fun a => (a.IoManager.drop 10).take 10) = some [52, 149, 115, 195, 0, 4, 32, 199, 66, 134] ∧
    (exampleTornDB.appendLogRecord (LogRecord.mk [0, 99] [48] LogRecordNormal)).2.activeFile.map
      (fun a => a.ReadLogRecord 10) = some (.error .EOF) := by
  decide

/-! ## The largest sequence number -/

set_option maxRecDepth 100000 in
/-- C25, the claim as stated fails.  `OpenDB` on a directory whose data file
holds a committed batch with the sequence number `2 ^ 64 - 1` returns an engine
whose counter is `2 ^ 64 - 1`.  The commit of a batch that stages `Put("x",
"1")` on that engine returns no error and uses the sequence number 0: the
counter is 0 afterwards, not above the counter before, and the records are
appended with the keys `logRecordKeyWithSeq key 0` (after `Close` and `OpenDB`
the terminator is replayed as a record of the key `txn-fin`). -/
theorem C25_counterexample :
    (OpenDB exampleOptions exampleMaxSeqDirectory none).map (fun db => db.seqNo) =
      .ok (2 ^ 64 - 1) ∧
    exampleMaxSeqBatch.db.seqNo = 2 ^ 64 - 1 ∧
    exampleMaxSeqBatch.pendingWrites = [([120], LogRecord.mk [120] [49] LogRecordNormal)] ∧
    (exampleMaxSeqBatch.Commit exampleMaxSeqBatch.pendingWrites
      exampleMaxSeqBatch.pendingWrites).1 = .ok () ∧
    (exampleMaxSeqBatch.Commit exampleMaxSeqBatch.pendingWrites
      exampleMaxSeqBatch.pendingWrites).2.db.seqNo = 0 ∧
    (exampleMaxSeqBatch.Commit exampleMaxSeqBatch.pendingWrites
      exampleMaxSeqBatch.pendingWrites).2.db.dataFiles =
      [(1, encodeAll [LogRecord.mk (logRecordKeyWithSeq txnFinKey 0) [] LogRecordTxnFinished]),
       (0, encodeAll (batchRecords (2 ^ 64 - 1) [([97], LogRecord.mk [97] [49] LogRecordNormal)] ++
          [LogRecord.mk (logRecordKeyWithSeq [120] 0) [49] LogRecordNormal]))] ∧
    (OpenDB exampleOptions ((exampleMaxSeqBatch.Commit exampleMaxSeqBatch.pendingWrites
      exampleMaxSeqBatch.pendingWrites).2.db.Close).2 none).map (fun db => db.Get txnFinKey) =
      .ok (.ok []) := by
  decide

end Bitcask

namespace Bitcask

/-! ## The merge ratio -/

/-- The directory size of an engine whose only file is its active file. -/
theorem DirSize_single (db : DB) (a : DataFile) (hact : db.activeFile = some a)
    (hold : db.olderFile = []) (hh : db.hintIndexFile = none)
    (hm : db.mergeFinishedFile = none) (hs : db.seqNoFile = none) :
    DirSize db.directory = (a.IoManager.length : Int) := by
  unfold DirSize DB.directory DB.dataFiles
  simp [hact, hold, hh, hm, hs]

/-- A call of `Merge` that passes the four tests rotates the active file,
whatever it returns: the former active file is an older file afterwards, and
the id of the new active file is the next one. -/
theorem Merge_rotates (db : DB) (env : MergeEnv) (mergeDir : Option Directory) (a : DataFile)
    (free : Nat) (hact : db.activeFile = some a) (hflag : db.isMerging = false)
    (hratio : ((Float32.ofInt db.reclaimSize).div (Float32.ofInt (DirSize db.directory))).lt
      db.options.DataFileMergeRatio = false)
    (henv : env.availableDiskSize = .ok free)
    (hfree : ¬ ((DirSize db.directory - db.reclaimSize) % 2 ^ 64).toNat ≥ free) :
    (db.Merge env mergeDir).2.1.activeFile.map (fun f => f.FileId) = some (a.FileId + 1) ∧
    (db.Merge env mergeDir).2.1.olderFile = mapSet db.olderFile a.FileId a := by
  unfold DB.Merge
  simp only [hact, hflag, hratio, henv, hfree, Bool.false_eq_true, if_false,
    DB.setActiveDataFile]
  repeat' split
  all_goals exact ⟨rfl, rfl⟩

set_option maxRecDepth 100000 in
/-- C24, the claim as stated fails, in two ways.  On the engine opened on an
empty directory, which has no active file, `Merge` returns no error.  And the
test of the ratio is made in `float32`: with a reclaim counter of 33554431, a
directory of 67108864 bytes and a merge ratio of one half the reclaim counter is
below one half of the directory size, but `float32(33554431)` is 33554432, the
quotient is one half, and `Merge` goes on and rotates the active file; with a
reclaim counter of 1, a directory of 10 bytes and the merge ratio `13421773 /
2 ^ 27`, the `float32` nearest to one tenth, one tenth is below the ratio, but
the quotient is rounded to the ratio, and `Merge` returns no error after it has
rotated the active file. -/
theorem C24_counterexample :
    ((emptyDB exampleOptions).activeFile = none ∧
      ((emptyDB exampleOptions).Merge exampleEnv none).1 = .ok ()) ∧
    (exampleRounding.isMerging = false ∧ exampleRounding.reclaimSize = 33554431 ∧
      DirSize exampleRounding.directory = 67108864 ∧
      exampleRounding.options.DataFileMergeRatio = oneHalf ∧
      2 * exampleRounding.reclaimSize < 1 * DirSize exampleRounding.directory ∧
      exampleRounding.activeFile.map (fun a => a.FileId) = some 0 ∧
      (exampleRounding.Merge exampleEnv none).2.1.activeFile.map (fun a => a.FileId) =
        some 1) ∧
    (exampleTenthRatio.isMerging = false ∧ exampleTenthRatio.reclaimSize = 1 ∧
      DirSize exampleTenthRatio.directory = 10 ∧
      exampleTenthRatio.options.DataFileMergeRatio = oneTenth ∧
      2 ^ 27 * exampleTenthRatio.reclaimSize < 13421773 * DirSize exampleTenthRatio.directory ∧
      (exampleTenthRatio.Merge exampleEnv none).1 = .ok () ∧
      exampleTenthRatio.activeFile.map (fun a => a.FileId) = some 0 ∧
      (exampleTenthRatio.Merge exampleEnv none).2.1.activeFile.map (fun a => a.FileId) =
        some 1) := by
  have hact : exampleRounding.activeFile =
      some (DataFile.mk 0 67108864 (List.replicate 67108864 0)) := rfl
  have hold : exampleRounding.olderFile = [] := by decide
  have hrec : exampleRounding.reclaimSize = 33554431 := rfl
  have hopt : exampleRounding.options.DataFileMergeRatio = oneHalf := rfl
  have hdir : DirSize exampleRounding.directory = 67108864 := by
    rw [DirSize_single exampleRounding _ hact hold (by decide) (by decide) (by decide)]
    show ((List.replicate 67108864 (0 : UInt8)).length : Int) = 67108864
    rw [List.length_replicate]
    rfl
  have hrot := Merge_rotates exampleRounding exampleEnv none _ (2 ^ 40) hact (by decide)
    (by rw [hrec, hopt, hdir]; decide) rfl (by rw [hrec, hdir]; decide)
  refine ⟨by decide, ⟨by decide, hrec, hdir, hopt, by rw [hrec, hdir]; decide, by rw [hact]; rfl,
    hrot.1⟩, by decide⟩

end Bitcask

namespace Bitcask

/-! ## The walk of `Merge` against the liveness rule -/

theorem appendTrace_length : ∀ (rs : List LogRecord) (db db2 : DB) (ps : List LogRecordPos),
    DB.appendTrace rs db = some (db2, ps) → ps.length = rs.length := by
  intro rs
  induction rs with
  | nil =>
    intro db db2 ps h
    simp only [DB.appendTrace, Option.some.injEq, Prod.mk.injEq] at h
    rw [← h.2]
    rfl
  | cons r rest ih =>
    intro db db2 ps h
    obtain ⟨pos, db1, ps1, -, hrest, hps⟩ := appendTrace_cons r rest db db2 ps h
    rw [hps, List.length_cons, List.length_cons, ih db1 db2 ps1 hrest]

theorem appendTrace_cons_ok (r : LogRecord) (rest : List LogRecord) (db db1 db2 : DB)
    (pos : LogRecordPos) (ps : List LogRecordPos)
    (h1 : db.appendLogRecord r = (.ok pos, db1))
    (h2 : DB.appendTrace rest db1 = some (db2, ps)) :
    DB.appendTrace (r :: rest) db = some (db2, pos :: ps) := by
  unfold DB.appendTrace
  rw [h1]
  simp only
  rw [h2]

theorem appendTrace_append : ∀ (l1 l2 : List LogRecord) (db db1 db2 : DB)
    (ps1 ps2 : List LogRecordPos),
    DB.appendTrace l1 db = some (db1, ps1) → DB.appendTrace l2 db1 = some (db2, ps2) →
    DB.appendTrace (l1 ++ l2) db = some (db2, ps1 ++ ps2) := by
  intro l1
  induction l1 with
  | nil =>
    intro l2 db db1 db2 ps1 ps2 h1 h2
    simp only [DB.appendTrace, Option.some.injEq, Prod.mk.injEq] at h1
    rw [← h1.1] at h2
    rw [← h1.2]
    exact h2
  | cons r rest ih =>
    intro l2 db db1 db2 ps1 ps2 h1 h2
    obtain ⟨pos, db3, ps3, hap, hrest, hps⟩ := appendTrace_cons r rest db db1 ps1 h1
    rw [hps]
    exact appendTrace_cons_ok r (rest ++ l2) db db3 db2 pos (ps3 ++ ps2) hap
      (ih l2 db3 db1 db2 ps3 ps2 hrest h2)

theorem hintFileOf_cons_ok (e : Bytes × LogRecordPos) (rest : List (Bytes × LogRecordPos))
    (df df1 df2 : DataFile) (h1 : df.WriteHintRecord e.1 e.2 = .ok df1)
    (h2 : hintFileOf rest df1 = .ok df2) : hintFileOf (e :: rest) df = .ok df2 := by
  unfold hintFileOf
  rw [h1]
  exact h2

theorem hintFileOf_append : ∀ (l1 l2 : List (Bytes × LogRecordPos)) (df df1 df2 : DataFile),
    hintFileOf l1 df = .ok df1 → hintFileOf l2 df1 = .ok df2 →
    hintFileOf (l1 ++ l2) df = .ok df2 := by
  intro l1
  induction l1 with
  | nil =>
    intro l2 df df1 df2 h1 h2
    simp only [hintFileOf, Except.ok.injEq] at h1
    rw [h1]
    exact h2
  | cons e rest ih =>
    intro l2 df df1 df2 h1 h2
    unfold hintFileOf at h1
    rcases hw : df.WriteHintRecord e.1 e.2 with err | df3
    · rw [hw] at h1
      cases h1
    · rw [hw] at h1
      exact hintFileOf_cons_ok e (rest ++ l2) df df3 df2 hw (ih l2 df3 df1 df2 h1 h2)

/-- The liveness rule on a record the index points to. -/
theorem liveRecord_live (index : BTree) (fid : Nat) (logRecord : LogRecord) (offset : Int)
    (realKey : Bytes) (seqNo : Nat) (p : LogRecordPos)
    (hparse : parseLogRecordKey logRecord.Key = .ok (realKey, seqNo))
    (hget : index.Get realKey = some p) (hfid : p.Fid = fid) (hoff : p.Offset = offset) :
    liveRecord index fid (logRecord, offset) =
      some (realKey, { Key := logRecordKeyWithSeq realKey 0, Value := logRecord.Value,
                       Typ := logRecord.Typ }) := by
  unfold liveRecord
  simp only [hparse, hget, hfid, hoff, and_self, if_true]
  rfl

/-- The liveness rule on a record the index does not point to. -/
theorem liveRecord_dead (index : BTree) (fid : Nat) (logRecord : LogRecord) (offset : Int)
    (realKey : Bytes) (seqNo : Nat)
    (hparse : parseLogRecordKey logRecord.Key = .ok (realKey, seqNo))
    (hdead : ¬ ∃ p, index.Get realKey = some p ∧ p.Fid = fid ∧ p.Offset = offset) :
    liveRecord index fid (logRecord, offset) = none := by
  unfold liveRecord
  simp only [hparse]
  cases hget : index.Get realKey with
  | none => rfl
  | some p =>
    have : ¬ (p.Fid = fid ∧ p.Offset = offset) := fun hc => hdead ⟨p, hget, hc.1, hc.2⟩
    simp only [this, if_false]

theorem mergeRecords_zero (db : DB) (dataFile : DataFile) (offset : Int) (st : DB × DataFile) :
    mergeRecords db dataFile 0 offset st = (.error .OutOfFuel, st) := rfl

theorem walkFile_succ (dataFile : DataFile) (fuel : Nat) (offset : Int) :
    walkFile dataFile (fuel + 1) offset =
      match dataFile.ReadLogRecord offset with
      | .error _ => []
      | .ok (logRecord, size) =>
        (logRecord, offset) :: walkFile dataFile fuel (offset + size) := rfl

theorem walkEnd_succ (dataFile : DataFile) (fuel : Nat) (offset : Int) :
    walkEnd dataFile (fuel + 1) offset =
      match dataFile.ReadLogRecord offset with
      | .error _ => offset
      | .ok (_, size) => walkEnd dataFile fuel (offset + size) := rfl

/-- The walk of `Merge` over one file, when it returns no error: the file was
read up to a read that reported its end, the merge engine is the one left by
the appends of the live records of the walk, in the order of the walk, and the
hint file has received one entry for each of them, with the position its append
returned. -/
theorem mergeRecords_walk (db : DB) (dataFile : DataFile) :
    ∀ (fuel : Nat) (offset : Int) (mergeDB : DB) (hintFile : DataFile) (st2 : DB × DataFile),
      mergeRecords db dataFile fuel offset (mergeDB, hintFile) = (.ok (), st2) →
      dataFile.ReadLogRecord (walkEnd dataFile fuel offset) = .error .EOF ∧
      ∃ ps,
        DB.appendTrace (((walkFile dataFile fuel offset).filterMap
          (liveRecord db.index dataFile.FileId)).map (fun e => e.2)) mergeDB =
            some (st2.1, ps) ∧
        hintFileOf ((((walkFile dataFile fuel offset).filterMap
          (liveRecord db.index dataFile.FileId)).map (fun e => e.1)).zip ps) hintFile =
            .ok st2.2 := by
  intro fuel
  induction fuel with
  | zero =>
    intro offset mergeDB hintFile st2 h
    rw [mergeRecords_zero] at h
    simp only [Prod.mk.injEq] at h
    cases h.1
  | succ fuel ih =>
    intro offset mergeDB hintFile st2 h
    rcases hread : dataFile.ReadLogRecord offset with e | ⟨logRecord, size⟩
    · rw [mergeRecords_succ, hread] at h
      rw [walkFile_succ, walkEnd_succ, hread]
      cases e
      case EOF =>
        simp only [Prod.mk.injEq, true_and] at h
        rw [← h]
        exact ⟨hread, [], rfl, rfl⟩
      all_goals
        simp only [Prod.mk.injEq] at h
        cases h.1
    · rw [walkFile_succ, walkEnd_succ, hread]
      simp only
      rcases hparse : parseLogRecordKey logRecord.Key with e | ⟨realKey, seqNo⟩
      · rw [mergeRecords_succ, hread] at h
        simp only [hparse, Prod.mk.injEq] at h
        cases h.1
      · by_cases hlive : ∃ p, db.index.Get realKey = some p ∧ p.Fid = dataFile.FileId ∧
            p.Offset = offset
        · obtain ⟨p, hget, hfid, hoff⟩ := hlive
          rw [mergeRecords_live db dataFile fuel offset mergeDB hintFile logRecord size realKey
            seqNo p hread hparse hget hfid hoff] at h
          rcases hap : mergeDB.appendLogRecord
              { Key := logRecordKeyWithSeq realKey 0, Value := logRecord.Value,
                Typ := logRecord.Typ } with ⟨res, mergeDB1⟩
          rw [hap] at h
          cases res with
          | error e =>
            simp only [Prod.mk.injEq] at h
            cases h.1
          | ok pos =>
            simp only at h
            rcases hw : hintFile.WriteHintRecord realKey pos with e | hintFile1
            · rw [hw] at h
              simp only [Prod.mk.injEq] at h
              cases h.1
            · rw [hw] at h
              simp only at h
              obtain ⟨hend, ps, htrace, hhint⟩ := ih (offset + size) mergeDB1 hintFile1 st2 h
              refine ⟨hend, pos :: ps, ?_, ?_⟩
              · rw [List.filterMap_cons,
                  liveRecord_live db.index dataFile.FileId logRecord offset realKey seqNo p hparse
                    hget hfid hoff]
                simp only [List.map_cons]
                exact appendTrace_cons_ok _ _ mergeDB mergeDB1 st2.1 pos ps hap htrace
              · rw [List.filterMap_cons,
                  liveRecord_live db.index dataFile.FileId logRecord offset realKey seqNo p hparse
                    hget hfid hoff]
                simp only [List.map_cons, List.zip_cons_cons]
                exact hintFileOf_cons_ok (realKey, pos) _ hintFile hintFile1 st2.2 hw hhint
        · rw [mergeRecords_dead db dataFile fuel offset mergeDB hintFile logRecord size realKey
            seqNo hread hparse hlive] at h
          obtain ⟨hend, ps, htrace, hhint⟩ := ih (offset + size) mergeDB hintFile st2 h
          refine ⟨hend, ps, ?_, ?_⟩
          · rw [List.filterMap_cons,
              liveRecord_dead db.index dataFile.FileId logRecord offset realKey seqNo hparse hlive]
            exact htrace
          · rw [List.filterMap_cons,
              liveRecord_dead db.index dataFile.FileId logRecord offset realKey seqNo hparse hlive]
            exact hhint

/-- The walk of `Merge` over the files to merge, when it returns no error. -/
theorem mergeDataFiles_walk (db : DB) :
    ∀ (files : List DataFile) (mergeDB : DB) (hintFile : DataFile) (st2 : DB × DataFile),
      mergeDataFiles db files (mergeDB, hintFile) = (.ok (), st2) →
      (∀ df ∈ files,
        df.ReadLogRecord (walkEnd df (df.IoManager.length + 1) 0) = .error .EOF) ∧
      ∃ ps,
        DB.appendTrace ((files.flatMap (liveRecords db.index)).map (fun e => e.2)) mergeDB =
          some (st2.1, ps) ∧
        hintFileOf (((files.flatMap (liveRecords db.index)).map (fun e => e.1)).zip ps)
          hintFile = .ok st2.2 := by
  intro files
  induction files with
  | nil =>
    intro mergeDB hintFile st2 h
    rw [mergeDataFiles_nil] at h
    simp only [Prod.mk.injEq, true_and] at h
    rw [← h]
    exact ⟨fun df hdf => absurd hdf (List.not_mem_nil df), [], rfl, rfl⟩
  | cons f rest ih =>
    intro mergeDB hintFile st2 h
    rw [mergeDataFiles_cons] at h
    rcases hm : mergeRecords db f (f.IoManager.length + 1) 0 (mergeDB, hintFile) with ⟨res, st1⟩
    rw [hm] at h
    cases res with
    | error e =>
      simp only [Prod.mk.injEq] at h
      cases h.1
    | ok u =>
      simp only at h
      obtain ⟨mergeDB1, hintFile1⟩ := st1
      obtain ⟨hend1, ps1, htrace1, hhint1⟩ := mergeRecords_walk db f _ 0 mergeDB hintFile
        (mergeDB1, hintFile1) hm
      obtain ⟨hend2, ps2, htrace2, hhint2⟩ := ih mergeDB1 hintFile1 st2 h
      refine ⟨?_, ps1 ++ ps2, ?_, ?_⟩
      · intro df hdf
        rcases List.mem_cons.1 hdf with h1 | h1
        · rw [h1]
          exact hend1
        · exact hend2 df h1
      · rw [List.flatMap_cons, List.map_append]
        exact appendTrace_append _ _ mergeDB mergeDB1 st2.1 ps1 ps2 htrace1 htrace2
      · rw [List.flatMap_cons, List.map_append]
        have hlen := appendTrace_length _ _ _ _ htrace1
        rw [List.zip_append (by
          rw [List.length_map] at hlen ⊢
          exact hlen.symm)]
        exact hintFileOf_append _ _ hintFile hintFile1 st2.2 hhint1 hhint2

/-- A call of `Merge` that returns no error on an engine with the active file
`a`: the merge engine was opened on an empty directory, the walk over the files
to merge returned no error, and the merge directory holds the files of the
merge engine and the hint file as the walk left them. -/
theorem Merge_ok_walk (db : DB) (a : DataFile) (hact : db.activeFile = some a)
    (env : MergeEnv) (mergeDir : Option Directory) (db2 : DB) (m : Directory)
    (h : db.Merge env mergeDir = (.ok (), db2, some m)) :
    ∃ (db1 mergeDB mergeDB1 : DB) (hintFile1 : DataFile),
      db1.index = db.index ∧
      OpenDB db.mergeOptions Directory.empty none = .ok mergeDB ∧
      mergeDataFiles db1 (db.mergeFiles a) (mergeDB, emptyHintFile) =
        (.ok (), (mergeDB1, hintFile1)) ∧
      m.dataFiles = mergeDB1.dataFiles ∧ m.hintIndex = some hintFile1.IoManager := by
  unfold DB.Merge at h
  rw [hact] at h
  simp only at h
  generalize hdb1 : ({ db with activeFile := some a, isMerging := true,
                               olderFile := mapSet db.olderFile a.FileId a } : DB).setActiveDataFile =
    db1 at h
  have hold1 : db1.olderFile = mapSet db.olderFile a.FileId a := by rw [← hdb1]; rfl
  have hidx1 : db1.index = db.index := by rw [← hdb1]; rfl
  have hopt1 : db1.options = db.options := by rw [← hdb1]; rfl
  split at h
  · cases h
  · split at h
    · cases h
    · split at h
      · cases h
      · split at h
        · cases h
        · split at h
          · cases h
          · split at h
            · cases h
            · split at h
              · cases h
              · split at h
                · cases h
                · rename_i hm hr x4 free hav hsp x3 active1 hactive1 x2 mergeDB hopen x1 u mergeDB1
                    hintFile1 hwalk x0 encRecord n henc
                  simp only [Prod.mk.injEq, true_and, Option.some.injEq] at h
                  obtain ⟨hdb2, hmd⟩ := h
                  rw [hold1] at hwalk
                  have hopen2 : OpenDB db.mergeOptions Directory.empty none = .ok mergeDB := by
                    rw [← hopen]
                    unfold DB.mergeOptions DB.getMergePath
                    rw [hopt1]
                  exact ⟨db1, mergeDB, mergeDB1, hintFile1, hidx1, hopen2, hwalk,
                    by rw [← hmd]; rfl, by rw [← hmd]; rfl⟩

/-- C36: the liveness rule of `Merge`.  When `Merge` returns no error on an
engine with the active file `active`, it has walked the older files and
`active` in ascending order of their ids, each from offset 0, by the size
reported for each record, up to a read that reported the end of the file
(`walkFile`, `walkEnd`).  The data files of the merge directory are those of
the engine opened on an empty directory after the appends of exactly the live
records of that walk, in its order: a record read at offset `o` of the file `f`
is live when the index maps its user key to a position with file id `f` and
offset `o`, and it is appended with the key `logRecordKeyWithSeq realKey 0`, its
own value and its own type (`liveRecord`); every other record is skipped.  The
hint file holds exactly one entry for each appended record, in the same order:
its user key with the position the append of the record returned. -/
theorem C36_merge_liveness (db : DB) (active : DataFile) (env : MergeEnv)
    (mergeDir : Option Directory) (db2 : DB) (m : Directory)
    (hact : db.activeFile = some active)
    (hmerge : db.Merge env mergeDir = (.ok (), db2, some m)) :
    (∀ df ∈ db.mergeFiles active,
      df.ReadLogRecord (walkEnd df (df.IoManager.length + 1) 0) = .error .EOF) ∧
    ∃ (mergeDB : DB) (ps : List LogRecordPos) (hintFile : DataFile),
      DB.appendTrace
          (((db.mergeFiles active).flatMap (liveRecords db.index)).map (fun e => e.2))
          (emptyDB db.mergeOptions) = some (mergeDB, ps) ∧
      hintFileOf
          ((((db.mergeFiles active).flatMap (liveRecords db.index)).map (fun e => e.1)).zip ps)
          emptyHintFile = .ok hintFile ∧
      m.dataFiles = mergeDB.dataFiles ∧ m.hintIndex = some hintFile.IoManager := by
  obtain ⟨db1, mergeDB0, mergeDB1, hintFile1, hidx, hopen, hwalk, hfiles, hhintf⟩ :=
    Merge_ok_walk db active hact env mergeDir db2 m hmerge
  obtain ⟨hopt, -, hit⟩ := OpenDB_ok_inMemory _ _ _ _ hopen
  rw [OpenDB_empty_eq _ hopt hit] at hopen
  injection hopen with hopen
  subst hopen
  obtain ⟨hend, ps, htrace, hhint⟩ := mergeDataFiles_walk db1 _ _ _ _ hwalk
  rw [hidx] at htrace hhint
  exact ⟨hend, mergeDB1, ps, hintFile1, htrace, hhint, hfiles, hhintf⟩

set_option maxRecDepth 100000 in
/-- C36, witness.  On the engine after `Put("a", "1"); Put("a", "2")` the walk
reads two records from file 0; the one at offset 10, to which the index points,
is live, and the merge directory holds its record with the key `[0, 97]` and one
hint entry for `"a"` at file 0, offset 0.  On the engine after the committed
batch `Put("x", "1")`, `Delete("a")` the walk reads four records; the put of
`"x"` at offset 19, read with the sequence number 1, is the only live one and is
appended with the sequence number 0. -/
theorem C36_merge_liveness_witness :
    (exampleOverwritten.Merge exampleEnv none).1 = .ok () ∧
    walkFile exampleOverwritten.writeFile 21 0 =
      [({ Key := [0, 97], Value := [49], Typ := LogRecordNormal }, 0),
       ({ Key := [0, 97], Value := [50], Typ := LogRecordNormal }, 10)] ∧
    (exampleOverwritten.mergeFiles exampleOverwritten.writeFile).flatMap
        (liveRecords exampleOverwritten.index) =
      [([97], { Key := [0, 97], Value := [50], Typ := LogRecordNormal })] ∧
    ((∀ df ∈ exampleOverwritten.mergeFiles exampleOverwritten.writeFile,
        df.ReadLogRecord (walkEnd df (df.IoManager.length + 1) 0) = .error .EOF) ∧
      ∃ (mergeDB : DB) (ps : List LogRecordPos) (hintFile : DataFile),
        DB.appendTrace
            (((exampleOverwritten.mergeFiles exampleOverwritten.writeFile).flatMap
              (liveRecords exampleOverwritten.index)).map (fun e => e.2))
            (emptyDB exampleOverwritten.mergeOptions) = some (mergeDB, ps) ∧
        hintFileOf
            ((((exampleOverwritten.mergeFiles exampleOverwritten.writeFile).flatMap
              (liveRecords exampleOverwritten.index)).map (fun e => e.1)).zip ps)
            emptyHintFile = .ok hintFile ∧
        ((exampleOverwritten.Merge exampleEnv none).2.2.getD Directory.empty).dataFiles =
          mergeDB.dataFiles ∧
        ((exampleOverwritten.Merge exampleEnv none).2.2.getD Directory.empty).hintIndex =
          some hintFile.IoManager) ∧
    (exampleOverwritten.Merge exampleEnv none).2.2.map (fun m => (m.dataFiles, m.hintIndex)) =
      some ([(0, [142, 196, 122, 90, 0, 4, 2, 0, 97, 50])],
        some [179, 27, 126, 220, 0, 2, 6, 97, 0, 0, 0]) ∧
    walkFile exampleCommitted.writeFile 45 0 =
      [({ Key := [0, 97], Value := [49], Typ := LogRecordNormal }, 0),
       ({ Key := [1, 97], Value := [], Typ := LogRecordDeleted }, 10),
       ({ Key := [1, 120], Value := [49], Typ := LogRecordNormal }, 19),
       ({ Key := 1 :: txnFinKey, Value := [], Typ := LogRecordTxnFinished }, 29)] ∧
    (exampleCommitted.mergeFiles exampleCommitted.writeFile).flatMap
        (liveRecords exampleCommitted.index) =
      [([120], { Key := [0, 120], Value := [49], Typ := LogRecordNormal })] ∧
    (exampleCommitted.Merge exampleEnv none).2.2.map (fun m => (m.dataFiles, m.hintIndex)) =
      some ([(0, [44, 60, 115, 88, 0, 4, 2, 0, 120, 49])],
        some [166, 3, 111, 241, 0, 2, 6, 120, 0, 0, 0]) :=
  ⟨by decide, by decide, by decide,
    C36_merge_liveness exampleOverwritten exampleOverwritten.writeFile exampleEnv none
      (exampleOverwritten.Merge exampleEnv none).2.1
      ((exampleOverwritten.Merge exampleEnv none).2.2.getD Directory.empty)
      (by decide) (by decide),
    by decide, by decide, by decide, by decide⟩

end Bitcask

namespace Bitcask

/-! ## The walk over a file the engine wrote -/

/-- On a file that holds the encodings of stored records the walk visits every
record, each at the offset of its first byte, that is the one before plus the
encoded size of the record before, and ends at the end of the file. -/
theorem walkFile_encodeAll (df : DataFile) :
    ∀ (recs : List LogRecord) (fuel : Nat) (pre : Bytes),
      (∀ r ∈ recs, Stored r) → recs.length < fuel → df.IoManager = pre ++ encodeAll recs →
      walkFile df fuel (pre.length : Int) = layoutFrom (pre.length : Int) recs ∧
      walkEnd df fuel (pre.length : Int) = (df.IoManager.length : Int) := by
  intro recs
  induction recs with
  | nil =>
    intro fuel pre _ hfuel hio
    obtain ⟨f, rfl⟩ : ∃ f, fuel = f + 1 := ⟨fuel - 1, by omega⟩
    have hlen : pre.length = df.IoManager.length := by rw [hio]; simp [encodeAll]
    rw [walkFile_succ, walkEnd_succ, hlen, ReadLogRecord_eof]
    exact ⟨rfl, rfl⟩
  | cons r rs ih =>
    intro fuel pre hs hfuel hio
    obtain ⟨f, rfl⟩ : ∃ f, fuel = f + 1 := ⟨fuel - 1, by omega⟩
    have hsr := hs r (List.mem_cons_self _ _)
    obtain ⟨enc, henc, hs1, hsz, hrb, -⟩ := Stored_encode r hsr
    have h1 : encodeAll (r :: rs) = enc ++ encodeAll rs := by
      rw [← hs1]; exact encodeAll_append [r] rs
    have hio2 : df.IoManager = pre ++ enc ++ encodeAll rs := by rw [hio, h1]; simp
    have hread := ReadLogRecord_encoded r enc _ henc df pre (encodeAll rs) hio2
    rw [hrb] at hread
    have hoff : ((pre.length : Int) + (enc.length : Int)) = ((pre ++ enc).length : Int) := by
      simp
    have hrs : ∀ r2 ∈ rs, Stored r2 := fun r2 h2 => hs r2 (List.mem_cons_of_mem _ h2)
    have hfuel2 : rs.length < f := by simp only [List.length_cons] at hfuel; omega
    obtain ⟨ih1, ih2⟩ := ih f (pre ++ enc) hrs hfuel2 hio2
    rw [walkFile_succ, walkEnd_succ, hread]
    simp only [layoutFrom, hsz, hoff]
    exact ⟨by rw [ih1], ih2⟩

/-- The walk of `Merge` over a file that holds the encodings of stored records,
from its first byte on. -/
theorem walkFile_stored (df : DataFile) (recs : List LogRecord) (hs : ∀ r ∈ recs, Stored r)
    (hio : df.IoManager = encodeAll recs) :
    walkFile df (df.IoManager.length + 1) 0 = layoutFrom 0 recs ∧
    walkEnd df (df.IoManager.length + 1) 0 = (df.IoManager.length : Int) := by
  have hlen := length_le_encodeAll_stored recs hs
  have := walkFile_encodeAll df recs (df.IoManager.length + 1) [] hs
    (by rw [hio]; omega) (by rw [hio]; rfl)
  simpa using this

/-! ## The fuel of the walk -/

theorem readNBytes_error_kind (df : DataFile) (n off : Int) (e : Error)
    (h : df.readNBytes n off = .error e) : e = .EOF ∨ e = .Panic ∨ e = .ErrOS := by
  unfold DataFile.readNBytes at h
  by_cases h1 : n < 0
  · simp only [h1, if_true, Except.error.injEq] at h
    exact Or.inr (Or.inl h.symm)
  · by_cases h2 : off < 0
    · simp only [h1, h2, if_true, if_false, Except.error.injEq] at h
      exact Or.inr (Or.inr h.symm)
    · simp only [h1, h2, if_false] at h
      split at h
      · injection h with h
        exact Or.inl h.symm
      · cases h

theorem sliceFrom_error_kind (buf : Bytes) (i : Int) (e : Error)
    (h : sliceFrom buf i = .error e) : e = .Panic := by
  unfold sliceFrom at h
  split at h
  · injection h with h
    exact h.symm
  · cases h

theorem slice_error_kind (buf : Bytes) (lo hi : Int) (e : Error)
    (h : slice buf lo hi = .error e) : e = .Panic := by
  unfold slice at h
  split at h
  · injection h with h
    exact h.symm
  · cases h

theorem decodeLogRecordHeader_error_kind (buf : Bytes) (e : Error)
    (h : decodeLogRecordHeader buf = .error e) : e = .Panic := by
  unfold decodeLogRecordHeader at h
  split at h
  · cases h
  · simp only at h
    split at h
    · rename_i e2 hs
      injection h with h
      subst h
      exact sliceFrom_error_kind _ _ _ hs
    · cases h

/-- The errors `ReadLogRecord` returns. -/
theorem ReadLogRecord_error_kind (df : DataFile) (off : Int) (e : Error)
    (h : df.ReadLogRecord off = .error e) :
    e = .EOF ∨ e = .Panic ∨ e = .ErrOS ∨ e = .ErrInvalidCRC := by
  unfold DataFile.ReadLogRecord at h
  simp only at h
  split at h
  · rename_i e2 hr
    injection h with h
    subst h
    rcases readNBytes_error_kind _ _ _ _ hr with h1 | h1 | h1
    · exact Or.inl h1
    · exact Or.inr (Or.inl h1)
    · exact Or.inr (Or.inr (Or.inl h1))
  · split at h
    · rename_i e2 hd
      injection h with h
      subst h
      exact Or.inr (Or.inl (decodeLogRecordHeader_error_kind _ _ hd))
    · injection h with h
      exact Or.inl h.symm
    · split at h
      · injection h with h
        exact Or.inl h.symm
      · split at h
        · rename_i e2 hkv
          injection h with h
          subst h
          split at hkv
          · split at hkv
            · rename_i e3 hr
              injection hkv with hkv
              subst hkv
              rcases readNBytes_error_kind _ _ _ _ hr with h1 | h1 | h1
              · exact Or.inl h1
              · exact Or.inr (Or.inl h1)
              · exact Or.inr (Or.inr (Or.inl h1))
            · cases hkv
          · cases hkv
        · split at h
          · rename_i e2 hs
            injection h with h
            subst h
            exact Or.inr (Or.inl (slice_error_kind _ _ _ _ hs))
          · split at h
            · injection h with h
              exact Or.inr (Or.inr (Or.inr h.symm))
            · cases h

theorem parseLogRecordKey_error_kind (key : Bytes) (e : Error)
    (h : parseLogRecordKey key = .error e) : e = .Panic := by
  unfold parseLogRecordKey at h
  simp only at h
  split at h
  · rename_i e2 hs
    injection h with h
    subst h
    exact sliceFrom_error_kind _ _ _ hs
  · cases h

/-- What a successful `readNBytes` of at least one byte tells: the bytes asked
for lie within the file. -/
theorem readNBytes_ok_bounds (df : DataFile) (n off : Int) (b : Bytes)
    (h : df.readNBytes n off = .ok b) :
    0 ≤ n ∧ 0 ≤ off ∧ b.length = n.toNat ∧
      (0 < n → off + n ≤ (df.IoManager.length : Int)) := by
  unfold DataFile.readNBytes at h
  by_cases h1 : n < 0
  · simp [h1] at h
  · by_cases h2 : off < 0
    · simp [h1, h2] at h
    · simp only [h1, h2, if_false] at h
      split at h
      · cases h
      · rename_i hlen
        injection h with h
        subst h
        simp only [List.length_take, List.length_drop] at hlen ⊢
        refine ⟨by omega, by omega, by omega, ?_⟩
        intro hn
        omega

/-- A header decoded from a buffer of at most fifteen bytes has a size between
5 and the length of the buffer. -/
theorem decodeLogRecordHeader_size (buf : Bytes) (header : LogRecordHeader) (n : Int)
    (h15 : buf.length ≤ 15) (h : decodeLogRecordHeader buf = .ok (some header, n)) :
    5 ≤ n ∧ n ≤ (buf.length : Int) := by
  have h4 : 4 < buf.length := by
    by_contra hc
    unfold decodeLogRecordHeader at h
    have : buf.length ≤ 4 := by omega
    simp [this] at h
  by_cases hn : 0 ≤ (Varint (buf.drop 5)).2
  · obtain ⟨header2, n2, h2, hlo, hhi⟩ := decodeLogRecordHeader_ok buf h4 h15 hn
    rw [h] at h2
    simp only [Except.ok.injEq, Prod.mk.injEq, Option.some.injEq] at h2
    rw [h2.2]
    exact ⟨hlo, hhi⟩
  · rw [decodeLogRecordHeader_panic buf h4 (by omega)] at h
    cases h

/-- A record `ReadLogRecord` returns lies within the file and is at least five
bytes long. -/
theorem ReadLogRecord_ok_bounds (df : DataFile) (offset : Int) (r : LogRecord) (size : Int)
    (h : df.ReadLogRecord offset = .ok (r, size)) :
    0 ≤ offset ∧ 5 ≤ size ∧ offset + size ≤ (df.IoManager.length : Int) := by
  unfold DataFile.ReadLogRecord at h
  simp only at h
  split at h
  · cases h
  · rename_i headerBuf hread
    obtain ⟨hn0, hoff, hlen, -⟩ := readNBytes_ok_bounds _ _ _ _ hread
    have h15 : headerBuf.length ≤ 15 := by
      rw [hlen]
      have hmax : maxLogRecordHeaderSize = 15 := rfl
      rw [hmax]
      split <;> omega
    have hfile : offset + (headerBuf.length : Int) ≤ (df.IoManager.length : Int) := by
      rw [hlen]
      have hmax : maxLogRecordHeaderSize = 15 := rfl
      rw [hmax] at hn0 ⊢
      split
      · rename_i hc
        rw [if_pos hc] at hn0
        omega
      · rename_i hc
        rw [if_neg hc] at hn0
        simp only [Nat.cast_ofNat] at hc ⊢
        have : ((15 : Int).toNat : Int) = 15 := by decide
        omega
    split at h
    · cases h
    · cases h
    · rename_i header headerSize hdec
      obtain ⟨hlo, hhi⟩ := decodeLogRecordHeader_size headerBuf header headerSize h15 hdec
      split at h
      · cases h
      · split at h
        · cases h
        · rename_i key value hkv
          split at h
          · cases h
          · split at h
            · cases h
            · simp only [Except.ok.injEq, Prod.mk.injEq] at h
              obtain ⟨-, hsize⟩ := h
              rw [← hsize]
              split at hkv
              · rename_i hpos
                split at hkv
                · cases hkv
                · rename_i kvBuf hread2
                  obtain ⟨-, -, -, hin⟩ := readNBytes_ok_bounds _ _ _ _ hread2
                  have := hin (by omega)
                  refine ⟨hoff, by omega, by omega⟩
              · rename_i hzero
                have hk : (header.keySize : Int) = 0 := by omega
                have hv : (header.valueSize : Int) = 0 := by omega
                refine ⟨hoff, by omega, by omega⟩

/-- The fuel of the walk of `Merge` over one file is never used up: from an
offset within the file, a fuel above a fifth of the bytes that remain is
enough. -/
theorem mergeRecords_fuel (db : DB) (dataFile : DataFile) :
    ∀ (fuel : Nat) (offset : Int) (st : DB × DataFile),
      offset ≤ (dataFile.IoManager.length : Int) →
      (dataFile.IoManager.length : Int) - offset < 5 * (fuel : Int) →
      (mergeRecords db dataFile fuel offset st).1 ≠ .error .OutOfFuel := by
  intro fuel
  induction fuel with
  | zero =>
    intro offset st hle hlt
    simp only [Nat.cast_zero, mul_zero] at hlt
    omega
  | succ fuel ih =>
    intro offset st hle hlt
    obtain ⟨mergeDB, hintFile⟩ := st
    rcases hread : dataFile.ReadLogRecord offset with e | ⟨logRecord, size⟩
    · rw [mergeRecords_succ, hread]
      rcases ReadLogRecord_error_kind _ _ _ hread with h1 | h1 | h1 | h1 <;> rw [h1] <;>
        simp
    · obtain ⟨h0, h5, hin⟩ := ReadLogRecord_ok_bounds _ _ _ _ hread
      have hnext : ∀ st2, (mergeRecords db dataFile fuel (offset + size) st2).1 ≠
          .error .OutOfFuel := fun st2 => ih (offset + size) st2 hin (by push_cast at hlt; omega)
      rcases hparse : parseLogRecordKey logRecord.Key with e | ⟨realKey, seqNo⟩
      · rw [mergeRecords_succ, hread]
        simp only [hparse]
        rw [parseLogRecordKey_error_kind _ _ hparse]
        simp
      · by_cases hlive : ∃ p, db.index.Get realKey = some p ∧ p.Fid = dataFile.FileId ∧
            p.Offset = offset
        · obtain ⟨p, hget, hfid, hoff⟩ := hlive
          rw [mergeRecords_live db dataFile fuel offset mergeDB hintFile logRecord size realKey
            seqNo p hread hparse hget hfid hoff]
          rcases hap : mergeDB.appendLogRecord
              { Key := logRecordKeyWithSeq realKey 0, Value := logRecord.Value,
                Typ := logRecord.Typ } with ⟨res, mergeDB1⟩
          cases res with
          | error e =>
            simp only
            rw [appendLogRecord_error _ _ _ _ hap]
            simp
          | ok pos =>
            simp only
            rcases hw : hintFile.WriteHintRecord realKey pos with e | hintFile1
            · simp only
              rw [WriteHintRecord_error _ _ _ _ hw]
              simp
            · exact hnext _
        · rw [mergeRecords_dead db dataFile fuel offset mergeDB hintFile logRecord size realKey
            seqNo hread hparse hlive]
          exact hnext _

/-- The fuel of the walk of `Merge` over the files to merge is never used
up. -/
theorem mergeDataFiles_fuel (db : DB) :
    ∀ (files : List DataFile) (st : DB × DataFile),
      (mergeDataFiles db files st).1 ≠ .error .OutOfFuel := by
  intro files
  induction files with
  | nil =>
    intro st
    rw [mergeDataFiles_nil]
    simp
  | cons f rest ih =>
    intro st
    rw [mergeDataFiles_cons]
    have hf := mergeRecords_fuel db f (f.IoManager.length + 1) 0 st (by omega)
      (by push_cast; omega)
    rcases hm : mergeRecords db f (f.IoManager.length + 1) 0 st with ⟨res, st1⟩
    rw [hm] at hf
    cases res with
    | error e =>
      simp only at hf ⊢
      exact hf
    | ok u => exact ih st1

/-- A call of `Merge` never ends because a loop of the embedding has used up its
fuel (the query for the free disk space is an input and is taken not to return
that marker): what it returns, the Go function returns. -/
theorem Merge_fuel (db : DB) (env : MergeEnv) (mergeDir : Option Directory)
    (henv : env.availableDiskSize ≠ .error .OutOfFuel) :
    (db.Merge env mergeDir).1 ≠ .error .OutOfFuel := by
  unfold DB.Merge
  cases hact : db.activeFile with
  | none => simp
  | some active =>
    simp only
    split
    · simp
    · split
      · simp
      · rcases hav : env.availableDiskSize with e | free
        · simp only
          intro hc
          apply henv
          rw [hav]
          simp only [Except.error.injEq] at hc ⊢
          exact hc
        · simp only
          split
          · simp
          · split
            · simp
            · split
              · rename_i e hopen
                simp only [ne_eq, Except.error.injEq]
                rcases OpenDB_empty_error _ _ hopen with h | h | h <;> rw [h] <;> intro hc <;>
                  cases hc
              · split
                · rename_i e m1 h1 hm
                  simp only [ne_eq]
                  intro hc
                  have hx := congrArg Prod.fst hm
                  simp only at hx
                  rw [hc] at hx
                  exact mergeDataFiles_fuel _ _ _ hx
                · split
                  · rename_i e henc
                    simp only [ne_eq, Except.error.injEq]
                    rw [EncodeLogRecord_error _ _ henc]
                    intro hc
                    cases hc
                  · simp

end Bitcask

namespace Bitcask

/-! ## The two in-memory indexes -/

/-- The methods of the radix-tree index are those of the ordered tree on the
list of items the engine holds. -/
theorem AdaptiveRadixTree_items (t : AdaptiveRadixTree) (key : Bytes) (pos : LogRecordPos) :
    (Indexer.art t).items.Get key = t.Get key ∧
    (Indexer.art t).items.Put key pos =
      ((Indexer.art (t.Put key pos).1).items, (t.Put key pos).2) ∧
    (Indexer.art t).items.Delete key =
      ((Indexer.art (t.Delete key).1).items, (t.Delete key).2) ∧
    (Indexer.art t).items.Size = t.Size := by
  refine ⟨rfl, rfl, ?_, rfl⟩
  unfold BTree.Delete AdaptiveRadixTree.Delete Indexer.items
  simp only
  split <;> rfl

/-! ## The model of `float32` -/

set_option maxRecDepth 100000 in
/-- Values of the model of `float32` against the values of IEEE 754 single
precision: integers above `2 ^ 24` are rounded to 24 bits with ties to even
(16777217 to 16777216, 16777219 to 16777220, 33554431 to 33554432), one third is
`11184811 / 2 ^ 25` and one tenth `13421773 / 2 ^ 27`, a division of zero by
zero is not a number, and no comparison with it holds. -/
theorem Float32_values :
    Float32.ofInt 16777217 = .Finite false 8388608 1 ∧
    Float32.ofInt 16777219 = .Finite false 8388610 1 ∧
    Float32.ofInt 33554431 = .Finite false 16777216 1 ∧
    Float32.ofInt (-5) = .Finite true 5 0 ∧
    (Float32.ofInt 1).div (Float32.ofInt 3) = .Finite false 11184811 (-25) ∧
    (Float32.ofInt 1).div (Float32.ofInt 10) = oneTenth ∧
    (Float32.ofInt 33554431).div (Float32.ofInt 67108864) = .Finite false 8388608 (-24) ∧
    ((Float32.ofInt 33554431).div (Float32.ofInt 67108864)).lt oneHalf = false ∧
    ((Float32.ofInt 33554430).div (Float32.ofInt 67108864)).lt oneHalf = true ∧
    (Float32.ofInt 0).div (Float32.ofInt 0) = .NaN ∧
    ((Float32.ofInt 0).div (Float32.ofInt 0)).lt oneHalf = false ∧
    (Float32.ofInt 7).div (Float32.ofInt 0) = .Inf false ∧
    ((Float32.ofInt 7).div (Float32.ofInt 0)).lt oneHalf = false := by
  decide

/-- Integers below `2 ^ 24` in absolute value are converted exactly. -/
theorem Float32_ofInt_exact (x : Int) (h : x.natAbs < 2 ^ 24) :
    Float32.ofInt x = .Finite (decide (x < 0)) x.natAbs 0 := by
  unfold Float32.ofInt roundNat
  simp only [h, if_true] <;> rfl

/-- The rounded quotient is a nearest integer: twice its distance from `n / d`
is at most 1. -/
theorem divRoundEven_spec (n d : Nat) (hd : 0 < d) :
    2 * (divRoundEven n d * d) ≤ 2 * n + d ∧ 2 * n ≤ 2 * (divRoundEven n d * d) + d := by
  have h1 := Nat.div_add_mod n d
  have h2 := Nat.mod_lt n hd
  rw [Nat.mul_comm] at h1
  have h4 : (n / d + 1) * d = n / d * d + d := by rw [Nat.add_mul, Nat.one_mul]
  unfold divRoundEven
  simp only
  by_cases c1 : 2 * (n % d) < d
  · simp only [c1, if_true]
    omega
  · by_cases c2 : d < 2 * (n % d)
    · simp only [c1, c2, if_true, if_false, h4]
      omega
    · by_cases c3 : n / d % 2 = 0
      · simp only [c1, c2, c3, if_true, if_false]
        omega
      · simp only [c1, c2, c3, if_false, h4]
        omega

theorem floorLog2Loop_spec : ∀ (fuel n : Nat), n ≤ fuel → 0 < n →
    2 ^ floorLog2Loop fuel n ≤ n ∧ n < 2 ^ (floorLog2Loop fuel n + 1) := by
  intro fuel
  induction fuel with
  | zero => intro n h1 h2; omega
  | succ fuel ih =>
    intro n h1 h2
    unfold floorLog2Loop
    by_cases h : n < 2
    · simp only [h, if_true]
      constructor
      · simp
        omega
      · simp
        omega
    · simp only [h, if_false]
      obtain ⟨ih1, ih2⟩ := ih (n / 2) (by omega) (by omega)
      rw [pow_succ] at ih2 ⊢
      constructor
      · omega
      · rw [pow_succ]
        omega

/-- The position of the leading bit. -/
theorem floorLog2_spec (n : Nat) (h : 0 < n) :
    2 ^ floorLog2 n ≤ n ∧ n < 2 ^ (floorLog2 n + 1) :=
  floorLog2Loop_spec n n (Nat.le_refl n) h

end Bitcask
